import Mathlib

/-!
Red-black tree map (`collections::TreeMap`), embedded over an explicit node arena.

The C++ class `TreeMap<K, V>` of `tree_map.h` keeps its nodes on the heap and links them with
raw `parent` / `left` / `right` pointers.  The embedding keeps that shape:

* a pointer is an `Option Nat` (`none` is `nullptr`, `some a` is the address `a`);
* the heap is a list of cells, `new` appends a cell, `delete` empties one;
* every member function is a state-passing function into `Except Fault`, where a fault is a
  null dereference, a dereference of a deleted node, or a loop that ran out of fuel;
* `int length` is an `Int` (no wrap-around is modelled; it counts live nodes);
* a returned `const V &` is modelled twice: `put`, `remove` and `operatorIndex` give the value
  the referent holds at the return statement, and `putRef` and `removeRef` give the referent
  itself (a `ValueRef`), which is what decides whether the caller can read the result.
-/

namespace collections

/-- Node colour, `enum Color { red, black }`. -/
inductive Color where
  | red
  | black
  deriving DecidableEq

/-- One heap node: `TreeMapEntry<K, V>` together with the `MapEntry` fields it inherits. -/
structure TreeMapEntry (K V : Type) where
  key : K
  value : V
  parent : Option Nat
  left : Option Nat
  right : Option Nat
  color : Color
  deriving DecidableEq

/-- Constructors `TreeMapEntry(key, value)` and `TreeMapEntry(key, value, parent)`: a black
node without children. -/
def TreeMapEntry.new {K V : Type} (key : K) (value : V) (parent : Option Nat) :
    TreeMapEntry K V :=
  { key := key, value := value, parent := parent, left := none, right := none,
    color := Color.black }

/-- Ways in which the embedded code can fail to return. -/
inductive Fault where
  | nullDeref
  | danglingDeref
  | outOfFuel
  deriving DecidableEq

/-- The object state of `TreeMap<K, V>`: its three fields and the heap its nodes live in. -/
structure TreeMap (K V : Type) where
  comparator : Option (K → K → Int)
  length : Int
  root : Option Nat
  heap : List (Option (TreeMapEntry K V))

section Code

variable {K V : Type}

/-- Constructors `TreeMap()` and `TreeMap(comparator)`: no root, length zero. -/
def TreeMap.new (comparator : Option (K → K → Int)) : TreeMap K V :=
  { comparator := comparator, length := 0, root := none, heap := [] }

/-- Content of the heap cell at address `a` (`none` when never allocated or deleted). -/
def TreeMap.cell (m : TreeMap K V) (a : Nat) : Option (TreeMapEntry K V) :=
  m.heap.getD a none

/-- Dereference of a node pointer, `entry->...`. -/
def deref (m : TreeMap K V) (p : Option Nat) : Except Fault (TreeMapEntry K V) :=
  match p with
  | none => .error .nullDeref
  | some a =>
    match m.cell a with
    | none => .error .danglingDeref
    | some n => .ok n

/-- Overwrite the heap cell at address `a`. -/
def TreeMap.store (m : TreeMap K V) (a : Nat) (n : TreeMapEntry K V) : TreeMap K V :=
  { m with heap := m.heap.set a (some n) }

/-- Assignment to the field `root`. -/
def TreeMap.setRoot (m : TreeMap K V) (p : Option Nat) : TreeMap K V :=
  { m with root := p }

/-- Assignment to the field `length`. -/
def TreeMap.setLength (m : TreeMap K V) (n : Int) : TreeMap K V :=
  { m with length := n }

/-- Apply a field setter through a node pointer, `entry->setX(..)`. -/
def modify (m : TreeMap K V) (p : Option Nat) (f : TreeMapEntry K V → TreeMapEntry K V) :
    Except Fault (TreeMap K V) :=
  match p with
  | none => .error .nullDeref
  | some a =>
    match m.cell a with
    | none => .error .danglingDeref
    | some n => .ok (m.store a (f n))

/-- Allocation `new TreeMapEntry(..)`: the node goes to a fresh address, which is returned. -/
def alloc (m : TreeMap K V) (n : TreeMapEntry K V) : TreeMap K V × Nat :=
  ({ m with heap := m.heap ++ [some n] }, m.heap.length)

/-- Empty the heap cell at address `a`. -/
def TreeMap.erase (m : TreeMap K V) (a : Nat) : TreeMap K V :=
  { m with heap := m.heap.set a none }

/-- Deallocation `delete entry` (`delete nullptr` does nothing). -/
def free (m : TreeMap K V) (p : Option Nat) : Except Fault (TreeMap K V) :=
  match p with
  | none => .ok m
  | some a =>
    match m.cell a with
    | none => .error .danglingDeref
    | some _ => .ok (m.erase a)

/-- Member `getParent` of a node. -/
def getParent (m : TreeMap K V) (p : Option Nat) : Except Fault (Option Nat) :=
  (deref m p).map (fun n => n.parent)

/-- Member `getLeft` of a node. -/
def getLeft (m : TreeMap K V) (p : Option Nat) : Except Fault (Option Nat) :=
  (deref m p).map (fun n => n.left)

/-- Member `getRight` of a node. -/
def getRight (m : TreeMap K V) (p : Option Nat) : Except Fault (Option Nat) :=
  (deref m p).map (fun n => n.right)

/-- Member `getColor` of a node. -/
def getColor (m : TreeMap K V) (p : Option Nat) : Except Fault Color :=
  (deref m p).map (fun n => n.color)

/-- Member `getKey` of a node. -/
def getKey (m : TreeMap K V) (p : Option Nat) : Except Fault K :=
  (deref m p).map (fun n => n.key)

/-- Member `getValue` of a node. -/
def getValue (m : TreeMap K V) (p : Option Nat) : Except Fault V :=
  (deref m p).map (fun n => n.value)

/-- What a returned `const V &` is bound to.  `ofEntry p` is the `value` member of the node that
`p` designates, the result of `p->getValue()`: the accessor forms the reference and loads nothing,
so `p` may be null.  `ofLocal held` is a local variable of the returning function, which held
`held` at the return statement and is destroyed by the return. -/
inductive ValueRef (V : Type) where
  | ofEntry (p : Option Nat) : ValueRef V
  | ofLocal (held : V) : ValueRef V
  deriving DecidableEq

/-- The value the referent holds at the return statement, before the locals of the returning
function are destroyed. -/
def ValueRef.atReturn (m : TreeMap K V) : ValueRef V → Except Fault V
  | .ofEntry p => getValue m p
  | .ofLocal held => .ok held

/-- A load through the reference by the caller, after the return, as in
`auto old = map->put(i, i)`: a node member is loaded from the heap, a destroyed local cannot be
read. -/
def ValueRef.read (m : TreeMap K V) : ValueRef V → Except Fault V
  | .ofEntry p => getValue m p
  | .ofLocal _ => .error .danglingDeref

/-- Member `setParent` of a node. -/
def setParent (m : TreeMap K V) (p : Option Nat) (q : Option Nat) : Except Fault (TreeMap K V) :=
  modify m p (fun n => { n with parent := q })

/-- Member `setLeft` of a node. -/
def setLeft (m : TreeMap K V) (p : Option Nat) (q : Option Nat) : Except Fault (TreeMap K V) :=
  modify m p (fun n => { n with left := q })

/-- Member `setRight` of a node. -/
def setRight (m : TreeMap K V) (p : Option Nat) (q : Option Nat) : Except Fault (TreeMap K V) :=
  modify m p (fun n => { n with right := q })

/-- Member `setColor` of a node (the unguarded one of `TreeMapEntry`). -/
def entrySetColor (m : TreeMap K V) (p : Option Nat) (c : Color) : Except Fault (TreeMap K V) :=
  modify m p (fun n => { n with color := c })

/-- Member `setValue` of a node. -/
def setValue (m : TreeMap K V) (p : Option Nat) (v : V) : Except Fault (TreeMap K V) :=
  modify m p (fun n => { n with value := v })

/-- Member `setKey` of a node. -/
def setKey (m : TreeMap K V) (p : Option Nat) (k : K) : Except Fault (TreeMap K V) :=
  modify m p (fun n => { n with key := k })

/-- Method `TreeMap::parentOf`: null-safe parent. -/
def parentOf (m : TreeMap K V) (entry : Option Nat) : Except Fault (Option Nat) :=
  if entry = none then .ok none else getParent m entry

/-- Method `TreeMap::grandParentOf`. -/
def grandParentOf (m : TreeMap K V) (entry : Option Nat) : Except Fault (Option Nat) := do
  let parent ← parentOf m entry
  if parent = none then .ok none else getParent m parent

/-- Method `TreeMap::leftOf`: null-safe left child. -/
def leftOf (m : TreeMap K V) (entry : Option Nat) : Except Fault (Option Nat) :=
  if entry = none then .ok none else getLeft m entry

/-- Method `TreeMap::rightOf`: null-safe right child. -/
def rightOf (m : TreeMap K V) (entry : Option Nat) : Except Fault (Option Nat) :=
  if entry = none then .ok none else getRight m entry

/-- Method `TreeMap::colorOf`: an absent node counts as black. -/
def colorOf (m : TreeMap K V) (entry : Option Nat) : Except Fault Color :=
  if entry = none then .ok Color.black else getColor m entry

/-- Method `TreeMap::setColor`: null-safe recolouring. -/
def setColor (m : TreeMap K V) (entry : Option Nat) (c : Color) : Except Fault (TreeMap K V) :=
  if entry = none then .ok m else entrySetColor m entry c

/-- Method `TreeMap::compare`: the injected comparator, or the natural order of `K` when there is none. -/
def TreeMap.compare [DecidableEq K] [LT K] [DecidableRel (fun a b : K => a < b)]
    (m : TreeMap K V) (a b : K) : Int :=
  match m.comparator with
  | some f => f a b
  | none => if a = b then 0 else if b < a then 1 else -1

variable [DecidableEq K] [LT K] [DecidableRel (fun a b : K => a < b)]

/-- Method `TreeMap::rotateLeft`: promote the right child of `entry`. -/
def rotateLeft (m : TreeMap K V) (entry : Option Nat) : Except Fault (TreeMap K V) :=
  if entry = none then .ok m
  else do
    let r ← getRight m entry
    let rl ← getLeft m r
    let m ← setRight m entry rl
    let rl ← getLeft m r
    let m ← if rl ≠ none then setParent m rl entry else pure m
    let ep ← getParent m entry
    let m ← setParent m r ep
    let ep ← getParent m entry
    let m ←
      if ep = none then pure (m.setRoot r)
      else do
        let epl ← getLeft m ep
        if epl = entry then setLeft m ep r else setRight m ep r
    let m ← setLeft m r entry
    setParent m entry r

/-- Method `TreeMap::rotateRight`: promote the left child of `entry`. -/
def rotateRight (m : TreeMap K V) (entry : Option Nat) : Except Fault (TreeMap K V) :=
  if entry = none then .ok m
  else do
    let l ← getLeft m entry
    let lr ← getRight m l
    let m ← setLeft m entry lr
    let lr ← getRight m l
    let m ← if lr ≠ none then setParent m lr entry else pure m
    let ep ← getParent m entry
    let m ← setParent m l ep
    let ep ← getParent m entry
    let m ←
      if ep = none then pure (m.setRoot l)
      else do
        let epr ← getRight m ep
        if epr = entry then setRight m ep l else setLeft m ep l
    let m ← setRight m l entry
    setParent m entry l

/-- Loop test of `balanceAfterInsert`:
`first && first != root && first->getParent()->getColor() == red`. -/
def balanceAfterInsertCond (m : TreeMap K V) (first : Option Nat) : Except Fault Bool :=
  if first = none then .ok false
  else if first = m.root then .ok false
  else do
    let p ← getParent m first
    let c ← getColor m p
    pure (decide (c = Color.red))

/-- Loop body of `balanceAfterInsert`, branch `first->getParent() == leftOf(grandParentOf(first))`. -/
def balanceAfterInsertLeft (m : TreeMap K V) (first : Option Nat) :
    Except Fault (TreeMap K V × Option Nat) := do
  let second ← rightOf m (← grandParentOf m first)
  if (← colorOf m second) = Color.red then
    let m ← setColor m (← parentOf m first) Color.black
    let m ← setColor m second Color.black
    let m ← setColor m (← grandParentOf m first) Color.red
    let first ← grandParentOf m first
    pure (m, first)
  else
    let inner ← rightOf m (← parentOf m first)
    let (m, first) ←
      if first = inner then do
        let first ← parentOf m first
        let m ← rotateLeft m first
        pure (m, first)
      else pure (m, first)
    let m ← setColor m (← parentOf m first) Color.black
    let m ← setColor m (← parentOf m (← parentOf m first)) Color.red
    let m ← rotateRight m (← parentOf m (← parentOf m first))
    pure (m, first)

/-- Loop body of `balanceAfterInsert`, the mirror branch. -/
def balanceAfterInsertRight (m : TreeMap K V) (first : Option Nat) :
    Except Fault (TreeMap K V × Option Nat) := do
  let second ← leftOf m (← parentOf m (← parentOf m first))
  if (← colorOf m second) = Color.red then
    let m ← setColor m (← parentOf m first) Color.black
    let m ← setColor m second Color.black
    let m ← setColor m (← parentOf m (← parentOf m first)) Color.red
    let first ← parentOf m (← parentOf m first)
    pure (m, first)
  else
    let inner ← leftOf m (← parentOf m first)
    let (m, first) ←
      if first = inner then do
        let first ← parentOf m first
        let m ← rotateRight m first
        pure (m, first)
      else pure (m, first)
    let m ← setColor m (← parentOf m first) Color.black
    let m ← setColor m (← parentOf m (← parentOf m first)) Color.red
    let m ← rotateLeft m (← parentOf m (← parentOf m first))
    pure (m, first)

/-- Loop body of `balanceAfterInsert`. -/
def balanceAfterInsertBody (m : TreeMap K V) (first : Option Nat) :
    Except Fault (TreeMap K V × Option Nat) := do
  let p ← getParent m first
  let gpl ← leftOf m (← grandParentOf m first)
  if p = gpl then balanceAfterInsertLeft m first else balanceAfterInsertRight m first

/-- The `while` loop of `balanceAfterInsert`, with a bound on the number of iterations. -/
def balanceAfterInsertLoop : Nat → TreeMap K V → Option Nat → Except Fault (TreeMap K V)
  | 0, m, first => do
    if (← balanceAfterInsertCond m first) then .error .outOfFuel else pure m
  | fuel + 1, m, first => do
    if (← balanceAfterInsertCond m first) then
      let (m, first) ← balanceAfterInsertBody m first
      balanceAfterInsertLoop fuel m first
    else pure m

/-- Method `TreeMap::balanceAfterInsert`: colour the new node red and run the fix-up loop. -/
def balanceAfterInsert (m : TreeMap K V) (entry : Option Nat) : Except Fault (TreeMap K V) := do
  let m ← entrySetColor m entry Color.red
  balanceAfterInsertLoop m.heap.length m entry

/-- Loop test of `balanceAfterRemove`: `entry != root && colorOf(entry) == black`. -/
def balanceAfterRemoveCond (m : TreeMap K V) (entry : Option Nat) : Except Fault Bool :=
  if entry = m.root then .ok false
  else do
    let c ← colorOf m entry
    pure (decide (c = Color.black))

/-- Loop body of `balanceAfterRemove`, branch `entry == leftOf(parentOf(entry))`, from the test
of the sibling's children on (after the red-sibling case has set `sib`). -/
def balanceAfterRemoveLeftRest (m : TreeMap K V) (entry sib : Option Nat) :
    Except Fault (TreeMap K V × Option Nat) := do
  let bothBlack ←
    if (← colorOf m (← leftOf m sib)) = Color.black then do
      let c ← colorOf m (← rightOf m sib)
      pure (decide (c = Color.black))
    else pure false
  if bothBlack then
    let m ← setColor m sib Color.red
    let entry ← parentOf m entry
    pure (m, entry)
  else
    let (m, sib) ←
      if (← colorOf m (← rightOf m sib)) = Color.black then do
        let m ← setColor m (← leftOf m sib) Color.black
        let m ← setColor m sib Color.red
        let m ← rotateRight m sib
        let sib ← rightOf m (← parentOf m entry)
        pure (m, sib)
      else pure (m, sib)
    let m ← setColor m sib (← colorOf m (← parentOf m entry))
    let m ← setColor m (← parentOf m entry) Color.black
    let m ← setColor m (← rightOf m sib) Color.black
    let m ← rotateLeft m (← parentOf m entry)
    pure (m, m.root)

/-- Loop body of `balanceAfterRemove`, branch `entry == leftOf(parentOf(entry))`. -/
def balanceAfterRemoveLeft (m : TreeMap K V) (entry : Option Nat) :
    Except Fault (TreeMap K V × Option Nat) := do
  let sib ← rightOf m (← parentOf m entry)
  let (m, sib) ←
    if (← colorOf m sib) = Color.red then do
      let m ← setColor m sib Color.black
      let m ← setColor m (← parentOf m entry) Color.red
      let m ← rotateLeft m (← parentOf m entry)
      let sib ← rightOf m (← parentOf m entry)
      pure (m, sib)
    else pure (m, sib)
  balanceAfterRemoveLeftRest m entry sib

/-- Loop body of `balanceAfterRemove`, the mirror branch, from the test of the sibling's
children on. -/
def balanceAfterRemoveRightRest (m : TreeMap K V) (entry sib : Option Nat) :
    Except Fault (TreeMap K V × Option Nat) := do
  let bothBlack ←
    if (← colorOf m (← rightOf m sib)) = Color.black then do
      let c ← colorOf m (← leftOf m sib)
      pure (decide (c = Color.black))
    else pure false
  if bothBlack then
    let m ← setColor m sib Color.red
    let entry ← parentOf m entry
    pure (m, entry)
  else
    let (m, sib) ←
      if (← colorOf m (← leftOf m sib)) = Color.black then do
        let m ← setColor m (← rightOf m sib) Color.black
        let m ← setColor m sib Color.red
        let m ← rotateLeft m sib
        let sib ← leftOf m (← parentOf m entry)
        pure (m, sib)
      else pure (m, sib)
    let m ← setColor m sib (← colorOf m (← parentOf m entry))
    let m ← setColor m (← parentOf m entry) Color.black
    let m ← setColor m (← leftOf m sib) Color.black
    let m ← rotateRight m (← parentOf m entry)
    pure (m, m.root)

/-- Loop body of `balanceAfterRemove`, the mirror branch. -/
def balanceAfterRemoveRight (m : TreeMap K V) (entry : Option Nat) :
    Except Fault (TreeMap K V × Option Nat) := do
  let sib ← leftOf m (← parentOf m entry)
  let (m, sib) ←
    if (← colorOf m sib) = Color.red then do
      let m ← setColor m sib Color.black
      let m ← setColor m (← parentOf m entry) Color.red
      let m ← rotateRight m (← parentOf m entry)
      let sib ← leftOf m (← parentOf m entry)
      pure (m, sib)
    else pure (m, sib)
  balanceAfterRemoveRightRest m entry sib

/-- Loop body of `balanceAfterRemove`. -/
def balanceAfterRemoveBody (m : TreeMap K V) (entry : Option Nat) :
    Except Fault (TreeMap K V × Option Nat) := do
  let pl ← leftOf m (← parentOf m entry)
  if entry = pl then balanceAfterRemoveLeft m entry else balanceAfterRemoveRight m entry

/-- The `while` loop of `balanceAfterRemove` together with the final
`setColor(entry, black)`, with a bound on the number of iterations. -/
def balanceAfterRemoveLoop : Nat → TreeMap K V → Option Nat → Except Fault (TreeMap K V)
  | 0, m, entry => do
    if (← balanceAfterRemoveCond m entry) then .error .outOfFuel
    else setColor m entry Color.black
  | fuel + 1, m, entry => do
    if (← balanceAfterRemoveCond m entry) then
      let (m, entry) ← balanceAfterRemoveBody m entry
      balanceAfterRemoveLoop fuel m entry
    else setColor m entry Color.black

/-- Method `TreeMap::balanceAfterRemove`. -/
def balanceAfterRemove (m : TreeMap K V) (entry : Option Nat) : Except Fault (TreeMap K V) :=
  balanceAfterRemoveLoop m.heap.length m entry

/-- The `while (p != nullptr)` descent of `getEntry`. -/
def getEntryLoop (m : TreeMap K V) (key : K) : Nat → Option Nat → Except Fault (Option Nat)
  | _, none => .ok none
  | 0, some _ => .error .outOfFuel
  | fuel + 1, some a => do
    let k ← getKey m (some a)
    let cmp := m.compare key k
    if cmp < 0 then do
      let l ← getLeft m (some a)
      getEntryLoop m key fuel l
    else if cmp > 0 then do
      let r ← getRight m (some a)
      getEntryLoop m key fuel r
    else pure (some a)

/-- Method `TreeMap::getEntry`: binary-search descent from the root. -/
def getEntry (m : TreeMap K V) (key : K) : Except Fault (Option Nat) :=
  getEntryLoop m key m.heap.length m.root

/-- First loop of `getSuccessor`: `while (p->getLeft() != nullptr) p = p->getLeft()`. -/
def leftmostLoop (m : TreeMap K V) : Nat → Option Nat → Except Fault (Option Nat)
  | 0, p => do
    let l ← getLeft m p
    if l ≠ none then .error .outOfFuel else pure p
  | fuel + 1, p => do
    let l ← getLeft m p
    if l ≠ none then leftmostLoop m fuel l else pure p

/-- Second loop of `getSuccessor`:
`while (p != nullptr && ch == p->getRight()) { ch = p; p = p->getParent(); }`. -/
def climbLoop (m : TreeMap K V) : Nat → Option Nat → Option Nat → Except Fault (Option Nat)
  | 0, p, ch =>
    if p = none then pure p
    else do
      let pr ← getRight m p
      if ch = pr then .error .outOfFuel else pure p
  | fuel + 1, p, ch =>
    if p = none then pure p
    else do
      let pr ← getRight m p
      if ch = pr then do
        let pp ← getParent m p
        climbLoop m fuel pp p
      else pure p

/-- Method `TreeMap::getSuccessor`. -/
def getSuccessor (m : TreeMap K V) (entry : Option Nat) : Except Fault (Option Nat) :=
  if entry = none then .ok none
  else do
    let r ← getRight m entry
    if r ≠ none then leftmostLoop m m.heap.length r
    else do
      let p ← getParent m entry
      climbLoop m m.heap.length p entry

/-- Method `TreeMap::containsKey`. -/
def TreeMap.containsKey (m : TreeMap K V) (key : K) : Except Fault Bool := do
  let entry ← getEntry m key
  pure (decide (entry ≠ none))

/-- Method `TreeMap::size`. -/
def TreeMap.size (m : TreeMap K V) : Int := m.length

/-- Method `TreeMap::isEmpty`. -/
def TreeMap.isEmpty (m : TreeMap K V) : Bool := decide (m.size = 0)

/-- Method `TreeMap::operator[]`: the value of the entry found, and the value of the root node when
no entry is found. -/
def TreeMap.operatorIndex (m : TreeMap K V) (key : K) : Except Fault V := do
  let entry ← getEntry m key
  if entry = none then getValue m m.root else getValue m entry

/-- The `do { .. } while (cur != nullptr)` descent of `put`.  It either returns from `put`
(left summand: the old value and the state after the overwrite) or leaves the loop with the
last `parent` and `cmp` (right summand). -/
def putLoop (m : TreeMap K V) (key : K) (val : V) :
    Nat → Option Nat → Except Fault ((V × TreeMap K V) ⊕ (Option Nat × Int))
  | 0, _ => .error .outOfFuel
  | fuel + 1, cur => do
    let parent := cur
    let k ← getKey m parent
    let cmp := m.compare key k
    if cmp < 0 then do
      let cur ← getLeft m parent
      if cur ≠ none then putLoop m key val fuel cur else pure (.inr (parent, cmp))
    else if cmp > 0 then do
      let cur ← getRight m parent
      if cur ≠ none then putLoop m key val fuel cur else pure (.inr (parent, cmp))
    else do
      let old ← getValue m parent
      let m ← setValue m parent val
      pure (.inl (old, m))

/-- Method `TreeMap::put`, the result given by the value its referent holds at the return
statement. -/
def TreeMap.put (m : TreeMap K V) (key : K) (val : V) : Except Fault (V × TreeMap K V) :=
  if m.root = none then do
    let (m, a) := alloc m (TreeMapEntry.new key val none)
    let m := m.setRoot (some a)
    let m := m.setLength 1
    let v ← getValue m m.root
    pure (v, m)
  else do
    match ← putLoop m key val m.heap.length m.root with
    | .inl res => pure res
    | .inr (parent, cmp) =>
      let (m, a) := alloc m (TreeMapEntry.new key val parent)
      let entry := some a
      let m ← if cmp < 0 then setLeft m parent entry else setRight m parent entry
      let m := m.setLength (m.length + 1)
      let m ← balanceAfterInsert m entry
      let v ← getValue m entry
      pure (v, m)

/-- Method `TreeMap::put`, the result given by its referent.  On the empty map and for a new
key the function ends with `return root->getValue()` and `return entry->getValue()`, references
to a member of a live node.  In the overwrite branch of the loop it ends with
`V old = parent->getValue(); parent->setValue(val); return std::move(old);`, a reference to the
local `old`. -/
def TreeMap.putRef (m : TreeMap K V) (key : K) (val : V) :
    Except Fault (ValueRef V × TreeMap K V) :=
  if m.root = none then do
    let (m, a) := alloc m (TreeMapEntry.new key val none)
    let m := m.setRoot (some a)
    let m := m.setLength 1
    pure (.ofEntry m.root, m)
  else do
    match ← putLoop m key val m.heap.length m.root with
    | .inl (old, m) => pure (.ofLocal old, m)
    | .inr (parent, cmp) =>
      let (m, a) := alloc m (TreeMapEntry.new key val parent)
      let entry := some a
      let m ← if cmp < 0 then setLeft m parent entry else setRight m parent entry
      let m := m.setLength (m.length + 1)
      let m ← balanceAfterInsert m entry
      pure (.ofEntry entry, m)

/-- Part of `remove`, branch `replacement != nullptr`, up to `delete entry`: link the replacement to
the parent of `entry` and delete `entry`.  Returns the colour `entry` had. -/
def removeLink (m : TreeMap K V) (entry replacement : Option Nat) :
    Except Fault (TreeMap K V × Color) := do
  let ep ← getParent m entry
  let m ← setParent m replacement ep
  let ep ← getParent m entry
  let m ←
    if ep = none then pure (m.setRoot replacement)
    else do
      let epl ← getLeft m ep
      if entry = epl then setLeft m ep replacement else setRight m ep replacement
  let color ← getColor m entry
  let m ← free m entry
  pure (m, color)

/-- Part of `remove`, branch without children, after the fix-up: unlink `entry` from its parent and
delete it. -/
def removeUnlink (m : TreeMap K V) (entry : Option Nat) : Except Fault (TreeMap K V) := do
  let ep ← getParent m entry
  if ep ≠ none then do
    let epl ← getLeft m ep
    let m ←
      if entry = epl then setLeft m ep none
      else do
        let epr ← getRight m ep
        if entry = epr then setRight m ep none else pure m
    free m entry
  else pure m

/-- The part of `remove` after `length--` and the two-children step: splice `entry` out. -/
def removeSplice (m : TreeMap K V) (entry : Option Nat) : Except Fault (TreeMap K V) := do
  let l ← getLeft m entry
  let replacement ← if l ≠ none then pure l else getRight m entry
  if replacement ≠ none then do
    let (m, color) ← removeLink m entry replacement
    if color = Color.black then balanceAfterRemove m replacement else pure m
  else do
    let ep ← getParent m entry
    if ep = none then do
      let m ← free m m.root
      pure (m.setRoot none)
    else do
      let color ← getColor m entry
      let m ← if color = Color.black then balanceAfterRemove m entry else pure m
      removeUnlink m entry

/-- Method `TreeMap::remove`, the result given by the value its referent holds at the return
statement. -/
def TreeMap.remove (m : TreeMap K V) (key : K) : Except Fault (V × TreeMap K V) := do
  let entry ← getEntry m key
  if entry = none then do
    let v ← getValue m m.root
    pure (v, m)
  else do
    let val ← getValue m entry
    let m := m.setLength (m.length - 1)
    let lft ← getLeft m entry
    let twoChildren ←
      if lft ≠ none then do
        let rgt ← getRight m entry
        pure (decide (rgt ≠ none))
      else pure false
    let (m, entry) ←
      if twoChildren then do
        let s ← getSuccessor m entry
        let sk ← getKey m s
        let m ← setKey m entry sk
        let sv ← getValue m s
        let m ← setValue m entry sv
        pure (m, s)
      else pure (m, entry)
    let m ← removeSplice m entry
    pure (val, m)

/-- Method `TreeMap::remove`, the result given by its referent.  When no entry is found the
function ends with `return root->getValue()`, which forms a reference to the member of the node
`root` designates and touches neither that node nor the map.  When an entry is found it ends with
`return std::move(val)`, a reference to the local `val` declared by
`auto val = entry->getValue()`. -/
def TreeMap.removeRef (m : TreeMap K V) (key : K) : Except Fault (ValueRef V × TreeMap K V) := do
  let entry ← getEntry m key
  if entry = none then
    pure (.ofEntry m.root, m)
  else do
    let val ← getValue m entry
    let m := m.setLength (m.length - 1)
    let lft ← getLeft m entry
    let twoChildren ←
      if lft ≠ none then do
        let rgt ← getRight m entry
        pure (decide (rgt ≠ none))
      else pure false
    let (m, entry) ←
      if twoChildren then do
        let s ← getSuccessor m entry
        let sk ← getKey m s
        let m ← setKey m entry sk
        let sv ← getValue m s
        let m ← setValue m entry sv
        pure (m, s)
      else pure (m, entry)
    let m ← removeSplice m entry
    pure (.ofLocal val, m)

/-- The queue loop of `clear`. -/
def clearLoop : Nat → TreeMap K V → List (Option Nat) → Except Fault (TreeMap K V)
  | _, m, [] => .ok m
  | 0, _, _ :: _ => .error .outOfFuel
  | fuel + 1, m, cur :: queue =>
    if cur = none then clearLoop fuel m queue
    else do
      let left ← getLeft m cur
      let queue := if left ≠ none then queue ++ [left] else queue
      let right ← getRight m cur
      let queue := if right ≠ none then queue ++ [right] else queue
      let m ← free m cur
      clearLoop fuel m queue

/-- Method `TreeMap::clear`. -/
def TreeMap.clear (m : TreeMap K V) : Except Fault (TreeMap K V) := do
  let m ← clearLoop (m.heap.length + 1) m [m.root]
  let m := m.setLength 0
  pure (m.setRoot none)

end Code

end collections

namespace collections

/-! ## The tree a heap represents

A heap in which the nodes reachable from `root` form a tree is described by an inductive tree
whose nodes carry their heap address, and a position in it by a list of frames (the path from
the position up to the root). -/

/-- Binary tree of heap nodes: every node records its address, colour, key and value. -/
inductive Tree (K V : Type) where
  | nil : Tree K V
  | node (a : Nat) (c : Color) (l : Tree K V) (k : K) (v : V) (r : Tree K V) : Tree K V

/-- One step of a path towards the root: the parent node together with the subtree on the
other side.  `left` means that the position is the left child of the parent. -/
inductive Frame (K V : Type) where
  | left (a : Nat) (c : Color) (k : K) (v : V) (r : Tree K V) : Frame K V
  | right (a : Nat) (c : Color) (l : Tree K V) (k : K) (v : V) : Frame K V

section Abstraction

variable {K V : Type}

/-- Pointer to the root node of a tree (`nullptr` for the empty tree). -/
def Tree.ptr : Tree K V → Option Nat
  | .nil => none
  | .node a _ _ _ _ _ => some a

/-- Colour of the root node, an absent node counting as black (as `colorOf` does). -/
def Tree.color : Tree K V → Color
  | .nil => Color.black
  | .node _ c _ _ _ _ => c

/-- Left subtree (empty for the empty tree, as `leftOf` gives `nullptr` for `nullptr`). -/
def Tree.left : Tree K V → Tree K V
  | .nil => .nil
  | .node _ _ l _ _ _ => l

/-- Right subtree (empty for the empty tree). -/
def Tree.right : Tree K V → Tree K V
  | .nil => .nil
  | .node _ _ _ _ _ r => r

/-- Recolour the root node; no effect on the empty tree (as `setColor` does). -/
def Tree.paint (c : Color) : Tree K V → Tree K V
  | .nil => .nil
  | .node a _ l k v r => .node a c l k v r

/-- Addresses of all nodes of a tree. -/
def Tree.addrs : Tree K V → List Nat
  | .nil => []
  | .node a _ l _ _ r => a :: (l.addrs ++ r.addrs)

/-- Number of nodes. -/
def Tree.size : Tree K V → Nat
  | .nil => 0
  | .node _ _ l _ _ r => l.size + 1 + r.size

/-- Number of nodes on the longest path from the root down to a leaf. -/
def Tree.height : Tree K V → Nat
  | .nil => 0
  | .node _ _ l _ _ r => max l.height r.height + 1

/-- In-order sequence of the nodes of a tree: address, key and value of each. -/
def Tree.toList : Tree K V → List (Nat × K × V)
  | .nil => []
  | .node a _ l k v r => l.toList ++ (a, k, v) :: r.toList

/-- Address of the parent node of a frame. -/
def Frame.addr : Frame K V → Nat
  | .left a _ _ _ _ => a
  | .right a _ _ _ _ => a

/-- Key of the parent node of a frame. -/
def Frame.key : Frame K V → K
  | .left _ _ k _ _ => k
  | .right _ _ _ k _ => k

/-- Colour of the parent node of a frame. -/
def Frame.color : Frame K V → Color
  | .left _ c _ _ _ => c
  | .right _ c _ _ _ => c

/-- Recolour the parent node of a frame. -/
def Frame.paint (c : Color) : Frame K V → Frame K V
  | .left a _ k v r => .left a c k v r
  | .right a _ l k v => .right a c l k v

/-- The subtree on the other side of a frame. -/
def Frame.sibling : Frame K V → Tree K V
  | .left _ _ _ _ r => r
  | .right _ _ l _ _ => l

/-- Put a tree into the hole of a frame. -/
def Frame.fill : Frame K V → Tree K V → Tree K V
  | .left a c k v r, t => .node a c t k v r
  | .right a c l k v, t => .node a c l k v t

/-- Put a tree into the hole at the end of a path (innermost frame first). -/
def plug : List (Frame K V) → Tree K V → Tree K V
  | [], t => t
  | f :: ctx, t => plug ctx (f.fill t)

/-- Parent pointer of the position a path leads to. -/
def ctxPtr : List (Frame K V) → Option Nat
  | [] => none
  | f :: _ => some f.addr

/-- Root pointer of the tree obtained by plugging a tree with root pointer `p` into a path. -/
def ctxRoot : List (Frame K V) → Option Nat → Option Nat
  | [], p => p
  | f :: ctx, _ => ctxRoot ctx (some f.addr)

/-- Addresses of the nodes on and beside a path. -/
def ctxAddrs : List (Frame K V) → List Nat
  | [] => []
  | f :: ctx => f.addr :: (f.sibling.addrs ++ ctxAddrs ctx)

/-- Nodes that precede the hole of a path in in-order. -/
def ctxBefore : List (Frame K V) → List (Nat × K × V)
  | [] => []
  | .left _ _ _ _ _ :: ctx => ctxBefore ctx
  | .right a _ l k v :: ctx => ctxBefore ctx ++ (l.toList ++ [(a, k, v)])

/-- Nodes that follow the hole of a path in in-order. -/
def ctxAfter : List (Frame K V) → List (Nat × K × V)
  | [] => []
  | .left a _ k v r :: ctx => (a, k, v) :: r.toList ++ ctxAfter ctx
  | .right _ _ _ _ _ :: ctx => ctxAfter ctx

/-- The heap holds tree `t` below parent pointer `par`: every node of `t` sits in the cell at
its address, with exactly the key, value, colour and links the tree prescribes. -/
def Rep (m : TreeMap K V) (par : Option Nat) : Tree K V → Prop
  | .nil => True
  | .node a c l k v r =>
    m.cell a = some { key := k, value := v, parent := par, left := l.ptr, right := r.ptr,
                      color := c } ∧
    Rep m (some a) l ∧ Rep m (some a) r

/-- The heap holds the nodes on and beside a path, the hole being pointed to by `p`. -/
def RepCtx (m : TreeMap K V) : List (Frame K V) → Option Nat → Prop
  | [], _ => True
  | .left a c k v r :: ctx, p =>
    m.cell a = some { key := k, value := v, parent := ctxPtr ctx, left := p, right := r.ptr,
                      color := c } ∧
    Rep m (some a) r ∧ RepCtx m ctx (some a)
  | .right a c l k v :: ctx, p =>
    m.cell a = some { key := k, value := v, parent := ctxPtr ctx, left := l.ptr, right := p,
                      color := c } ∧
    Rep m (some a) l ∧ RepCtx m ctx (some a)

/-- The map state represents tree `T`: `root` points to it, the heap holds it, and no two of
its nodes share an address. -/
structure RepT (m : TreeMap K V) (T : Tree K V) : Prop where
  root : m.root = T.ptr
  rep : Rep m none T
  nodup : T.addrs.Nodup

/-- The fields an operation on the tree structure leaves alone. -/
structure SameMeta (m m' : TreeMap K V) : Prop where
  length : m'.length = m.length
  comparator : m'.comparator = m.comparator
  heapLength : m'.heap.length = m.heap.length

end Abstraction

end collections

namespace collections

/-! ## The fix-up loops as steps on positions

A position is a pair (path to the root, subtree at the current node).  Each constructor below is
one way through the loop body of `balanceAfterInsert` or `balanceAfterRemove`. -/

section Steps

variable {K V : Type}

/-- Loop test of `balanceAfterInsert` on a position: the current node exists, is not the root,
and its parent is red. -/
def insertFixCond : List (Frame K V) × Tree K V → Bool
  | (_, .nil) => false
  | ([], .node _ _ _ _ _ _) => false
  | (p :: _, .node _ _ _ _ _ _) => decide (p.color = Color.red)

/-- One iteration of the loop of `balanceAfterInsert`. -/
inductive InsertFixStep : List (Frame K V) × Tree K V → List (Frame K V) × Tree K V → Prop where
  /-- Parent is a left child, uncle red: recolour and continue at the grandparent. -/
  | leftRed (p : Frame K V) (ga : Nat) (gc : Color) (gk : K) (gv : V) (ua : Nat)
      (ul : Tree K V) (uk : K) (uv : V) (ur : Tree K V) (rest : List (Frame K V))
      (t : Tree K V) :
      InsertFixStep
        (p :: .left ga gc gk gv (.node ua .red ul uk uv ur) :: rest, t)
        (rest, .node ga .red ((p.paint .black).fill t) gk gv (.node ua .black ul uk uv ur))
  /-- Parent is a left child, uncle black, current node is a right child: two rotations. -/
  | leftInner (pa : Nat) (pc : Color) (pl : Tree K V) (pk : K) (pv : V) (ga : Nat) (gc : Color)
      (gk : K) (gv : V) (u : Tree K V) (rest : List (Frame K V)) (a : Nat) (c : Color)
      (l : Tree K V) (k : K) (v : V) (r : Tree K V) (hu : u.color ≠ Color.red) :
      InsertFixStep
        (.right pa pc pl pk pv :: .left ga gc gk gv u :: rest, .node a c l k v r)
        (.left a .black k v (.node ga .red r gk gv u) :: rest, .node pa pc pl pk pv l)
  /-- Parent is a left child, uncle black, current node is a left child: one rotation. -/
  | leftOuter (pa : Nat) (pc : Color) (pk : K) (pv : V) (ps : Tree K V) (ga : Nat) (gc : Color)
      (gk : K) (gv : V) (u : Tree K V) (rest : List (Frame K V)) (t : Tree K V)
      (hu : u.color ≠ Color.red) :
      InsertFixStep
        (.left pa pc pk pv ps :: .left ga gc gk gv u :: rest, t)
        (.left pa .black pk pv (.node ga .red ps gk gv u) :: rest, t)
  /-- Parent is a right child, uncle red: recolour and continue at the grandparent. -/
  | rightRed (p : Frame K V) (ga : Nat) (gc : Color) (ua : Nat) (ul : Tree K V) (uk : K)
      (uv : V) (ur : Tree K V) (gk : K) (gv : V) (rest : List (Frame K V)) (t : Tree K V) :
      InsertFixStep
        (p :: .right ga gc (.node ua .red ul uk uv ur) gk gv :: rest, t)
        (rest, .node ga .red (.node ua .black ul uk uv ur) gk gv ((p.paint .black).fill t))
  /-- Parent is a right child, uncle black, current node is a left child: two rotations. -/
  | rightInner (pa : Nat) (pc : Color) (pk : K) (pv : V) (ps : Tree K V) (ga : Nat) (gc : Color)
      (u : Tree K V) (gk : K) (gv : V) (rest : List (Frame K V)) (a : Nat) (c : Color)
      (l : Tree K V) (k : K) (v : V) (r : Tree K V) (hu : u.color ≠ Color.red) :
      InsertFixStep
        (.left pa pc pk pv ps :: .right ga gc u gk gv :: rest, .node a c l k v r)
        (.right a .black (.node ga .red u gk gv l) k v :: rest, .node pa pc r pk pv ps)
  /-- Parent is a right child, uncle black, current node is a right child: one rotation. -/
  | rightOuter (pa : Nat) (pc : Color) (ps : Tree K V) (pk : K) (pv : V) (ga : Nat) (gc : Color)
      (u : Tree K V) (gk : K) (gv : V) (rest : List (Frame K V)) (t : Tree K V)
      (hu : u.color ≠ Color.red) :
      InsertFixStep
        (.right pa pc ps pk pv :: .right ga gc u gk gv :: rest, t)
        (.right pa .black (.node ga .red u gk gv ps) pk pv :: rest, t)
  /-- Parent is a red root and the current node its left child: one rotation at the root. -/
  | rootInner (pa : Nat) (pc : Color) (pk : K) (pv : V) (ps : Tree K V) (a : Nat) (c : Color)
      (l : Tree K V) (k : K) (v : V) (r : Tree K V) :
      InsertFixStep
        ([.left pa pc pk pv ps], .node a c l k v r)
        ([.right a .black l k v], .node pa pc r pk pv ps)
  /-- Parent is a red root and the current node its right child: the root turns black. -/
  | rootOuter (pa : Nat) (pc : Color) (pl : Tree K V) (pk : K) (pv : V) (t : Tree K V) :
      InsertFixStep
        ([.right pa pc pl pk pv], t)
        ([.right pa .black pl pk pv], t)

/-- Loop test of `balanceAfterRemove` on a position: the current node is not the root and is
black. -/
def removeFixCond : List (Frame K V) × Tree K V → Bool
  | ([], _) => false
  | (_ :: _, t) => decide (t.color = Color.black)

/-- One iteration of the loop of `balanceAfterRemove` from the test of the sibling's children
on: the sibling is the subtree on the other side of the innermost frame. -/
inductive RemoveFixRest : List (Frame K V) × Tree K V → List (Frame K V) × Tree K V → Prop where
  /-- Current node is a left child, both children of the sibling black: the sibling turns red
  and the loop continues at the parent. -/
  | leftBlack (pa : Nat) (pc : Color) (pk : K) (pv : V) (s : Tree K V)
      (rest : List (Frame K V)) (t : Tree K V)
      (hl : s.left.color = Color.black) (hr : s.right.color = Color.black) :
      RemoveFixRest (.left pa pc pk pv s :: rest, t)
        (rest, .node pa pc t pk pv (s.paint .red))
  /-- Current node is a left child, far child of the sibling black, near child red: two
  rotations, then the loop ends at the root. -/
  | leftNear (pa : Nat) (pc : Color) (pk : K) (pv : V) (s : Nat) (sc : Color) (n : Nat)
      (nc : Color) (nl : Tree K V) (nk : K) (nv : V) (nr : Tree K V) (sk : K) (sv : V)
      (sr : Tree K V) (rest : List (Frame K V)) (t : Tree K V)
      (hn : nc ≠ Color.black) (hr : sr.color = Color.black) :
      RemoveFixRest
        (.left pa pc pk pv (.node s sc (.node n nc nl nk nv nr) sk sv sr) :: rest, t)
        ([], plug rest
          (.node n pc (.node pa .black t pk pv nl) nk nv (.node s .black nr sk sv sr)))
  /-- Current node is a left child, far child of the sibling red: one rotation, then the loop
  ends at the root. -/
  | leftFar (pa : Nat) (pc : Color) (pk : K) (pv : V) (s : Nat) (sc : Color) (sl : Tree K V)
      (sk : K) (sv : V) (sr : Tree K V) (rest : List (Frame K V)) (t : Tree K V)
      (hr : sr.color ≠ Color.black) :
      RemoveFixRest
        (.left pa pc pk pv (.node s sc sl sk sv sr) :: rest, t)
        ([], plug rest (.node s pc (.node pa .black t pk pv sl) sk sv (sr.paint .black)))
  /-- Current node is a right child, both children of the sibling black. -/
  | rightBlack (pa : Nat) (pc : Color) (s : Tree K V) (pk : K) (pv : V)
      (rest : List (Frame K V)) (t : Tree K V)
      (hr : s.right.color = Color.black) (hl : s.left.color = Color.black) :
      RemoveFixRest (.right pa pc s pk pv :: rest, t)
        (rest, .node pa pc (s.paint .red) pk pv t)
  /-- Current node is a right child, far child of the sibling black, near child red. -/
  | rightNear (pa : Nat) (pc : Color) (s : Nat) (sc : Color) (sl : Tree K V) (sk : K) (sv : V)
      (n : Nat) (nc : Color) (nl : Tree K V) (nk : K) (nv : V) (nr : Tree K V) (pk : K)
      (pv : V) (rest : List (Frame K V)) (t : Tree K V)
      (hn : nc ≠ Color.black) (hl : sl.color = Color.black) :
      RemoveFixRest
        (.right pa pc (.node s sc sl sk sv (.node n nc nl nk nv nr)) pk pv :: rest, t)
        ([], plug rest
          (.node n pc (.node s .black sl sk sv nl) nk nv (.node pa .black nr pk pv t)))
  /-- Current node is a right child, far child of the sibling red. -/
  | rightFar (pa : Nat) (pc : Color) (s : Nat) (sc : Color) (sl : Tree K V) (sk : K) (sv : V)
      (sr : Tree K V) (pk : K) (pv : V) (rest : List (Frame K V)) (t : Tree K V)
      (hl : sl.color ≠ Color.black) :
      RemoveFixRest
        (.right pa pc (.node s sc sl sk sv sr) pk pv :: rest, t)
        ([], plug rest (.node s pc (sl.paint .black) sk sv (.node pa .black sr pk pv t)))

/-- One iteration of the loop of `balanceAfterRemove`. -/
inductive RemoveFixStep : List (Frame K V) × Tree K V → List (Frame K V) × Tree K V → Prop where
  /-- The sibling is not red. -/
  | direct (p : Frame K V) (rest : List (Frame K V)) (t : Tree K V)
      (z' : List (Frame K V) × Tree K V) (hs : p.sibling.color ≠ Color.red)
      (h : RemoveFixRest (p :: rest, t) z') : RemoveFixStep (p :: rest, t) z'
  /-- Current node is a left child with a red sibling: rotate the sibling above the parent. -/
  | leftRed (pa : Nat) (pc : Color) (pk : K) (pv : V) (s : Nat) (sl : Tree K V) (sk : K)
      (sv : V) (sr : Tree K V) (rest : List (Frame K V)) (t : Tree K V)
      (z' : List (Frame K V) × Tree K V)
      (h : RemoveFixRest (.left pa .red pk pv sl :: .left s .black sk sv sr :: rest, t) z') :
      RemoveFixStep (.left pa pc pk pv (.node s .red sl sk sv sr) :: rest, t) z'
  /-- Current node is a right child with a red sibling. -/
  | rightRed (pa : Nat) (pc : Color) (s : Nat) (sl : Tree K V) (sk : K) (sv : V)
      (sr : Tree K V) (pk : K) (pv : V) (rest : List (Frame K V)) (t : Tree K V)
      (z' : List (Frame K V) × Tree K V)
      (h : RemoveFixRest (.right pa .red sr pk pv :: .right s .black sl sk sv :: rest, t) z') :
      RemoveFixStep (.right pa pc (.node s .red sl sk sv sr) pk pv :: rest, t) z'

/-- Bound on the number of further iterations of the loop of `balanceAfterRemove`. -/
def removeFixMeasure (z : List (Frame K V) × Tree K V) : Nat :=
  if removeFixCond z then z.1.length else 0

/-- Bound on the number of further iterations of the loop of `balanceAfterInsert`. -/
def insertFixMeasure (z : List (Frame K V) × Tree K V) : Nat :=
  if insertFixCond z then z.1.length else 0

end Steps

end collections

namespace collections

/-! ## Order, lookup and reachability -/

section Order

variable {K V : Type}

/-- What "total-order comparator" asks of a three-way comparison: swapping the arguments swaps
the sign, and "not greater" is transitive.  Keys that compare equal need not be identical. -/
structure TotalOrder (cmp : K → K → Int) : Prop where
  swap : ∀ a b, cmp a b < 0 ↔ 0 < cmp b a
  le_trans : ∀ a b c, cmp a b ≤ 0 → cmp b c ≤ 0 → cmp a c ≤ 0

/-- Keys strictly ascending along a list of nodes. -/
def Ascending (cmp : K → K → Int) (l : List (Nat × K × V)) : Prop :=
  l.Pairwise (fun x y => cmp x.2.1 y.2.1 < 0)

/-- First node of a list whose key compares equal to `key`. -/
def lookup (cmp : K → K → Int) (key : K) (l : List (Nat × K × V)) : Option (Nat × K × V) :=
  l.find? (fun e => decide (cmp key e.2.1 = 0))

/-- The entries of a tree in in-order: the map's contents as a list of key-value pairs. -/
def Tree.entries (t : Tree K V) : List (K × V) :=
  t.toList.map Prod.snd

/-- Keys strictly ascending along a list of entries. -/
def AscendingKeys (cmp : K → K → Int) (l : List (K × V)) : Prop :=
  l.Pairwise (fun x y => cmp x.1 y.1 < 0)

/-- First entry of a list whose key compares equal to `key`. -/
def findEntry (cmp : K → K → Int) (key : K) (l : List (K × V)) : Option (K × V) :=
  l.find? (fun e => decide (cmp key e.1 = 0))

/-- A frame lies on the search path of `key`: the descent went left below a greater key and
right below a smaller one. -/
def Frame.onPath (cmp : K → K → Int) (key : K) : Frame K V → Prop
  | .left _ _ k _ _ => cmp key k < 0
  | .right _ _ _ k _ => 0 < cmp key k

/-- Every frame of a path lies on the search path of `key`. -/
def SearchPath (cmp : K → K → Int) (key : K) (ctx : List (Frame K V)) : Prop :=
  ∀ f ∈ ctx, f.onPath cmp key

/-- A tree as a list of at most one non-empty tree: what `clear` pushes for a child. -/
def Tree.nonNil : Tree K V → List (Tree K V)
  | .nil => []
  | t => [t]

/-- Addresses of all nodes of a list of trees. -/
def forestAddrs : List (Tree K V) → List Nat
  | [] => []
  | t :: ts => t.addrs ++ forestAddrs ts

/-- Bound on the number of iterations `clear` needs for a queue of trees: one for every node
and one for every null pointer in the queue. -/
def forestMeasure : List (Tree K V) → Nat
  | [] => 0
  | .nil :: ts => 1 + forestMeasure ts
  | t :: ts => t.size + forestMeasure ts

end Order

section Reach

variable {K V : Type} [DecidableEq K] [LT K] [DecidableRel (fun a b : K => a < b)]

/-- The state invariant: the heap holds a tree whose in-order keys ascend strictly and whose
node count is `length`. -/
def Inv (m : TreeMap K V) (T : Tree K V) : Prop :=
  RepT m T ∧ AscendingKeys m.compare T.entries ∧ m.length = T.size

/-- Maps reachable from the empty map by `put`, `remove` of a present key, and `clear`. -/
inductive Reachable (comparator : Option (K → K → Int)) : TreeMap K V → Prop where
  | new : Reachable comparator (TreeMap.new comparator)
  | put {m m' : TreeMap K V} (key : K) (val : V) (old : V) :
      Reachable comparator m → m.put key val = .ok (old, m') → Reachable comparator m'
  | remove {m m' : TreeMap K V} (key : K) (old : V) :
      Reachable comparator m → m.containsKey key = .ok true → m.remove key = .ok (old, m') →
      Reachable comparator m'
  | clear {m m' : TreeMap K V} :
      Reachable comparator m → m.clear = .ok m' → Reachable comparator m'

end Reach

end collections

namespace collections

/-! ## Red-black shape of a tree, and what the fix-up loops leave behind -/

section RedBlack

variable {K V : Type}

/-- No red node has a red child. -/
def Tree.NoRedRed : Tree K V → Prop
  | .nil => True
  | .node _ c l _ _ r =>
    (c = Color.red → l.color = Color.black ∧ r.color = Color.black) ∧ l.NoRedRed ∧ r.NoRedRed

/-- Number of black nodes on the left-most path from the root down to an absent child. -/
def Tree.bheight : Tree K V → Nat
  | .nil => 0
  | .node _ c l _ _ _ => l.bheight + (if c = Color.black then 1 else 0)

/-- At every node the two subtrees have the same black height. -/
def Tree.Balanced : Tree K V → Prop
  | .nil => True
  | .node _ _ l _ _ r => l.Balanced ∧ r.Balanced ∧ l.bheight = r.bheight

/-- Number of black nodes on each path from the root down to an absent child, one entry per
path. -/
def Tree.blackCounts : Tree K V → List Nat
  | .nil => [0]
  | .node _ c l _ _ r =>
    (l.blackCounts ++ r.blackCounts).map (fun n => n + (if c = Color.black then 1 else 0))

/-- All nodes of a tree, each as the subtree rooted at it. -/
def Tree.subtrees : Tree K V → List (Tree K V)
  | .nil => []
  | .node a c l k v r => .node a c l k v r :: (l.subtrees ++ r.subtrees)

/-- In-order sequence of the nodes of a tree with their colours. -/
def Tree.colors : Tree K V → List (Nat × Color)
  | .nil => []
  | .node a c l _ _ r => l.colors ++ (a, c) :: r.colors

/-- Address of the left-most node of a tree. -/
def Tree.leftmost : Tree K V → Option Nat
  | .nil => none
  | .node a _ .nil _ _ _ => some a
  | .node _ _ l _ _ _ => l.leftmost

/-- Colour of the innermost frame of a path, black when the path is empty. -/
def ctxColor : List (Frame K V) → Color
  | [] => Color.black
  | f :: _ => f.color

/-- Colour of the root after plugging a tree with root colour `c` into a path. -/
def ctxTopColor : List (Frame K V) → Color → Color
  | [], c => c
  | f :: ctx, _ => ctxTopColor ctx f.color

/-- A path keeps black heights uniform when a balanced tree of black height `n` is plugged
into it. -/
def CtxBalanced : List (Frame K V) → Nat → Prop
  | [], _ => True
  | f :: ctx, n =>
    f.sibling.Balanced ∧ f.sibling.bheight = n ∧
      CtxBalanced ctx (n + (if f.color = Color.black then 1 else 0))

/-- No red node on or beside a path has a red child, the hole apart. -/
def CtxNoRedRed : List (Frame K V) → Prop
  | [] => True
  | f :: ctx =>
    f.sibling.NoRedRed ∧
      (f.color = Color.red → f.sibling.color = Color.black ∧ ctxColor ctx = Color.black) ∧
      CtxNoRedRed ctx

/-- One iteration of the loop of `balanceAfterInsert`, loop test included. -/
def InsertFixIter (z z' : List (Frame K V) × Tree K V) : Prop :=
  insertFixCond z = true ∧ InsertFixStep z z'

/-- One iteration of the loop of `balanceAfterRemove`, loop test included. -/
def RemoveFixIter (z z' : List (Frame K V) × Tree K V) : Prop :=
  removeFixCond z = true ∧ RemoveFixStep z z'

/-- The tree `T` is what the loop of `balanceAfterInsert` leaves when started at position
`z`. -/
def InsertFixed (z : List (Frame K V) × Tree K V) (T : Tree K V) : Prop :=
  ∃ z', Relation.ReflTransGen InsertFixIter z z' ∧ insertFixCond z' = false ∧
    T = plug z'.1 z'.2

/-- The tree `T` is what `balanceAfterRemove` leaves when started at position `z`: the loop
runs until its test fails, then the current node is painted black. -/
def RemoveFixed (z : List (Frame K V) × Tree K V) (T : Tree K V) : Prop :=
  ∃ z', Relation.ReflTransGen RemoveFixIter z z' ∧ removeFixCond z' = false ∧
    T = plug z'.1 (z'.2.paint Color.black)

/-- The tree `T` is what `remove` leaves after splicing out a node of colour `c` that sat at
the end of path `ctx` and had the single child subtree `ch` (empty when it had none): the child
takes the node's place, and a black node is followed by `balanceAfterRemove`. -/
def Spliced (ctx : List (Frame K V)) (c : Color) (ch : Tree K V) (T : Tree K V) : Prop :=
  if c = Color.black then RemoveFixed (ctx, ch) T else T = plug ctx ch

end RedBlack

end collections

namespace collections

/-! ## Invariants of the fix-up loops -/

section LoopInvariants

variable {K V : Type}

/-- What holds at every position the loop of `balanceAfterInsert` visits: the current node is
red, its subtree and the rest of the tree have the red-black shape, and the only possible
violation is a red parent of the current node. -/
def InsertInv (z : List (Frame K V) × Tree K V) : Prop :=
  z.2.color = Color.red ∧ z.2.NoRedRed ∧ z.2.Balanced ∧ CtxBalanced z.1 z.2.bheight ∧
    CtxNoRedRed z.1

/-- What holds at every position the loop of `balanceAfterRemove` visits: the subtrees below
the current node and the rest of the tree have the red-black shape, and the current subtree
lacks one black node on every path. -/
def RemoveInv (z : List (Frame K V) × Tree K V) : Prop :=
  (z.2.paint Color.black).NoRedRed ∧ z.2.Balanced ∧ CtxBalanced z.1 (z.2.bheight + 1) ∧
    CtxNoRedRed z.1

/-- The heap of `m` holds the tree `T`, `length` is its number of nodes, and `T` has the
red-black shape but for the colour of its root. -/
def Shaped (m : TreeMap K V) (T : Tree K V) : Prop :=
  RepT m T ∧ m.length = T.size ∧ T.NoRedRed ∧ T.Balanced

end LoopInvariants

section Fixture

variable {K V : Type} [DecidableEq K] [LT K] [DecidableRel (fun a b : K => a < b)]

/-- The loop of the test fixture `MapTest::SetUp`, for an arbitrary list of pairs: `put` every
pair in turn. -/
def TreeMap.putAll (m : TreeMap K V) : List (K × V) → Except Fault (TreeMap K V)
  | [] => .ok m
  | (k, v) :: rest => do
    let (_, m') ← m.put k v
    m'.putAll rest

end Fixture

end collections

namespace collections

/-! ## Heap cells and the representation predicate -/

section HeapLemmas

variable {K V : Type}

@[simp] theorem Except.ok_bind {ε α β : Type} (a : α) (f : α → Except ε β) :
    (Except.ok a >>= f) = f a := rfl

@[simp] theorem Except.error_bind {ε α β : Type} (e : ε) (f : α → Except ε β) :
    (Except.error e >>= f) = Except.error e := rfl

@[simp] theorem Except.pure_eq_ok {ε α : Type} (a : α) : (pure a : Except ε α) = Except.ok a := rfl

@[simp] theorem Except.map_ok {ε α β : Type} (f : α → β) (a : α) :
    Except.map f (Except.ok a : Except ε α) = Except.ok (f a) := rfl

@[simp] theorem Tree.ptr_nil : (Tree.nil : Tree K V).ptr = none := rfl

@[simp] theorem Tree.ptr_node (a : Nat) (c : Color) (l : Tree K V) (k : K) (v : V)
    (r : Tree K V) : (Tree.node a c l k v r).ptr = some a := rfl

@[simp] theorem Tree.color_nil : (Tree.nil : Tree K V).color = Color.black := rfl

@[simp] theorem Tree.color_node (a : Nat) (c : Color) (l : Tree K V) (k : K) (v : V)
    (r : Tree K V) : (Tree.node a c l k v r).color = c := rfl

@[simp] theorem Tree.left_nil : (Tree.nil : Tree K V).left = .nil := rfl

@[simp] theorem Tree.left_node (a : Nat) (c : Color) (l : Tree K V) (k : K) (v : V)
    (r : Tree K V) : (Tree.node a c l k v r).left = l := rfl

@[simp] theorem Tree.right_nil : (Tree.nil : Tree K V).right = .nil := rfl

@[simp] theorem Tree.right_node (a : Nat) (c : Color) (l : Tree K V) (k : K) (v : V)
    (r : Tree K V) : (Tree.node a c l k v r).right = r := rfl

@[simp] theorem Tree.paint_nil (c : Color) : (Tree.nil : Tree K V).paint c = .nil := rfl

@[simp] theorem Tree.paint_node (c' : Color) (a : Nat) (c : Color) (l : Tree K V) (k : K) (v : V)
    (r : Tree K V) : (Tree.node a c l k v r).paint c' = .node a c' l k v r := rfl

@[simp] theorem Tree.addrs_nil : (Tree.nil : Tree K V).addrs = [] := rfl

@[simp] theorem Tree.addrs_node (a : Nat) (c : Color) (l : Tree K V) (k : K) (v : V)
    (r : Tree K V) : (Tree.node a c l k v r).addrs = a :: (l.addrs ++ r.addrs) := rfl

@[simp] theorem Tree.toList_nil : (Tree.nil : Tree K V).toList = [] := rfl

@[simp] theorem Tree.toList_node (a : Nat) (c : Color) (l : Tree K V) (k : K) (v : V)
    (r : Tree K V) : (Tree.node a c l k v r).toList = l.toList ++ (a, k, v) :: r.toList := rfl

@[simp] theorem Tree.size_nil : (Tree.nil : Tree K V).size = 0 := rfl

@[simp] theorem Tree.size_node (a : Nat) (c : Color) (l : Tree K V) (k : K) (v : V)
    (r : Tree K V) : (Tree.node a c l k v r).size = l.size + 1 + r.size := rfl

@[simp] theorem Tree.paint_ptr (c : Color) (t : Tree K V) : (t.paint c).ptr = t.ptr := by
  cases t <;> rfl

@[simp] theorem Tree.paint_addrs (c : Color) (t : Tree K V) : (t.paint c).addrs = t.addrs := by
  cases t <;> rfl

@[simp] theorem Tree.paint_toList (c : Color) (t : Tree K V) : (t.paint c).toList = t.toList := by
  cases t <;> rfl

@[simp] theorem Tree.paint_size (c : Color) (t : Tree K V) : (t.paint c).size = t.size := by
  cases t <;> rfl

@[simp] theorem Frame.addr_left (a : Nat) (c : Color) (k : K) (v : V) (r : Tree K V) :
    (Frame.left a c k v r).addr = a := rfl

@[simp] theorem Frame.addr_right (a : Nat) (c : Color) (l : Tree K V) (k : K) (v : V) :
    (Frame.right a c l k v).addr = a := rfl

@[simp] theorem Frame.key_left (a : Nat) (c : Color) (k : K) (v : V) (r : Tree K V) :
    (Frame.left a c k v r).key = k := rfl

@[simp] theorem Frame.key_right (a : Nat) (c : Color) (l : Tree K V) (k : K) (v : V) :
    (Frame.right a c l k v).key = k := rfl

@[simp] theorem Tree.height_nil : (Tree.nil : Tree K V).height = 0 := rfl

@[simp] theorem Tree.height_node (a : Nat) (c : Color) (l : Tree K V) (k : K) (v : V)
    (r : Tree K V) : (Tree.node a c l k v r).height = max l.height r.height + 1 := rfl

@[simp] theorem Frame.color_left (a : Nat) (c : Color) (k : K) (v : V) (r : Tree K V) :
    (Frame.left a c k v r).color = c := rfl

@[simp] theorem Frame.color_right (a : Nat) (c : Color) (l : Tree K V) (k : K) (v : V) :
    (Frame.right a c l k v).color = c := rfl

@[simp] theorem Frame.paint_left (c' : Color) (a : Nat) (c : Color) (k : K) (v : V)
    (r : Tree K V) : (Frame.left a c k v r).paint c' = .left a c' k v r := rfl

@[simp] theorem Frame.paint_right (c' : Color) (a : Nat) (c : Color) (l : Tree K V) (k : K)
    (v : V) : (Frame.right a c l k v).paint c' = .right a c' l k v := rfl

@[simp] theorem Frame.sibling_left (a : Nat) (c : Color) (k : K) (v : V) (r : Tree K V) :
    (Frame.left a c k v r).sibling = r := rfl

@[simp] theorem Frame.sibling_right (a : Nat) (c : Color) (l : Tree K V) (k : K) (v : V) :
    (Frame.right a c l k v).sibling = l := rfl

@[simp] theorem Frame.fill_left (a : Nat) (c : Color) (k : K) (v : V) (r t : Tree K V) :
    (Frame.left a c k v r).fill t = .node a c t k v r := rfl

@[simp] theorem Frame.fill_right (a : Nat) (c : Color) (l : Tree K V) (k : K) (v : V)
    (t : Tree K V) : (Frame.right a c l k v).fill t = .node a c l k v t := rfl

@[simp] theorem plug_nil (t : Tree K V) : plug [] t = t := rfl

@[simp] theorem plug_cons (f : Frame K V) (ctx : List (Frame K V)) (t : Tree K V) :
    plug (f :: ctx) t = plug ctx (f.fill t) := rfl

@[simp] theorem ctxPtr_nil : ctxPtr ([] : List (Frame K V)) = none := rfl

@[simp] theorem ctxPtr_cons (f : Frame K V) (ctx : List (Frame K V)) :
    ctxPtr (f :: ctx) = some f.addr := rfl

@[simp] theorem ctxRoot_nil (p : Option Nat) : ctxRoot ([] : List (Frame K V)) p = p := rfl

@[simp] theorem ctxRoot_cons (f : Frame K V) (ctx : List (Frame K V)) (p : Option Nat) :
    ctxRoot (f :: ctx) p = ctxRoot ctx (some f.addr) := rfl

@[simp] theorem ctxAddrs_nil : ctxAddrs ([] : List (Frame K V)) = [] := rfl

@[simp] theorem ctxAddrs_cons (f : Frame K V) (ctx : List (Frame K V)) :
    ctxAddrs (f :: ctx) = f.addr :: (f.sibling.addrs ++ ctxAddrs ctx) := rfl

theorem deref_some (m : TreeMap K V) (a : Nat) :
    deref m (some a) =
      match m.cell a with
      | none => .error .danglingDeref
      | some n => .ok n := rfl

theorem modify_some (m : TreeMap K V) (a : Nat) (f : TreeMapEntry K V → TreeMapEntry K V) :
    modify m (some a) f =
      match m.cell a with
      | none => .error .danglingDeref
      | some n => .ok (m.store a (f n)) := rfl

theorem cell_lt {m : TreeMap K V} {a : Nat} {n : TreeMapEntry K V} (h : m.cell a = some n) :
    a < m.heap.length := by
  unfold TreeMap.cell at h
  by_contra hlt
  rw [List.getD_eq_default _ _ (Nat.le_of_not_lt hlt)] at h
  cases h

@[simp] theorem store_heap_length (m : TreeMap K V) (a : Nat) (n : TreeMapEntry K V) :
    (m.store a n).heap.length = m.heap.length := by
  simp [TreeMap.store]

@[simp] theorem store_root (m : TreeMap K V) (a : Nat) (n : TreeMapEntry K V) :
    (m.store a n).root = m.root := rfl

@[simp] theorem store_length (m : TreeMap K V) (a : Nat) (n : TreeMapEntry K V) :
    (m.store a n).length = m.length := rfl

@[simp] theorem store_comparator (m : TreeMap K V) (a : Nat) (n : TreeMapEntry K V) :
    (m.store a n).comparator = m.comparator := rfl

theorem cell_store_self {m : TreeMap K V} {a : Nat} (n : TreeMapEntry K V)
    (h : a < m.heap.length) : (m.store a n).cell a = some n := by
  simp [TreeMap.store, TreeMap.cell, List.getD_eq_getElem?_getD, List.getElem?_set, h]

theorem cell_store_ne {m : TreeMap K V} {a b : Nat} (n : TreeMapEntry K V) (h : b ≠ a) :
    (m.store a n).cell b = m.cell b := by
  simp [TreeMap.store, TreeMap.cell, List.getD_eq_getElem?_getD, List.getElem?_set, h.symm]

@[simp] theorem cell_setRoot (m : TreeMap K V) (p : Option Nat) (a : Nat) :
    (m.setRoot p).cell a = m.cell a := rfl

@[simp] theorem cell_setLength (m : TreeMap K V) (n : Int) (a : Nat) :
    (m.setLength n).cell a = m.cell a := rfl

@[simp] theorem setRoot_root (m : TreeMap K V) (p : Option Nat) : (m.setRoot p).root = p := rfl

@[simp] theorem setRoot_length (m : TreeMap K V) (p : Option Nat) :
    (m.setRoot p).length = m.length := rfl

@[simp] theorem setRoot_comparator (m : TreeMap K V) (p : Option Nat) :
    (m.setRoot p).comparator = m.comparator := rfl

@[simp] theorem setRoot_heap (m : TreeMap K V) (p : Option Nat) :
    (m.setRoot p).heap = m.heap := rfl

@[simp] theorem setLength_root (m : TreeMap K V) (n : Int) : (m.setLength n).root = m.root := rfl

@[simp] theorem setLength_length (m : TreeMap K V) (n : Int) : (m.setLength n).length = n := rfl

@[simp] theorem setLength_comparator (m : TreeMap K V) (n : Int) :
    (m.setLength n).comparator = m.comparator := rfl

@[simp] theorem setLength_heap (m : TreeMap K V) (n : Int) :
    (m.setLength n).heap = m.heap := rfl

@[simp] theorem store_setRoot (m : TreeMap K V) (p : Option Nat) (a : Nat)
    (n : TreeMapEntry K V) : (m.setRoot p).store a n = (m.store a n).setRoot p := rfl

@[simp] theorem erase_heap_length (m : TreeMap K V) (a : Nat) :
    (m.erase a).heap.length = m.heap.length := by
  simp [TreeMap.erase]

@[simp] theorem erase_root (m : TreeMap K V) (a : Nat) : (m.erase a).root = m.root := rfl

@[simp] theorem erase_length (m : TreeMap K V) (a : Nat) : (m.erase a).length = m.length := rfl

@[simp] theorem erase_comparator (m : TreeMap K V) (a : Nat) :
    (m.erase a).comparator = m.comparator := rfl

theorem cell_erase_self (m : TreeMap K V) (a : Nat) : (m.erase a).cell a = none := by
  simp only [TreeMap.erase, TreeMap.cell, List.getD_eq_getElem?_getD, List.getElem?_set]
  by_cases h : a < m.heap.length <;> simp [h]

theorem cell_erase_ne {m : TreeMap K V} {a b : Nat} (h : b ≠ a) :
    (m.erase a).cell b = m.cell b := by
  simp [TreeMap.erase, TreeMap.cell, List.getD_eq_getElem?_getD, List.getElem?_set, h.symm]

theorem cell_erase_ne' {m : TreeMap K V} {a b : Nat} (h : a ≠ b) :
    (m.erase a).cell b = m.cell b :=
  cell_erase_ne h.symm

@[simp] theorem erase_setRoot (m : TreeMap K V) (p : Option Nat) (a : Nat) :
    (m.setRoot p).erase a = (m.erase a).setRoot p := rfl

theorem free_some (m : TreeMap K V) (a : Nat) :
    free m (some a) =
      match m.cell a with
      | none => .error .danglingDeref
      | some _ => .ok (m.erase a) := rfl

theorem deref_of_cell {m : TreeMap K V} {a : Nat} {n : TreeMapEntry K V} (h : m.cell a = some n) :
    deref m (some a) = .ok n := by
  simp [deref, h]

theorem modify_of_cell {m : TreeMap K V} {a : Nat} {n : TreeMapEntry K V}
    (f : TreeMapEntry K V → TreeMapEntry K V) (h : m.cell a = some n) :
    modify m (some a) f = .ok (m.store a (f n)) := by
  simp [modify, h]

theorem cell_store_ne' {m : TreeMap K V} {a b : Nat} (n : TreeMapEntry K V) (h : a ≠ b) :
    (m.store a n).cell b = m.cell b :=
  cell_store_ne n h.symm

theorem Tree.ptr_ne {t : Tree K V} {a : Nat} (h : a ∉ t.addrs) : (t.ptr = some a) = False := by
  cases t with
  | nil => simp
  | node b c l k v r =>
    simp only [Tree.addrs_node, List.mem_cons, not_or] at h
    simp [Ne.symm h.1]

theorem Tree.ptr_ne' {t : Tree K V} {a : Nat} (h : a ∉ t.addrs) : (some a = t.ptr) = False := by
  have := Tree.ptr_ne h
  simp only [eq_iff_iff, iff_false] at this ⊢
  exact fun e => this e.symm

theorem cell_store {m : TreeMap K V} {a : Nat} (n : TreeMapEntry K V) (b : Nat)
    (h : a < m.heap.length) : (m.store a n).cell b = if b = a then some n else m.cell b := by
  by_cases hb : b = a
  · subst hb; simp [cell_store_self n h]
  · simp [hb, cell_store_ne n hb]

theorem Tree.ptr_mem {t : Tree K V} {a : Nat} (h : t.ptr = some a) : a ∈ t.addrs := by
  cases t with
  | nil => cases h
  | node b c l k v r => simp [Tree.ptr] at h; simp [Tree.addrs, h]

theorem Rep.congr {m m' : TreeMap K V} {par : Option Nat} {t : Tree K V}
    (hc : ∀ a ∈ t.addrs, m'.cell a = m.cell a) (h : Rep m par t) : Rep m' par t := by
  induction t generalizing par with
  | nil => trivial
  | node a c l k v r ihl ihr =>
    obtain ⟨h1, h2, h3⟩ := h
    refine ⟨?_, ihl (fun b hb => hc b ?_) h2, ihr (fun b hb => hc b ?_) h3⟩
    · rw [hc a (by simp [Tree.addrs])]; exact h1
    · simp [Tree.addrs, hb]
    · simp [Tree.addrs, hb]

theorem RepCtx.ctx_congr {m m' : TreeMap K V} {ctx : List (Frame K V)} {p : Option Nat}
    (hc : ∀ a ∈ ctxAddrs ctx, m'.cell a = m.cell a) (h : RepCtx m ctx p) : RepCtx m' ctx p := by
  induction ctx generalizing p with
  | nil => trivial
  | cons f ctx ih =>
    cases f with
    | left a c k v r =>
      obtain ⟨h1, h2, h3⟩ := h
      refine ⟨?_, Rep.congr (fun b hb => hc b ?_) h2, ih (fun b hb => hc b ?_) h3⟩
      · rw [hc a (by simp [ctxAddrs, Frame.addr])]; exact h1
      · simp [ctxAddrs, Frame.sibling, hb]
      · simp [ctxAddrs, hb]
    | right a c l k v =>
      obtain ⟨h1, h2, h3⟩ := h
      refine ⟨?_, Rep.congr (fun b hb => hc b ?_) h2, ih (fun b hb => hc b ?_) h3⟩
      · rw [hc a (by simp [ctxAddrs, Frame.addr])]; exact h1
      · simp [ctxAddrs, Frame.sibling, hb]
      · simp [ctxAddrs, hb]

theorem Rep.store {m : TreeMap K V} {par : Option Nat} {t : Tree K V} {a : Nat}
    (n : TreeMapEntry K V) (ha : a ∉ t.addrs) (h : Rep m par t) : Rep (m.store a n) par t :=
  Rep.congr (fun _ hb => cell_store_ne n (ne_of_mem_of_not_mem hb ha)) h

theorem RepCtx.ctx_store {m : TreeMap K V} {ctx : List (Frame K V)} {p : Option Nat} {a : Nat}
    (n : TreeMapEntry K V) (ha : a ∉ ctxAddrs ctx) (h : RepCtx m ctx p) :
    RepCtx (m.store a n) ctx p :=
  RepCtx.ctx_congr (fun _ hb => cell_store_ne n (ne_of_mem_of_not_mem hb ha)) h

theorem Rep_store_iff {m : TreeMap K V} {par : Option Nat} {t : Tree K V} {a : Nat}
    (n : TreeMapEntry K V) (ha : a ∉ t.addrs) : Rep (m.store a n) par t ↔ Rep m par t :=
  ⟨Rep.congr (fun _ hb => (cell_store_ne n (ne_of_mem_of_not_mem hb ha)).symm), Rep.store n ha⟩

theorem RepCtx_store_iff {m : TreeMap K V} {ctx : List (Frame K V)} {p : Option Nat} {a : Nat}
    (n : TreeMapEntry K V) (ha : a ∉ ctxAddrs ctx) :
    RepCtx (m.store a n) ctx p ↔ RepCtx m ctx p :=
  ⟨RepCtx.ctx_congr (fun _ hb => (cell_store_ne n (ne_of_mem_of_not_mem hb ha)).symm),
    RepCtx.ctx_store n ha⟩

theorem Rep_erase_iff {m : TreeMap K V} {par : Option Nat} {t : Tree K V} {a : Nat}
    (ha : a ∉ t.addrs) : Rep (m.erase a) par t ↔ Rep m par t :=
  ⟨Rep.congr (fun _ hb => (cell_erase_ne (ne_of_mem_of_not_mem hb ha)).symm),
    Rep.congr (fun _ hb => cell_erase_ne (ne_of_mem_of_not_mem hb ha))⟩

theorem RepCtx_erase_iff {m : TreeMap K V} {ctx : List (Frame K V)} {p : Option Nat} {a : Nat}
    (ha : a ∉ ctxAddrs ctx) : RepCtx (m.erase a) ctx p ↔ RepCtx m ctx p :=
  ⟨RepCtx.ctx_congr (fun _ hb => (cell_erase_ne (ne_of_mem_of_not_mem hb ha)).symm),
    RepCtx.ctx_congr (fun _ hb => cell_erase_ne (ne_of_mem_of_not_mem hb ha))⟩

@[simp] theorem Rep_setRoot {m : TreeMap K V} {par : Option Nat} {t : Tree K V}
    (p : Option Nat) : Rep (m.setRoot p) par t ↔ Rep m par t :=
  ⟨Rep.congr (fun _ _ => rfl), Rep.congr (fun _ _ => rfl)⟩

@[simp] theorem RepCtx_setRoot {m : TreeMap K V} {ctx : List (Frame K V)} {q : Option Nat}
    (p : Option Nat) : RepCtx (m.setRoot p) ctx q ↔ RepCtx m ctx q :=
  ⟨RepCtx.ctx_congr (fun _ _ => rfl), RepCtx.ctx_congr (fun _ _ => rfl)⟩

@[simp] theorem Rep_setLength {m : TreeMap K V} {par : Option Nat} {t : Tree K V}
    (n : Int) : Rep (m.setLength n) par t ↔ Rep m par t :=
  ⟨Rep.congr (fun _ _ => rfl), Rep.congr (fun _ _ => rfl)⟩

@[simp] theorem RepCtx_setLength {m : TreeMap K V} {ctx : List (Frame K V)} {q : Option Nat}
    (n : Int) : RepCtx (m.setLength n) ctx q ↔ RepCtx m ctx q :=
  ⟨RepCtx.ctx_congr (fun _ _ => rfl), RepCtx.ctx_congr (fun _ _ => rfl)⟩

theorem RepCtx.ptr_irrel {m : TreeMap K V} {p q : Option Nat} :
    RepCtx m ([] : List (Frame K V)) p → RepCtx m ([] : List (Frame K V)) q := fun _ => trivial

theorem Rep.addr_lt {m : TreeMap K V} {par : Option Nat} {t : Tree K V} (h : Rep m par t) :
    ∀ a ∈ t.addrs, a < m.heap.length := by
  induction t generalizing par with
  | nil => intro a ha; cases ha
  | node b c l k v r ihl ihr =>
    obtain ⟨h1, h2, h3⟩ := h
    intro a ha
    simp only [Tree.addrs, List.mem_cons, List.mem_append] at ha
    rcases ha with rfl | ha | ha
    · exact cell_lt h1
    · exact ihl h2 a ha
    · exact ihr h3 a ha

theorem Frame.fill_ptr (f : Frame K V) (t : Tree K V) : (f.fill t).ptr = some f.addr := by
  cases f <;> rfl

theorem plug_ptr (ctx : List (Frame K V)) (t : Tree K V) :
    (plug ctx t).ptr = ctxRoot ctx t.ptr := by
  induction ctx generalizing t with
  | nil => rfl
  | cons f ctx ih => simp [plug, ctxRoot, ih, Frame.fill_ptr]

theorem Rep_plug {m : TreeMap K V} (ctx : List (Frame K V)) (t : Tree K V) :
    Rep m none (plug ctx t) ↔ RepCtx m ctx t.ptr ∧ Rep m (ctxPtr ctx) t := by
  induction ctx generalizing t with
  | nil => simp [plug, RepCtx, ctxPtr]
  | cons f ctx ih =>
    rw [plug, ih]
    cases f <;> simp only [Frame.fill, Rep, RepCtx, Frame.addr, Tree.ptr, ctxPtr] <;> tauto

theorem plug_addrs_perm (ctx : List (Frame K V)) (t : Tree K V) :
    (plug ctx t).addrs.Perm (t.addrs ++ ctxAddrs ctx) := by
  induction ctx generalizing t with
  | nil => simp [plug, ctxAddrs]
  | cons f ctx ih =>
    rw [plug]
    refine (ih _).trans ?_
    cases f with
    | left a c k v r =>
      simp only [Frame.fill, Tree.addrs, ctxAddrs, Frame.addr, Frame.sibling]
      rw [List.cons_append, List.append_assoc]
      exact (@List.perm_middle _ a t.addrs _).symm
    | right a c l k v =>
      simp only [Frame.fill, Tree.addrs, ctxAddrs, Frame.addr, Frame.sibling]
      rw [List.cons_append, List.append_assoc]
      refine List.Perm.trans ?_ (@List.perm_middle _ a t.addrs _).symm
      refine List.Perm.cons a ?_
      rw [← List.append_assoc, ← List.append_assoc]
      exact List.Perm.append_right _ List.perm_append_comm

theorem plug_nodup (ctx : List (Frame K V)) (t : Tree K V) :
    (plug ctx t).addrs.Nodup ↔ (t.addrs ++ ctxAddrs ctx).Nodup :=
  (plug_addrs_perm ctx t).nodup_iff

theorem plug_mem_addrs (ctx : List (Frame K V)) (t : Tree K V) (a : Nat) :
    a ∈ (plug ctx t).addrs ↔ a ∈ t.addrs ∨ a ∈ ctxAddrs ctx := by
  rw [(plug_addrs_perm ctx t).mem_iff, List.mem_append]

theorem plug_toList (ctx : List (Frame K V)) (t : Tree K V) :
    (plug ctx t).toList = ctxBefore ctx ++ t.toList ++ ctxAfter ctx := by
  induction ctx generalizing t with
  | nil => simp [plug, ctxBefore, ctxAfter]
  | cons f ctx ih =>
    cases f <;> simp [plug, ih, Frame.fill, Tree.toList, ctxBefore, ctxAfter]

theorem Tree.length_toList (t : Tree K V) : t.toList.length = t.size := by
  induction t with
  | nil => rfl
  | node a c l k v r ihl ihr => simp [ihl, ihr]; omega

theorem Tree.map_fst_toList (t : Tree K V) : (t.toList.map Prod.fst).Perm t.addrs := by
  induction t with
  | nil => simp
  | node a c l k v r ihl ihr =>
    simp only [Tree.toList_node, List.map_append, List.map_cons, Tree.addrs_node]
    refine List.perm_middle.trans (List.Perm.cons a (List.Perm.append ihl ihr))

theorem plug_size (ctx : List (Frame K V)) (t : Tree K V) :
    (plug ctx t).size = (plug ctx .nil).size + t.size := by
  induction ctx generalizing t with
  | nil => simp [plug, Tree.size]
  | cons f ctx ih =>
    rw [plug, plug, ih, ih (f.fill .nil)]
    cases f <;> simp [Frame.fill, Tree.size] <;> omega

theorem RepT.of_plug {m : TreeMap K V} {ctx : List (Frame K V)} {t : Tree K V}
    (hroot : m.root = ctxRoot ctx t.ptr) (hctx : RepCtx m ctx t.ptr)
    (hrep : Rep m (ctxPtr ctx) t) (hnd : (t.addrs ++ ctxAddrs ctx).Nodup) :
    RepT m (plug ctx t) :=
  ⟨by rw [plug_ptr]; exact hroot, (Rep_plug ctx t).2 ⟨hctx, hrep⟩, (plug_nodup ctx t).2 hnd⟩

theorem RepT.of_plug_perm {m : TreeMap K V} (ctx : List (Frame K V)) {t t' : Tree K V}
    (hnd : (t.addrs ++ ctxAddrs ctx).Nodup) (hperm : t'.addrs.Perm t.addrs)
    (hroot : m.root = ctxRoot ctx t'.ptr) (hctx : RepCtx m ctx t'.ptr)
    (hrep : Rep m (ctxPtr ctx) t') : RepT m (plug ctx t') :=
  RepT.of_plug hroot hctx hrep ((List.Perm.append_right _ hperm).nodup_iff.2 hnd)

theorem RepT.of_plug_sub {m : TreeMap K V} (ctx : List (Frame K V)) {t t' : Tree K V}
    (hnd : (t.addrs ++ ctxAddrs ctx).Nodup) (hsub : t'.addrs.Sublist t.addrs)
    (hroot : m.root = ctxRoot ctx t'.ptr) (hctx : RepCtx m ctx t'.ptr)
    (hrep : Rep m (ctxPtr ctx) t') : RepT m (plug ctx t') :=
  RepT.of_plug hroot hctx hrep (hnd.sublist (hsub.append_right _))

theorem RepT.ctx {m : TreeMap K V} {ctx : List (Frame K V)} {t : Tree K V}
    (h : RepT m (plug ctx t)) : RepCtx m ctx t.ptr :=
  ((Rep_plug ctx t).1 h.rep).1

theorem RepT.focus {m : TreeMap K V} {ctx : List (Frame K V)} {t : Tree K V}
    (h : RepT m (plug ctx t)) : Rep m (ctxPtr ctx) t :=
  ((Rep_plug ctx t).1 h.rep).2

theorem RepT.nodup_plug {m : TreeMap K V} {ctx : List (Frame K V)} {t : Tree K V}
    (h : RepT m (plug ctx t)) : (t.addrs ++ ctxAddrs ctx).Nodup :=
  (plug_nodup ctx t).1 h.nodup

theorem RepT.root_plug {m : TreeMap K V} {ctx : List (Frame K V)} {t : Tree K V}
    (h : RepT m (plug ctx t)) : m.root = ctxRoot ctx t.ptr := by
  rw [← plug_ptr]; exact h.root

end HeapLemmas

end collections

namespace collections

/-! ## Rotations -/

section Rotations

variable {K V : Type}

theorem rotateLeft_spec {m : TreeMap K V} (ctx : List (Frame K V)) {x r : Nat} {cx cr : Color}
    {A B C : Tree K V} {kx kr : K} {vx vr : V}
    (h : RepT m (plug ctx (.node x cx A kx vx (.node r cr B kr vr C)))) :
    ∃ m', rotateLeft m (some x) = .ok m' ∧
      RepT m' (plug ctx (.node r cr (.node x cx A kx vx B) kr vr C)) ∧ SameMeta m m' := by
  have hctx := h.ctx
  have hf := h.focus
  have hnd := h.nodup_plug
  have hnd' := hnd
  have hroot := h.root_plug
  simp only [Rep, Tree.ptr_node] at hf hroot
  obtain ⟨hx, hA, hr, hB, hC⟩ := hf
  have hxl := cell_lt hx
  have hrl := cell_lt hr
  have hperm : (Tree.node r cr (.node x cx A kx vx B) kr vr C).addrs.Perm
      (Tree.node x cx A kx vx (.node r cr B kr vr C)).addrs := by
    rw [List.perm_iff_count]
    intro a
    simp only [Tree.addrs_node, List.count_cons, List.count_append, List.cons_append]
    omega
  cases B with
  | nil =>
    cases ctx with
    | nil =>
      simp only [Tree.addrs_node, List.nodup_cons, List.nodup_append, List.mem_append, List.mem_cons,
        List.disjoint_cons_left, List.disjoint_cons_right, List.disjoint_append_left, List.cons_append,
        List.disjoint_append_right, not_or, ctxAddrs_cons, ctxAddrs_nil, Tree.addrs_nil,
        Frame.addr_left, Frame.sibling_left, Frame.addr_right, Frame.sibling_right] at hnd
      simp [rotateLeft, getRight, getLeft, setRight, setLeft, setParent, getParent,
          deref_some, modify_some, hx, hr, cell_store_self, cell_store_ne, cell_store_ne',
          hxl, hrl, hnd, Tree.ptr_ne, Tree.ptr_ne']
      refine ⟨RepT.of_plug_perm ([]) hnd' hperm ?_ ?_ ?_, ?_⟩
      · simp [hroot]
      · simp [RepCtx, Rep, Rep_store_iff, RepCtx_store_iff, cell_store_self, cell_store_ne,
          cell_store_ne', hxl, hrl, hnd, hA, hC]
      · simp [RepCtx, Rep, Rep_store_iff, RepCtx_store_iff, cell_store_self, cell_store_ne,
          cell_store_ne', hxl, hrl, hnd, hA, hC]
      · constructor <;> simp
    | cons f ctx =>
      cases f with
      | left pa pc pk pv ps =>
      simp only [RepCtx] at hctx
      obtain ⟨hp, hps, hctx⟩ := hctx
      have hpl := cell_lt hp
      simp only [Tree.addrs_node, List.nodup_cons, List.nodup_append, List.mem_append, List.mem_cons,
        List.disjoint_cons_left, List.disjoint_cons_right, List.disjoint_append_left, List.cons_append,
        List.disjoint_append_right, not_or, ctxAddrs_cons, ctxAddrs_nil, Tree.addrs_nil,
        Frame.addr_left, Frame.sibling_left, Frame.addr_right, Frame.sibling_right] at hnd
      simp [rotateLeft, getRight, getLeft, setRight, setLeft, setParent, getParent,
          deref_some, modify_some, hx, hr, hp, cell_store_self, cell_store_ne, cell_store_ne',
          hxl, hrl, hpl, hnd, Tree.ptr_ne, Tree.ptr_ne']
      refine ⟨RepT.of_plug_perm (Frame.left pa pc pk pv ps :: ctx) hnd' hperm ?_ ?_ ?_, ?_⟩
      · simp [hroot]
      · simp [RepCtx, Rep, Rep_store_iff, RepCtx_store_iff, cell_store_self, cell_store_ne,
          cell_store_ne', hxl, hrl, hpl, hnd, hA, hC, hps, hctx]
      · simp [RepCtx, Rep, Rep_store_iff, RepCtx_store_iff, cell_store_self, cell_store_ne,
          cell_store_ne', hxl, hrl, hpl, hnd, hA, hC, hps, hctx]
      · constructor <;> simp
      | right pa pc ps pk pv =>
      simp only [RepCtx] at hctx
      obtain ⟨hp, hps, hctx⟩ := hctx
      have hpl := cell_lt hp
      simp only [Tree.addrs_node, List.nodup_cons, List.nodup_append, List.mem_append, List.mem_cons,
        List.disjoint_cons_left, List.disjoint_cons_right, List.disjoint_append_left, List.cons_append,
        List.disjoint_append_right, not_or, ctxAddrs_cons, ctxAddrs_nil, Tree.addrs_nil,
        Frame.addr_left, Frame.sibling_left, Frame.addr_right, Frame.sibling_right] at hnd
      simp [rotateLeft, getRight, getLeft, setRight, setLeft, setParent, getParent,
          deref_some, modify_some, hx, hr, hp, cell_store_self, cell_store_ne, cell_store_ne',
          hxl, hrl, hpl, hnd, Tree.ptr_ne, Tree.ptr_ne']
      refine ⟨RepT.of_plug_perm (Frame.right pa pc ps pk pv :: ctx) hnd' hperm ?_ ?_ ?_, ?_⟩
      · simp [hroot]
      · simp [RepCtx, Rep, Rep_store_iff, RepCtx_store_iff, cell_store_self, cell_store_ne,
          cell_store_ne', hxl, hrl, hpl, hnd, hA, hC, hps, hctx]
      · simp [RepCtx, Rep, Rep_store_iff, RepCtx_store_iff, cell_store_self, cell_store_ne,
          cell_store_ne', hxl, hrl, hpl, hnd, hA, hC, hps, hctx]
      · constructor <;> simp
  | node b cb Bl kb vb Br =>
    cases ctx with
    | nil =>
      simp only [Rep, Tree.ptr_node] at hB
      obtain ⟨hb, hBl, hBr⟩ := hB
      have hbl := cell_lt hb
      simp only [Tree.addrs_node, List.nodup_cons, List.nodup_append, List.mem_append, List.mem_cons,
        List.disjoint_cons_left, List.disjoint_cons_right, List.disjoint_append_left, List.cons_append,
        List.disjoint_append_right, not_or, ctxAddrs_cons, ctxAddrs_nil, Tree.addrs_nil,
        Frame.addr_left, Frame.sibling_left, Frame.addr_right, Frame.sibling_right] at hnd
      simp [rotateLeft, getRight, getLeft, setRight, setLeft, setParent, getParent,
          deref_some, modify_some, hx, hr, hb, cell_store_self, cell_store_ne, cell_store_ne',
          hxl, hrl, hbl, hnd, Tree.ptr_ne, Tree.ptr_ne']
      refine ⟨RepT.of_plug_perm ([]) hnd' hperm ?_ ?_ ?_, ?_⟩
      · simp [hroot]
      · simp [RepCtx, Rep, Rep_store_iff, RepCtx_store_iff, cell_store_self, cell_store_ne,
          cell_store_ne', hxl, hrl, hbl, hnd, hA, hC, hBl, hBr]
      · simp [RepCtx, Rep, Rep_store_iff, RepCtx_store_iff, cell_store_self, cell_store_ne,
          cell_store_ne', hxl, hrl, hbl, hnd, hA, hC, hBl, hBr]
      · constructor <;> simp
    | cons f ctx =>
      cases f with
      | left pa pc pk pv ps =>
      simp only [Rep, Tree.ptr_node] at hB
      obtain ⟨hb, hBl, hBr⟩ := hB
      have hbl := cell_lt hb
      simp only [RepCtx] at hctx
      obtain ⟨hp, hps, hctx⟩ := hctx
      have hpl := cell_lt hp
      simp only [Tree.addrs_node, List.nodup_cons, List.nodup_append, List.mem_append, List.mem_cons,
        List.disjoint_cons_left, List.disjoint_cons_right, List.disjoint_append_left, List.cons_append,
        List.disjoint_append_right, not_or, ctxAddrs_cons, ctxAddrs_nil, Tree.addrs_nil,
        Frame.addr_left, Frame.sibling_left, Frame.addr_right, Frame.sibling_right] at hnd
      simp [rotateLeft, getRight, getLeft, setRight, setLeft, setParent, getParent,
          deref_some, modify_some, hx, hr, hb, hp, cell_store_self, cell_store_ne, cell_store_ne',
          hxl, hrl, hbl, hpl, hnd, Tree.ptr_ne, Tree.ptr_ne']
      refine ⟨RepT.of_plug_perm (Frame.left pa pc pk pv ps :: ctx) hnd' hperm ?_ ?_ ?_, ?_⟩
      · simp [hroot]
      · simp [RepCtx, Rep, Rep_store_iff, RepCtx_store_iff, cell_store_self, cell_store_ne,
          cell_store_ne', hxl, hrl, hbl, hpl, hnd, hA, hC, hBl, hBr, hps, hctx]
      · simp [RepCtx, Rep, Rep_store_iff, RepCtx_store_iff, cell_store_self, cell_store_ne,
          cell_store_ne', hxl, hrl, hbl, hpl, hnd, hA, hC, hBl, hBr, hps, hctx]
      · constructor <;> simp
      | right pa pc ps pk pv =>
      simp only [Rep, Tree.ptr_node] at hB
      obtain ⟨hb, hBl, hBr⟩ := hB
      have hbl := cell_lt hb
      simp only [RepCtx] at hctx
      obtain ⟨hp, hps, hctx⟩ := hctx
      have hpl := cell_lt hp
      simp only [Tree.addrs_node, List.nodup_cons, List.nodup_append, List.mem_append, List.mem_cons,
        List.disjoint_cons_left, List.disjoint_cons_right, List.disjoint_append_left, List.cons_append,
        List.disjoint_append_right, not_or, ctxAddrs_cons, ctxAddrs_nil, Tree.addrs_nil,
        Frame.addr_left, Frame.sibling_left, Frame.addr_right, Frame.sibling_right] at hnd
      simp [rotateLeft, getRight, getLeft, setRight, setLeft, setParent, getParent,
          deref_some, modify_some, hx, hr, hb, hp, cell_store_self, cell_store_ne, cell_store_ne',
          hxl, hrl, hbl, hpl, hnd, Tree.ptr_ne, Tree.ptr_ne']
      refine ⟨RepT.of_plug_perm (Frame.right pa pc ps pk pv :: ctx) hnd' hperm ?_ ?_ ?_, ?_⟩
      · simp [hroot]
      · simp [RepCtx, Rep, Rep_store_iff, RepCtx_store_iff, cell_store_self, cell_store_ne,
          cell_store_ne', hxl, hrl, hbl, hpl, hnd, hA, hC, hBl, hBr, hps, hctx]
      · simp [RepCtx, Rep, Rep_store_iff, RepCtx_store_iff, cell_store_self, cell_store_ne,
          cell_store_ne', hxl, hrl, hbl, hpl, hnd, hA, hC, hBl, hBr, hps, hctx]
      · constructor <;> simp

theorem rotateRight_spec {m : TreeMap K V} (ctx : List (Frame K V)) {x r : Nat} {cx cr : Color}
    {A B C : Tree K V} {kx kr : K} {vx vr : V}
    (h : RepT m (plug ctx (.node x cx (.node r cr C kr vr B) kx vx A))) :
    ∃ m', rotateRight m (some x) = .ok m' ∧
      RepT m' (plug ctx (.node r cr C kr vr (.node x cx B kx vx A))) ∧ SameMeta m m' := by
  have hctx := h.ctx
  have hf := h.focus
  have hnd := h.nodup_plug
  have hnd' := hnd
  have hroot := h.root_plug
  simp only [Rep, Tree.ptr_node] at hf hroot
  obtain ⟨hx, ⟨hr, hC, hB⟩, hA⟩ := hf
  have hxl := cell_lt hx
  have hrl := cell_lt hr
  have hperm : (Tree.node r cr C kr vr (.node x cx B kx vx A)).addrs.Perm
      (Tree.node x cx (.node r cr C kr vr B) kx vx A).addrs := by
    rw [List.perm_iff_count]
    intro a
    simp only [Tree.addrs_node, List.count_cons, List.count_append, List.cons_append]
    omega
  cases B with
  | nil =>
    cases ctx with
    | nil =>
      simp only [Tree.addrs_node, List.nodup_cons, List.nodup_append, List.mem_append, List.mem_cons,
        List.disjoint_cons_left, List.disjoint_cons_right, List.disjoint_append_left, List.cons_append,
        List.disjoint_append_right, not_or, ctxAddrs_cons, ctxAddrs_nil, Tree.addrs_nil,
        Frame.addr_left, Frame.sibling_left, Frame.addr_right, Frame.sibling_right] at hnd
      simp [rotateRight, getRight, getLeft, setRight, setLeft, setParent, getParent,
          deref_some, modify_some, hx, hr, cell_store_self, cell_store_ne, cell_store_ne',
          hxl, hrl, hnd, Tree.ptr_ne, Tree.ptr_ne']
      refine ⟨RepT.of_plug_perm ([]) hnd' hperm ?_ ?_ ?_, ?_⟩
      · simp [hroot]
      · simp [RepCtx, Rep, Rep_store_iff, RepCtx_store_iff, cell_store_self, cell_store_ne,
          cell_store_ne', hxl, hrl, hnd, hA, hC]
      · simp [RepCtx, Rep, Rep_store_iff, RepCtx_store_iff, cell_store_self, cell_store_ne,
          cell_store_ne', hxl, hrl, hnd, hA, hC]
      · constructor <;> simp
    | cons f ctx =>
      cases f with
      | left pa pc pk pv ps =>
      simp only [RepCtx] at hctx
      obtain ⟨hp, hps, hctx⟩ := hctx
      have hpl := cell_lt hp
      simp only [Tree.addrs_node, List.nodup_cons, List.nodup_append, List.mem_append, List.mem_cons,
        List.disjoint_cons_left, List.disjoint_cons_right, List.disjoint_append_left, List.cons_append,
        List.disjoint_append_right, not_or, ctxAddrs_cons, ctxAddrs_nil, Tree.addrs_nil,
        Frame.addr_left, Frame.sibling_left, Frame.addr_right, Frame.sibling_right] at hnd
      simp [rotateRight, getRight, getLeft, setRight, setLeft, setParent, getParent,
          deref_some, modify_some, hx, hr, hp, cell_store_self, cell_store_ne, cell_store_ne',
          hxl, hrl, hpl, hnd, Tree.ptr_ne, Tree.ptr_ne']
      refine ⟨RepT.of_plug_perm (Frame.left pa pc pk pv ps :: ctx) hnd' hperm ?_ ?_ ?_, ?_⟩
      · simp [hroot]
      · simp [RepCtx, Rep, Rep_store_iff, RepCtx_store_iff, cell_store_self, cell_store_ne,
          cell_store_ne', hxl, hrl, hpl, hnd, hA, hC, hps, hctx]
      · simp [RepCtx, Rep, Rep_store_iff, RepCtx_store_iff, cell_store_self, cell_store_ne,
          cell_store_ne', hxl, hrl, hpl, hnd, hA, hC, hps, hctx]
      · constructor <;> simp
      | right pa pc ps pk pv =>
      simp only [RepCtx] at hctx
      obtain ⟨hp, hps, hctx⟩ := hctx
      have hpl := cell_lt hp
      simp only [Tree.addrs_node, List.nodup_cons, List.nodup_append, List.mem_append, List.mem_cons,
        List.disjoint_cons_left, List.disjoint_cons_right, List.disjoint_append_left, List.cons_append,
        List.disjoint_append_right, not_or, ctxAddrs_cons, ctxAddrs_nil, Tree.addrs_nil,
        Frame.addr_left, Frame.sibling_left, Frame.addr_right, Frame.sibling_right] at hnd
      simp [rotateRight, getRight, getLeft, setRight, setLeft, setParent, getParent,
          deref_some, modify_some, hx, hr, hp, cell_store_self, cell_store_ne, cell_store_ne',
          hxl, hrl, hpl, hnd, Tree.ptr_ne, Tree.ptr_ne']
      refine ⟨RepT.of_plug_perm (Frame.right pa pc ps pk pv :: ctx) hnd' hperm ?_ ?_ ?_, ?_⟩
      · simp [hroot]
      · simp [RepCtx, Rep, Rep_store_iff, RepCtx_store_iff, cell_store_self, cell_store_ne,
          cell_store_ne', hxl, hrl, hpl, hnd, hA, hC, hps, hctx]
      · simp [RepCtx, Rep, Rep_store_iff, RepCtx_store_iff, cell_store_self, cell_store_ne,
          cell_store_ne', hxl, hrl, hpl, hnd, hA, hC, hps, hctx]
      · constructor <;> simp
  | node b cb Bl kb vb Br =>
    cases ctx with
    | nil =>
      simp only [Rep, Tree.ptr_node] at hB
      obtain ⟨hb, hBl, hBr⟩ := hB
      have hbl := cell_lt hb
      simp only [Tree.addrs_node, List.nodup_cons, List.nodup_append, List.mem_append, List.mem_cons,
        List.disjoint_cons_left, List.disjoint_cons_right, List.disjoint_append_left, List.cons_append,
        List.disjoint_append_right, not_or, ctxAddrs_cons, ctxAddrs_nil, Tree.addrs_nil,
        Frame.addr_left, Frame.sibling_left, Frame.addr_right, Frame.sibling_right] at hnd
      simp [rotateRight, getRight, getLeft, setRight, setLeft, setParent, getParent,
          deref_some, modify_some, hx, hr, hb, cell_store_self, cell_store_ne, cell_store_ne',
          hxl, hrl, hbl, hnd, Tree.ptr_ne, Tree.ptr_ne']
      refine ⟨RepT.of_plug_perm ([]) hnd' hperm ?_ ?_ ?_, ?_⟩
      · simp [hroot]
      · simp [RepCtx, Rep, Rep_store_iff, RepCtx_store_iff, cell_store_self, cell_store_ne,
          cell_store_ne', hxl, hrl, hbl, hnd, hA, hC, hBl, hBr]
      · simp [RepCtx, Rep, Rep_store_iff, RepCtx_store_iff, cell_store_self, cell_store_ne,
          cell_store_ne', hxl, hrl, hbl, hnd, hA, hC, hBl, hBr]
      · constructor <;> simp
    | cons f ctx =>
      cases f with
      | left pa pc pk pv ps =>
      simp only [Rep, Tree.ptr_node] at hB
      obtain ⟨hb, hBl, hBr⟩ := hB
      have hbl := cell_lt hb
      simp only [RepCtx] at hctx
      obtain ⟨hp, hps, hctx⟩ := hctx
      have hpl := cell_lt hp
      simp only [Tree.addrs_node, List.nodup_cons, List.nodup_append, List.mem_append, List.mem_cons,
        List.disjoint_cons_left, List.disjoint_cons_right, List.disjoint_append_left, List.cons_append,
        List.disjoint_append_right, not_or, ctxAddrs_cons, ctxAddrs_nil, Tree.addrs_nil,
        Frame.addr_left, Frame.sibling_left, Frame.addr_right, Frame.sibling_right] at hnd
      simp [rotateRight, getRight, getLeft, setRight, setLeft, setParent, getParent,
          deref_some, modify_some, hx, hr, hb, hp, cell_store_self, cell_store_ne, cell_store_ne',
          hxl, hrl, hbl, hpl, hnd, Tree.ptr_ne, Tree.ptr_ne']
      refine ⟨RepT.of_plug_perm (Frame.left pa pc pk pv ps :: ctx) hnd' hperm ?_ ?_ ?_, ?_⟩
      · simp [hroot]
      · simp [RepCtx, Rep, Rep_store_iff, RepCtx_store_iff, cell_store_self, cell_store_ne,
          cell_store_ne', hxl, hrl, hbl, hpl, hnd, hA, hC, hBl, hBr, hps, hctx]
      · simp [RepCtx, Rep, Rep_store_iff, RepCtx_store_iff, cell_store_self, cell_store_ne,
          cell_store_ne', hxl, hrl, hbl, hpl, hnd, hA, hC, hBl, hBr, hps, hctx]
      · constructor <;> simp
      | right pa pc ps pk pv =>
      simp only [Rep, Tree.ptr_node] at hB
      obtain ⟨hb, hBl, hBr⟩ := hB
      have hbl := cell_lt hb
      simp only [RepCtx] at hctx
      obtain ⟨hp, hps, hctx⟩ := hctx
      have hpl := cell_lt hp
      simp only [Tree.addrs_node, List.nodup_cons, List.nodup_append, List.mem_append, List.mem_cons,
        List.disjoint_cons_left, List.disjoint_cons_right, List.disjoint_append_left, List.cons_append,
        List.disjoint_append_right, not_or, ctxAddrs_cons, ctxAddrs_nil, Tree.addrs_nil,
        Frame.addr_left, Frame.sibling_left, Frame.addr_right, Frame.sibling_right] at hnd
      simp [rotateRight, getRight, getLeft, setRight, setLeft, setParent, getParent,
          deref_some, modify_some, hx, hr, hb, hp, cell_store_self, cell_store_ne, cell_store_ne',
          hxl, hrl, hbl, hpl, hnd, Tree.ptr_ne, Tree.ptr_ne']
      refine ⟨RepT.of_plug_perm (Frame.right pa pc ps pk pv :: ctx) hnd' hperm ?_ ?_ ?_, ?_⟩
      · simp [hroot]
      · simp [RepCtx, Rep, Rep_store_iff, RepCtx_store_iff, cell_store_self, cell_store_ne,
          cell_store_ne', hxl, hrl, hbl, hpl, hnd, hA, hC, hBl, hBr, hps, hctx]
      · simp [RepCtx, Rep, Rep_store_iff, RepCtx_store_iff, cell_store_self, cell_store_ne,
          cell_store_ne', hxl, hrl, hbl, hpl, hnd, hA, hC, hBl, hBr, hps, hctx]
      · constructor <;> simp

end Rotations

end collections

namespace collections

/-! ## Field updates at a position -/

section FieldUpdates

variable {K V : Type}

theorem SameMeta.refl (m : TreeMap K V) : SameMeta m m := ⟨rfl, rfl, rfl⟩

theorem SameMeta.trans {m₁ m₂ m₃ : TreeMap K V} (h₁ : SameMeta m₁ m₂) (h₂ : SameMeta m₂ m₃) :
    SameMeta m₁ m₃ :=
  ⟨h₂.length.trans h₁.length, h₂.comparator.trans h₁.comparator,
    h₂.heapLength.trans h₁.heapLength⟩

theorem SameMeta.of_store (m : TreeMap K V) (a : Nat) (n : TreeMapEntry K V) :
    SameMeta m (m.store a n) := ⟨rfl, rfl, by simp⟩

/-- Overwriting the key, value and colour of the node at a position leaves the links alone. -/
theorem store_focus {m : TreeMap K V} {ctx : List (Frame K V)} {a : Nat} {c : Color}
    {l r : Tree K V} {k : K} {v : V}
    (h : RepT m (plug ctx (.node a c l k v r))) (c' : Color) (k' : K) (v' : V) :
    RepT (m.store a { key := k', value := v', parent := ctxPtr ctx, left := l.ptr,
                      right := r.ptr, color := c' })
      (plug ctx (.node a c' l k' v' r)) := by
  have hnd := h.nodup_plug
  have hf := h.focus
  simp only [Rep] at hf
  obtain ⟨ha, hl, hr⟩ := hf
  have hal := cell_lt ha
  refine RepT.of_plug_perm _ hnd (List.Perm.refl _) ?_ ?_ ?_
  · simpa using h.root_plug
  · simp only [Tree.addrs_node, List.nodup_cons, List.nodup_append, List.mem_append, List.cons_append,
      not_or] at hnd
    exact RepCtx.ctx_store _ hnd.1.2 h.ctx
  · simp only [Tree.addrs_node, List.nodup_cons, List.nodup_append, List.mem_append, List.cons_append,
      not_or] at hnd
    exact ⟨cell_store_self _ hal, Rep.store _ hnd.1.1.1 hl, Rep.store _ hnd.1.1.2 hr⟩

theorem RepT.cell_focus {m : TreeMap K V} {ctx : List (Frame K V)} {a : Nat} {c : Color}
    {l r : Tree K V} {k : K} {v : V} (h : RepT m (plug ctx (.node a c l k v r))) :
    m.cell a = some { key := k, value := v, parent := ctxPtr ctx, left := l.ptr,
                      right := r.ptr, color := c } :=
  h.focus.1

theorem setColor_node {m : TreeMap K V} (ctx : List (Frame K V)) {a : Nat} {c : Color}
    {l r : Tree K V} {k : K} {v : V}
    (h : RepT m (plug ctx (.node a c l k v r))) (c' : Color) :
    ∃ m', setColor m (some a) c' = .ok m' ∧ RepT m' (plug ctx (.node a c' l k v r)) ∧
      SameMeta m m' := by
  refine ⟨_, ?_, store_focus h c' k v, SameMeta.of_store _ _ _⟩
  simp [setColor, entrySetColor, modify_some, h.cell_focus]

theorem entrySetColor_node {m : TreeMap K V} {ctx : List (Frame K V)} {a : Nat} {c : Color}
    {l r : Tree K V} {k : K} {v : V}
    (h : RepT m (plug ctx (.node a c l k v r))) (c' : Color) :
    ∃ m', entrySetColor m (some a) c' = .ok m' ∧ RepT m' (plug ctx (.node a c' l k v r)) ∧
      SameMeta m m' := by
  refine ⟨_, ?_, store_focus h c' k v, SameMeta.of_store _ _ _⟩
  simp [entrySetColor, modify_some, h.cell_focus]

theorem setColor_tree {m : TreeMap K V} {ctx : List (Frame K V)} {t : Tree K V}
    (h : RepT m (plug ctx t)) (c' : Color) :
    ∃ m', setColor m t.ptr c' = .ok m' ∧ RepT m' (plug ctx (t.paint c')) ∧ SameMeta m m' := by
  cases t with
  | nil => exact ⟨m, by simp [setColor], h, SameMeta.refl m⟩
  | node a c l k v r => exact setColor_node _ h c'

theorem setValue_node {m : TreeMap K V} {ctx : List (Frame K V)} {a : Nat} {c : Color}
    {l r : Tree K V} {k : K} {v : V}
    (h : RepT m (plug ctx (.node a c l k v r))) (v' : V) :
    ∃ m', setValue m (some a) v' = .ok m' ∧ RepT m' (plug ctx (.node a c l k v' r)) ∧
      SameMeta m m' := by
  refine ⟨_, ?_, store_focus h c k v', SameMeta.of_store _ _ _⟩
  simp [setValue, modify_some, h.cell_focus]

theorem setKey_node {m : TreeMap K V} {ctx : List (Frame K V)} {a : Nat} {c : Color}
    {l r : Tree K V} {k : K} {v : V}
    (h : RepT m (plug ctx (.node a c l k v r))) (k' : K) :
    ∃ m', setKey m (some a) k' = .ok m' ∧ RepT m' (plug ctx (.node a c l k' v r)) ∧
      SameMeta m m' := by
  refine ⟨_, ?_, store_focus h c k' v, SameMeta.of_store _ _ _⟩
  simp [setKey, modify_some, h.cell_focus]

@[simp] theorem setColor_none (m : TreeMap K V) (c : Color) : setColor m none c = .ok m := rfl

@[simp] theorem rotateLeft_none (m : TreeMap K V) : rotateLeft m none = .ok m := rfl

@[simp] theorem rotateRight_none (m : TreeMap K V) : rotateRight m none = .ok m := rfl

theorem colorOf_some (m : TreeMap K V) (a : Nat) : colorOf m (some a) = getColor m (some a) := rfl

theorem colorOf_none (m : TreeMap K V) : colorOf m none = .ok Color.black := rfl

theorem colorOf_tree {m : TreeMap K V} (ctx : List (Frame K V)) {t : Tree K V}
    (h : RepT m (plug ctx t)) : colorOf m t.ptr = .ok t.color := by
  cases t with
  | nil => simp [colorOf]
  | node a c l k v r => simp [colorOf, getColor, deref_some, h.cell_focus]

/-- All cell facts a representation gives for the explicitly known part of a tree. -/
theorem RepT.cells {m : TreeMap K V} {ctx : List (Frame K V)} {t : Tree K V}
    (h : RepT m (plug ctx t)) : RepCtx m ctx t.ptr ∧ Rep m (ctxPtr ctx) t :=
  ⟨h.ctx, h.focus⟩

end FieldUpdates

end collections

namespace collections

/-! ## The loop body of `balanceAfterInsert`, case by case -/

section InsertFixCases

variable {K V : Type} {m : TreeMap K V} {rest : List (Frame K V)} {pa ga ua a : Nat}
  {pc gc c : Color} {pk gk uk k : K} {pv gv uv v : V} {ps pl ul ur l r u : Tree K V}

theorem insertBody_leftRed_left
    (h : RepT m (plug ([.left pa pc pk pv ps, .left ga gc gk gv (.node ua .red ul uk uv ur)] ++ rest) (.node a c l k v r))) :
    ∃ m', balanceAfterInsertBody m (some a) = .ok (m', some ga) ∧
      RepT m' (plug rest (.node ga .red (.node pa .black (.node a c l k v r) pk pv ps) gk gv (.node ua .black ul uk uv ur))) ∧
      SameMeta m m' := by
  simp only [List.cons_append, List.nil_append] at h
  have hnd := h.nodup_plug
  simp only [Tree.addrs_node, List.nodup_cons, List.nodup_append, List.mem_append, List.mem_cons,
    List.disjoint_cons_left, List.disjoint_cons_right, List.disjoint_append_left, List.cons_append,
    List.disjoint_append_right, not_or, ctxAddrs_cons, ctxAddrs_nil, Tree.addrs_nil,
    Frame.addr_left, Frame.sibling_left, Frame.addr_right, Frame.sibling_right] at hnd
  have c0 := h.rep
  simp only [plug_cons, plug_nil, Frame.fill_left, Frame.fill_right, Rep_plug, Rep, RepCtx,
    Tree.ptr_node, Tree.ptr_nil, ctxPtr_cons, ctxPtr_nil, Frame.addr_left, Frame.addr_right] at c0
  obtain ⟨m1, e1, h1, s1⟩ := setColor_node (.left ga gc gk gv (.node ua .red ul uk uv ur) :: rest) (a := pa) h .black
  have c1 := h1.rep
  simp only [plug_cons, plug_nil, Frame.fill_left, Frame.fill_right, Rep_plug, Rep, RepCtx,
    Tree.ptr_node, Tree.ptr_nil, ctxPtr_cons, ctxPtr_nil, Frame.addr_left, Frame.addr_right] at c1
  obtain ⟨m2, e2, h2, s2⟩ := setColor_node (.right ga gc (.node pa .black (.node a c l k v r) pk pv ps) gk gv :: rest) (a := ua) h1 .black
  have c2 := h2.rep
  simp only [plug_cons, plug_nil, Frame.fill_left, Frame.fill_right, Rep_plug, Rep, RepCtx,
    Tree.ptr_node, Tree.ptr_nil, ctxPtr_cons, ctxPtr_nil, Frame.addr_left, Frame.addr_right] at c2
  obtain ⟨m3, e3, h3, s3⟩ := setColor_node (rest) (a := ga) h2 .red
  have c3 := h3.rep
  simp only [plug_cons, plug_nil, Frame.fill_left, Frame.fill_right, Rep_plug, Rep, RepCtx,
    Tree.ptr_node, Tree.ptr_nil, ctxPtr_cons, ctxPtr_nil, Frame.addr_left, Frame.addr_right] at c3
  refine ⟨m3, ?_, h3, ((s1).trans s2).trans s3⟩
  simp [balanceAfterInsertBody, balanceAfterInsertLeft, balanceAfterInsertRight, parentOf,
    grandParentOf, leftOf, rightOf, colorOf_some, colorOf_none, getParent, getLeft, getRight, getColor, deref_some,
    c0, c1, c2, c3, e1, e2, e3, hnd, Tree.ptr_ne, Tree.ptr_ne']

theorem insertBody_leftRed_right
    (h : RepT m (plug ([.right pa pc ps pk pv, .left ga gc gk gv (.node ua .red ul uk uv ur)] ++ rest) (.node a c l k v r))) :
    ∃ m', balanceAfterInsertBody m (some a) = .ok (m', some ga) ∧
      RepT m' (plug rest (.node ga .red (.node pa .black ps pk pv (.node a c l k v r)) gk gv (.node ua .black ul uk uv ur))) ∧
      SameMeta m m' := by
  simp only [List.cons_append, List.nil_append] at h
  have hnd := h.nodup_plug
  simp only [Tree.addrs_node, List.nodup_cons, List.nodup_append, List.mem_append, List.mem_cons,
    List.disjoint_cons_left, List.disjoint_cons_right, List.disjoint_append_left, List.cons_append,
    List.disjoint_append_right, not_or, ctxAddrs_cons, ctxAddrs_nil, Tree.addrs_nil,
    Frame.addr_left, Frame.sibling_left, Frame.addr_right, Frame.sibling_right] at hnd
  have c0 := h.rep
  simp only [plug_cons, plug_nil, Frame.fill_left, Frame.fill_right, Rep_plug, Rep, RepCtx,
    Tree.ptr_node, Tree.ptr_nil, ctxPtr_cons, ctxPtr_nil, Frame.addr_left, Frame.addr_right] at c0
  obtain ⟨m1, e1, h1, s1⟩ := setColor_node (.left ga gc gk gv (.node ua .red ul uk uv ur) :: rest) (a := pa) h .black
  have c1 := h1.rep
  simp only [plug_cons, plug_nil, Frame.fill_left, Frame.fill_right, Rep_plug, Rep, RepCtx,
    Tree.ptr_node, Tree.ptr_nil, ctxPtr_cons, ctxPtr_nil, Frame.addr_left, Frame.addr_right] at c1
  obtain ⟨m2, e2, h2, s2⟩ := setColor_node (.right ga gc (.node pa .black ps pk pv (.node a c l k v r)) gk gv :: rest) (a := ua) h1 .black
  have c2 := h2.rep
  simp only [plug_cons, plug_nil, Frame.fill_left, Frame.fill_right, Rep_plug, Rep, RepCtx,
    Tree.ptr_node, Tree.ptr_nil, ctxPtr_cons, ctxPtr_nil, Frame.addr_left, Frame.addr_right] at c2
  obtain ⟨m3, e3, h3, s3⟩ := setColor_node (rest) (a := ga) h2 .red
  have c3 := h3.rep
  simp only [plug_cons, plug_nil, Frame.fill_left, Frame.fill_right, Rep_plug, Rep, RepCtx,
    Tree.ptr_node, Tree.ptr_nil, ctxPtr_cons, ctxPtr_nil, Frame.addr_left, Frame.addr_right] at c3
  refine ⟨m3, ?_, h3, ((s1).trans s2).trans s3⟩
  simp [balanceAfterInsertBody, balanceAfterInsertLeft, balanceAfterInsertRight, parentOf,
    grandParentOf, leftOf, rightOf, colorOf_some, colorOf_none, getParent, getLeft, getRight, getColor, deref_some,
    c0, c1, c2, c3, e1, e2, e3, hnd, Tree.ptr_ne, Tree.ptr_ne']

theorem insertBody_rightRed_left
    (h : RepT m (plug ([.left pa pc pk pv ps, .right ga gc (.node ua .red ul uk uv ur) gk gv] ++ rest) (.node a c l k v r))) :
    ∃ m', balanceAfterInsertBody m (some a) = .ok (m', some ga) ∧
      RepT m' (plug rest (.node ga .red (.node ua .black ul uk uv ur) gk gv (.node pa .black (.node a c l k v r) pk pv ps))) ∧
      SameMeta m m' := by
  simp only [List.cons_append, List.nil_append] at h
  have hnd := h.nodup_plug
  simp only [Tree.addrs_node, List.nodup_cons, List.nodup_append, List.mem_append, List.mem_cons,
    List.disjoint_cons_left, List.disjoint_cons_right, List.disjoint_append_left, List.cons_append,
    List.disjoint_append_right, not_or, ctxAddrs_cons, ctxAddrs_nil, Tree.addrs_nil,
    Frame.addr_left, Frame.sibling_left, Frame.addr_right, Frame.sibling_right] at hnd
  have c0 := h.rep
  simp only [plug_cons, plug_nil, Frame.fill_left, Frame.fill_right, Rep_plug, Rep, RepCtx,
    Tree.ptr_node, Tree.ptr_nil, ctxPtr_cons, ctxPtr_nil, Frame.addr_left, Frame.addr_right] at c0
  obtain ⟨m1, e1, h1, s1⟩ := setColor_node (.right ga gc (.node ua .red ul uk uv ur) gk gv :: rest) (a := pa) h .black
  have c1 := h1.rep
  simp only [plug_cons, plug_nil, Frame.fill_left, Frame.fill_right, Rep_plug, Rep, RepCtx,
    Tree.ptr_node, Tree.ptr_nil, ctxPtr_cons, ctxPtr_nil, Frame.addr_left, Frame.addr_right] at c1
  obtain ⟨m2, e2, h2, s2⟩ := setColor_node (.left ga gc gk gv (.node pa .black (.node a c l k v r) pk pv ps) :: rest) (a := ua) h1 .black
  have c2 := h2.rep
  simp only [plug_cons, plug_nil, Frame.fill_left, Frame.fill_right, Rep_plug, Rep, RepCtx,
    Tree.ptr_node, Tree.ptr_nil, ctxPtr_cons, ctxPtr_nil, Frame.addr_left, Frame.addr_right] at c2
  obtain ⟨m3, e3, h3, s3⟩ := setColor_node (rest) (a := ga) h2 .red
  have c3 := h3.rep
  simp only [plug_cons, plug_nil, Frame.fill_left, Frame.fill_right, Rep_plug, Rep, RepCtx,
    Tree.ptr_node, Tree.ptr_nil, ctxPtr_cons, ctxPtr_nil, Frame.addr_left, Frame.addr_right] at c3
  refine ⟨m3, ?_, h3, ((s1).trans s2).trans s3⟩
  simp [balanceAfterInsertBody, balanceAfterInsertLeft, balanceAfterInsertRight, parentOf,
    grandParentOf, leftOf, rightOf, colorOf_some, colorOf_none, getParent, getLeft, getRight, getColor, deref_some,
    c0, c1, c2, c3, e1, e2, e3, hnd, Tree.ptr_ne, Tree.ptr_ne']

theorem insertBody_rightRed_right
    (h : RepT m (plug ([.right pa pc ps pk pv, .right ga gc (.node ua .red ul uk uv ur) gk gv] ++ rest) (.node a c l k v r))) :
    ∃ m', balanceAfterInsertBody m (some a) = .ok (m', some ga) ∧
      RepT m' (plug rest (.node ga .red (.node ua .black ul uk uv ur) gk gv (.node pa .black ps pk pv (.node a c l k v r)))) ∧
      SameMeta m m' := by
  simp only [List.cons_append, List.nil_append] at h
  have hnd := h.nodup_plug
  simp only [Tree.addrs_node, List.nodup_cons, List.nodup_append, List.mem_append, List.mem_cons,
    List.disjoint_cons_left, List.disjoint_cons_right, List.disjoint_append_left, List.cons_append,
    List.disjoint_append_right, not_or, ctxAddrs_cons, ctxAddrs_nil, Tree.addrs_nil,
    Frame.addr_left, Frame.sibling_left, Frame.addr_right, Frame.sibling_right] at hnd
  have c0 := h.rep
  simp only [plug_cons, plug_nil, Frame.fill_left, Frame.fill_right, Rep_plug, Rep, RepCtx,
    Tree.ptr_node, Tree.ptr_nil, ctxPtr_cons, ctxPtr_nil, Frame.addr_left, Frame.addr_right] at c0
  obtain ⟨m1, e1, h1, s1⟩ := setColor_node (.right ga gc (.node ua .red ul uk uv ur) gk gv :: rest) (a := pa) h .black
  have c1 := h1.rep
  simp only [plug_cons, plug_nil, Frame.fill_left, Frame.fill_right, Rep_plug, Rep, RepCtx,
    Tree.ptr_node, Tree.ptr_nil, ctxPtr_cons, ctxPtr_nil, Frame.addr_left, Frame.addr_right] at c1
  obtain ⟨m2, e2, h2, s2⟩ := setColor_node (.left ga gc gk gv (.node pa .black ps pk pv (.node a c l k v r)) :: rest) (a := ua) h1 .black
  have c2 := h2.rep
  simp only [plug_cons, plug_nil, Frame.fill_left, Frame.fill_right, Rep_plug, Rep, RepCtx,
    Tree.ptr_node, Tree.ptr_nil, ctxPtr_cons, ctxPtr_nil, Frame.addr_left, Frame.addr_right] at c2
  obtain ⟨m3, e3, h3, s3⟩ := setColor_node (rest) (a := ga) h2 .red
  have c3 := h3.rep
  simp only [plug_cons, plug_nil, Frame.fill_left, Frame.fill_right, Rep_plug, Rep, RepCtx,
    Tree.ptr_node, Tree.ptr_nil, ctxPtr_cons, ctxPtr_nil, Frame.addr_left, Frame.addr_right] at c3
  refine ⟨m3, ?_, h3, ((s1).trans s2).trans s3⟩
  simp [balanceAfterInsertBody, balanceAfterInsertLeft, balanceAfterInsertRight, parentOf,
    grandParentOf, leftOf, rightOf, colorOf_some, colorOf_none, getParent, getLeft, getRight, getColor, deref_some,
    c0, c1, c2, c3, e1, e2, e3, hnd, Tree.ptr_ne, Tree.ptr_ne']

theorem insertBody_leftInner
    (h : RepT m (plug ([.right pa pc pl pk pv, .left ga gc gk gv u] ++ rest) (.node a c l k v r))) (hu : u.color ≠ Color.red) :
    ∃ m', balanceAfterInsertBody m (some a) = .ok (m', some pa) ∧
      RepT m' (plug rest (.node a .black (.node pa pc pl pk pv l) k v (.node ga .red r gk gv u))) ∧
      SameMeta m m' := by
  simp only [List.cons_append, List.nil_append] at h
  have hnd := h.nodup_plug
  simp only [Tree.addrs_node, List.nodup_cons, List.nodup_append, List.mem_append, List.mem_cons,
    List.disjoint_cons_left, List.disjoint_cons_right, List.disjoint_append_left, List.cons_append,
    List.disjoint_append_right, not_or, ctxAddrs_cons, ctxAddrs_nil, Tree.addrs_nil,
    Frame.addr_left, Frame.sibling_left, Frame.addr_right, Frame.sibling_right] at hnd
  have c0 := h.rep
  simp only [plug_cons, plug_nil, Frame.fill_left, Frame.fill_right, Rep_plug, Rep, RepCtx,
    Tree.ptr_node, Tree.ptr_nil, ctxPtr_cons, ctxPtr_nil, Frame.addr_left, Frame.addr_right] at c0
  have hu' := colorOf_tree (.right ga gc (.node pa pc pl pk pv (.node a c l k v r)) gk gv :: rest) (t := u) h
  obtain ⟨m1, e1, h1, s1⟩ := rotateLeft_spec (.left ga gc gk gv u :: rest) (x := pa) h
  have c1 := h1.rep
  simp only [plug_cons, plug_nil, Frame.fill_left, Frame.fill_right, Rep_plug, Rep, RepCtx,
    Tree.ptr_node, Tree.ptr_nil, ctxPtr_cons, ctxPtr_nil, Frame.addr_left, Frame.addr_right] at c1
  obtain ⟨m2, e2, h2, s2⟩ := setColor_node (.left ga gc gk gv u :: rest) (a := a) h1 .black
  have c2 := h2.rep
  simp only [plug_cons, plug_nil, Frame.fill_left, Frame.fill_right, Rep_plug, Rep, RepCtx,
    Tree.ptr_node, Tree.ptr_nil, ctxPtr_cons, ctxPtr_nil, Frame.addr_left, Frame.addr_right] at c2
  obtain ⟨m3, e3, h3, s3⟩ := setColor_node (rest) (a := ga) h2 .red
  have c3 := h3.rep
  simp only [plug_cons, plug_nil, Frame.fill_left, Frame.fill_right, Rep_plug, Rep, RepCtx,
    Tree.ptr_node, Tree.ptr_nil, ctxPtr_cons, ctxPtr_nil, Frame.addr_left, Frame.addr_right] at c3
  obtain ⟨m4, e4, h4, s4⟩ := rotateRight_spec (rest) (x := ga) h3
  have c4 := h4.rep
  simp only [plug_cons, plug_nil, Frame.fill_left, Frame.fill_right, Rep_plug, Rep, RepCtx,
    Tree.ptr_node, Tree.ptr_nil, ctxPtr_cons, ctxPtr_nil, Frame.addr_left, Frame.addr_right] at c4
  refine ⟨m4, ?_, h4, (((s1).trans s2).trans s3).trans s4⟩
  simp [balanceAfterInsertBody, balanceAfterInsertLeft, balanceAfterInsertRight, parentOf,
    grandParentOf, leftOf, rightOf, colorOf_some, colorOf_none, getParent, getLeft, getRight, getColor, deref_some,
    c0, c1, c2, c3, c4, e1, e2, e3, e4, hnd, Tree.ptr_ne, Tree.ptr_ne', hu', hu]

theorem insertBody_leftOuter
    (h : RepT m (plug ([.left pa pc pk pv ps, .left ga gc gk gv u] ++ rest) (.node a c l k v r))) (hu : u.color ≠ Color.red) :
    ∃ m', balanceAfterInsertBody m (some a) = .ok (m', some a) ∧
      RepT m' (plug rest (.node pa .black (.node a c l k v r) pk pv (.node ga .red ps gk gv u))) ∧
      SameMeta m m' := by
  simp only [List.cons_append, List.nil_append] at h
  have hnd := h.nodup_plug
  simp only [Tree.addrs_node, List.nodup_cons, List.nodup_append, List.mem_append, List.mem_cons,
    List.disjoint_cons_left, List.disjoint_cons_right, List.disjoint_append_left, List.cons_append,
    List.disjoint_append_right, not_or, ctxAddrs_cons, ctxAddrs_nil, Tree.addrs_nil,
    Frame.addr_left, Frame.sibling_left, Frame.addr_right, Frame.sibling_right] at hnd
  have c0 := h.rep
  simp only [plug_cons, plug_nil, Frame.fill_left, Frame.fill_right, Rep_plug, Rep, RepCtx,
    Tree.ptr_node, Tree.ptr_nil, ctxPtr_cons, ctxPtr_nil, Frame.addr_left, Frame.addr_right] at c0
  have hu' := colorOf_tree (.right ga gc (.node pa pc (.node a c l k v r) pk pv ps) gk gv :: rest) (t := u) h
  obtain ⟨m1, e1, h1, s1⟩ := setColor_node (.left ga gc gk gv u :: rest) (a := pa) h .black
  have c1 := h1.rep
  simp only [plug_cons, plug_nil, Frame.fill_left, Frame.fill_right, Rep_plug, Rep, RepCtx,
    Tree.ptr_node, Tree.ptr_nil, ctxPtr_cons, ctxPtr_nil, Frame.addr_left, Frame.addr_right] at c1
  obtain ⟨m2, e2, h2, s2⟩ := setColor_node (rest) (a := ga) h1 .red
  have c2 := h2.rep
  simp only [plug_cons, plug_nil, Frame.fill_left, Frame.fill_right, Rep_plug, Rep, RepCtx,
    Tree.ptr_node, Tree.ptr_nil, ctxPtr_cons, ctxPtr_nil, Frame.addr_left, Frame.addr_right] at c2
  obtain ⟨m3, e3, h3, s3⟩ := rotateRight_spec (rest) (x := ga) h2
  have c3 := h3.rep
  simp only [plug_cons, plug_nil, Frame.fill_left, Frame.fill_right, Rep_plug, Rep, RepCtx,
    Tree.ptr_node, Tree.ptr_nil, ctxPtr_cons, ctxPtr_nil, Frame.addr_left, Frame.addr_right] at c3
  refine ⟨m3, ?_, h3, ((s1).trans s2).trans s3⟩
  simp [balanceAfterInsertBody, balanceAfterInsertLeft, balanceAfterInsertRight, parentOf,
    grandParentOf, leftOf, rightOf, colorOf_some, colorOf_none, getParent, getLeft, getRight, getColor, deref_some,
    c0, c1, c2, c3, e1, e2, e3, hnd, Tree.ptr_ne, Tree.ptr_ne', hu', hu]

theorem insertBody_rightInner
    (h : RepT m (plug ([.left pa pc pk pv ps, .right ga gc u gk gv] ++ rest) (.node a c l k v r))) (hu : u.color ≠ Color.red) :
    ∃ m', balanceAfterInsertBody m (some a) = .ok (m', some pa) ∧
      RepT m' (plug rest (.node a .black (.node ga .red u gk gv l) k v (.node pa pc r pk pv ps))) ∧
      SameMeta m m' := by
  simp only [List.cons_append, List.nil_append] at h
  have hnd := h.nodup_plug
  simp only [Tree.addrs_node, List.nodup_cons, List.nodup_append, List.mem_append, List.mem_cons,
    List.disjoint_cons_left, List.disjoint_cons_right, List.disjoint_append_left, List.cons_append,
    List.disjoint_append_right, not_or, ctxAddrs_cons, ctxAddrs_nil, Tree.addrs_nil,
    Frame.addr_left, Frame.sibling_left, Frame.addr_right, Frame.sibling_right] at hnd
  have c0 := h.rep
  simp only [plug_cons, plug_nil, Frame.fill_left, Frame.fill_right, Rep_plug, Rep, RepCtx,
    Tree.ptr_node, Tree.ptr_nil, ctxPtr_cons, ctxPtr_nil, Frame.addr_left, Frame.addr_right] at c0
  have hu' := colorOf_tree (.left ga gc gk gv (.node pa pc (.node a c l k v r) pk pv ps) :: rest) (t := u) h
  obtain ⟨m1, e1, h1, s1⟩ := rotateRight_spec (.right ga gc u gk gv :: rest) (x := pa) h
  have c1 := h1.rep
  simp only [plug_cons, plug_nil, Frame.fill_left, Frame.fill_right, Rep_plug, Rep, RepCtx,
    Tree.ptr_node, Tree.ptr_nil, ctxPtr_cons, ctxPtr_nil, Frame.addr_left, Frame.addr_right] at c1
  obtain ⟨m2, e2, h2, s2⟩ := setColor_node (.right ga gc u gk gv :: rest) (a := a) h1 .black
  have c2 := h2.rep
  simp only [plug_cons, plug_nil, Frame.fill_left, Frame.fill_right, Rep_plug, Rep, RepCtx,
    Tree.ptr_node, Tree.ptr_nil, ctxPtr_cons, ctxPtr_nil, Frame.addr_left, Frame.addr_right] at c2
  obtain ⟨m3, e3, h3, s3⟩ := setColor_node (rest) (a := ga) h2 .red
  have c3 := h3.rep
  simp only [plug_cons, plug_nil, Frame.fill_left, Frame.fill_right, Rep_plug, Rep, RepCtx,
    Tree.ptr_node, Tree.ptr_nil, ctxPtr_cons, ctxPtr_nil, Frame.addr_left, Frame.addr_right] at c3
  obtain ⟨m4, e4, h4, s4⟩ := rotateLeft_spec (rest) (x := ga) h3
  have c4 := h4.rep
  simp only [plug_cons, plug_nil, Frame.fill_left, Frame.fill_right, Rep_plug, Rep, RepCtx,
    Tree.ptr_node, Tree.ptr_nil, ctxPtr_cons, ctxPtr_nil, Frame.addr_left, Frame.addr_right] at c4
  refine ⟨m4, ?_, h4, (((s1).trans s2).trans s3).trans s4⟩
  simp [balanceAfterInsertBody, balanceAfterInsertLeft, balanceAfterInsertRight, parentOf,
    grandParentOf, leftOf, rightOf, colorOf_some, colorOf_none, getParent, getLeft, getRight, getColor, deref_some,
    c0, c1, c2, c3, c4, e1, e2, e3, e4, hnd, Tree.ptr_ne, Tree.ptr_ne', hu', hu]

theorem insertBody_rightOuter
    (h : RepT m (plug ([.right pa pc ps pk pv, .right ga gc u gk gv] ++ rest) (.node a c l k v r))) (hu : u.color ≠ Color.red) :
    ∃ m', balanceAfterInsertBody m (some a) = .ok (m', some a) ∧
      RepT m' (plug rest (.node pa .black (.node ga .red u gk gv ps) pk pv (.node a c l k v r))) ∧
      SameMeta m m' := by
  simp only [List.cons_append, List.nil_append] at h
  have hnd := h.nodup_plug
  simp only [Tree.addrs_node, List.nodup_cons, List.nodup_append, List.mem_append, List.mem_cons,
    List.disjoint_cons_left, List.disjoint_cons_right, List.disjoint_append_left, List.cons_append,
    List.disjoint_append_right, not_or, ctxAddrs_cons, ctxAddrs_nil, Tree.addrs_nil,
    Frame.addr_left, Frame.sibling_left, Frame.addr_right, Frame.sibling_right] at hnd
  have c0 := h.rep
  simp only [plug_cons, plug_nil, Frame.fill_left, Frame.fill_right, Rep_plug, Rep, RepCtx,
    Tree.ptr_node, Tree.ptr_nil, ctxPtr_cons, ctxPtr_nil, Frame.addr_left, Frame.addr_right] at c0
  have hu' := colorOf_tree (.left ga gc gk gv (.node pa pc ps pk pv (.node a c l k v r)) :: rest) (t := u) h
  obtain ⟨m1, e1, h1, s1⟩ := setColor_node (.right ga gc u gk gv :: rest) (a := pa) h .black
  have c1 := h1.rep
  simp only [plug_cons, plug_nil, Frame.fill_left, Frame.fill_right, Rep_plug, Rep, RepCtx,
    Tree.ptr_node, Tree.ptr_nil, ctxPtr_cons, ctxPtr_nil, Frame.addr_left, Frame.addr_right] at c1
  obtain ⟨m2, e2, h2, s2⟩ := setColor_node (rest) (a := ga) h1 .red
  have c2 := h2.rep
  simp only [plug_cons, plug_nil, Frame.fill_left, Frame.fill_right, Rep_plug, Rep, RepCtx,
    Tree.ptr_node, Tree.ptr_nil, ctxPtr_cons, ctxPtr_nil, Frame.addr_left, Frame.addr_right] at c2
  obtain ⟨m3, e3, h3, s3⟩ := rotateLeft_spec (rest) (x := ga) h2
  have c3 := h3.rep
  simp only [plug_cons, plug_nil, Frame.fill_left, Frame.fill_right, Rep_plug, Rep, RepCtx,
    Tree.ptr_node, Tree.ptr_nil, ctxPtr_cons, ctxPtr_nil, Frame.addr_left, Frame.addr_right] at c3
  refine ⟨m3, ?_, h3, ((s1).trans s2).trans s3⟩
  simp [balanceAfterInsertBody, balanceAfterInsertLeft, balanceAfterInsertRight, parentOf,
    grandParentOf, leftOf, rightOf, colorOf_some, colorOf_none, getParent, getLeft, getRight, getColor, deref_some,
    c0, c1, c2, c3, e1, e2, e3, hnd, Tree.ptr_ne, Tree.ptr_ne', hu', hu]

theorem insertBody_rootInner
    (h : RepT m (plug ([.left pa pc pk pv ps]) (.node a c l k v r))) :
    ∃ m', balanceAfterInsertBody m (some a) = .ok (m', some pa) ∧
      RepT m' (plug [] (.node a .black l k v (.node pa pc r pk pv ps))) ∧
      SameMeta m m' := by
  have hnd := h.nodup_plug
  simp only [Tree.addrs_node, List.nodup_cons, List.nodup_append, List.mem_append, List.mem_cons,
    List.disjoint_cons_left, List.disjoint_cons_right, List.disjoint_append_left, List.cons_append,
    List.disjoint_append_right, not_or, ctxAddrs_cons, ctxAddrs_nil, Tree.addrs_nil,
    Frame.addr_left, Frame.sibling_left, Frame.addr_right, Frame.sibling_right] at hnd
  have c0 := h.rep
  simp only [plug_cons, plug_nil, Frame.fill_left, Frame.fill_right, Rep_plug, Rep, RepCtx,
    Tree.ptr_node, Tree.ptr_nil, ctxPtr_cons, ctxPtr_nil, Frame.addr_left, Frame.addr_right] at c0
  obtain ⟨m1, e1, h1, s1⟩ := rotateRight_spec ([]) (x := pa) h
  have c1 := h1.rep
  simp only [plug_cons, plug_nil, Frame.fill_left, Frame.fill_right, Rep_plug, Rep, RepCtx,
    Tree.ptr_node, Tree.ptr_nil, ctxPtr_cons, ctxPtr_nil, Frame.addr_left, Frame.addr_right] at c1
  obtain ⟨m2, e2, h2, s2⟩ := setColor_node ([]) (a := a) h1 .black
  have c2 := h2.rep
  simp only [plug_cons, plug_nil, Frame.fill_left, Frame.fill_right, Rep_plug, Rep, RepCtx,
    Tree.ptr_node, Tree.ptr_nil, ctxPtr_cons, ctxPtr_nil, Frame.addr_left, Frame.addr_right] at c2
  refine ⟨m2, ?_, h2, (s1).trans s2⟩
  simp [balanceAfterInsertBody, balanceAfterInsertLeft, balanceAfterInsertRight, parentOf,
    grandParentOf, leftOf, rightOf, colorOf_some, colorOf_none, getParent, getLeft, getRight, getColor, deref_some,
    c0, c1, c2, e1, e2, hnd, Tree.ptr_ne, Tree.ptr_ne']

theorem insertBody_rootOuter
    (h : RepT m (plug ([.right pa pc ps pk pv]) (.node a c l k v r))) :
    ∃ m', balanceAfterInsertBody m (some a) = .ok (m', some a) ∧
      RepT m' (plug [] (.node pa .black ps pk pv (.node a c l k v r))) ∧
      SameMeta m m' := by
  have hnd := h.nodup_plug
  simp only [Tree.addrs_node, List.nodup_cons, List.nodup_append, List.mem_append, List.mem_cons,
    List.disjoint_cons_left, List.disjoint_cons_right, List.disjoint_append_left, List.cons_append,
    List.disjoint_append_right, not_or, ctxAddrs_cons, ctxAddrs_nil, Tree.addrs_nil,
    Frame.addr_left, Frame.sibling_left, Frame.addr_right, Frame.sibling_right] at hnd
  have c0 := h.rep
  simp only [plug_cons, plug_nil, Frame.fill_left, Frame.fill_right, Rep_plug, Rep, RepCtx,
    Tree.ptr_node, Tree.ptr_nil, ctxPtr_cons, ctxPtr_nil, Frame.addr_left, Frame.addr_right] at c0
  obtain ⟨m1, e1, h1, s1⟩ := setColor_node ([]) (a := pa) h .black
  have c1 := h1.rep
  simp only [plug_cons, plug_nil, Frame.fill_left, Frame.fill_right, Rep_plug, Rep, RepCtx,
    Tree.ptr_node, Tree.ptr_nil, ctxPtr_cons, ctxPtr_nil, Frame.addr_left, Frame.addr_right] at c1
  refine ⟨m1, ?_, h1, s1⟩
  simp [balanceAfterInsertBody, balanceAfterInsertLeft, balanceAfterInsertRight, parentOf,
    grandParentOf, leftOf, rightOf, colorOf_some, colorOf_none, getParent, getLeft, getRight, getColor, deref_some,
    c0, c1, e1, hnd, Tree.ptr_ne, Tree.ptr_ne']

end InsertFixCases

end collections

namespace collections

/-! ## The loop of `balanceAfterInsert` -/

section InsertFixLoop

variable {K V : Type}

theorem ctxRoot_cons_mem (f : Frame K V) (ctx : List (Frame K V)) (q : Option Nat) :
    ∃ b, ctxRoot (f :: ctx) q = some b ∧ b ∈ ctxAddrs (f :: ctx) := by
  induction ctx generalizing f q with
  | nil => exact ⟨f.addr, rfl, by simp⟩
  | cons g ctx ih =>
    obtain ⟨b, hb, hmem⟩ := ih g (some f.addr)
    refine ⟨b, by simpa using hb, ?_⟩
    rw [ctxAddrs_cons]
    exact List.mem_cons_of_mem _ (List.mem_append_right _ hmem)

theorem RepT.root_ne_focus {m : TreeMap K V} {f : Frame K V} {ctx : List (Frame K V)} {a : Nat}
    {c : Color} {l r : Tree K V} {k : K} {v : V}
    (h : RepT m (plug (f :: ctx) (.node a c l k v r))) : m.root ≠ some a := by
  obtain ⟨b, hb, hmem⟩ := ctxRoot_cons_mem f ctx (some a)
  have hnd := h.nodup_plug
  rw [h.root_plug, Tree.ptr_node, hb]
  intro e
  cases e
  simp only [Tree.addrs_node, List.cons_append, List.nodup_cons, List.mem_append, not_or] at hnd
  exact hnd.1.2 hmem

theorem RepT.root_focus_nil {m : TreeMap K V} {t : Tree K V}
    (h : RepT m (plug [] t)) : m.root = t.ptr := h.root

theorem balanceAfterInsertCond_spec {m : TreeMap K V} {ctx : List (Frame K V)} {t : Tree K V}
    (h : RepT m (plug ctx t)) :
    balanceAfterInsertCond m t.ptr = .ok (insertFixCond (ctx, t)) := by
  cases t with
  | nil => simp [balanceAfterInsertCond, insertFixCond]
  | node a c l k v r =>
    cases ctx with
    | nil => simp [balanceAfterInsertCond, insertFixCond, h.root_focus_nil]
    | cons p rest =>
      have hr := h.root_ne_focus
      have c0 := h.rep
      cases p <;>
      · simp only [plug_cons, plug_nil, Frame.fill_left, Frame.fill_right, Rep_plug, Rep, RepCtx,
          Tree.ptr_node, Tree.ptr_nil, ctxPtr_cons, ctxPtr_nil, Frame.addr_left,
          Frame.addr_right] at c0
        simp [balanceAfterInsertCond, insertFixCond, Ne.symm hr, getParent, getColor, deref_some, c0]

theorem balanceAfterInsertBody_spec {m : TreeMap K V} {ctx : List (Frame K V)} {t : Tree K V}
    (h : RepT m (plug ctx t)) (hc : insertFixCond (ctx, t) = true) :
    ∃ ctx' t' m', InsertFixStep (ctx, t) (ctx', t') ∧
      balanceAfterInsertBody m t.ptr = .ok (m', t'.ptr) ∧ RepT m' (plug ctx' t') ∧
      SameMeta m m' := by
  cases t with
  | nil => simp [insertFixCond] at hc
  | node a c l k v r =>
    cases ctx with
    | nil => simp [insertFixCond] at hc
    | cons p rest =>
      cases rest with
      | nil =>
        cases p with
        | left pa pc pk pv ps =>
          obtain ⟨m', e, h', s⟩ := insertBody_rootInner h
          exact ⟨_, _, m', .rootInner pa pc pk pv ps a c l k v r, e, h', s⟩
        | right pa pc pl pk pv =>
          obtain ⟨m', e, h', s⟩ := insertBody_rootOuter h
          exact ⟨_, _, m', .rootOuter pa pc pl pk pv _, e, h', s⟩
      | cons g rest =>
        cases g with
        | left ga gc gk gv u =>
          by_cases hu : u.color = Color.red
          · cases u with
            | nil => simp at hu
            | node ua uc ul uk uv ur =>
              simp only [Tree.color_node] at hu
              subst hu
              cases p with
              | left pa pc pk pv ps =>
                obtain ⟨m', e, h', s⟩ := insertBody_leftRed_left h
                exact ⟨_, _, m', .leftRed _ ga gc gk gv ua ul uk uv ur rest _, e, h', s⟩
              | right pa pc pl pk pv =>
                obtain ⟨m', e, h', s⟩ := insertBody_leftRed_right h
                exact ⟨_, _, m', .leftRed _ ga gc gk gv ua ul uk uv ur rest _, e, h', s⟩
          · cases p with
            | left pa pc pk pv ps =>
              obtain ⟨m', e, h', s⟩ := insertBody_leftOuter h hu
              exact ⟨_, _, m', .leftOuter pa pc pk pv ps ga gc gk gv u rest _ hu, e, h', s⟩
            | right pa pc pl pk pv =>
              obtain ⟨m', e, h', s⟩ := insertBody_leftInner h hu
              exact ⟨_, _, m', .leftInner pa pc pl pk pv ga gc gk gv u rest a c l k v r hu, e, h', s⟩
        | right ga gc u gk gv =>
          by_cases hu : u.color = Color.red
          · cases u with
            | nil => simp at hu
            | node ua uc ul uk uv ur =>
              simp only [Tree.color_node] at hu
              subst hu
              cases p with
              | left pa pc pk pv ps =>
                obtain ⟨m', e, h', s⟩ := insertBody_rightRed_left h
                exact ⟨_, _, m', .rightRed _ ga gc ua ul uk uv ur gk gv rest _, e, h', s⟩
              | right pa pc pl pk pv =>
                obtain ⟨m', e, h', s⟩ := insertBody_rightRed_right h
                exact ⟨_, _, m', .rightRed _ ga gc ua ul uk uv ur gk gv rest _, e, h', s⟩
          · cases p with
            | left pa pc pk pv ps =>
              obtain ⟨m', e, h', s⟩ := insertBody_rightInner h hu
              exact ⟨_, _, m', .rightInner pa pc pk pv ps ga gc u gk gv rest a c l k v r hu, e, h', s⟩
            | right pa pc pl pk pv =>
              obtain ⟨m', e, h', s⟩ := insertBody_rightOuter h hu
              exact ⟨_, _, m', .rightOuter pa pc pl pk pv ga gc u gk gv rest _ hu, e, h', s⟩

theorem insertFixCond_nil (t : Tree K V) : insertFixCond ([], t) = false := by
  cases t <;> rfl

theorem insertFixCond_cons (p : Frame K V) (ctx : List (Frame K V)) (t : Tree K V) :
    insertFixCond (p :: ctx, t) = (t.ptr.isSome && decide (p.color = Color.red)) := by
  cases t <;> simp [insertFixCond]

theorem InsertFixStep.insert_measure_lt {z z' : List (Frame K V) × Tree K V} (hs : InsertFixStep z z')
    (hc : insertFixCond z = true) : insertFixMeasure z' < insertFixMeasure z := by
  have hz : insertFixMeasure z = z.1.length := by simp [insertFixMeasure, hc]
  rw [hz]
  cases hs with
  | leftRed | rightRed =>
    simp only [insertFixMeasure, List.length_cons]
    split <;> omega
  | leftInner | leftOuter | rightInner | rightOuter | rootInner | rootOuter =>
    simp [insertFixMeasure, insertFixCond_cons]

theorem balanceAfterInsertLoop_iter (fuel : Nat) :
    ∀ (m : TreeMap K V) (ctx : List (Frame K V)) (t : Tree K V), RepT m (plug ctx t) →
      insertFixMeasure (ctx, t) ≤ fuel →
      ∃ ctx' t' m', balanceAfterInsertLoop fuel m t.ptr = .ok m' ∧ RepT m' (plug ctx' t') ∧
        Relation.ReflTransGen InsertFixIter (ctx, t) (ctx', t') ∧
        insertFixCond (ctx', t') = false ∧ SameMeta m m' := by
  induction fuel with
  | zero =>
    intro m ctx t h hfuel
    have hc : insertFixCond (ctx, t) = false := by
      cases hcond : insertFixCond (ctx, t) with
      | false => rfl
      | true =>
        cases t with
        | nil => simp [insertFixCond] at hcond
        | node a c l k v r =>
          cases ctx with
          | nil => simp [insertFixCond] at hcond
          | cons p rest => simp [insertFixMeasure, hcond] at hfuel
    refine ⟨ctx, t, m, ?_, h, .refl, hc, SameMeta.refl m⟩
    simp [balanceAfterInsertLoop, balanceAfterInsertCond_spec h, hc]
  | succ fuel ih =>
    intro m ctx t h hfuel
    cases hc : insertFixCond (ctx, t) with
    | false =>
      refine ⟨ctx, t, m, ?_, h, .refl, hc, SameMeta.refl m⟩
      simp [balanceAfterInsertLoop, balanceAfterInsertCond_spec h, hc]
    | true =>
      obtain ⟨ctx₁, t₁, m₁, hstep, hbody, h₁, s₁⟩ := balanceAfterInsertBody_spec h hc
      have hlt := hstep.insert_measure_lt hc
      obtain ⟨ctx', t', m', hloop, h', hsteps, hc', s'⟩ := ih m₁ ctx₁ t₁ h₁ (by omega)
      refine ⟨ctx', t', m', ?_, h', .head ⟨hc, hstep⟩ hsteps, hc', s₁.trans s'⟩
      simp [balanceAfterInsertLoop, balanceAfterInsertCond_spec h, hc, hbody, hloop]

theorem balanceAfterInsertLoop_spec (fuel : Nat) :
    ∀ (m : TreeMap K V) (ctx : List (Frame K V)) (t : Tree K V), RepT m (plug ctx t) →
      insertFixMeasure (ctx, t) ≤ fuel →
      ∃ ctx' t' m', balanceAfterInsertLoop fuel m t.ptr = .ok m' ∧ RepT m' (plug ctx' t') ∧
        Relation.ReflTransGen InsertFixStep (ctx, t) (ctx', t') ∧
        insertFixCond (ctx', t') = false ∧ SameMeta m m' := by
  intro m ctx t h hfuel
  obtain ⟨ctx', t', m', e, h', hs, hc, s⟩ := balanceAfterInsertLoop_iter fuel m ctx t h hfuel
  exact ⟨ctx', t', m', e, h', hs.mono (fun _ _ hi => hi.2), hc, s⟩

end InsertFixLoop

end collections

namespace collections

/-! ## Insertion: descent, attachment and fix-up -/

section Put

variable {K V : Type}

theorem Frame.paint_fill_toList (f : Frame K V) (c : Color) (t : Tree K V) :
    ((f.paint c).fill t).toList = (f.fill t).toList := by
  cases f <;> rfl

theorem InsertFixStep.insert_toList_eq {z z' : List (Frame K V) × Tree K V} (hs : InsertFixStep z z') :
    (plug z'.1 z'.2).toList = (plug z.1 z.2).toList := by
  cases hs <;>
    simp [plug_toList, ctxBefore, ctxAfter, Frame.paint_fill_toList]

theorem InsertFixSteps.insert_steps_toList_eq {z z' : List (Frame K V) × Tree K V}
    (hs : Relation.ReflTransGen InsertFixStep z z') :
    (plug z'.1 z'.2).toList = (plug z.1 z.2).toList := by
  induction hs with
  | refl => rfl
  | tail _ hstep ih => rw [hstep.insert_toList_eq, ih]

theorem cell_alloc (m : TreeMap K V) (n : TreeMapEntry K V) (b : Nat) :
    (alloc m n).1.cell b = if b = m.heap.length then some n else m.cell b := by
  unfold alloc TreeMap.cell
  simp only [List.getD_eq_getElem?_getD, List.getElem?_append]
  by_cases hb : b < m.heap.length
  · simp [hb, Nat.ne_of_lt hb]
  · by_cases he : b = m.heap.length
    · subst he; simp
    · have : m.heap.length < b := by omega
      simp [hb, he, List.getElem?_eq_none (Nat.le_of_lt this)]
      rw [List.getElem?_eq_none]
      · rfl
      · simp; omega

@[simp] theorem alloc_snd (m : TreeMap K V) (n : TreeMapEntry K V) :
    (alloc m n).2 = m.heap.length := rfl

@[simp] theorem alloc_root (m : TreeMap K V) (n : TreeMapEntry K V) :
    (alloc m n).1.root = m.root := rfl

@[simp] theorem alloc_length (m : TreeMap K V) (n : TreeMapEntry K V) :
    (alloc m n).1.length = m.length := rfl

@[simp] theorem alloc_comparator (m : TreeMap K V) (n : TreeMapEntry K V) :
    (alloc m n).1.comparator = m.comparator := rfl

@[simp] theorem alloc_heap_length (m : TreeMap K V) (n : TreeMapEntry K V) :
    (alloc m n).1.heap.length = m.heap.length + 1 := by
  simp [alloc]

theorem Rep.alloc {m : TreeMap K V} {par : Option Nat} {t : Tree K V} (n : TreeMapEntry K V)
    (h : Rep m par t) : Rep (alloc m n).1 par t :=
  Rep.congr (fun a ha => by
    rw [cell_alloc, if_neg (Nat.ne_of_lt (h.addr_lt a ha))]) h

theorem RepCtx.ctx_addr_lt {m : TreeMap K V} {ctx : List (Frame K V)} {p : Option Nat}
    (h : RepCtx m ctx p) : ∀ a ∈ ctxAddrs ctx, a < m.heap.length := by
  induction ctx generalizing p with
  | nil => intro a ha; cases ha
  | cons f ctx ih =>
    intro a ha
    cases f with
    | left b c k v r =>
      obtain ⟨h1, h2, h3⟩ := h
      simp only [ctxAddrs_cons, Frame.addr_left, Frame.sibling_left, List.mem_cons,
        List.mem_append] at ha
      rcases ha with rfl | ha | ha
      · exact cell_lt h1
      · exact h2.addr_lt a ha
      · exact ih h3 a ha
    | right b c l k v =>
      obtain ⟨h1, h2, h3⟩ := h
      simp only [ctxAddrs_cons, Frame.addr_right, Frame.sibling_right, List.mem_cons,
        List.mem_append] at ha
      rcases ha with rfl | ha | ha
      · exact cell_lt h1
      · exact h2.addr_lt a ha
      · exact ih h3 a ha

theorem RepCtx.ctx_alloc {m : TreeMap K V} {ctx : List (Frame K V)} {p : Option Nat}
    (n : TreeMapEntry K V) (h : RepCtx m ctx p) : RepCtx (alloc m n).1 ctx p :=
  RepCtx.ctx_congr (fun a ha => by
    rw [cell_alloc, if_neg (Nat.ne_of_lt (h.ctx_addr_lt a ha))]) h

theorem RepT.tree_addr_lt {m : TreeMap K V} {T : Tree K V} (h : RepT m T) :
    ∀ a ∈ T.addrs, a < m.heap.length := h.rep.addr_lt

theorem RepT.size_le {m : TreeMap K V} {T : Tree K V} (h : RepT m T) :
    T.size ≤ m.heap.length := by
  have hsub : T.addrs ⊆ List.range m.heap.length := fun a ha =>
    List.mem_range.2 (h.tree_addr_lt a ha)
  have := (List.subperm_of_subset h.nodup hsub).length_le
  have hlen : T.addrs.length = T.size := by
    rw [← (Tree.map_fst_toList T).length_eq, List.length_map, Tree.length_toList]
  simpa [hlen] using this

theorem attach_left {m : TreeMap K V} {ctx : List (Frame K V)} {pa : Nat} {pc : Color} {pk : K}
    {pv : V} {ps : Tree K V} (h : RepT m (plug (.left pa pc pk pv ps :: ctx) .nil)) (key : K) (val : V) :
    ∃ m', setLeft (alloc m (TreeMapEntry.new key val (some pa))).1 (some pa)
        (some m.heap.length) = .ok m' ∧
      RepT m' (plug (.left pa pc pk pv ps :: ctx) (.node m.heap.length .black .nil key val .nil)) ∧
      m'.length = m.length ∧ m'.comparator = m.comparator ∧
      m'.heap.length = m.heap.length + 1 := by
  have hctx := h.ctx
  have hnd := h.nodup_plug
  have hlt := hctx.ctx_addr_lt
  simp only [RepCtx, Tree.ptr_nil] at hctx
  obtain ⟨hp, hps, hrest⟩ := hctx
  have hpl := cell_lt hp
  simp only [Tree.addrs_nil, List.nil_append, ctxAddrs_cons, Frame.addr_left, Frame.addr_right,
    Frame.sibling_left, Frame.sibling_right, List.nodup_cons, List.mem_append, not_or] at hnd
  have hfresh : m.heap.length ∉ ctxAddrs (.left pa pc pk pv ps :: ctx) := fun hmem =>
    Nat.lt_irrefl _ (hlt _ hmem)
  simp only [ctxAddrs_cons, Frame.addr_left, Frame.addr_right, Frame.sibling_left,
    Frame.sibling_right, List.mem_cons, List.mem_append, not_or] at hfresh
  have e : setLeft (alloc m (TreeMapEntry.new key val (some pa))).1 (some pa)
      (some m.heap.length) = .ok ((alloc m (TreeMapEntry.new key val (some pa))).1.store pa
        { key := pk, value := pv, parent := ctxPtr ctx, left := some m.heap.length, right := ps.ptr,
          color := pc }) := by
    simp [setLeft, modify_some, cell_alloc, hp, Nat.ne_of_lt hpl]
  refine ⟨_, e, RepT.of_plug ?_ ?_ ?_ ?_, ?_, ?_, ?_⟩
  · simpa using h.root_plug
  · simp only [RepCtx, Tree.ptr_node]
    refine ⟨?_, Rep.store _ hnd.1.1 (hps.alloc _), RepCtx.ctx_store _ hnd.1.2 (hrest.ctx_alloc _)⟩
    rw [cell_store_self _ (by simp; omega)]
  · simp only [Rep, ctxPtr_cons, Frame.addr_left, Frame.addr_right, Tree.ptr_nil, and_true]
    rw [cell_store_ne _ (Ne.symm (Nat.ne_of_lt hpl)), cell_alloc, if_pos rfl]
    rfl
  · simp only [Tree.addrs_node, Tree.addrs_nil, List.append_nil, List.cons_append, List.nil_append,
      List.nodup_cons, ctxAddrs_cons, Frame.addr_left, Frame.addr_right, Frame.sibling_left,
      Frame.sibling_right, List.mem_cons, List.mem_append, not_or]
    exact ⟨hfresh, hnd⟩
  · simp
  · simp
  · simp

theorem attach_right {m : TreeMap K V} {ctx : List (Frame K V)} {pa : Nat} {pc : Color} {pk : K}
    {pv : V} {ps : Tree K V} (h : RepT m (plug (.right pa pc ps pk pv :: ctx) .nil)) (key : K) (val : V) :
    ∃ m', setRight (alloc m (TreeMapEntry.new key val (some pa))).1 (some pa)
        (some m.heap.length) = .ok m' ∧
      RepT m' (plug (.right pa pc ps pk pv :: ctx) (.node m.heap.length .black .nil key val .nil)) ∧
      m'.length = m.length ∧ m'.comparator = m.comparator ∧
      m'.heap.length = m.heap.length + 1 := by
  have hctx := h.ctx
  have hnd := h.nodup_plug
  have hlt := hctx.ctx_addr_lt
  simp only [RepCtx, Tree.ptr_nil] at hctx
  obtain ⟨hp, hps, hrest⟩ := hctx
  have hpl := cell_lt hp
  simp only [Tree.addrs_nil, List.nil_append, ctxAddrs_cons, Frame.addr_left, Frame.addr_right,
    Frame.sibling_left, Frame.sibling_right, List.nodup_cons, List.mem_append, not_or] at hnd
  have hfresh : m.heap.length ∉ ctxAddrs (.right pa pc ps pk pv :: ctx) := fun hmem =>
    Nat.lt_irrefl _ (hlt _ hmem)
  simp only [ctxAddrs_cons, Frame.addr_left, Frame.addr_right, Frame.sibling_left,
    Frame.sibling_right, List.mem_cons, List.mem_append, not_or] at hfresh
  have e : setRight (alloc m (TreeMapEntry.new key val (some pa))).1 (some pa)
      (some m.heap.length) = .ok ((alloc m (TreeMapEntry.new key val (some pa))).1.store pa
        { key := pk, value := pv, parent := ctxPtr ctx, left := ps.ptr, right := some m.heap.length,
          color := pc }) := by
    simp [setRight, modify_some, cell_alloc, hp, Nat.ne_of_lt hpl]
  refine ⟨_, e, RepT.of_plug ?_ ?_ ?_ ?_, ?_, ?_, ?_⟩
  · simpa using h.root_plug
  · simp only [RepCtx, Tree.ptr_node]
    refine ⟨?_, Rep.store _ hnd.1.1 (hps.alloc _), RepCtx.ctx_store _ hnd.1.2 (hrest.ctx_alloc _)⟩
    rw [cell_store_self _ (by simp; omega)]
  · simp only [Rep, ctxPtr_cons, Frame.addr_left, Frame.addr_right, Tree.ptr_nil, and_true]
    rw [cell_store_ne _ (Ne.symm (Nat.ne_of_lt hpl)), cell_alloc, if_pos rfl]
    rfl
  · simp only [Tree.addrs_node, Tree.addrs_nil, List.append_nil, List.cons_append, List.nil_append,
      List.nodup_cons, ctxAddrs_cons, Frame.addr_left, Frame.addr_right, Frame.sibling_left,
      Frame.sibling_right, List.mem_cons, List.mem_append, not_or]
    exact ⟨hfresh, hnd⟩
  · simp
  · simp
  · simp

theorem Tree.height_le_size (t : Tree K V) : t.height ≤ t.size := by
  induction t with
  | nil => simp
  | node a c l k v r ihl ihr => simp only [Tree.height_node, Tree.size_node]; omega

theorem plug_length_le_size (ctx : List (Frame K V)) (t : Tree K V) :
    ctx.length + t.size ≤ (plug ctx t).size := by
  induction ctx generalizing t with
  | nil => simp
  | cons f ctx ih =>
    have := ih (f.fill t)
    cases f <;> simp only [plug_cons, Frame.fill_left, Frame.fill_right, Tree.size_node,
      List.length_cons] at this ⊢ <;> omega

theorem Rep.cell_of_mem {m : TreeMap K V} {par : Option Nat} {t : Tree K V} (h : Rep m par t)
    {a : Nat} {k : K} {v : V} (hmem : (a, k, v) ∈ t.toList) :
    ∃ n, m.cell a = some n ∧ n.key = k ∧ n.value = v := by
  induction t generalizing par with
  | nil => cases hmem
  | node b c l kb vb r ihl ihr =>
    obtain ⟨h1, h2, h3⟩ := h
    simp only [Tree.toList_node, List.mem_append, List.mem_cons, Prod.mk.injEq] at hmem
    rcases hmem with hmem | ⟨rfl, rfl, rfl⟩ | hmem
    · exact ihl h2 hmem
    · exact ⟨_, h1, rfl, rfl⟩
    · exact ihr h3 hmem

theorem RepT.setLength {m : TreeMap K V} {T : Tree K V} (h : RepT m T) (n : Int) :
    RepT (m.setLength n) T :=
  ⟨h.root, (Rep_setLength n).2 h.rep, h.nodup⟩

theorem RepT.getValue_of_mem {m : TreeMap K V} {T : Tree K V} (h : RepT m T)
    {a : Nat} {k : K} {v : V} (hmem : (a, k, v) ∈ T.toList) : getValue m (some a) = .ok v := by
  obtain ⟨n, hn, _, hv⟩ := h.rep.cell_of_mem hmem
  simp [getValue, deref_some, hn, hv]

end Put

end collections

namespace collections

/-! ## The descent of `put` -/

section PutLoop

variable {K V : Type} [DecidableEq K] [LT K] [DecidableRel (fun a b : K => a < b)]

omit [DecidableEq K] [LT K] [DecidableRel (fun a b : K => a < b)] in
theorem SearchPath.nil (cmp : K → K → Int) (key : K) :
    SearchPath cmp key ([] : List (Frame K V)) := fun _ h => by cases h

omit [DecidableEq K] [LT K] [DecidableRel (fun a b : K => a < b)] in
theorem SearchPath.cons {cmp : K → K → Int} {key : K} {f : Frame K V} {ctx : List (Frame K V)}
    (hf : f.onPath cmp key) (h : SearchPath cmp key ctx) : SearchPath cmp key (f :: ctx) := by
  intro g hg
  rcases List.mem_cons.1 hg with rfl | hg
  · exact hf
  · exact h g hg

theorem putLoop_spec (key : K) (val : V) (m : TreeMap K V) :
    ∀ (t : Tree K V) (ctx : List (Frame K V)) (fuel : Nat), RepT m (plug ctx t) →
      t.ptr ≠ none → t.height ≤ fuel → SearchPath m.compare key ctx →
      (∃ ctx' a c l k v r m', plug ctx' (.node a c l k v r) = plug ctx t ∧
          m.compare key k = 0 ∧ SearchPath m.compare key ctx' ∧
          putLoop m key val fuel t.ptr = .ok (.inl (v, m')) ∧
          RepT m' (plug ctx' (.node a c l k val r)) ∧ SameMeta m m') ∨
      (∃ ctx' f, plug (f :: ctx') .nil = plug ctx t ∧ SearchPath m.compare key (f :: ctx') ∧
          putLoop m key val fuel t.ptr = .ok (.inr (some f.addr, m.compare key f.key))) := by
  intro t
  induction t with
  | nil => intro ctx fuel _ hne; simp at hne
  | node a c l k v r ihl ihr =>
    intro ctx fuel h _ hfuel hpath
    cases fuel with
    | zero => simp at hfuel
    | succ fuel =>
      have hc := h.cell_focus
      simp only [Tree.height_node, Nat.add_le_add_iff_right, max_le_iff] at hfuel
      by_cases hlt : m.compare key k < 0
      · cases l with
        | nil =>
          refine Or.inr ⟨ctx, .left a c k v r, rfl, hpath.cons hlt, ?_⟩
          simp [putLoop, getKey, getLeft, deref_some, hc, hlt]
        | node la lc ll lk lv lr =>
          have ih := ihl (.left a c k v r :: ctx) fuel h (by simp) hfuel.1 (hpath.cons hlt)
          rcases ih with ⟨ctx', a', c', l', k', v', r', m', e, h0, hp, hput, h', s⟩ | ⟨ctx', f, e, hp, hput⟩
          · refine Or.inl ⟨ctx', a', c', l', k', v', r', m', e, h0, hp, ?_, h', s⟩
            simpa [putLoop, getKey, getLeft, deref_some, hc, hlt] using hput
          · refine Or.inr ⟨ctx', f, e, hp, ?_⟩
            simpa [putLoop, getKey, getLeft, deref_some, hc, hlt] using hput
      · by_cases hgt : 0 < m.compare key k
        · cases r with
          | nil =>
            refine Or.inr ⟨ctx, .right a c l k v, rfl, hpath.cons hgt, ?_⟩
            simp [putLoop, getKey, getRight, deref_some, hc, hlt, hgt]
          | node ra rc rl rk rv rr =>
            have ih := ihr (.right a c l k v :: ctx) fuel h (by simp) hfuel.2 (hpath.cons hgt)
            rcases ih with ⟨ctx', a', c', l', k', v', r', m', e, h0, hp, hput, h', s⟩ | ⟨ctx', f, e, hp, hput⟩
            · refine Or.inl ⟨ctx', a', c', l', k', v', r', m', e, h0, hp, ?_, h', s⟩
              simpa [putLoop, getKey, getRight, deref_some, hc, hlt, hgt] using hput
            · refine Or.inr ⟨ctx', f, e, hp, ?_⟩
              simpa [putLoop, getKey, getRight, deref_some, hc, hlt, hgt] using hput
        · obtain ⟨m', e, h', s⟩ := setValue_node h val
          refine Or.inl ⟨ctx, a, c, l, k, v, r, m', rfl, by omega, hpath, ?_, h', s⟩
          simp [putLoop, getKey, getValue, deref_some, hc, hlt, hgt, e]

omit [DecidableEq K] [LT K] [DecidableRel (fun a b : K => a < b)] in
theorem balanceAfterInsert_spec {m : TreeMap K V} {ctx : List (Frame K V)} {a : Nat} {c : Color}
    {l r : Tree K V} {k : K} {v : V} (h : RepT m (plug ctx (.node a c l k v r))) :
    ∃ ctx' t' m', balanceAfterInsert m (some a) = .ok m' ∧ RepT m' (plug ctx' t') ∧
      Relation.ReflTransGen InsertFixStep (ctx, .node a .red l k v r) (ctx', t') ∧
      insertFixCond (ctx', t') = false ∧ SameMeta m m' := by
  obtain ⟨m₁, e₁, h₁, s₁⟩ := entrySetColor_node h .red
  have hfuel : insertFixMeasure (ctx, Tree.node a Color.red l k v r) ≤ m₁.heap.length := by
    have h1 := plug_length_le_size ctx (Tree.node a Color.red l k v r)
    have h2 := h₁.size_le
    have h3 : insertFixMeasure (ctx, Tree.node a Color.red l k v r) ≤ ctx.length := by
      unfold insertFixMeasure; split <;> simp
    omega
  obtain ⟨ctx', t', m', e, h', hs, hc, s⟩ :=
    balanceAfterInsertLoop_spec m₁.heap.length m₁ ctx _ h₁ hfuel
  refine ⟨ctx', t', m', ?_, h', hs, hc, s₁.trans s⟩
  simp only [Tree.ptr_node] at e
  simp [balanceAfterInsert, e₁, e]

theorem put_spec {m : TreeMap K V} {T : Tree K V} (h : RepT m T) (key : K) (val : V) :
    (∃ ctx a c l k v r m', T = plug ctx (.node a c l k v r) ∧ m.compare key k = 0 ∧
        SearchPath m.compare key ctx ∧ m.put key val = .ok (v, m') ∧
        RepT m' (plug ctx (.node a c l k val r)) ∧ SameMeta m m') ∨
    (∃ ctx a T' m', T = plug ctx .nil ∧ SearchPath m.compare key ctx ∧
        m.put key val = .ok (val, m') ∧ RepT m' T' ∧
        T'.toList = ctxBefore ctx ++ (a, key, val) :: ctxAfter ctx ∧
        m'.comparator = m.comparator ∧
        m'.length = (if T.ptr = none then 1 else m.length + 1)) := by
  cases T with
  | nil =>
    have hroot : m.root = none := h.root
    refine Or.inr ⟨[], m.heap.length, .node m.heap.length .black .nil key val .nil,
      ((alloc m (TreeMapEntry.new key val none)).1.setRoot (some m.heap.length)).setLength 1,
      rfl, SearchPath.nil _ _, ?_, ⟨?_, ?_, ?_⟩, ?_, ?_, ?_⟩
    · simp [TreeMap.put, hroot, getValue, deref_some, cell_alloc, TreeMapEntry.new]
    · simp
    · simp [Rep, cell_alloc, TreeMapEntry.new]
    · simp
    · simp [ctxBefore, ctxAfter]
    · simp
    · simp
  | node a0 c0 l0 k0 v0 r0 =>
    have hroot : m.root = some a0 := h.root
    have hfuel : (Tree.node a0 c0 l0 k0 v0 r0).height ≤ m.heap.length :=
      (Tree.height_le_size _).trans h.size_le
    rcases putLoop_spec key val m _ [] m.heap.length h (by simp) hfuel (SearchPath.nil _ _) with
      ⟨ctx', a', c', l', k', v', r', m', e, h0, hp, hput, h', s⟩ | ⟨ctx', f, e, hp, hput⟩
    · refine Or.inl ⟨ctx', a', c', l', k', v', r', m', e.symm, h0, hp, ?_, h', s⟩
      simp only [Tree.ptr_node] at hput
      simp [TreeMap.put, hroot, hput]
    · simp only [plug_nil] at e
      rw [← e] at h
      simp only [Tree.ptr_node] at hput
      cases f with
      | left pa pc pk pv ps =>
        have hcmp : m.compare key pk < 0 := hp _ (List.mem_cons_self _ _)
        obtain ⟨m₁, e₁, h₁, hl₁, hc₁, hh₁⟩ := attach_left h key val
        have h₂ := h₁.setLength (m₁.length + 1)
        obtain ⟨ctx₃, t₃, m₃, e₃, h₃, hs, _, s₃⟩ := balanceAfterInsert_spec h₂
        have hl := InsertFixSteps.insert_steps_toList_eq hs
        simp only [plug_toList, Tree.toList_node, Tree.toList_nil, List.nil_append,
          List.append_assoc, List.cons_append] at hl
        have hmem : (m.heap.length, key, val) ∈ (plug ctx₃ t₃).toList := by
          rw [plug_toList]; simp [hl]
        refine Or.inr ⟨.left pa pc pk pv ps :: ctx', m.heap.length, plug ctx₃ t₃, m₃, e.symm, hp, ?_, h₃, ?_, ?_,
          ?_⟩
        · simp only [Frame.addr_left, Frame.addr_right, Frame.key_left, Frame.key_right] at hput
          simp [TreeMap.put, hroot, hput, hcmp, e₁, e₃, h₃.getValue_of_mem hmem]
        · rw [plug_toList]; simp [hl]
        · rw [s₃.comparator]; simp [hc₁]
        · rw [s₃.length]; simp [hl₁, plug_ptr]
      | right pa pc ps pk pv =>
        have hcmp : 0 < m.compare key pk := hp _ (List.mem_cons_self _ _)
        have hcmp' : ¬ m.compare key pk < 0 := by omega
        obtain ⟨m₁, e₁, h₁, hl₁, hc₁, hh₁⟩ := attach_right h key val
        have h₂ := h₁.setLength (m₁.length + 1)
        obtain ⟨ctx₃, t₃, m₃, e₃, h₃, hs, _, s₃⟩ := balanceAfterInsert_spec h₂
        have hl := InsertFixSteps.insert_steps_toList_eq hs
        simp only [plug_toList, Tree.toList_node, Tree.toList_nil, List.nil_append,
          List.append_assoc, List.cons_append] at hl
        have hmem : (m.heap.length, key, val) ∈ (plug ctx₃ t₃).toList := by
          rw [plug_toList]; simp [hl]
        refine Or.inr ⟨.right pa pc ps pk pv :: ctx', m.heap.length, plug ctx₃ t₃, m₃, e.symm, hp, ?_, h₃, ?_, ?_,
          ?_⟩
        · simp only [Frame.addr_left, Frame.addr_right, Frame.key_left, Frame.key_right] at hput
          simp [TreeMap.put, hroot, hput, hcmp', e₁, e₃, h₃.getValue_of_mem hmem]
        · rw [plug_toList]; simp [hl]
        · rw [s₃.comparator]; simp [hc₁]
        · rw [s₃.length]; simp [hl₁, plug_ptr]

end PutLoop

end collections

namespace collections

/-! ## Comparator facts and lookup in ascending lists -/

section OrderLemmas

variable {K V : Type} {cmp : K → K → Int}

theorem TotalOrder.lt_of_lt_of_le (h : TotalOrder cmp) {a b c : K} (hab : cmp a b < 0)
    (hbc : cmp b c ≤ 0) : cmp a c < 0 := by
  by_contra hac
  have hca : cmp c a ≤ 0 := by
    by_contra hca
    exact hac ((h.swap a c).2 (by omega))
  have hba := h.le_trans b c a hbc hca
  have := (h.swap a b).1 hab
  omega

theorem TotalOrder.lt_of_le_of_lt (h : TotalOrder cmp) {a b c : K} (hab : cmp a b ≤ 0)
    (hbc : cmp b c < 0) : cmp a c < 0 := by
  by_contra hac
  have hca : cmp c a ≤ 0 := by
    by_contra hca
    exact hac ((h.swap a c).2 (by omega))
  have hcb := h.le_trans c a b hca hab
  have := (h.swap b c).1 hbc
  omega

theorem TotalOrder.lt_trans (h : TotalOrder cmp) {a b c : K} (hab : cmp a b < 0)
    (hbc : cmp b c < 0) : cmp a c < 0 :=
  h.lt_of_lt_of_le hab (by omega)

theorem TotalOrder.cmp_self (h : TotalOrder cmp) (a : K) : cmp a a = 0 := by
  have := h.swap a a
  omega

theorem TotalOrder.eq_symm (h : TotalOrder cmp) {a b : K} (hab : cmp a b = 0) : cmp b a = 0 := by
  have h1 := h.swap a b
  have h2 := h.swap b a
  omega

theorem TotalOrder.gt_of_lt (h : TotalOrder cmp) {a b : K} (hab : cmp a b < 0) : 0 < cmp b a :=
  (h.swap a b).1 hab

theorem TotalOrder.lt_of_gt (h : TotalOrder cmp) {a b : K} (hab : 0 < cmp a b) : cmp b a < 0 :=
  (h.swap b a).2 hab

theorem TotalOrder.eq_trans (h : TotalOrder cmp) {a b c : K} (hab : cmp a b = 0)
    (hbc : cmp b c = 0) : cmp a c = 0 := by
  have h1 := h.le_trans a b c (by omega) (by omega)
  have h2 := h.le_trans c b a (by have := h.eq_symm hbc; omega) (by have := h.eq_symm hab; omega)
  have h3 := h.swap a c
  have h4 := h.swap c a
  omega

theorem lookup_append (key : K) (l₁ l₂ : List (Nat × K × V)) :
    lookup cmp key (l₁ ++ l₂) = (lookup cmp key l₁).or (lookup cmp key l₂) := by
  simp [lookup, List.find?_append]

theorem lookup_eq_none {key : K} {l : List (Nat × K × V)}
    (h : ∀ e ∈ l, cmp key e.2.1 ≠ 0) : lookup cmp key l = none := by
  simp only [lookup, List.find?_eq_none, decide_eq_true_eq]
  exact h

theorem lookup_cons_eq {key : K} (e : Nat × K × V) (l : List (Nat × K × V))
    (h : cmp key e.2.1 = 0) : lookup cmp key (e :: l) = some e := by
  simp [lookup, List.find?_cons, h]

theorem lookup_cons_ne {key : K} (e : Nat × K × V) (l : List (Nat × K × V))
    (h : cmp key e.2.1 ≠ 0) : lookup cmp key (e :: l) = lookup cmp key l := by
  simp [lookup, List.find?_cons, h]

theorem lookup_some_mem {key : K} {l : List (Nat × K × V)} {e : Nat × K × V}
    (h : lookup cmp key l = some e) : e ∈ l ∧ cmp key e.2.1 = 0 := by
  refine ⟨List.mem_of_find?_eq_some h, ?_⟩
  have := List.find?_some h
  simpa using this

/-- In an ascending list, an entry whose key compares equal to `key` is what `lookup` finds. -/
theorem lookup_middle (hc : TotalOrder cmp) {key : K} {l₁ l₂ : List (Nat × K × V)}
    {e : Nat × K × V} (hs : Ascending cmp (l₁ ++ e :: l₂)) (he : cmp key e.2.1 = 0) :
    lookup cmp key (l₁ ++ e :: l₂) = some e := by
  have h1 : lookup cmp key l₁ = none := by
    apply lookup_eq_none
    intro x hx hx0
    have hlt : cmp x.2.1 e.2.1 < 0 :=
      (List.pairwise_append.1 hs).2.2 x hx e (List.mem_cons_self _ _)
    have := hc.lt_of_le_of_lt (a := key) (b := x.2.1) (c := e.2.1) (by omega) hlt
    omega
  rw [lookup_append, h1, lookup_cons_eq e l₂ he]
  rfl

/-- In an ascending list, a key strictly between two halves is found in neither. -/
theorem lookup_gap (hc : TotalOrder cmp) {key : K} {l₁ l₂ : List (Nat × K × V)}
    (h₁ : ∀ x ∈ l₁, cmp x.2.1 key < 0) (h₂ : ∀ x ∈ l₂, cmp key x.2.1 < 0) :
    lookup cmp key (l₁ ++ l₂) = none := by
  apply lookup_eq_none
  intro x hx hx0
  rcases List.mem_append.1 hx with hx | hx
  · have := hc.gt_of_lt (h₁ x hx); omega
  · have := h₂ x hx; omega

theorem ascending_iff_entries (l : List (Nat × K × V)) :
    Ascending cmp l ↔ AscendingKeys cmp (l.map Prod.snd) := by
  simp [Ascending, AscendingKeys, List.pairwise_map]

theorem lookup_map_snd (key : K) (l : List (Nat × K × V)) :
    (lookup cmp key l).map Prod.snd = findEntry cmp key (l.map Prod.snd) := by
  induction l with
  | nil => rfl
  | cons e l ih =>
    by_cases h : cmp key e.2.1 = 0
    · simp [lookup, findEntry, List.find?_cons, h]
    · simpa [lookup, findEntry, List.find?_cons, h] using ih

theorem findEntry_append (key : K) (l₁ l₂ : List (K × V)) :
    findEntry cmp key (l₁ ++ l₂) = (findEntry cmp key l₁).or (findEntry cmp key l₂) := by
  simp [findEntry, List.find?_append]

theorem findEntry_eq_none {key : K} {l : List (K × V)}
    (h : ∀ e ∈ l, cmp key e.1 ≠ 0) : findEntry cmp key l = none := by
  simp only [findEntry, List.find?_eq_none, decide_eq_true_eq]
  exact h

theorem findEntry_cons_eq {key : K} (e : K × V) (l : List (K × V))
    (h : cmp key e.1 = 0) : findEntry cmp key (e :: l) = some e := by
  simp [findEntry, List.find?_cons, h]

theorem findEntry_cons_ne {key : K} (e : K × V) (l : List (K × V))
    (h : cmp key e.1 ≠ 0) : findEntry cmp key (e :: l) = findEntry cmp key l := by
  simp [findEntry, List.find?_cons, h]

theorem findEntry_some {key : K} {l : List (K × V)} {e : K × V}
    (h : findEntry cmp key l = some e) : e ∈ l ∧ cmp key e.1 = 0 := by
  refine ⟨List.mem_of_find?_eq_some h, ?_⟩
  have := List.find?_some h
  simpa using this

/-- Entries before an entry of an ascending list never compare equal to a key that compares
equal to that entry's key. -/
theorem findEntry_before (hc : TotalOrder cmp) {key : K} {l₁ l₂ : List (K × V)} {e : K × V}
    (hs : AscendingKeys cmp (l₁ ++ e :: l₂)) (he : cmp key e.1 = 0) :
    findEntry cmp key l₁ = none := by
  apply findEntry_eq_none
  intro x hx hx0
  have hlt : cmp x.1 e.1 < 0 := (List.pairwise_append.1 hs).2.2 x hx e (List.mem_cons_self _ _)
  have := hc.lt_of_le_of_lt (a := key) (b := x.1) (c := e.1) (by omega) hlt
  omega

/-- Entries after an entry of an ascending list never compare equal to a key that compares
equal to that entry's key. -/
theorem findEntry_after (hc : TotalOrder cmp) {key : K} {l₁ l₂ : List (K × V)} {e : K × V}
    (hs : AscendingKeys cmp (l₁ ++ e :: l₂)) (he : cmp key e.1 = 0) :
    findEntry cmp key l₂ = none := by
  apply findEntry_eq_none
  intro x hx hx0
  have hlt : cmp e.1 x.1 < 0 :=
    (List.pairwise_cons.1 (List.pairwise_append.1 hs).2.1).1 x hx
  have := hc.lt_of_le_of_lt (a := key) (b := e.1) (c := x.1) (by omega) hlt
  omega

theorem findEntry_middle (hc : TotalOrder cmp) {key : K} {l₁ l₂ : List (K × V)} {e : K × V}
    (hs : AscendingKeys cmp (l₁ ++ e :: l₂)) (he : cmp key e.1 = 0) :
    findEntry cmp key (l₁ ++ e :: l₂) = some e := by
  rw [findEntry_append, findEntry_before hc hs he, findEntry_cons_eq e l₂ he]
  rfl

theorem findEntry_removed (hc : TotalOrder cmp) {key : K} {l₁ l₂ : List (K × V)} {e : K × V}
    (hs : AscendingKeys cmp (l₁ ++ e :: l₂)) (he : cmp key e.1 = 0) :
    findEntry cmp key (l₁ ++ l₂) = none := by
  rw [findEntry_append, findEntry_before hc hs he, findEntry_after hc hs he]
  rfl

theorem findEntry_gap (hc : TotalOrder cmp) {key : K} {l₁ l₂ : List (K × V)}
    (h₁ : ∀ x ∈ l₁, cmp x.1 key < 0) (h₂ : ∀ x ∈ l₂, cmp key x.1 < 0) :
    findEntry cmp key (l₁ ++ l₂) = none := by
  apply findEntry_eq_none
  intro x hx hx0
  rcases List.mem_append.1 hx with hx | hx
  · have := hc.gt_of_lt (h₁ x hx); omega
  · have := h₂ x hx; omega

/-- Looking up a key is blind to an entry whose key compares unequal to it. -/
theorem findEntry_skip {key : K} (l₁ l₂ : List (K × V)) (e : K × V) (he : cmp key e.1 ≠ 0) :
    findEntry cmp key (l₁ ++ e :: l₂) = findEntry cmp key (l₁ ++ l₂) := by
  rw [findEntry_append, findEntry_append, findEntry_cons_ne e l₂ he]

theorem AscendingKeys.insert {l₁ l₂ : List (K × V)} {e : K × V}
    (hs : AscendingKeys cmp (l₁ ++ l₂))
    (h₁ : ∀ x ∈ l₁, cmp x.1 e.1 < 0) (h₂ : ∀ x ∈ l₂, cmp e.1 x.1 < 0) :
    AscendingKeys cmp (l₁ ++ e :: l₂) := by
  have hs' := List.pairwise_append.1 hs
  refine List.pairwise_append.2 ⟨hs'.1, List.pairwise_cons.2 ⟨h₂, hs'.2.1⟩, ?_⟩
  intro x hx y hy
  rcases List.mem_cons.1 hy with rfl | hy
  · exact h₁ x hx
  · exact hs'.2.2 x hx y hy

theorem AscendingKeys.remove {l₁ l₂ : List (K × V)} {e : K × V}
    (hs : AscendingKeys cmp (l₁ ++ e :: l₂)) : AscendingKeys cmp (l₁ ++ l₂) := by
  have hs' := List.pairwise_append.1 hs
  refine List.pairwise_append.2 ⟨hs'.1, (List.pairwise_cons.1 hs'.2.1).2, ?_⟩
  intro x hx y hy
  exact hs'.2.2 x hx y (List.mem_cons_of_mem _ hy)

/-- Replacing the value (and the key by one that compares equal) keeps a list ascending. -/
theorem AscendingKeys.replace (hc : TotalOrder cmp) {l₁ l₂ : List (K × V)} {e e' : K × V}
    (hs : AscendingKeys cmp (l₁ ++ e :: l₂)) (he : cmp e'.1 e.1 = 0) :
    AscendingKeys cmp (l₁ ++ e' :: l₂) := by
  have hs' := List.pairwise_append.1 hs
  have hs'' := List.pairwise_cons.1 hs'.2.1
  refine List.pairwise_append.2 ⟨hs'.1, List.pairwise_cons.2 ⟨?_, hs''.2⟩, ?_⟩
  · intro y hy
    exact hc.lt_of_le_of_lt (b := e.1) (by omega) (hs''.1 y hy)
  · intro x hx y hy
    rcases List.mem_cons.1 hy with rfl | hy
    · exact hc.lt_of_lt_of_le (hs'.2.2 x hx e (List.mem_cons_self _ _))
        (by have := hc.eq_symm he; omega)
    · exact hs'.2.2 x hx y (List.mem_cons_of_mem _ hy)

end OrderLemmas

end collections

namespace collections

/-! ## `getEntry` and the read-only operations -/

section GetEntry

variable {K V : Type} [DecidableEq K] [LT K] [DecidableRel (fun a b : K => a < b)]

theorem getEntryLoop_spec {m : TreeMap K V} (hc : TotalOrder m.compare) (key : K) :
    ∀ (t : Tree K V) (par : Option Nat) (fuel : Nat), Rep m par t → t.height ≤ fuel →
      Ascending m.compare t.toList →
      getEntryLoop m key fuel t.ptr = .ok ((lookup m.compare key t.toList).map Prod.fst) := by
  intro t
  induction t with
  | nil => intro par fuel _ _ _; cases fuel <;> simp [getEntryLoop, lookup]
  | node a c l k v r ihl ihr =>
    intro par fuel h hfuel hs
    cases fuel with
    | zero => simp at hfuel
    | succ fuel =>
      obtain ⟨ha, hl, hr⟩ := h
      simp only [Tree.height_node, Nat.add_le_add_iff_right, max_le_iff] at hfuel
      simp only [Tree.toList_node] at hs ⊢
      have hs' := List.pairwise_append.1 hs
      have hsr := List.pairwise_cons.1 hs'.2.1
      by_cases hlt : m.compare key k < 0
      · have hnone : lookup m.compare key ((a, k, v) :: r.toList) = none := by
          apply lookup_eq_none
          intro x hx hx0
          rcases List.mem_cons.1 hx with rfl | hx
          · simp at hx0; omega
          · have := hc.lt_trans hlt (hsr.1 x hx)
            omega
        rw [lookup_append, hnone]
        simp [getEntryLoop, getKey, getLeft, deref_some, ha, hlt, ihl _ fuel hl hfuel.1 hs'.1]
      · by_cases hgt : 0 < m.compare key k
        · have hnone : lookup m.compare key l.toList = none := by
            apply lookup_eq_none
            intro x hx hx0
            have h1 := hs'.2.2 x hx (a, k, v) (List.mem_cons_self _ _)
            have h2 := hc.lt_of_gt hgt
            have h3 := hc.lt_of_le_of_lt (a := key) (b := x.2.1) (c := k) (by omega) h1
            omega
          rw [lookup_append, hnone, lookup_cons_ne _ _ (by simp; omega)]
          simp [getEntryLoop, getKey, getRight, deref_some, ha, hlt, hgt,
            ihr _ fuel hr hfuel.2 hsr.2]
        · have h0 : m.compare key k = 0 := by omega
          rw [lookup_middle hc hs (by simpa using h0)]
          simp [getEntryLoop, getKey, deref_some, ha, hlt, hgt]

theorem getEntry_spec {m : TreeMap K V} {T : Tree K V} (hc : TotalOrder m.compare)
    (h : RepT m T) (hs : Ascending m.compare T.toList) (key : K) :
    getEntry m key = .ok ((lookup m.compare key T.toList).map Prod.fst) := by
  unfold getEntry
  rw [h.root]
  exact getEntryLoop_spec hc key T none _ h.rep ((Tree.height_le_size T).trans h.size_le) hs

theorem containsKey_spec {m : TreeMap K V} {T : Tree K V} (hc : TotalOrder m.compare)
    (h : RepT m T) (hs : Ascending m.compare T.toList) (key : K) :
    m.containsKey key = .ok (lookup m.compare key T.toList).isSome := by
  simp only [TreeMap.containsKey, getEntry_spec hc h hs key, Except.ok_bind]
  cases lookup m.compare key T.toList <;> simp

theorem operatorIndex_spec {m : TreeMap K V} {T : Tree K V} (hc : TotalOrder m.compare)
    (h : RepT m T) (hs : Ascending m.compare T.toList) (key : K) {e : Nat × K × V}
    (he : lookup m.compare key T.toList = some e) :
    m.operatorIndex key = .ok e.2.2 := by
  have hmem := (lookup_some_mem he).1
  simp [TreeMap.operatorIndex, getEntry_spec hc h hs key, he,
    h.getValue_of_mem (a := e.1) (k := e.2.1) (v := e.2.2) hmem]

theorem operatorIndex_absent {m : TreeMap K V} {T : Tree K V} (hc : TotalOrder m.compare)
    (h : RepT m T) (hs : Ascending m.compare T.toList) (key : K)
    (he : lookup m.compare key T.toList = none) :
    m.operatorIndex key = getValue m m.root := by
  simp [TreeMap.operatorIndex, getEntry_spec hc h hs key, he]

end GetEntry

end collections

namespace collections

/-! ## `put` on the contents of the map -/

section PutInv

variable {K V : Type}

theorem Tree.entries_plug (ctx : List (Frame K V)) (t : Tree K V) :
    (plug ctx t).entries =
      (ctxBefore ctx).map Prod.snd ++ t.entries ++ (ctxAfter ctx).map Prod.snd := by
  simp [Tree.entries, plug_toList]

theorem Tree.entries_node (a : Nat) (c : Color) (l : Tree K V) (k : K) (v : V) (r : Tree K V) :
    (Tree.node a c l k v r).entries = l.entries ++ (k, v) :: r.entries := by
  simp [Tree.entries]

theorem Tree.entries_nil : (Tree.nil : Tree K V).entries = [] := rfl

theorem Tree.length_entries (t : Tree K V) : t.entries.length = t.size := by
  simp [Tree.entries, Tree.length_toList]

/-- Along a search path in an ascending tree, everything before the position is smaller than
the key and everything after it is greater. -/
theorem SearchPath.bounds {cmp : K → K → Int} (hc : TotalOrder cmp) {key : K} :
    ∀ (ctx : List (Frame K V)) (t : Tree K V), AscendingKeys cmp (plug ctx t).entries →
      SearchPath cmp key ctx →
      (∀ x ∈ (ctxBefore ctx).map Prod.snd, cmp x.1 key < 0) ∧
      (∀ x ∈ (ctxAfter ctx).map Prod.snd, cmp key x.1 < 0) := by
  intro ctx
  induction ctx with
  | nil => intro t _ _; simp [ctxBefore, ctxAfter]
  | cons f ctx ih =>
    intro t hs hp
    have ih' := ih (f.fill t) hs (fun g hg => hp g (List.mem_cons_of_mem _ hg))
    have hf := hp f (List.mem_cons_self _ _)
    rw [plug_cons, Tree.entries_plug] at hs
    have hfill := (List.pairwise_append.1 (List.pairwise_append.1 hs).1).2.1
    cases f with
    | left a c k v r =>
      simp only [Frame.onPath] at hf
      simp only [Frame.fill_left, Tree.entries_node] at hfill
      have hr := (List.pairwise_cons.1 (List.pairwise_append.1 hfill).2.1).1
      refine ⟨ih'.1, ?_⟩
      intro x hx
      simp only [ctxAfter, List.map_cons, List.map_append, List.cons_append, List.mem_cons,
        List.mem_append] at hx
      rcases hx with rfl | hx | hx
      · exact hf
      · exact hc.lt_trans hf (hr x hx)
      · exact ih'.2 x hx
    | right a c l k v =>
      simp only [Frame.onPath] at hf
      simp only [Frame.fill_right, Tree.entries_node] at hfill
      have hl := (List.pairwise_append.1 hfill).2.2
      refine ⟨?_, ih'.2⟩
      intro x hx
      simp only [ctxBefore, List.map_cons, List.map_append, List.map_nil, List.mem_cons,
        List.mem_append, List.mem_singleton, List.not_mem_nil, or_false] at hx
      rcases hx with hx | hx | rfl
      · exact ih'.1 x hx
      · exact hc.lt_trans (hl x hx (k, v) (List.mem_cons_self _ _)) (hc.lt_of_gt hf)
      · exact hc.lt_of_gt hf

end PutInv

section PutInv2

variable {K V : Type} [DecidableEq K] [LT K] [DecidableRel (fun a b : K => a < b)]

theorem TreeMap.compare_congr {m m' : TreeMap K V} (h : m'.comparator = m.comparator) :
    m'.compare = m.compare := by
  funext a b
  simp [TreeMap.compare, h]

theorem containsKey_entries {m : TreeMap K V} {T : Tree K V} (hc : TotalOrder m.compare)
    (h : Inv m T) (key : K) :
    m.containsKey key = .ok (findEntry m.compare key T.entries).isSome := by
  rw [containsKey_spec hc h.1 ((ascending_iff_entries _).2 h.2.1) key, Tree.entries,
    ← lookup_map_snd]
  simp

theorem operatorIndex_entries {m : TreeMap K V} {T : Tree K V} (hc : TotalOrder m.compare)
    (h : Inv m T) {key : K} {e : K × V} (he : findEntry m.compare key T.entries = some e) :
    m.operatorIndex key = .ok e.2 := by
  rw [Tree.entries, ← lookup_map_snd] at he
  cases hl : lookup m.compare key T.toList with
  | none => simp [hl] at he
  | some x =>
    simp only [hl, Option.map_some', Option.some.injEq] at he
    rw [operatorIndex_spec hc h.1 ((ascending_iff_entries _).2 h.2.1) key hl, ← he]

theorem put_inv {m : TreeMap K V} {T : Tree K V} (hc : TotalOrder m.compare) (h : Inv m T)
    (key : K) (val : V) :
    ∃ old m' T' E₁ E₂, m.put key val = .ok (old, m') ∧ Inv m' T' ∧
      m'.comparator = m.comparator ∧
      ((∃ k v, T.entries = E₁ ++ (k, v) :: E₂ ∧ m.compare key k = 0 ∧
          T'.entries = E₁ ++ (k, val) :: E₂ ∧ old = v ∧ m'.length = m.length) ∨
       (T.entries = E₁ ++ E₂ ∧ T'.entries = E₁ ++ (key, val) :: E₂ ∧
          findEntry m.compare key T.entries = none ∧ old = val ∧
          m'.length = m.length + 1)) := by
  obtain ⟨hrep, hasc, hlen⟩ := h
  rcases put_spec hrep key val with
    ⟨ctx, a, c, l, k, v, r, m', hT, hk, hp, hput, h', s⟩ | ⟨ctx, a, T', m', hT, hp, hput, h', hl, hcmp, hlen'⟩
  · subst hT
    have hE : (plug ctx (Tree.node a c l k v r)).entries =
        ((ctxBefore ctx).map Prod.snd ++ l.entries) ++ (k, v) ::
          (r.entries ++ (ctxAfter ctx).map Prod.snd) := by
      simp [Tree.entries_plug, Tree.entries_node]
    have hE' : (plug ctx (Tree.node a c l k val r)).entries =
        ((ctxBefore ctx).map Prod.snd ++ l.entries) ++ (k, val) ::
          (r.entries ++ (ctxAfter ctx).map Prod.snd) := by
      simp [Tree.entries_plug, Tree.entries_node]
    refine ⟨v, m', _, _, _, hput, ⟨h', ?_, ?_⟩, s.comparator, Or.inl ⟨k, v, hE, hk, hE', rfl,
      s.length⟩⟩
    · rw [TreeMap.compare_congr s.comparator, hE']
      rw [hE] at hasc
      exact hasc.replace hc (hc.cmp_self k)
    · rw [s.length, hlen, ← Tree.length_entries, ← Tree.length_entries, hE, hE']
      simp
  · subst hT
    have hE : (plug ctx (Tree.nil : Tree K V)).entries =
        (ctxBefore ctx).map Prod.snd ++ (ctxAfter ctx).map Prod.snd := by
      simp [Tree.entries_plug, Tree.entries_nil]
    have hE' : T'.entries =
        (ctxBefore ctx).map Prod.snd ++ (key, val) :: (ctxAfter ctx).map Prod.snd := by
      simp [Tree.entries, hl]
    have hb := SearchPath.bounds hc ctx .nil hasc hp
    have hlen0 : m'.length = m.length + 1 := by
      rw [hlen']
      split
      · rename_i hnil
        have : (plug ctx (Tree.nil : Tree K V)).size = 0 := by
          cases hpl : plug ctx (Tree.nil : Tree K V) with
          | nil => rfl
          | node _ _ _ _ _ _ => rw [hpl] at hnil; simp at hnil
        rw [hlen, this]; rfl
      · rfl
    refine ⟨val, m', T', _, _, hput, ⟨h', ?_, ?_⟩, hcmp, Or.inr ⟨hE, hE', ?_, rfl, hlen0⟩⟩
    · rw [TreeMap.compare_congr hcmp, hE']
      rw [hE] at hasc
      exact AscendingKeys.insert hasc hb.1 hb.2
    · rw [hlen0, hlen, ← Tree.length_entries, ← Tree.length_entries, hE, hE']
      simp
      omega
    · rw [hE]
      exact findEntry_gap hc hb.1 hb.2

end PutInv2

end collections

namespace collections

/-! ## The loop body of `balanceAfterRemove`, case by case -/

section RemoveFixCases

variable {K V : Type} {m : TreeMap K V} {rest : List (Frame K V)} {pa s n f a : Nat}
  {pc sc nc fc c : Color} {pk sk nk fk k : K} {pv sv nv fv v : V}
  {sl sr nl nr fl fr l r : Tree K V}

theorem removeRest_leftBlack_nil
    (h : RepT m (plug (.left pa pc pk pv .nil :: rest) (.node a c l k v r))) :
    ∃ m', balanceAfterRemoveLeftRest m (some a) none = .ok (m', some pa) ∧
      RepT m' (plug rest (.node pa pc (.node a c l k v r) pk pv .nil)) ∧
      SameMeta m m' := by
  have hnd := h.nodup_plug
  simp only [Tree.addrs_node, List.nodup_cons, List.nodup_append, List.mem_append, List.mem_cons,
    List.disjoint_cons_left, List.disjoint_cons_right, List.disjoint_append_left, List.cons_append,
    List.disjoint_append_right, not_or, ctxAddrs_cons, ctxAddrs_nil, Tree.addrs_nil,
    Frame.addr_left, Frame.sibling_left, Frame.addr_right, Frame.sibling_right] at hnd
  have c0 := h.rep
  simp only [plug_cons, plug_nil, Frame.fill_left, Frame.fill_right, Rep_plug, Rep, RepCtx,
    Tree.ptr_node, Tree.ptr_nil, ctxPtr_cons, ctxPtr_nil, Frame.addr_left, Frame.addr_right] at c0
  refine ⟨m, ?_, h, SameMeta.refl m⟩
  simp [balanceAfterRemoveLeftRest, balanceAfterRemoveRightRest, balanceAfterRemoveLeft,
    balanceAfterRemoveRight, parentOf, leftOf, rightOf, colorOf_some, colorOf_none, getParent,
    getLeft, getRight, getColor, deref_some,
    c0, hnd, Tree.ptr_ne, Tree.ptr_ne']

theorem removeRest_leftBlack_node
    (h : RepT m (plug (.left pa pc pk pv (.node s sc sl sk sv sr) :: rest) (.node a c l k v r))) (hl : sl.color = Color.black) (hr : sr.color = Color.black) :
    ∃ m', balanceAfterRemoveLeftRest m (some a) (some s) = .ok (m', some pa) ∧
      RepT m' (plug rest (.node pa pc (.node a c l k v r) pk pv (.node s .red sl sk sv sr))) ∧
      SameMeta m m' := by
  have hnd := h.nodup_plug
  simp only [Tree.addrs_node, List.nodup_cons, List.nodup_append, List.mem_append, List.mem_cons,
    List.disjoint_cons_left, List.disjoint_cons_right, List.disjoint_append_left, List.cons_append,
    List.disjoint_append_right, not_or, ctxAddrs_cons, ctxAddrs_nil, Tree.addrs_nil,
    Frame.addr_left, Frame.sibling_left, Frame.addr_right, Frame.sibling_right] at hnd
  have c0 := h.rep
  simp only [plug_cons, plug_nil, Frame.fill_left, Frame.fill_right, Rep_plug, Rep, RepCtx,
    Tree.ptr_node, Tree.ptr_nil, ctxPtr_cons, ctxPtr_nil, Frame.addr_left, Frame.addr_right] at c0
  have hsl := colorOf_tree (.left s sc sk sv sr :: .right pa pc (.node a c l k v r) pk pv :: rest) (t := sl) h
  have hsr := colorOf_tree (.right s sc sl sk sv :: .right pa pc (.node a c l k v r) pk pv :: rest) (t := sr) h
  obtain ⟨m1, e1, h1, s1⟩ := setColor_node (.right pa pc (.node a c l k v r) pk pv :: rest) (a := s) h .red
  have c1 := h1.rep
  simp only [plug_cons, plug_nil, Frame.fill_left, Frame.fill_right, Rep_plug, Rep, RepCtx,
    Tree.ptr_node, Tree.ptr_nil, ctxPtr_cons, ctxPtr_nil, Frame.addr_left, Frame.addr_right] at c1
  refine ⟨m1, ?_, h1, s1⟩
  simp [balanceAfterRemoveLeftRest, balanceAfterRemoveRightRest, balanceAfterRemoveLeft,
    balanceAfterRemoveRight, parentOf, leftOf, rightOf, colorOf_some, colorOf_none, getParent,
    getLeft, getRight, getColor, deref_some,
    c0, c1, e1, hnd, Tree.ptr_ne, Tree.ptr_ne', hsl, hsr, hl, hr]

theorem removeRest_leftNear
    (h : RepT m (plug (.left pa pc pk pv (.node s sc (.node n nc nl nk nv nr) sk sv sr) :: rest) (.node a c l k v r))) (hn : nc ≠ Color.black) (hfc : sr.color = Color.black) :
    ∃ m', balanceAfterRemoveLeftRest m (some a) (some s) = .ok (m', (plug rest (.node n pc (.node pa .black (.node a c l k v r) pk pv nl) nk nv (.node s .black nr sk sv sr))).ptr) ∧
      RepT m' (plug rest (.node n pc (.node pa .black (.node a c l k v r) pk pv nl) nk nv (.node s .black nr sk sv sr))) ∧
      SameMeta m m' := by
  have hnd := h.nodup_plug
  simp only [Tree.addrs_node, List.nodup_cons, List.nodup_append, List.mem_append, List.mem_cons,
    List.disjoint_cons_left, List.disjoint_cons_right, List.disjoint_append_left, List.cons_append,
    List.disjoint_append_right, not_or, ctxAddrs_cons, ctxAddrs_nil, Tree.addrs_nil,
    Frame.addr_left, Frame.sibling_left, Frame.addr_right, Frame.sibling_right] at hnd
  have c0 := h.rep
  simp only [plug_cons, plug_nil, Frame.fill_left, Frame.fill_right, Rep_plug, Rep, RepCtx,
    Tree.ptr_node, Tree.ptr_nil, ctxPtr_cons, ctxPtr_nil, Frame.addr_left, Frame.addr_right] at c0
  have hfar := colorOf_tree (.right s sc (.node n nc nl nk nv nr) sk sv :: .right pa pc (.node a c l k v r) pk pv :: rest) (t := sr) h
  obtain ⟨m1, e1, h1, s1⟩ := setColor_node (.left s sc sk sv sr :: .right pa pc (.node a c l k v r) pk pv :: rest) (a := n) h .black
  have c1 := h1.rep
  simp only [plug_cons, plug_nil, Frame.fill_left, Frame.fill_right, Rep_plug, Rep, RepCtx,
    Tree.ptr_node, Tree.ptr_nil, ctxPtr_cons, ctxPtr_nil, Frame.addr_left, Frame.addr_right] at c1
  obtain ⟨m2, e2, h2, s2⟩ := setColor_node (.right pa pc (.node a c l k v r) pk pv :: rest) (a := s) h1 .red
  have c2 := h2.rep
  simp only [plug_cons, plug_nil, Frame.fill_left, Frame.fill_right, Rep_plug, Rep, RepCtx,
    Tree.ptr_node, Tree.ptr_nil, ctxPtr_cons, ctxPtr_nil, Frame.addr_left, Frame.addr_right] at c2
  obtain ⟨m3, e3, h3, s3⟩ := rotateRight_spec (.right pa pc (.node a c l k v r) pk pv :: rest) (x := s) h2
  have c3 := h3.rep
  simp only [plug_cons, plug_nil, Frame.fill_left, Frame.fill_right, Rep_plug, Rep, RepCtx,
    Tree.ptr_node, Tree.ptr_nil, ctxPtr_cons, ctxPtr_nil, Frame.addr_left, Frame.addr_right] at c3
  obtain ⟨m4, e4, h4, s4⟩ := setColor_node (.right pa pc (.node a c l k v r) pk pv :: rest) (a := n) h3 pc
  have c4 := h4.rep
  simp only [plug_cons, plug_nil, Frame.fill_left, Frame.fill_right, Rep_plug, Rep, RepCtx,
    Tree.ptr_node, Tree.ptr_nil, ctxPtr_cons, ctxPtr_nil, Frame.addr_left, Frame.addr_right] at c4
  obtain ⟨m5, e5, h5, s5⟩ := setColor_node (rest) (a := pa) h4 .black
  have c5 := h5.rep
  simp only [plug_cons, plug_nil, Frame.fill_left, Frame.fill_right, Rep_plug, Rep, RepCtx,
    Tree.ptr_node, Tree.ptr_nil, ctxPtr_cons, ctxPtr_nil, Frame.addr_left, Frame.addr_right] at c5
  obtain ⟨m6, e6, h6, s6⟩ := setColor_node (.right n pc nl nk nv :: .right pa .black (.node a c l k v r) pk pv :: rest) (a := s) h5 .black
  have c6 := h6.rep
  simp only [plug_cons, plug_nil, Frame.fill_left, Frame.fill_right, Rep_plug, Rep, RepCtx,
    Tree.ptr_node, Tree.ptr_nil, ctxPtr_cons, ctxPtr_nil, Frame.addr_left, Frame.addr_right] at c6
  obtain ⟨m7, e7, h7, s7⟩ := rotateLeft_spec (rest) (x := pa) h6
  have c7 := h7.rep
  simp only [plug_cons, plug_nil, Frame.fill_left, Frame.fill_right, Rep_plug, Rep, RepCtx,
    Tree.ptr_node, Tree.ptr_nil, ctxPtr_cons, ctxPtr_nil, Frame.addr_left, Frame.addr_right] at c7
  refine ⟨m7, ?_, h7, ((((((s1).trans s2).trans s3).trans s4).trans s5).trans s6).trans s7⟩
  simp [balanceAfterRemoveLeftRest, balanceAfterRemoveRightRest, balanceAfterRemoveLeft,
    balanceAfterRemoveRight, parentOf, leftOf, rightOf, colorOf_some, colorOf_none, getParent,
    getLeft, getRight, getColor, deref_some,
    c0, c1, c2, c3, c4, c5, c6, c7, e1, e2, e3, e4, e5, e6, e7, hnd, Tree.ptr_ne, Tree.ptr_ne', hfar, hn, hfc, h7.root, plug_ptr]

theorem removeRest_leftFar
    (h : RepT m (plug (.left pa pc pk pv (.node s sc sl sk sv (.node f fc fl fk fv fr)) :: rest) (.node a c l k v r))) (hf : fc ≠ Color.black) :
    ∃ m', balanceAfterRemoveLeftRest m (some a) (some s) = .ok (m', (plug rest (.node s pc (.node pa .black (.node a c l k v r) pk pv sl) sk sv (.node f .black fl fk fv fr))).ptr) ∧
      RepT m' (plug rest (.node s pc (.node pa .black (.node a c l k v r) pk pv sl) sk sv (.node f .black fl fk fv fr))) ∧
      SameMeta m m' := by
  have hnd := h.nodup_plug
  simp only [Tree.addrs_node, List.nodup_cons, List.nodup_append, List.mem_append, List.mem_cons,
    List.disjoint_cons_left, List.disjoint_cons_right, List.disjoint_append_left, List.cons_append,
    List.disjoint_append_right, not_or, ctxAddrs_cons, ctxAddrs_nil, Tree.addrs_nil,
    Frame.addr_left, Frame.sibling_left, Frame.addr_right, Frame.sibling_right] at hnd
  have c0 := h.rep
  simp only [plug_cons, plug_nil, Frame.fill_left, Frame.fill_right, Rep_plug, Rep, RepCtx,
    Tree.ptr_node, Tree.ptr_nil, ctxPtr_cons, ctxPtr_nil, Frame.addr_left, Frame.addr_right] at c0
  have hnear := colorOf_tree (.left s sc sk sv (.node f fc fl fk fv fr) :: .right pa pc (.node a c l k v r) pk pv :: rest) (t := sl) h
  obtain ⟨m1, e1, h1, s1⟩ := setColor_node (.right pa pc (.node a c l k v r) pk pv :: rest) (a := s) h pc
  have c1 := h1.rep
  simp only [plug_cons, plug_nil, Frame.fill_left, Frame.fill_right, Rep_plug, Rep, RepCtx,
    Tree.ptr_node, Tree.ptr_nil, ctxPtr_cons, ctxPtr_nil, Frame.addr_left, Frame.addr_right] at c1
  obtain ⟨m2, e2, h2, s2⟩ := setColor_node (rest) (a := pa) h1 .black
  have c2 := h2.rep
  simp only [plug_cons, plug_nil, Frame.fill_left, Frame.fill_right, Rep_plug, Rep, RepCtx,
    Tree.ptr_node, Tree.ptr_nil, ctxPtr_cons, ctxPtr_nil, Frame.addr_left, Frame.addr_right] at c2
  obtain ⟨m3, e3, h3, s3⟩ := setColor_node (.right s pc sl sk sv :: .right pa .black (.node a c l k v r) pk pv :: rest) (a := f) h2 .black
  have c3 := h3.rep
  simp only [plug_cons, plug_nil, Frame.fill_left, Frame.fill_right, Rep_plug, Rep, RepCtx,
    Tree.ptr_node, Tree.ptr_nil, ctxPtr_cons, ctxPtr_nil, Frame.addr_left, Frame.addr_right] at c3
  obtain ⟨m4, e4, h4, s4⟩ := rotateLeft_spec (rest) (x := pa) h3
  have c4 := h4.rep
  simp only [plug_cons, plug_nil, Frame.fill_left, Frame.fill_right, Rep_plug, Rep, RepCtx,
    Tree.ptr_node, Tree.ptr_nil, ctxPtr_cons, ctxPtr_nil, Frame.addr_left, Frame.addr_right] at c4
  refine ⟨m4, ?_, h4, (((s1).trans s2).trans s3).trans s4⟩
  simp [balanceAfterRemoveLeftRest, balanceAfterRemoveRightRest, balanceAfterRemoveLeft,
    balanceAfterRemoveRight, parentOf, leftOf, rightOf, colorOf_some, colorOf_none, getParent,
    getLeft, getRight, getColor, deref_some,
    c0, c1, c2, c3, c4, e1, e2, e3, e4, hnd, Tree.ptr_ne, Tree.ptr_ne', hnear, hf, h4.root, plug_ptr]

theorem removeRed_left
    (h : RepT m (plug (.left pa pc pk pv (.node s .red sl sk sv sr) :: rest) (.node a c l k v r))) :
    ∃ m', RepT m' (plug (.left pa .red pk pv sl :: .left s .black sk sv sr :: rest) (.node a c l k v r)) ∧ SameMeta m m' ∧
      balanceAfterRemoveLeft m (some a) = balanceAfterRemoveLeftRest m' (some a) sl.ptr := by
  have hnd := h.nodup_plug
  simp only [Tree.addrs_node, List.nodup_cons, List.nodup_append, List.mem_append, List.mem_cons,
    List.disjoint_cons_left, List.disjoint_cons_right, List.disjoint_append_left, List.cons_append,
    List.disjoint_append_right, not_or, ctxAddrs_cons, ctxAddrs_nil, Tree.addrs_nil,
    Frame.addr_left, Frame.sibling_left, Frame.addr_right, Frame.sibling_right] at hnd
  have c0 := h.rep
  simp only [plug_cons, plug_nil, Frame.fill_left, Frame.fill_right, Rep_plug, Rep, RepCtx,
    Tree.ptr_node, Tree.ptr_nil, ctxPtr_cons, ctxPtr_nil, Frame.addr_left, Frame.addr_right] at c0
  obtain ⟨m1, e1, h1, s1⟩ := setColor_node (.right pa pc (.node a c l k v r) pk pv :: rest) (a := s) h .black
  have c1 := h1.rep
  simp only [plug_cons, plug_nil, Frame.fill_left, Frame.fill_right, Rep_plug, Rep, RepCtx,
    Tree.ptr_node, Tree.ptr_nil, ctxPtr_cons, ctxPtr_nil, Frame.addr_left, Frame.addr_right] at c1
  obtain ⟨m2, e2, h2, s2⟩ := setColor_node (rest) (a := pa) h1 .red
  have c2 := h2.rep
  simp only [plug_cons, plug_nil, Frame.fill_left, Frame.fill_right, Rep_plug, Rep, RepCtx,
    Tree.ptr_node, Tree.ptr_nil, ctxPtr_cons, ctxPtr_nil, Frame.addr_left, Frame.addr_right] at c2
  obtain ⟨m3, e3, h3, s3⟩ := rotateLeft_spec (rest) (x := pa) h2
  have c3 := h3.rep
  simp only [plug_cons, plug_nil, Frame.fill_left, Frame.fill_right, Rep_plug, Rep, RepCtx,
    Tree.ptr_node, Tree.ptr_nil, ctxPtr_cons, ctxPtr_nil, Frame.addr_left, Frame.addr_right] at c3
  refine ⟨m3, h3, (s1.trans s2).trans s3, ?_⟩
  simp [balanceAfterRemoveLeftRest, balanceAfterRemoveRightRest, balanceAfterRemoveLeft,
    balanceAfterRemoveRight, parentOf, leftOf, rightOf, colorOf_some, colorOf_none, getParent,
    getLeft, getRight, getColor, deref_some,
    c0, c1, c2, c3, e1, e2, e3, hnd, Tree.ptr_ne, Tree.ptr_ne']

theorem removeDirect_left {sib : Tree K V}
    (h : RepT m (plug (.left pa pc pk pv sib :: rest) (.node a c l k v r))) (hs : sib.color ≠ Color.red) :
    balanceAfterRemoveLeft m (some a) = balanceAfterRemoveLeftRest m (some a) sib.ptr := by
  have c0 := h.rep
  simp only [plug_cons, plug_nil, Frame.fill_left, Frame.fill_right, Rep_plug, Rep, RepCtx,
    Tree.ptr_node, Tree.ptr_nil, ctxPtr_cons, ctxPtr_nil, Frame.addr_left, Frame.addr_right] at c0
  have hsib := colorOf_tree (.right pa pc (.node a c l k v r) pk pv :: rest) (t := sib) h
  simp [balanceAfterRemoveLeft, parentOf, leftOf, rightOf, getParent, getLeft, getRight, deref_some, c0, hsib, hs]

theorem removeRest_rightBlack_nil
    (h : RepT m (plug (.right pa pc .nil pk pv :: rest) (.node a c l k v r))) :
    ∃ m', balanceAfterRemoveRightRest m (some a) none = .ok (m', some pa) ∧
      RepT m' (plug rest (.node pa pc .nil pk pv (.node a c l k v r))) ∧
      SameMeta m m' := by
  have hnd := h.nodup_plug
  simp only [Tree.addrs_node, List.nodup_cons, List.nodup_append, List.mem_append, List.mem_cons,
    List.disjoint_cons_left, List.disjoint_cons_right, List.disjoint_append_left, List.cons_append,
    List.disjoint_append_right, not_or, ctxAddrs_cons, ctxAddrs_nil, Tree.addrs_nil,
    Frame.addr_left, Frame.sibling_left, Frame.addr_right, Frame.sibling_right] at hnd
  have c0 := h.rep
  simp only [plug_cons, plug_nil, Frame.fill_left, Frame.fill_right, Rep_plug, Rep, RepCtx,
    Tree.ptr_node, Tree.ptr_nil, ctxPtr_cons, ctxPtr_nil, Frame.addr_left, Frame.addr_right] at c0
  refine ⟨m, ?_, h, SameMeta.refl m⟩
  simp [balanceAfterRemoveLeftRest, balanceAfterRemoveRightRest, balanceAfterRemoveLeft,
    balanceAfterRemoveRight, parentOf, leftOf, rightOf, colorOf_some, colorOf_none, getParent,
    getLeft, getRight, getColor, deref_some,
    c0, hnd, Tree.ptr_ne, Tree.ptr_ne']

theorem removeRest_rightBlack_node
    (h : RepT m (plug (.right pa pc (.node s sc sl sk sv sr) pk pv :: rest) (.node a c l k v r))) (hl : sl.color = Color.black) (hr : sr.color = Color.black) :
    ∃ m', balanceAfterRemoveRightRest m (some a) (some s) = .ok (m', some pa) ∧
      RepT m' (plug rest (.node pa pc (.node s .red sl sk sv sr) pk pv (.node a c l k v r))) ∧
      SameMeta m m' := by
  have hnd := h.nodup_plug
  simp only [Tree.addrs_node, List.nodup_cons, List.nodup_append, List.mem_append, List.mem_cons,
    List.disjoint_cons_left, List.disjoint_cons_right, List.disjoint_append_left, List.cons_append,
    List.disjoint_append_right, not_or, ctxAddrs_cons, ctxAddrs_nil, Tree.addrs_nil,
    Frame.addr_left, Frame.sibling_left, Frame.addr_right, Frame.sibling_right] at hnd
  have c0 := h.rep
  simp only [plug_cons, plug_nil, Frame.fill_left, Frame.fill_right, Rep_plug, Rep, RepCtx,
    Tree.ptr_node, Tree.ptr_nil, ctxPtr_cons, ctxPtr_nil, Frame.addr_left, Frame.addr_right] at c0
  have hsl := colorOf_tree (.left s sc sk sv sr :: .left pa pc pk pv (.node a c l k v r) :: rest) (t := sl) h
  have hsr := colorOf_tree (.right s sc sl sk sv :: .left pa pc pk pv (.node a c l k v r) :: rest) (t := sr) h
  obtain ⟨m1, e1, h1, s1⟩ := setColor_node (.left pa pc pk pv (.node a c l k v r) :: rest) (a := s) h .red
  have c1 := h1.rep
  simp only [plug_cons, plug_nil, Frame.fill_left, Frame.fill_right, Rep_plug, Rep, RepCtx,
    Tree.ptr_node, Tree.ptr_nil, ctxPtr_cons, ctxPtr_nil, Frame.addr_left, Frame.addr_right] at c1
  refine ⟨m1, ?_, h1, s1⟩
  simp [balanceAfterRemoveLeftRest, balanceAfterRemoveRightRest, balanceAfterRemoveLeft,
    balanceAfterRemoveRight, parentOf, leftOf, rightOf, colorOf_some, colorOf_none, getParent,
    getLeft, getRight, getColor, deref_some,
    c0, c1, e1, hnd, Tree.ptr_ne, Tree.ptr_ne', hsl, hsr, hl, hr]

theorem removeRest_rightNear
    (h : RepT m (plug (.right pa pc (.node s sc sl sk sv (.node n nc nl nk nv nr)) pk pv :: rest) (.node a c l k v r))) (hn : nc ≠ Color.black) (hfc : sl.color = Color.black) :
    ∃ m', balanceAfterRemoveRightRest m (some a) (some s) = .ok (m', (plug rest (.node n pc (.node s .black sl sk sv nl) nk nv (.node pa .black nr pk pv (.node a c l k v r)))).ptr) ∧
      RepT m' (plug rest (.node n pc (.node s .black sl sk sv nl) nk nv (.node pa .black nr pk pv (.node a c l k v r)))) ∧
      SameMeta m m' := by
  have hnd := h.nodup_plug
  simp only [Tree.addrs_node, List.nodup_cons, List.nodup_append, List.mem_append, List.mem_cons,
    List.disjoint_cons_left, List.disjoint_cons_right, List.disjoint_append_left, List.cons_append,
    List.disjoint_append_right, not_or, ctxAddrs_cons, ctxAddrs_nil, Tree.addrs_nil,
    Frame.addr_left, Frame.sibling_left, Frame.addr_right, Frame.sibling_right] at hnd
  have c0 := h.rep
  simp only [plug_cons, plug_nil, Frame.fill_left, Frame.fill_right, Rep_plug, Rep, RepCtx,
    Tree.ptr_node, Tree.ptr_nil, ctxPtr_cons, ctxPtr_nil, Frame.addr_left, Frame.addr_right] at c0
  have hfar := colorOf_tree (.left s sc sk sv (.node n nc nl nk nv nr) :: .left pa pc pk pv (.node a c l k v r) :: rest) (t := sl) h
  obtain ⟨m1, e1, h1, s1⟩ := setColor_node (.right s sc sl sk sv :: .left pa pc pk pv (.node a c l k v r) :: rest) (a := n) h .black
  have c1 := h1.rep
  simp only [plug_cons, plug_nil, Frame.fill_left, Frame.fill_right, Rep_plug, Rep, RepCtx,
    Tree.ptr_node, Tree.ptr_nil, ctxPtr_cons, ctxPtr_nil, Frame.addr_left, Frame.addr_right] at c1
  obtain ⟨m2, e2, h2, s2⟩ := setColor_node (.left pa pc pk pv (.node a c l k v r) :: rest) (a := s) h1 .red
  have c2 := h2.rep
  simp only [plug_cons, plug_nil, Frame.fill_left, Frame.fill_right, Rep_plug, Rep, RepCtx,
    Tree.ptr_node, Tree.ptr_nil, ctxPtr_cons, ctxPtr_nil, Frame.addr_left, Frame.addr_right] at c2
  obtain ⟨m3, e3, h3, s3⟩ := rotateLeft_spec (.left pa pc pk pv (.node a c l k v r) :: rest) (x := s) h2
  have c3 := h3.rep
  simp only [plug_cons, plug_nil, Frame.fill_left, Frame.fill_right, Rep_plug, Rep, RepCtx,
    Tree.ptr_node, Tree.ptr_nil, ctxPtr_cons, ctxPtr_nil, Frame.addr_left, Frame.addr_right] at c3
  obtain ⟨m4, e4, h4, s4⟩ := setColor_node (.left pa pc pk pv (.node a c l k v r) :: rest) (a := n) h3 pc
  have c4 := h4.rep
  simp only [plug_cons, plug_nil, Frame.fill_left, Frame.fill_right, Rep_plug, Rep, RepCtx,
    Tree.ptr_node, Tree.ptr_nil, ctxPtr_cons, ctxPtr_nil, Frame.addr_left, Frame.addr_right] at c4
  obtain ⟨m5, e5, h5, s5⟩ := setColor_node (rest) (a := pa) h4 .black
  have c5 := h5.rep
  simp only [plug_cons, plug_nil, Frame.fill_left, Frame.fill_right, Rep_plug, Rep, RepCtx,
    Tree.ptr_node, Tree.ptr_nil, ctxPtr_cons, ctxPtr_nil, Frame.addr_left, Frame.addr_right] at c5
  obtain ⟨m6, e6, h6, s6⟩ := setColor_node (.left n pc nk nv nr :: .left pa .black pk pv (.node a c l k v r) :: rest) (a := s) h5 .black
  have c6 := h6.rep
  simp only [plug_cons, plug_nil, Frame.fill_left, Frame.fill_right, Rep_plug, Rep, RepCtx,
    Tree.ptr_node, Tree.ptr_nil, ctxPtr_cons, ctxPtr_nil, Frame.addr_left, Frame.addr_right] at c6
  obtain ⟨m7, e7, h7, s7⟩ := rotateRight_spec (rest) (x := pa) h6
  have c7 := h7.rep
  simp only [plug_cons, plug_nil, Frame.fill_left, Frame.fill_right, Rep_plug, Rep, RepCtx,
    Tree.ptr_node, Tree.ptr_nil, ctxPtr_cons, ctxPtr_nil, Frame.addr_left, Frame.addr_right] at c7
  refine ⟨m7, ?_, h7, ((((((s1).trans s2).trans s3).trans s4).trans s5).trans s6).trans s7⟩
  simp [balanceAfterRemoveLeftRest, balanceAfterRemoveRightRest, balanceAfterRemoveLeft,
    balanceAfterRemoveRight, parentOf, leftOf, rightOf, colorOf_some, colorOf_none, getParent,
    getLeft, getRight, getColor, deref_some,
    c0, c1, c2, c3, c4, c5, c6, c7, e1, e2, e3, e4, e5, e6, e7, hnd, Tree.ptr_ne, Tree.ptr_ne', hfar, hn, hfc, h7.root, plug_ptr]

theorem removeRest_rightFar
    (h : RepT m (plug (.right pa pc (.node s sc (.node f fc fl fk fv fr) sk sv sr) pk pv :: rest) (.node a c l k v r))) (hf : fc ≠ Color.black) :
    ∃ m', balanceAfterRemoveRightRest m (some a) (some s) = .ok (m', (plug rest (.node s pc (.node f .black fl fk fv fr) sk sv (.node pa .black sr pk pv (.node a c l k v r)))).ptr) ∧
      RepT m' (plug rest (.node s pc (.node f .black fl fk fv fr) sk sv (.node pa .black sr pk pv (.node a c l k v r)))) ∧
      SameMeta m m' := by
  have hnd := h.nodup_plug
  simp only [Tree.addrs_node, List.nodup_cons, List.nodup_append, List.mem_append, List.mem_cons,
    List.disjoint_cons_left, List.disjoint_cons_right, List.disjoint_append_left, List.cons_append,
    List.disjoint_append_right, not_or, ctxAddrs_cons, ctxAddrs_nil, Tree.addrs_nil,
    Frame.addr_left, Frame.sibling_left, Frame.addr_right, Frame.sibling_right] at hnd
  have c0 := h.rep
  simp only [plug_cons, plug_nil, Frame.fill_left, Frame.fill_right, Rep_plug, Rep, RepCtx,
    Tree.ptr_node, Tree.ptr_nil, ctxPtr_cons, ctxPtr_nil, Frame.addr_left, Frame.addr_right] at c0
  have hnear := colorOf_tree (.right s sc (.node f fc fl fk fv fr) sk sv :: .left pa pc pk pv (.node a c l k v r) :: rest) (t := sr) h
  obtain ⟨m1, e1, h1, s1⟩ := setColor_node (.left pa pc pk pv (.node a c l k v r) :: rest) (a := s) h pc
  have c1 := h1.rep
  simp only [plug_cons, plug_nil, Frame.fill_left, Frame.fill_right, Rep_plug, Rep, RepCtx,
    Tree.ptr_node, Tree.ptr_nil, ctxPtr_cons, ctxPtr_nil, Frame.addr_left, Frame.addr_right] at c1
  obtain ⟨m2, e2, h2, s2⟩ := setColor_node (rest) (a := pa) h1 .black
  have c2 := h2.rep
  simp only [plug_cons, plug_nil, Frame.fill_left, Frame.fill_right, Rep_plug, Rep, RepCtx,
    Tree.ptr_node, Tree.ptr_nil, ctxPtr_cons, ctxPtr_nil, Frame.addr_left, Frame.addr_right] at c2
  obtain ⟨m3, e3, h3, s3⟩ := setColor_node (.left s pc sk sv sr :: .left pa .black pk pv (.node a c l k v r) :: rest) (a := f) h2 .black
  have c3 := h3.rep
  simp only [plug_cons, plug_nil, Frame.fill_left, Frame.fill_right, Rep_plug, Rep, RepCtx,
    Tree.ptr_node, Tree.ptr_nil, ctxPtr_cons, ctxPtr_nil, Frame.addr_left, Frame.addr_right] at c3
  obtain ⟨m4, e4, h4, s4⟩ := rotateRight_spec (rest) (x := pa) h3
  have c4 := h4.rep
  simp only [plug_cons, plug_nil, Frame.fill_left, Frame.fill_right, Rep_plug, Rep, RepCtx,
    Tree.ptr_node, Tree.ptr_nil, ctxPtr_cons, ctxPtr_nil, Frame.addr_left, Frame.addr_right] at c4
  refine ⟨m4, ?_, h4, (((s1).trans s2).trans s3).trans s4⟩
  simp [balanceAfterRemoveLeftRest, balanceAfterRemoveRightRest, balanceAfterRemoveLeft,
    balanceAfterRemoveRight, parentOf, leftOf, rightOf, colorOf_some, colorOf_none, getParent,
    getLeft, getRight, getColor, deref_some,
    c0, c1, c2, c3, c4, e1, e2, e3, e4, hnd, Tree.ptr_ne, Tree.ptr_ne', hnear, hf, h4.root, plug_ptr]

theorem removeRed_right
    (h : RepT m (plug (.right pa pc (.node s .red sl sk sv sr) pk pv :: rest) (.node a c l k v r))) :
    ∃ m', RepT m' (plug (.right pa .red sr pk pv :: .right s .black sl sk sv :: rest) (.node a c l k v r)) ∧ SameMeta m m' ∧
      balanceAfterRemoveRight m (some a) = balanceAfterRemoveRightRest m' (some a) sr.ptr := by
  have hnd := h.nodup_plug
  simp only [Tree.addrs_node, List.nodup_cons, List.nodup_append, List.mem_append, List.mem_cons,
    List.disjoint_cons_left, List.disjoint_cons_right, List.disjoint_append_left, List.cons_append,
    List.disjoint_append_right, not_or, ctxAddrs_cons, ctxAddrs_nil, Tree.addrs_nil,
    Frame.addr_left, Frame.sibling_left, Frame.addr_right, Frame.sibling_right] at hnd
  have c0 := h.rep
  simp only [plug_cons, plug_nil, Frame.fill_left, Frame.fill_right, Rep_plug, Rep, RepCtx,
    Tree.ptr_node, Tree.ptr_nil, ctxPtr_cons, ctxPtr_nil, Frame.addr_left, Frame.addr_right] at c0
  obtain ⟨m1, e1, h1, s1⟩ := setColor_node (.left pa pc pk pv (.node a c l k v r) :: rest) (a := s) h .black
  have c1 := h1.rep
  simp only [plug_cons, plug_nil, Frame.fill_left, Frame.fill_right, Rep_plug, Rep, RepCtx,
    Tree.ptr_node, Tree.ptr_nil, ctxPtr_cons, ctxPtr_nil, Frame.addr_left, Frame.addr_right] at c1
  obtain ⟨m2, e2, h2, s2⟩ := setColor_node (rest) (a := pa) h1 .red
  have c2 := h2.rep
  simp only [plug_cons, plug_nil, Frame.fill_left, Frame.fill_right, Rep_plug, Rep, RepCtx,
    Tree.ptr_node, Tree.ptr_nil, ctxPtr_cons, ctxPtr_nil, Frame.addr_left, Frame.addr_right] at c2
  obtain ⟨m3, e3, h3, s3⟩ := rotateRight_spec (rest) (x := pa) h2
  have c3 := h3.rep
  simp only [plug_cons, plug_nil, Frame.fill_left, Frame.fill_right, Rep_plug, Rep, RepCtx,
    Tree.ptr_node, Tree.ptr_nil, ctxPtr_cons, ctxPtr_nil, Frame.addr_left, Frame.addr_right] at c3
  refine ⟨m3, h3, (s1.trans s2).trans s3, ?_⟩
  simp [balanceAfterRemoveLeftRest, balanceAfterRemoveRightRest, balanceAfterRemoveLeft,
    balanceAfterRemoveRight, parentOf, leftOf, rightOf, colorOf_some, colorOf_none, getParent,
    getLeft, getRight, getColor, deref_some,
    c0, c1, c2, c3, e1, e2, e3, hnd, Tree.ptr_ne, Tree.ptr_ne']

theorem removeDirect_right {sib : Tree K V}
    (h : RepT m (plug (.right pa pc sib pk pv :: rest) (.node a c l k v r))) (hs : sib.color ≠ Color.red) :
    balanceAfterRemoveRight m (some a) = balanceAfterRemoveRightRest m (some a) sib.ptr := by
  have c0 := h.rep
  simp only [plug_cons, plug_nil, Frame.fill_left, Frame.fill_right, Rep_plug, Rep, RepCtx,
    Tree.ptr_node, Tree.ptr_nil, ctxPtr_cons, ctxPtr_nil, Frame.addr_left, Frame.addr_right] at c0
  have hsib := colorOf_tree (.left pa pc pk pv (.node a c l k v r) :: rest) (t := sib) h
  simp [balanceAfterRemoveRight, parentOf, leftOf, rightOf, getParent, getLeft, getRight, deref_some, c0, hsib, hs]

end RemoveFixCases

end collections

namespace collections

/-! ## The loop of `balanceAfterRemove` -/

section RemoveFixLoop

variable {K V : Type} {m : TreeMap K V} {rest : List (Frame K V)} {pa a : Nat}
  {pc c : Color} {pk k : K} {pv v : V} {l r : Tree K V}

theorem Tree.color_ne_black_node {t : Tree K V} (h : t.color ≠ Color.black) :
    ∃ a c l k v r, t = .node a c l k v r ∧ c ≠ Color.black := by
  cases t with
  | nil => simp at h
  | node a c l k v r => exact ⟨a, c, l, k, v, r, rfl, by simpa using h⟩

theorem Tree.color_red_node {t : Tree K V} (h : t.color = Color.red) :
    ∃ a l k v r, t = .node a .red l k v r := by
  cases t with
  | nil => simp at h
  | node a c l k v r => simp only [Tree.color_node] at h; subst h; exact ⟨a, l, k, v, r, rfl⟩

theorem plug_ptr_ne_none (ctx : List (Frame K V)) {t : Tree K V} (h : t.ptr ≠ none) :
    (plug ctx t).ptr ≠ none := by
  cases ctx with
  | nil => simpa using h
  | cons f ctx =>
    obtain ⟨b, hb, _⟩ := ctxRoot_cons_mem f ctx t.ptr
    rw [plug_ptr, hb]; simp

theorem removeRest_left_spec {s : Tree K V}
    (h : RepT m (plug (.left pa pc pk pv s :: rest) (.node a c l k v r))) :
    ∃ z' m', RemoveFixRest (.left pa pc pk pv s :: rest, .node a c l k v r) z' ∧
      balanceAfterRemoveLeftRest m (some a) s.ptr = .ok (m', z'.2.ptr) ∧
      RepT m' (plug z'.1 z'.2) ∧ SameMeta m m' := by
  cases s with
  | nil =>
    obtain ⟨m', e, h', s'⟩ := removeRest_leftBlack_nil h
    exact ⟨_, m', .leftBlack pa pc pk pv .nil rest _ rfl rfl, e, h', s'⟩
  | node s sc sl sk sv sr =>
    by_cases hr : sr.color = Color.black
    · by_cases hl : sl.color = Color.black
      · obtain ⟨m', e, h', s'⟩ := removeRest_leftBlack_node h hl hr
        exact ⟨_, m', .leftBlack pa pc pk pv _ rest _ hl hr, e, h', s'⟩
      · obtain ⟨n, nc, nl, nk, nv, nr, rfl, hn⟩ := Tree.color_ne_black_node hl
        obtain ⟨m', e, h', s'⟩ := removeRest_leftNear h hn hr
        exact ⟨_, m', .leftNear pa pc pk pv s sc n nc nl nk nv nr sk sv sr rest _ hn hr, e, h', s'⟩
    · obtain ⟨f, fc, fl, fk, fv, fr, rfl, hf⟩ := Tree.color_ne_black_node hr
      obtain ⟨m', e, h', s'⟩ := removeRest_leftFar h hf
      exact ⟨_, m', .leftFar pa pc pk pv s sc sl sk sv _ rest _ (by simpa using hf), e, h', s'⟩

theorem removeRest_right_spec {s : Tree K V}
    (h : RepT m (plug (.right pa pc s pk pv :: rest) (.node a c l k v r))) :
    ∃ z' m', RemoveFixRest (.right pa pc s pk pv :: rest, .node a c l k v r) z' ∧
      balanceAfterRemoveRightRest m (some a) s.ptr = .ok (m', z'.2.ptr) ∧
      RepT m' (plug z'.1 z'.2) ∧ SameMeta m m' := by
  cases s with
  | nil =>
    obtain ⟨m', e, h', s'⟩ := removeRest_rightBlack_nil h
    exact ⟨_, m', .rightBlack pa pc .nil pk pv rest _ rfl rfl, e, h', s'⟩
  | node s sc sl sk sv sr =>
    by_cases hl : sl.color = Color.black
    · by_cases hr : sr.color = Color.black
      · obtain ⟨m', e, h', s'⟩ := removeRest_rightBlack_node h hl hr
        exact ⟨_, m', .rightBlack pa pc _ pk pv rest _ hr hl, e, h', s'⟩
      · obtain ⟨n, nc, nl, nk, nv, nr, rfl, hn⟩ := Tree.color_ne_black_node hr
        obtain ⟨m', e, h', s'⟩ := removeRest_rightNear h hn hl
        exact ⟨_, m', .rightNear pa pc s sc sl sk sv n nc nl nk nv nr pk pv rest _ hn hl, e, h', s'⟩
    · obtain ⟨f, fc, fl, fk, fv, fr, rfl, hf⟩ := Tree.color_ne_black_node hl
      obtain ⟨m', e, h', s'⟩ := removeRest_rightFar h hf
      exact ⟨_, m', .rightFar pa pc s sc _ sk sv sr pk pv rest _ (by simpa using hf), e, h', s'⟩

theorem removeBody_left {s : Tree K V}
    (h : RepT m (plug (.left pa pc pk pv s :: rest) (.node a c l k v r))) :
    balanceAfterRemoveBody m (some a) = balanceAfterRemoveLeft m (some a) := by
  have c0 := h.rep
  simp only [plug_cons, plug_nil, Frame.fill_left, Frame.fill_right, Rep_plug, Rep, RepCtx,
    Tree.ptr_node, Tree.ptr_nil, ctxPtr_cons, ctxPtr_nil, Frame.addr_left, Frame.addr_right] at c0
  simp [balanceAfterRemoveBody, parentOf, leftOf, getParent, getLeft, deref_some, c0]

theorem removeBody_right {s : Tree K V}
    (h : RepT m (plug (.right pa pc s pk pv :: rest) (.node a c l k v r))) :
    balanceAfterRemoveBody m (some a) = balanceAfterRemoveRight m (some a) := by
  have hnd := h.nodup_plug
  simp only [Tree.addrs_node, List.nodup_cons, List.nodup_append, List.mem_append, List.mem_cons,
    List.cons_append, not_or, ctxAddrs_cons, Frame.addr_right, Frame.sibling_right] at hnd
  have c0 := h.rep
  simp only [plug_cons, plug_nil, Frame.fill_left, Frame.fill_right, Rep_plug, Rep, RepCtx,
    Tree.ptr_node, Tree.ptr_nil, ctxPtr_cons, ctxPtr_nil, Frame.addr_left, Frame.addr_right] at c0
  simp [balanceAfterRemoveBody, parentOf, leftOf, getParent, getLeft, deref_some, c0,
    Tree.ptr_ne' hnd.1.2.2.1]

theorem balanceAfterRemoveBody_spec {ctx : List (Frame K V)}
    (h : RepT m (plug ctx (.node a c l k v r)))
    (hc : removeFixCond (ctx, .node a c l k v r) = true) :
    ∃ z' m', RemoveFixStep (ctx, .node a c l k v r) z' ∧
      balanceAfterRemoveBody m (some a) = .ok (m', z'.2.ptr) ∧ RepT m' (plug z'.1 z'.2) ∧
      SameMeta m m' := by
  cases ctx with
  | nil => simp [removeFixCond] at hc
  | cons p rest =>
    cases p with
    | left pa pc pk pv s =>
      rw [removeBody_left h]
      by_cases hs : s.color = Color.red
      · obtain ⟨sa, sl, sk, sv, sr, rfl⟩ := Tree.color_red_node hs
        obtain ⟨m₁, h₁, s₁, e₁⟩ := removeRed_left h
        obtain ⟨z', m', hstep, e, h', s'⟩ := removeRest_left_spec h₁
        exact ⟨z', m', .leftRed pa pc pk pv sa sl sk sv sr rest _ z' hstep, by rw [e₁, e], h',
          s₁.trans s'⟩
      · obtain ⟨z', m', hstep, e, h', s'⟩ := removeRest_left_spec h
        exact ⟨z', m', .direct _ rest _ z' (by simpa using hs) hstep,
          by rw [removeDirect_left h hs, e], h', s'⟩
    | right pa pc s pk pv =>
      rw [removeBody_right h]
      by_cases hs : s.color = Color.red
      · obtain ⟨sa, sl, sk, sv, sr, rfl⟩ := Tree.color_red_node hs
        obtain ⟨m₁, h₁, s₁, e₁⟩ := removeRed_right h
        obtain ⟨z', m', hstep, e, h', s'⟩ := removeRest_right_spec h₁
        exact ⟨z', m', .rightRed pa pc sa sl sk sv sr pk pv rest _ z' hstep, by rw [e₁, e], h',
          s₁.trans s'⟩
      · obtain ⟨z', m', hstep, e, h', s'⟩ := removeRest_right_spec h
        exact ⟨z', m', .direct _ rest _ z' (by simpa using hs) hstep,
          by rw [removeDirect_right h hs, e], h', s'⟩

theorem balanceAfterRemoveCond_spec {ctx : List (Frame K V)}
    (h : RepT m (plug ctx (.node a c l k v r))) :
    balanceAfterRemoveCond m (some a) = .ok (removeFixCond (ctx, .node a c l k v r)) := by
  cases ctx with
  | nil =>
    have := h.root_focus_nil
    simp only [Tree.ptr_node] at this
    simp [balanceAfterRemoveCond, removeFixCond, this]
  | cons p rest =>
    have hr := h.root_ne_focus
    simp [balanceAfterRemoveCond, removeFixCond, Ne.symm hr, colorOf_some, getColor, deref_some,
      h.cell_focus]

theorem removeFixCond_nil (t : Tree K V) : removeFixCond ([], t) = false := rfl

theorem removeFixCond_cons (p : Frame K V) (ctx : List (Frame K V)) (t : Tree K V) :
    removeFixCond (p :: ctx, t) = decide (t.color = Color.black) := rfl

theorem RemoveFixStep.remove_measure_lt {z z' : List (Frame K V) × Tree K V} (hs : RemoveFixStep z z')
    (hc : removeFixCond z = true) : removeFixMeasure z' < removeFixMeasure z := by
  have hz : removeFixMeasure z = z.1.length := by simp [removeFixMeasure, hc]
  rw [hz]
  cases hs with
  | direct p rest t z' _ h =>
    cases h <;> simp only [removeFixMeasure, removeFixCond_nil, List.length_cons] <;>
      (try split) <;> simp
  | leftRed pa pc pk pv s sl sk sv sr rest t z' h =>
    cases h <;> simp [removeFixMeasure, removeFixCond_nil, removeFixCond_cons]
  | rightRed pa pc s sl sk sv sr pk pv rest t z' h =>
    cases h <;> simp [removeFixMeasure, removeFixCond_nil, removeFixCond_cons]

theorem RemoveFixRest.rest_ptr_ne_none {z z' : List (Frame K V) × Tree K V} (hs : RemoveFixRest z z') :
    z'.2.ptr ≠ none := by
  cases hs with
  | leftBlack | rightBlack => simp
  | leftNear | leftFar | rightNear | rightFar => exact plug_ptr_ne_none _ (by simp)

theorem RemoveFixStep.ptr_ne_none {z z' : List (Frame K V) × Tree K V} (hs : RemoveFixStep z z') :
    z'.2.ptr ≠ none := by
  cases hs with
  | direct _ _ _ _ _ h => exact h.rest_ptr_ne_none
  | leftRed _ _ _ _ _ _ _ _ _ _ _ _ h => exact h.rest_ptr_ne_none
  | rightRed _ _ _ _ _ _ _ _ _ _ _ _ h => exact h.rest_ptr_ne_none

theorem balanceAfterRemoveLoop_iter (fuel : Nat) :
    ∀ (m : TreeMap K V) (ctx : List (Frame K V)) (t : Tree K V), RepT m (plug ctx t) →
      t.ptr ≠ none → removeFixMeasure (ctx, t) ≤ fuel →
      ∃ ctx' t' m', balanceAfterRemoveLoop fuel m t.ptr = .ok m' ∧
        RepT m' (plug ctx' (t'.paint .black)) ∧
        Relation.ReflTransGen RemoveFixIter (ctx, t) (ctx', t') ∧
        removeFixCond (ctx', t') = false ∧ SameMeta m m' := by
  induction fuel with
  | zero =>
    intro m ctx t h hne hfuel
    cases t with
    | nil => simp at hne
    | node a c l k v r =>
      have hc : removeFixCond (ctx, .node a c l k v r) = false := by
        cases hcond : removeFixCond (ctx, .node a c l k v r) with
        | false => rfl
        | true =>
          cases ctx with
          | nil => simp [removeFixCond] at hcond
          | cons p rest => simp [removeFixMeasure, hcond] at hfuel
      obtain ⟨m', e, h', s⟩ := setColor_node _ h .black
      refine ⟨ctx, .node a c l k v r, m', ?_, h', .refl, hc, s⟩
      simp [balanceAfterRemoveLoop, balanceAfterRemoveCond_spec h, hc, e]
  | succ fuel ih =>
    intro m ctx t h hne hfuel
    cases t with
    | nil => simp at hne
    | node a c l k v r =>
      cases hc : removeFixCond (ctx, .node a c l k v r) with
      | false =>
        obtain ⟨m', e, h', s⟩ := setColor_node _ h .black
        refine ⟨ctx, .node a c l k v r, m', ?_, h', .refl, hc, s⟩
        simp [balanceAfterRemoveLoop, balanceAfterRemoveCond_spec h, hc, e]
      | true =>
        obtain ⟨⟨ctx₁, t₁⟩, m₁, hstep, hbody, h₁, s₁⟩ := balanceAfterRemoveBody_spec h hc
        have hlt := hstep.remove_measure_lt hc
        obtain ⟨ctx', t', m', hloop, h', hsteps, hc', s'⟩ :=
          ih m₁ ctx₁ t₁ h₁ hstep.ptr_ne_none (by omega)
        refine ⟨ctx', t', m', ?_, h', .head ⟨hc, hstep⟩ hsteps, hc', s₁.trans s'⟩
        simp only [Tree.ptr_node]
        simp [balanceAfterRemoveLoop, balanceAfterRemoveCond_spec h, hc, hbody, hloop]

theorem balanceAfterRemoveLoop_spec (fuel : Nat) :
    ∀ (m : TreeMap K V) (ctx : List (Frame K V)) (t : Tree K V), RepT m (plug ctx t) →
      t.ptr ≠ none → removeFixMeasure (ctx, t) ≤ fuel →
      ∃ ctx' t' m', balanceAfterRemoveLoop fuel m t.ptr = .ok m' ∧
        RepT m' (plug ctx' (t'.paint .black)) ∧
        Relation.ReflTransGen RemoveFixStep (ctx, t) (ctx', t') ∧
        removeFixCond (ctx', t') = false ∧ SameMeta m m' := by
  intro m ctx t h hne hfuel
  obtain ⟨ctx', t', m', e, h', hs, hc, s⟩ :=
    balanceAfterRemoveLoop_iter fuel m ctx t h hne hfuel
  exact ⟨ctx', t', m', e, h', hs.mono (fun _ _ hi => hi.2), hc, s⟩

theorem balanceAfterRemove_spec {ctx : List (Frame K V)} {t : Tree K V}
    (h : RepT m (plug ctx t)) (hne : t.ptr ≠ none) :
    ∃ ctx' t' m', balanceAfterRemove m t.ptr = .ok m' ∧
      RepT m' (plug ctx' (t'.paint .black)) ∧
      Relation.ReflTransGen RemoveFixStep (ctx, t) (ctx', t') ∧
      removeFixCond (ctx', t') = false ∧ SameMeta m m' := by
  have hfuel : removeFixMeasure (ctx, t) ≤ m.heap.length := by
    have h1 := plug_length_le_size ctx t
    have h2 := h.size_le
    have h3 : removeFixMeasure (ctx, t) ≤ ctx.length := by
      unfold removeFixMeasure; split <;> simp
    omega
  exact balanceAfterRemoveLoop_spec m.heap.length m ctx t h hne hfuel

end RemoveFixLoop

end collections

namespace collections

/-! ## What the loop of `balanceAfterRemove` preserves -/

section RemoveFixFacts

variable {K V : Type}

theorem plug_append (δ ctx : List (Frame K V)) (t : Tree K V) :
    plug (δ ++ ctx) t = plug ctx (plug δ t) := by
  induction δ generalizing t with
  | nil => rfl
  | cons f δ ih => simp [ih]

theorem plug_paint_toList (ctx : List (Frame K V)) (t : Tree K V) (c : Color) :
    (plug ctx (t.paint c)).toList = (plug ctx t).toList := by
  simp [plug_toList]

theorem RemoveFixRest.rest_toList_eq {z z' : List (Frame K V) × Tree K V} (hs : RemoveFixRest z z') :
    (plug z'.1 z'.2).toList = (plug z.1 z.2).toList := by
  cases hs <;> simp [plug_toList, ctxBefore, ctxAfter]

theorem RemoveFixStep.toList_eq {z z' : List (Frame K V) × Tree K V} (hs : RemoveFixStep z z') :
    (plug z'.1 z'.2).toList = (plug z.1 z.2).toList := by
  cases hs with
  | direct _ _ _ _ _ h => exact h.rest_toList_eq
  | leftRed _ _ _ _ _ _ _ _ _ _ _ _ h =>
    rw [h.rest_toList_eq]; simp [plug_toList, ctxBefore, ctxAfter]
  | rightRed _ _ _ _ _ _ _ _ _ _ _ _ h =>
    rw [h.rest_toList_eq]; simp [plug_toList, ctxBefore, ctxAfter]

theorem RemoveFixSteps.steps_toList_eq {z z' : List (Frame K V) × Tree K V}
    (hs : Relation.ReflTransGen RemoveFixStep z z') :
    (plug z'.1 z'.2).toList = (plug z.1 z.2).toList := by
  induction hs with
  | refl => rfl
  | tail _ hstep ih => rw [hstep.toList_eq, ih]

/-- Every iteration moves the current node up: the new current subtree contains the old one. -/
theorem RemoveFixRest.rest_grow {z z' : List (Frame K V) × Tree K V} (hs : RemoveFixRest z z') :
    ∃ f δ, z'.2 = plug (f :: δ) z.2 := by
  cases hs with
  | leftBlack pa pc pk pv s rest t => exact ⟨.left pa pc pk pv (s.paint .red), [], rfl⟩
  | rightBlack pa pc s pk pv rest t => exact ⟨.right pa pc (s.paint .red) pk pv, [], rfl⟩
  | leftNear pa pc pk pv s sc n nc nl nk nv nr sk sv sr rest t =>
    exact ⟨.left pa .black pk pv nl, .left n pc nk nv (.node s .black nr sk sv sr) :: rest, rfl⟩
  | leftFar pa pc pk pv s sc sl sk sv sr rest t =>
    exact ⟨.left pa .black pk pv sl, .left s pc sk sv (sr.paint .black) :: rest, rfl⟩
  | rightNear pa pc s sc sl sk sv n nc nl nk nv nr pk pv rest t =>
    exact ⟨.right pa .black nr pk pv, .right n pc (.node s .black sl sk sv nl) nk nv :: rest, rfl⟩
  | rightFar pa pc s sc sl sk sv sr pk pv rest t =>
    exact ⟨.right pa .black sr pk pv, .right s pc (sl.paint .black) sk sv :: rest, rfl⟩

theorem RemoveFixStep.grow {z z' : List (Frame K V) × Tree K V} (hs : RemoveFixStep z z') :
    ∃ f δ, z'.2 = plug (f :: δ) z.2 := by
  cases hs with
  | direct _ _ _ _ _ h => exact h.rest_grow
  | leftRed _ _ _ _ _ _ _ _ _ _ _ _ h => exact h.rest_grow
  | rightRed _ _ _ _ _ _ _ _ _ _ _ _ h => exact h.rest_grow

theorem RemoveFixSteps.steps_grow {z z' : List (Frame K V) × Tree K V}
    (hs : Relation.ReflTransGen RemoveFixStep z z') :
    z' = z ∨ ∃ f δ, z'.2 = plug (f :: δ) z.2 := by
  induction hs with
  | refl => exact Or.inl rfl
  | tail _ hstep ih =>
    obtain ⟨f, δ, e⟩ := hstep.grow
    rcases ih with rfl | ⟨g, γ, e'⟩
    · exact Or.inr ⟨f, δ, e⟩
    · refine Or.inr ⟨g, γ ++ f :: δ, ?_⟩
      rw [e, e', ← List.cons_append, plug_append]

/-- Painting the root of a tree that was plugged into a non-empty path paints the outermost
frame only. -/
theorem paint_plug_cons (c : Color) (f : Frame K V) (δ : List (Frame K V)) :
    ∃ g γ, ∀ t : Tree K V, (plug (f :: δ) t).paint c = plug (g :: γ) t := by
  induction δ generalizing f with
  | nil => exact ⟨f.paint c, [], fun t => by cases f <;> rfl⟩
  | cons f' δ ih =>
    obtain ⟨g, γ, h⟩ := ih f'
    exact ⟨f, g :: γ, fun t => by
      have := h (f.fill t)
      simpa using this⟩

end RemoveFixFacts

end collections

namespace collections

/-! ## Splicing a node out of the tree -/

section Splice

variable {K V : Type}

theorem SameMeta.erase (m : TreeMap K V) (a : Nat) : SameMeta m (m.erase a) := ⟨rfl, rfl, by simp⟩

theorem removeLink_left {m : TreeMap K V} {ctx : List (Frame K V)} {e ra : Nat} {ce rc : Color}
    {rl rr : Tree K V} {ke rk : K} {ve rv : V}
    (h : RepT m (plug ctx (.node e ce (.node ra rc rl rk rv rr) ke ve .nil))) :
    ∃ m', removeLink m (some e) (some ra) = .ok (m', ce) ∧
      RepT m' (plug ctx (.node ra rc rl rk rv rr)) ∧ SameMeta m m' := by
  have hctx := h.ctx
  have hf := h.focus
  have hnd := h.nodup_plug
  have hnd' := hnd
  have hroot := h.root_plug
  simp only [Rep, Tree.ptr_node] at hf hroot
  obtain ⟨he, ⟨hr, hrl', hrr'⟩, -⟩ := hf
  have hel := cell_lt he
  have hrl := cell_lt hr
  cases ctx with
  | nil =>
    simp only [Tree.addrs_node, List.nodup_cons, List.nodup_append, List.mem_append, List.mem_cons,
      List.disjoint_cons_left, List.disjoint_cons_right, List.disjoint_append_left, List.cons_append,
      List.disjoint_append_right, not_or, ctxAddrs_cons, ctxAddrs_nil, Tree.addrs_nil,
      List.append_nil, List.nil_append, List.not_mem_nil, not_false_eq_true, true_and, and_true,
      List.nodup_nil, List.disjoint_nil_left, List.disjoint_nil_right,
      Frame.addr_left, Frame.sibling_left, Frame.addr_right, Frame.sibling_right] at hnd
    simp [removeLink, getRight, getLeft, setRight, setLeft, setParent, getParent, getColor,
      deref_some, modify_some, free_some, he, hr, cell_store_self, cell_store_ne,
      cell_store_ne', hel, hrl, hnd, Tree.ptr_ne, Tree.ptr_ne']
    refine ⟨RepT.of_plug_sub ([]) hnd' ?_ ?_ ?_ ?_, ?_⟩
    · simp
    · simp [hroot]
    · simp [RepCtx, Rep, Rep_store_iff, RepCtx_store_iff, Rep_erase_iff, RepCtx_erase_iff,
        cell_store_self, cell_store_ne, cell_store_ne', cell_erase_ne, cell_erase_ne',
        hel, hrl, hnd, hrl', hrr']
    · simp [RepCtx, Rep, Rep_store_iff, RepCtx_store_iff, Rep_erase_iff, RepCtx_erase_iff,
        cell_store_self, cell_store_ne, cell_store_ne', cell_erase_ne, cell_erase_ne',
        hel, hrl, hnd, hrl', hrr']
    · constructor <;> simp
  | cons f ctx =>
    cases f with
    | left pa pc pk pv ps =>
      simp only [RepCtx] at hctx
      obtain ⟨hp, hps, hctx⟩ := hctx
      have hpl := cell_lt hp
      simp only [Tree.addrs_node, List.nodup_cons, List.nodup_append, List.mem_append, List.mem_cons,
        List.disjoint_cons_left, List.disjoint_cons_right, List.disjoint_append_left, List.cons_append,
        List.disjoint_append_right, not_or, ctxAddrs_cons, ctxAddrs_nil, Tree.addrs_nil,
        List.append_nil, List.nil_append, List.not_mem_nil, not_false_eq_true, true_and, and_true,
        List.nodup_nil, List.disjoint_nil_left, List.disjoint_nil_right,
        Frame.addr_left, Frame.sibling_left, Frame.addr_right, Frame.sibling_right] at hnd
      simp [removeLink, getRight, getLeft, setRight, setLeft, setParent, getParent, getColor,
        deref_some, modify_some, free_some, he, hr, hp, cell_store_self, cell_store_ne,
        cell_store_ne', hel, hrl, hpl, hnd, Tree.ptr_ne, Tree.ptr_ne']
      refine ⟨RepT.of_plug_sub (Frame.left pa pc pk pv ps :: ctx) hnd' ?_ ?_ ?_ ?_, ?_⟩
      · simp
      · simp [hroot]
      · simp [RepCtx, Rep, Rep_store_iff, RepCtx_store_iff, Rep_erase_iff, RepCtx_erase_iff,
          cell_store_self, cell_store_ne, cell_store_ne', cell_erase_ne, cell_erase_ne',
          hel, hrl, hpl, hnd, hrl', hrr', hps, hctx]
      · simp [RepCtx, Rep, Rep_store_iff, RepCtx_store_iff, Rep_erase_iff, RepCtx_erase_iff,
          cell_store_self, cell_store_ne, cell_store_ne', cell_erase_ne, cell_erase_ne',
          hel, hrl, hpl, hnd, hrl', hrr', hps, hctx]
      · constructor <;> simp
    | right pa pc ps pk pv =>
      simp only [RepCtx] at hctx
      obtain ⟨hp, hps, hctx⟩ := hctx
      have hpl := cell_lt hp
      simp only [Tree.addrs_node, List.nodup_cons, List.nodup_append, List.mem_append, List.mem_cons,
        List.disjoint_cons_left, List.disjoint_cons_right, List.disjoint_append_left, List.cons_append,
        List.disjoint_append_right, not_or, ctxAddrs_cons, ctxAddrs_nil, Tree.addrs_nil,
        List.append_nil, List.nil_append, List.not_mem_nil, not_false_eq_true, true_and, and_true,
        List.nodup_nil, List.disjoint_nil_left, List.disjoint_nil_right,
        Frame.addr_left, Frame.sibling_left, Frame.addr_right, Frame.sibling_right] at hnd
      simp [removeLink, getRight, getLeft, setRight, setLeft, setParent, getParent, getColor,
        deref_some, modify_some, free_some, he, hr, hp, cell_store_self, cell_store_ne,
        cell_store_ne', hel, hrl, hpl, hnd, Tree.ptr_ne, Tree.ptr_ne']
      refine ⟨RepT.of_plug_sub (Frame.right pa pc ps pk pv :: ctx) hnd' ?_ ?_ ?_ ?_, ?_⟩
      · simp
      · simp [hroot]
      · simp [RepCtx, Rep, Rep_store_iff, RepCtx_store_iff, Rep_erase_iff, RepCtx_erase_iff,
          cell_store_self, cell_store_ne, cell_store_ne', cell_erase_ne, cell_erase_ne',
          hel, hrl, hpl, hnd, hrl', hrr', hps, hctx]
      · simp [RepCtx, Rep, Rep_store_iff, RepCtx_store_iff, Rep_erase_iff, RepCtx_erase_iff,
          cell_store_self, cell_store_ne, cell_store_ne', cell_erase_ne, cell_erase_ne',
          hel, hrl, hpl, hnd, hrl', hrr', hps, hctx]
      · constructor <;> simp

theorem removeLink_right {m : TreeMap K V} {ctx : List (Frame K V)} {e ra : Nat} {ce rc : Color}
    {rl rr : Tree K V} {ke rk : K} {ve rv : V}
    (h : RepT m (plug ctx (.node e ce .nil ke ve (.node ra rc rl rk rv rr)))) :
    ∃ m', removeLink m (some e) (some ra) = .ok (m', ce) ∧
      RepT m' (plug ctx (.node ra rc rl rk rv rr)) ∧ SameMeta m m' := by
  have hctx := h.ctx
  have hf := h.focus
  have hnd := h.nodup_plug
  have hnd' := hnd
  have hroot := h.root_plug
  simp only [Rep, Tree.ptr_node] at hf hroot
  obtain ⟨he, -, hr, hrl', hrr'⟩ := hf
  have hel := cell_lt he
  have hrl := cell_lt hr
  cases ctx with
  | nil =>
    simp only [Tree.addrs_node, List.nodup_cons, List.nodup_append, List.mem_append, List.mem_cons,
      List.disjoint_cons_left, List.disjoint_cons_right, List.disjoint_append_left, List.cons_append,
      List.disjoint_append_right, not_or, ctxAddrs_cons, ctxAddrs_nil, Tree.addrs_nil,
      List.append_nil, List.nil_append, List.not_mem_nil, not_false_eq_true, true_and, and_true,
      List.nodup_nil, List.disjoint_nil_left, List.disjoint_nil_right,
      Frame.addr_left, Frame.sibling_left, Frame.addr_right, Frame.sibling_right] at hnd
    simp [removeLink, getRight, getLeft, setRight, setLeft, setParent, getParent, getColor,
      deref_some, modify_some, free_some, he, hr, cell_store_self, cell_store_ne,
      cell_store_ne', hel, hrl, hnd, Tree.ptr_ne, Tree.ptr_ne']
    refine ⟨RepT.of_plug_sub ([]) hnd' ?_ ?_ ?_ ?_, ?_⟩
    · simp
    · simp [hroot]
    · simp [RepCtx, Rep, Rep_store_iff, RepCtx_store_iff, Rep_erase_iff, RepCtx_erase_iff,
        cell_store_self, cell_store_ne, cell_store_ne', cell_erase_ne, cell_erase_ne',
        hel, hrl, hnd, hrl', hrr']
    · simp [RepCtx, Rep, Rep_store_iff, RepCtx_store_iff, Rep_erase_iff, RepCtx_erase_iff,
        cell_store_self, cell_store_ne, cell_store_ne', cell_erase_ne, cell_erase_ne',
        hel, hrl, hnd, hrl', hrr']
    · constructor <;> simp
  | cons f ctx =>
    cases f with
    | left pa pc pk pv ps =>
      simp only [RepCtx] at hctx
      obtain ⟨hp, hps, hctx⟩ := hctx
      have hpl := cell_lt hp
      simp only [Tree.addrs_node, List.nodup_cons, List.nodup_append, List.mem_append, List.mem_cons,
        List.disjoint_cons_left, List.disjoint_cons_right, List.disjoint_append_left, List.cons_append,
        List.disjoint_append_right, not_or, ctxAddrs_cons, ctxAddrs_nil, Tree.addrs_nil,
        List.append_nil, List.nil_append, List.not_mem_nil, not_false_eq_true, true_and, and_true,
        List.nodup_nil, List.disjoint_nil_left, List.disjoint_nil_right,
        Frame.addr_left, Frame.sibling_left, Frame.addr_right, Frame.sibling_right] at hnd
      simp [removeLink, getRight, getLeft, setRight, setLeft, setParent, getParent, getColor,
        deref_some, modify_some, free_some, he, hr, hp, cell_store_self, cell_store_ne,
        cell_store_ne', hel, hrl, hpl, hnd, Tree.ptr_ne, Tree.ptr_ne']
      refine ⟨RepT.of_plug_sub (Frame.left pa pc pk pv ps :: ctx) hnd' ?_ ?_ ?_ ?_, ?_⟩
      · simp
      · simp [hroot]
      · simp [RepCtx, Rep, Rep_store_iff, RepCtx_store_iff, Rep_erase_iff, RepCtx_erase_iff,
          cell_store_self, cell_store_ne, cell_store_ne', cell_erase_ne, cell_erase_ne',
          hel, hrl, hpl, hnd, hrl', hrr', hps, hctx]
      · simp [RepCtx, Rep, Rep_store_iff, RepCtx_store_iff, Rep_erase_iff, RepCtx_erase_iff,
          cell_store_self, cell_store_ne, cell_store_ne', cell_erase_ne, cell_erase_ne',
          hel, hrl, hpl, hnd, hrl', hrr', hps, hctx]
      · constructor <;> simp
    | right pa pc ps pk pv =>
      simp only [RepCtx] at hctx
      obtain ⟨hp, hps, hctx⟩ := hctx
      have hpl := cell_lt hp
      simp only [Tree.addrs_node, List.nodup_cons, List.nodup_append, List.mem_append, List.mem_cons,
        List.disjoint_cons_left, List.disjoint_cons_right, List.disjoint_append_left, List.cons_append,
        List.disjoint_append_right, not_or, ctxAddrs_cons, ctxAddrs_nil, Tree.addrs_nil,
        List.append_nil, List.nil_append, List.not_mem_nil, not_false_eq_true, true_and, and_true,
        List.nodup_nil, List.disjoint_nil_left, List.disjoint_nil_right,
        Frame.addr_left, Frame.sibling_left, Frame.addr_right, Frame.sibling_right] at hnd
      simp [removeLink, getRight, getLeft, setRight, setLeft, setParent, getParent, getColor,
        deref_some, modify_some, free_some, he, hr, hp, cell_store_self, cell_store_ne,
        cell_store_ne', hel, hrl, hpl, hnd, Tree.ptr_ne, Tree.ptr_ne']
      refine ⟨RepT.of_plug_sub (Frame.right pa pc ps pk pv :: ctx) hnd' ?_ ?_ ?_ ?_, ?_⟩
      · simp
      · simp [hroot]
      · simp [RepCtx, Rep, Rep_store_iff, RepCtx_store_iff, Rep_erase_iff, RepCtx_erase_iff,
          cell_store_self, cell_store_ne, cell_store_ne', cell_erase_ne, cell_erase_ne',
          hel, hrl, hpl, hnd, hrl', hrr', hps, hctx]
      · simp [RepCtx, Rep, Rep_store_iff, RepCtx_store_iff, Rep_erase_iff, RepCtx_erase_iff,
          cell_store_self, cell_store_ne, cell_store_ne', cell_erase_ne, cell_erase_ne',
          hel, hrl, hpl, hnd, hrl', hrr', hps, hctx]
      · constructor <;> simp

theorem removeUnlink_left {m : TreeMap K V} {ctx : List (Frame K V)} {e pa : Nat}
    {ce pc : Color} {ps : Tree K V} {ke pk : K} {ve pv : V}
    (h : RepT m (plug (Frame.left pa pc pk pv ps :: ctx) (.node e ce .nil ke ve .nil))) :
    ∃ m', removeUnlink m (some e) = .ok m' ∧
      RepT m' (plug (Frame.left pa pc pk pv ps :: ctx) .nil) ∧ SameMeta m m' := by
  have hctx := h.ctx
  have hf := h.focus
  have hnd := h.nodup_plug
  have hnd' := hnd
  have hroot := h.root_plug
  simp only [Rep, Tree.ptr_node, RepCtx] at hf hroot hctx
  obtain ⟨he, -, -⟩ := hf
  obtain ⟨hp, hps, hctx⟩ := hctx
  have hel := cell_lt he
  have hpl := cell_lt hp
  simp only [Tree.addrs_node, List.nodup_cons, List.nodup_append, List.mem_append, List.mem_cons,
    List.disjoint_cons_left, List.disjoint_cons_right, List.disjoint_append_left, List.cons_append,
    List.disjoint_append_right, not_or, ctxAddrs_cons, ctxAddrs_nil, Tree.addrs_nil,
    List.append_nil, List.nil_append, List.not_mem_nil, not_false_eq_true, true_and, and_true,
    List.nodup_nil, List.disjoint_nil_left, List.disjoint_nil_right,
    Frame.addr_left, Frame.sibling_left, Frame.addr_right, Frame.sibling_right] at hnd
  simp [removeUnlink, getRight, getLeft, setRight, setLeft, getParent,
    deref_some, modify_some, free_some, he, hp, cell_store_self, cell_store_ne,
    cell_store_ne', hel, hpl, hnd, Tree.ptr_ne, Tree.ptr_ne']
  refine ⟨RepT.of_plug_sub (Frame.left pa pc pk pv ps :: ctx) hnd' ?_ ?_ ?_ ?_, ?_⟩
  · simp
  · simp [hroot]
  · simp [RepCtx, Rep, Rep_store_iff, RepCtx_store_iff, Rep_erase_iff, RepCtx_erase_iff,
      cell_store_self, cell_store_ne, cell_store_ne', cell_erase_ne, cell_erase_ne',
      hel, hpl, hnd, hps, hctx]
  · simp [Rep]
  · constructor <;> simp

theorem removeUnlink_right {m : TreeMap K V} {ctx : List (Frame K V)} {e pa : Nat}
    {ce pc : Color} {ps : Tree K V} {ke pk : K} {ve pv : V}
    (h : RepT m (plug (Frame.right pa pc ps pk pv :: ctx) (.node e ce .nil ke ve .nil))) :
    ∃ m', removeUnlink m (some e) = .ok m' ∧
      RepT m' (plug (Frame.right pa pc ps pk pv :: ctx) .nil) ∧ SameMeta m m' := by
  have hctx := h.ctx
  have hf := h.focus
  have hnd := h.nodup_plug
  have hnd' := hnd
  have hroot := h.root_plug
  simp only [Rep, Tree.ptr_node, RepCtx] at hf hroot hctx
  obtain ⟨he, -, -⟩ := hf
  obtain ⟨hp, hps, hctx⟩ := hctx
  have hel := cell_lt he
  have hpl := cell_lt hp
  simp only [Tree.addrs_node, List.nodup_cons, List.nodup_append, List.mem_append, List.mem_cons,
    List.disjoint_cons_left, List.disjoint_cons_right, List.disjoint_append_left, List.cons_append,
    List.disjoint_append_right, not_or, ctxAddrs_cons, ctxAddrs_nil, Tree.addrs_nil,
    List.append_nil, List.nil_append, List.not_mem_nil, not_false_eq_true, true_and, and_true,
    List.nodup_nil, List.disjoint_nil_left, List.disjoint_nil_right,
    Frame.addr_left, Frame.sibling_left, Frame.addr_right, Frame.sibling_right] at hnd
  simp [removeUnlink, getRight, getLeft, setRight, setLeft, getParent,
    deref_some, modify_some, free_some, he, hp, cell_store_self, cell_store_ne,
    cell_store_ne', hel, hpl, hnd, Tree.ptr_ne, Tree.ptr_ne']
  refine ⟨RepT.of_plug_sub (Frame.right pa pc ps pk pv :: ctx) hnd' ?_ ?_ ?_ ?_, ?_⟩
  · simp
  · simp [hroot]
  · simp [RepCtx, Rep, Rep_store_iff, RepCtx_store_iff, Rep_erase_iff, RepCtx_erase_iff,
      cell_store_self, cell_store_ne, cell_store_ne', cell_erase_ne, cell_erase_ne',
      hel, hpl, hnd, hps, hctx]
  · simp [Rep]
  · constructor <;> simp

theorem removeRoot_spec {m : TreeMap K V} {e : Nat} {ce : Color} {ke : K} {ve : V}
    (h : RepT m (.node e ce .nil ke ve .nil)) :
    ∃ m', free m m.root = .ok m' ∧ RepT (m'.setRoot none) (.nil : Tree K V) ∧
      SameMeta m (m'.setRoot none) := by
  have he := h.rep.1
  refine ⟨m.erase e, ?_, ⟨rfl, trivial, List.nodup_nil⟩, ⟨rfl, rfl, by simp⟩⟩
  rw [h.root]
  simp [free_some, he]

end Splice

end collections

namespace collections

/-! ## Successor and the structure of `remove` -/

section RemoveStruct

variable {K V : Type}

theorem ctxBefore_append (δ γ : List (Frame K V)) :
    ctxBefore (δ ++ γ) = ctxBefore γ ++ ctxBefore δ := by
  induction δ with
  | nil => simp [ctxBefore]
  | cons f δ ih => cases f <;> simp [ctxBefore, ih]

theorem ctxAfter_append (δ γ : List (Frame K V)) :
    ctxAfter (δ ++ γ) = ctxAfter δ ++ ctxAfter γ := by
  induction δ with
  | nil => simp [ctxAfter]
  | cons f δ ih => cases f <;> simp [ctxAfter, ih]

/-- Every node listed in the in-order sequence sits at some position of the tree. -/
theorem Tree.exists_plug_of_mem {t : Tree K V} {a : Nat} {k : K} {v : V}
    (h : (a, k, v) ∈ t.toList) : ∃ ctx c l r, t = plug ctx (.node a c l k v r) := by
  induction t with
  | nil => cases h
  | node b c l kb vb r ihl ihr =>
    simp only [Tree.toList_node, List.mem_append, List.mem_cons, Prod.mk.injEq] at h
    rcases h with h | ⟨rfl, rfl, rfl⟩ | h
    · obtain ⟨ctx, c', l', r', e⟩ := ihl h
      exact ⟨ctx ++ [.left b c kb vb r], c', l', r', by rw [plug_append, ← e]; rfl⟩
    · exact ⟨[], c, l, r, rfl⟩
    · obtain ⟨ctx, c', l', r', e⟩ := ihr h
      exact ⟨ctx ++ [.right b c l kb vb], c', l', r', by rw [plug_append, ← e]; rfl⟩

theorem leftmostLoop_spec (m : TreeMap K V) :
    ∀ (t : Tree K V) (ctx : List (Frame K V)) (fuel : Nat), RepT m (plug ctx t) →
      t.ptr ≠ none → t.height ≤ fuel + 1 →
      ∃ δ s cs ks vs sr, t = plug δ (.node s cs .nil ks vs sr) ∧ ctxBefore δ = [] ∧
        leftmostLoop m fuel t.ptr = .ok (some s) := by
  intro t
  induction t with
  | nil => intro ctx fuel _ hne; simp at hne
  | node a c l k v r ihl _ =>
    intro ctx fuel h _ hfuel
    have hc := h.cell_focus
    cases l with
    | nil =>
      refine ⟨[], a, c, k, v, r, rfl, rfl, ?_⟩
      cases fuel <;> simp [leftmostLoop, getLeft, deref_some, hc]
    | node la lc ll lk lv lr =>
      simp only [Tree.height_node, Nat.add_le_add_iff_right, max_le_iff] at hfuel
      cases fuel with
      | zero => omega
      | succ fuel =>
        obtain ⟨δ, s, cs, ks, vs, sr, e, hb, hloop⟩ :=
          ihl (.left a c k v r :: ctx) fuel h (by simp) (by simpa using hfuel.1)
        refine ⟨δ ++ [.left a c k v r], s, cs, ks, vs, sr, ?_, ?_, ?_⟩
        · rw [plug_append, ← e]; rfl
        · rw [ctxBefore_append, hb]; rfl
        · simp only [Tree.ptr_node] at hloop
          simp [leftmostLoop, getLeft, deref_some, hc, hloop]

theorem getSuccessor_right {m : TreeMap K V} {ctx : List (Frame K V)} {a : Nat} {c : Color}
    {l r : Tree K V} {k : K} {v : V} (h : RepT m (plug ctx (.node a c l k v r)))
    (hr : r.ptr ≠ none) :
    ∃ δ s cs ks vs sr, r = plug δ (.node s cs .nil ks vs sr) ∧ ctxBefore δ = [] ∧
      getSuccessor m (some a) = .ok (some s) := by
  have hfuel : r.height ≤ m.heap.length + 1 := by
    have h1 := Tree.height_le_size r
    have h2 := plug_length_le_size ctx (Tree.node a c l k v r)
    have h3 := h.size_le
    simp only [Tree.size_node] at h2
    omega
  obtain ⟨δ, s, cs, ks, vs, sr, e, hb, hloop⟩ :=
    leftmostLoop_spec m r (.right a c l k v :: ctx) m.heap.length h hr hfuel
  refine ⟨δ, s, cs, ks, vs, sr, e, hb, ?_⟩
  simp [getSuccessor, getRight, deref_some, h.cell_focus, hr, hloop]

theorem Tree.toList_nodup {t : Tree K V} (h : t.addrs.Nodup) : t.toList.Nodup :=
  List.Nodup.of_map Prod.fst (((Tree.map_fst_toList t).nodup_iff).2 h)

/-- A list without duplicates splits around one of its elements in only one way. -/
theorem split_unique {α : Type} {x₁ x₂ z₁ z₂ : List α} {a : α}
    (hnd : (x₁ ++ a :: z₁).Nodup) (h : x₁ ++ a :: z₁ = x₂ ++ a :: z₂) :
    x₁ ++ z₁ = x₂ ++ z₂ := by
  have h1 : a ∉ x₁ := fun hm =>
    (List.nodup_append.1 hnd).2.2 hm (List.mem_cons_self _ _)
  have h2 : a ∉ z₁ := (List.nodup_cons.1 (List.nodup_append.1 hnd).2.1).1
  obtain ⟨e1, -, e2⟩ := (List.append_cons_inj_of_not_mem h1 h2).1 h
  rw [e1, e2]

theorem removeUnlink_spec {m : TreeMap K V} {g : Frame K V} {ctx : List (Frame K V)} {e : Nat}
    {ce : Color} {ke : K} {ve : V}
    (h : RepT m (plug (g :: ctx) (.node e ce .nil ke ve .nil))) :
    ∃ m', removeUnlink m (some e) = .ok m' ∧ RepT m' (plug (g :: ctx) .nil) ∧ SameMeta m m' := by
  cases g with
  | left pa pc pk pv ps => exact removeUnlink_left h
  | right pa pc ps pk pv => exact removeUnlink_right h

theorem removeSplice_spec {m : TreeMap K V} {ctx : List (Frame K V)} {e : Nat} {ce : Color}
    {el er : Tree K V} {ke : K} {ve : V}
    (h : RepT m (plug ctx (.node e ce el ke ve er))) (hone : el = .nil ∨ er = .nil) :
    ∃ m' T', removeSplice m (some e) = .ok m' ∧ RepT m' T' ∧
      T'.toList = ctxBefore ctx ++ el.toList ++ er.toList ++ ctxAfter ctx ∧ SameMeta m m' := by
  have hc := h.cell_focus
  cases el with
  | node ra rc rl rk rv rr =>
    have her : er = .nil := by rcases hone with hl | hr; cases hl; exact hr
    subst her
    obtain ⟨m₁, e₁, h₁, s₁⟩ := removeLink_left h
    by_cases hce : ce = Color.black
    · obtain ⟨ctx', t', m₂, e₂, h₂, hsteps, _, s₂⟩ := balanceAfterRemove_spec h₁ (by simp)
      simp only [Tree.ptr_node] at e₂
      refine ⟨m₂, _, ?_, h₂, ?_, s₁.trans s₂⟩
      · simp [removeSplice, getLeft, deref_some, hc, e₁, hce, e₂]
      · rw [plug_paint_toList, RemoveFixSteps.steps_toList_eq hsteps]; simp [plug_toList]
    · refine ⟨m₁, _, ?_, h₁, ?_, s₁⟩
      · simp [removeSplice, getLeft, deref_some, hc, e₁, hce]
      · simp [plug_toList]
  | nil =>
    cases er with
    | node ra rc rl rk rv rr =>
      obtain ⟨m₁, e₁, h₁, s₁⟩ := removeLink_right h
      by_cases hce : ce = Color.black
      · obtain ⟨ctx', t', m₂, e₂, h₂, hsteps, _, s₂⟩ := balanceAfterRemove_spec h₁ (by simp)
        simp only [Tree.ptr_node] at e₂
        refine ⟨m₂, _, ?_, h₂, ?_, s₁.trans s₂⟩
        · simp [removeSplice, getLeft, getRight, deref_some, hc, e₁, hce, e₂]
        · rw [plug_paint_toList, RemoveFixSteps.steps_toList_eq hsteps]; simp [plug_toList]
      · refine ⟨m₁, _, ?_, h₁, ?_, s₁⟩
        · simp [removeSplice, getLeft, getRight, deref_some, hc, e₁, hce]
        · simp [plug_toList]
    | nil =>
      cases ctx with
      | nil =>
        obtain ⟨m₁, e₁, h₁, s₁⟩ := removeRoot_spec h
        refine ⟨_, _, ?_, h₁, ?_, s₁⟩
        · simp [removeSplice, getLeft, getRight, getParent, deref_some, hc, e₁]
        · simp [ctxBefore, ctxAfter]
      | cons f ctx =>
        by_cases hce : ce = Color.black
        · subst hce
          obtain ⟨ctx₁, t₁, m₁, e₁, h₁, hsteps, hc₁, s₁⟩ :=
            balanceAfterRemove_spec h (by simp)
          simp only [Tree.ptr_node] at e₁
          have hl := RemoveFixSteps.steps_toList_eq hsteps
          rcases RemoveFixSteps.steps_grow hsteps with hz | ⟨g, δ, ht₁⟩
          · rw [hz] at hc₁
            simp [removeFixCond] at hc₁
          · simp only at ht₁ hl
            obtain ⟨g', γ, hp⟩ := paint_plug_cons Color.black g δ
            rw [ht₁, hp, ← plug_append, List.cons_append] at h₁
            obtain ⟨m₂, e₂, h₂, s₂⟩ := removeUnlink_spec h₁
            refine ⟨m₂, _, ?_, h₂, ?_, s₁.trans s₂⟩
            · simp [removeSplice, getLeft, getRight, getParent, getColor, deref_some, hc, e₁, e₂]
            · have hnd := Tree.toList_nodup h₁.nodup
              have hl' : (plug (g' :: (γ ++ ctx₁)) (.node e .black .nil ke ve .nil)).toList =
                  (plug (f :: ctx) (.node e .black .nil ke ve .nil)).toList := by
                rw [← hl, ht₁, ← List.cons_append, plug_append, ← hp, plug_paint_toList]
              rw [plug_toList] at hnd
              simp only [plug_toList, Tree.toList_node, Tree.toList_nil, List.nil_append,
                List.append_assoc, List.cons_append, List.append_nil] at hnd hl' ⊢
              exact split_unique hnd hl'
        · obtain ⟨m₂, e₂, h₂, s₂⟩ := removeUnlink_spec h
          refine ⟨m₂, _, ?_, h₂, ?_, s₂⟩
          · simp [removeSplice, getLeft, getRight, getParent, getColor, deref_some, hc, hce, e₂]
          · rw [plug_toList]; simp

end RemoveStruct

end collections

namespace collections

/-! ## `remove` on the contents of the map -/

section RemoveSpec

variable {K V : Type} [DecidableEq K] [LT K] [DecidableRel (fun a b : K => a < b)]

omit [DecidableEq K] [LT K] [DecidableRel (fun a b : K => a < b)] in
theorem Tree.ptr_eq_none {t : Tree K V} : t.ptr = none ↔ t = .nil := by
  cases t <;> simp

theorem remove_spec {m : TreeMap K V} {T : Tree K V} (hc : TotalOrder m.compare)
    (h : RepT m T) (hs : Ascending m.compare T.toList) {key : K} {a : Nat} {k : K} {v : V}
    (hfound : lookup m.compare key T.toList = some (a, k, v)) :
    ∃ m' T' L₁ L₂, m.remove key = .ok (v, m') ∧ RepT m' T' ∧
      T.toList = L₁ ++ (a, k, v) :: L₂ ∧
      T'.toList.map Prod.snd = (L₁ ++ L₂).map Prod.snd ∧
      m'.length = m.length - 1 ∧ m'.comparator = m.comparator := by
  have hmem := (lookup_some_mem hfound).1
  obtain ⟨ctx, c, l, r, rfl⟩ := Tree.exists_plug_of_mem hmem
  have hget := getEntry_spec hc h hs key
  rw [hfound] at hget
  simp only [Option.map_some'] at hget
  have h' := h.setLength (m.length - 1)
  have hcell := h'.cell_focus
  have hcell₀ := h.cell_focus
  by_cases two : l.ptr ≠ none ∧ r.ptr ≠ none
  · obtain ⟨δ, s, cs, ks, vs, sr, hr, hb, hsucc⟩ := getSuccessor_right h' two.2
    have hrne := two.2
    subst hr
    have hview : RepT (m.setLength (m.length - 1))
        (plug (δ ++ .right a c l k v :: ctx) (.node s cs .nil ks vs sr)) := by
      rw [plug_append]; exact h'
    have hcs := hview.cell_focus
    obtain ⟨m₁, e₁, h₁, s₁⟩ := setKey_node h' ks
    have hview₁ : RepT m₁ (plug (δ ++ .right a c l ks v :: ctx) (.node s cs .nil ks vs sr)) := by
      rw [plug_append]; exact h₁
    have hcs₁ := hview₁.cell_focus
    obtain ⟨m₂, e₂, h₂, s₂⟩ := setValue_node h₁ vs
    have hview₂ : RepT m₂ (plug (δ ++ .right a c l ks vs :: ctx) (.node s cs .nil ks vs sr)) := by
      rw [plug_append]; exact h₂
    obtain ⟨m₃, T', e₃, h₃, hl₃, s₃⟩ := removeSplice_spec hview₂ (Or.inl rfl)
    refine ⟨m₃, T', ctxBefore ctx ++ l.toList,
      (s, ks, vs) :: (sr.toList ++ ctxAfter δ) ++ ctxAfter ctx, ?_, h₃, ?_, ?_, ?_, ?_⟩
    · simp [TreeMap.remove, hget, getValue, getLeft, getRight, getKey, deref_some, hcell, hcell₀, two.1,
        hrne, hsucc, hcs, hcs₁, e₁, e₂, e₃]
    · simp [plug_toList, hb]
    · rw [hl₃]
      simp [ctxBefore_append, ctxAfter_append, ctxBefore, ctxAfter, hb]
    · rw [s₃.length, s₂.length, s₁.length]; rfl
    · rw [s₃.comparator, s₂.comparator, s₁.comparator]; rfl
  · have hone : l = .nil ∨ r = .nil := by
      by_cases hl : l.ptr = none
      · exact Or.inl (Tree.ptr_eq_none.1 hl)
      · by_cases hr : r.ptr = none
        · exact Or.inr (Tree.ptr_eq_none.1 hr)
        · exact absurd ⟨hl, hr⟩ two
    obtain ⟨m₃, T', e₃, h₃, hl₃, s₃⟩ := removeSplice_spec h' hone
    refine ⟨m₃, T', ctxBefore ctx ++ l.toList, r.toList ++ ctxAfter ctx, ?_, h₃, ?_, ?_, ?_, ?_⟩
    · have htwo : ¬ (l.ptr ≠ none ∧ r.ptr ≠ none) := two
      by_cases hl : l.ptr = none
      · simp [TreeMap.remove, hget, getValue, getLeft, getRight, getKey, deref_some, hcell, hcell₀, hl, e₃]
      · have hr : r.ptr = none := by
          by_contra hr
          exact htwo ⟨hl, hr⟩
        simp [TreeMap.remove, hget, getValue, getLeft, getRight, getKey, deref_some, hcell, hcell₀, hl,
          hr, e₃]
    · simp [plug_toList]
    · rw [hl₃]; simp
    · rw [s₃.length]; rfl
    · rw [s₃.comparator]; rfl

end RemoveSpec

end collections

namespace collections

/-! ## `remove` and the invariant -/

section RemoveInv

variable {K V : Type} [DecidableEq K] [LT K] [DecidableRel (fun a b : K => a < b)]

theorem remove_inv {m : TreeMap K V} {T : Tree K V} (hc : TotalOrder m.compare) (h : Inv m T)
    {key k : K} {v : V} (hf : findEntry m.compare key T.entries = some (k, v)) :
    ∃ m' T' E₁ E₂, m.remove key = .ok (v, m') ∧ Inv m' T' ∧ m'.comparator = m.comparator ∧
      T.entries = E₁ ++ (k, v) :: E₂ ∧ T'.entries = E₁ ++ E₂ ∧ m.compare key k = 0 ∧
      m'.length = m.length - 1 := by
  obtain ⟨hrep, hasc, hlen⟩ := h
  have hk := (findEntry_some hf).2
  simp only at hk
  rw [Tree.entries, ← lookup_map_snd] at hf
  cases hl : lookup m.compare key T.toList with
  | none => simp [hl] at hf
  | some x =>
    obtain ⟨a, k', v'⟩ := x
    simp only [hl, Option.map_some', Option.some.injEq, Prod.mk.injEq] at hf
    obtain ⟨rfl, rfl⟩ := hf
    obtain ⟨m', T', L₁, L₂, hrem, h', hT, hT', hlen', hcmp⟩ :=
      remove_spec hc hrep ((ascending_iff_entries _).2 hasc) hl
    have hE : T.entries = L₁.map Prod.snd ++ (k', v') :: L₂.map Prod.snd := by
      simp [Tree.entries, hT]
    have hE' : T'.entries = L₁.map Prod.snd ++ L₂.map Prod.snd := by
      simp [Tree.entries, hT']
    refine ⟨m', T', _, _, hrem, ⟨h', ?_, ?_⟩, hcmp, hE, hE', hk, hlen'⟩
    · rw [TreeMap.compare_congr hcmp, hE']
      rw [hE] at hasc
      exact hasc.remove
    · rw [hlen', hlen, ← Tree.length_entries, ← Tree.length_entries, hE, hE']
      simp
      omega

theorem remove_absent {m : TreeMap K V} {T : Tree K V} (hc : TotalOrder m.compare) (h : Inv m T)
    {key : K} (hf : findEntry m.compare key T.entries = none) :
    m.remove key = (getValue m m.root).map (fun v => (v, m)) := by
  have hget := getEntry_spec hc h.1 ((ascending_iff_entries _).2 h.2.1) key
  rw [Tree.entries, ← lookup_map_snd] at hf
  have hl : lookup m.compare key T.toList = none := by
    cases hl : lookup m.compare key T.toList with
    | none => rfl
    | some x => simp [hl] at hf
  rw [hl] at hget
  simp only [TreeMap.remove, hget, Option.map_none', Except.ok_bind]
  cases getValue m m.root <;> rfl

omit [DecidableEq K] [LT K] [DecidableRel (fun a b : K => a < b)] in
theorem getValue_root_node {m : TreeMap K V} {a : Nat} {c : Color} {l r : Tree K V} {k : K}
    {v : V} (h : RepT m (.node a c l k v r)) : getValue m m.root = .ok v := by
  rw [h.root]
  simp [getValue, deref_some, h.rep.1]

omit [DecidableEq K] [LT K] [DecidableRel (fun a b : K => a < b)] in
theorem getValue_root_nil {m : TreeMap K V} (h : RepT m (.nil : Tree K V)) :
    getValue m m.root = .error .nullDeref := by
  rw [h.root]
  rfl

end RemoveInv

end collections

namespace collections

/-! ## `clear` -/

section Clear

variable {K V : Type}

theorem Tree.nonNil_map_ptr (t : Tree K V) (q : List (Option Nat)) :
    (if t.ptr = none then q else q ++ [t.ptr]) = q ++ t.nonNil.map Tree.ptr := by
  cases t <;> simp [Tree.nonNil]

theorem forestAddrs_append (ts us : List (Tree K V)) :
    forestAddrs (ts ++ us) = forestAddrs ts ++ forestAddrs us := by
  induction ts with
  | nil => rfl
  | cons t ts ih => simp [forestAddrs, ih]

theorem forestAddrs_nonNil (t : Tree K V) : forestAddrs t.nonNil = t.addrs := by
  cases t <;> simp [Tree.nonNil, forestAddrs]

theorem forestMeasure_cons_node (a : Nat) (c : Color) (l : Tree K V) (k : K) (v : V)
    (r : Tree K V) (ts : List (Tree K V)) :
    forestMeasure (.node a c l k v r :: ts) = l.size + 1 + r.size + forestMeasure ts := rfl

theorem forestMeasure_cons_nil (ts : List (Tree K V)) :
    forestMeasure (.nil :: ts) = 1 + forestMeasure ts := rfl

theorem forestMeasure_append (ts us : List (Tree K V)) :
    forestMeasure (ts ++ us) = forestMeasure ts + forestMeasure us := by
  induction ts with
  | nil => simp [forestMeasure]
  | cons t ts ih =>
    cases t with
    | nil => simp only [List.cons_append, forestMeasure_cons_nil, ih]; omega
    | node a c l k v r =>
      simp only [List.cons_append, forestMeasure_cons_node, ih]; omega

theorem forestMeasure_nonNil (t : Tree K V) : forestMeasure t.nonNil = t.size := by
  cases t with
  | nil => rfl
  | node a c l k v r => simp [Tree.nonNil, forestMeasure_cons_node, forestMeasure]

theorem mem_forestAddrs {ts : List (Tree K V)} {t : Tree K V} {a : Nat} (ht : t ∈ ts)
    (ha : a ∈ t.addrs) : a ∈ forestAddrs ts := by
  induction ts with
  | nil => cases ht
  | cons u ts ih =>
    rcases List.mem_cons.1 ht with rfl | ht
    · exact List.mem_append_left _ ha
    · exact List.mem_append_right _ (ih ht)

theorem clearLoop_spec (fuel : Nat) :
    ∀ (m : TreeMap K V) (ts : List (Tree K V)), (∀ t ∈ ts, ∃ par, Rep m par t) →
      (forestAddrs ts).Nodup → forestMeasure ts ≤ fuel →
      ∃ m', clearLoop fuel m (ts.map Tree.ptr) = .ok m' ∧ SameMeta m m' := by
  induction fuel with
  | zero =>
    intro m ts _ _ hfuel
    cases ts with
    | nil => exact ⟨m, rfl, SameMeta.refl m⟩
    | cons t ts =>
      cases t with
      | nil => simp only [forestMeasure_cons_nil] at hfuel; omega
      | node a c l k v r => simp only [forestMeasure_cons_node] at hfuel; omega
  | succ fuel ih =>
    intro m ts hrep hnd hfuel
    cases ts with
    | nil => exact ⟨m, rfl, SameMeta.refl m⟩
    | cons t ts =>
      cases t with
      | nil =>
        obtain ⟨m', e, s⟩ := ih m ts (fun t ht => hrep t (List.mem_cons_of_mem _ ht))
          (by simpa [forestAddrs] using hnd)
          (by simp only [forestMeasure_cons_nil] at hfuel; omega)
        exact ⟨m', by simpa [clearLoop] using e, s⟩
      | node a c l k v r =>
        obtain ⟨par, ha, hl, hr⟩ := hrep _ (List.mem_cons_self _ _)
        simp only [forestAddrs, Tree.addrs_node, List.cons_append, List.nodup_cons,
          List.mem_append, not_or, List.append_assoc] at hnd
        obtain ⟨⟨hal, har, hats⟩, hnd⟩ := hnd
        have hrep' : ∀ t ∈ ts ++ l.nonNil ++ r.nonNil, ∃ par, Rep (m.erase a) par t := by
          intro t ht
          simp only [List.mem_append] at ht
          rcases ht with (ht | ht) | ht
          · obtain ⟨p, hp⟩ := hrep t (List.mem_cons_of_mem _ ht)
            refine ⟨p, (Rep_erase_iff ?_).2 hp⟩
            exact fun hmem => hats (mem_forestAddrs ht hmem)
          · cases l with
            | nil => simp [Tree.nonNil] at ht
            | node _ _ _ _ _ _ =>
              simp only [Tree.nonNil, List.mem_singleton] at ht
              subst ht
              exact ⟨some a, (Rep_erase_iff hal).2 hl⟩
          · cases r with
            | nil => simp [Tree.nonNil] at ht
            | node _ _ _ _ _ _ =>
              simp only [Tree.nonNil, List.mem_singleton] at ht
              subst ht
              exact ⟨some a, (Rep_erase_iff har).2 hr⟩
        have hnd' : (forestAddrs (ts ++ l.nonNil ++ r.nonNil)).Nodup := by
          rw [forestAddrs_append, forestAddrs_append, forestAddrs_nonNil, forestAddrs_nonNil]
          refine (List.Perm.nodup_iff ?_).2 hnd
          rw [List.perm_iff_count]
          intro x
          simp only [List.count_append]
          omega
        have hfuel' : forestMeasure (ts ++ l.nonNil ++ r.nonNil) ≤ fuel := by
          rw [forestMeasure_append, forestMeasure_append, forestMeasure_nonNil,
            forestMeasure_nonNil]
          simp only [forestMeasure_cons_node] at hfuel
          omega
        obtain ⟨m', e, s⟩ := ih (m.erase a) _ hrep' hnd' hfuel'
        refine ⟨m', ?_, (SameMeta.erase m a).trans s⟩
        simp only [List.map_append, List.append_assoc] at e
        simp [clearLoop, getLeft, getRight, deref_some, free_some, ha, Tree.nonNil_map_ptr, e]

theorem clear_spec {m : TreeMap K V} {T : Tree K V} (h : RepT m T) :
    ∃ m', m.clear = .ok m' ∧ RepT m' (.nil : Tree K V) ∧ m'.length = 0 ∧
      m'.comparator = m.comparator := by
  have hfuel : forestMeasure [T] ≤ m.heap.length + 1 := by
    have := h.size_le
    cases T with
    | nil => simp [forestMeasure_cons_nil, forestMeasure]
    | node a c l k v r =>
      simp only [forestMeasure_cons_node, forestMeasure, Tree.size_node] at this ⊢; omega
  obtain ⟨m', e, s⟩ := clearLoop_spec (m.heap.length + 1) m [T]
    (fun t ht => by
      simp only [List.mem_singleton] at ht
      subst ht
      exact ⟨none, h.rep⟩)
    (by simpa [forestAddrs] using h.nodup) hfuel
  simp only [List.map_cons, List.map_nil] at e
  refine ⟨(m'.setLength 0).setRoot none, ?_, ⟨rfl, trivial, List.nodup_nil⟩, rfl, ?_⟩
  · simp [TreeMap.clear, h.root, e]
  · simp [s.comparator]

end Clear

end collections

namespace collections

/-! ## Reachable maps satisfy the invariant -/

section ReachInv

variable {K V : Type} [DecidableEq K] [LT K] [DecidableRel (fun a b : K => a < b)]

theorem Inv.new (comparator : Option (K → K → Int)) :
    Inv (TreeMap.new comparator : TreeMap K V) (.nil : Tree K V) :=
  ⟨⟨rfl, trivial, List.nodup_nil⟩, List.Pairwise.nil, rfl⟩

theorem TreeMap.compare_of_comparator {m : TreeMap K V} {comparator : Option (K → K → Int)}
    (h : m.comparator = comparator) :
    m.compare = (TreeMap.new comparator : TreeMap K V).compare := by
  funext a b
  simp [TreeMap.compare, TreeMap.new, h]

theorem clear_inv {m : TreeMap K V} {T : Tree K V} (h : Inv m T) :
    ∃ m', m.clear = .ok m' ∧ Inv m' (.nil : Tree K V) ∧ m'.comparator = m.comparator := by
  obtain ⟨m', e, hrep, hlen, hcmp⟩ := clear_spec h.1
  exact ⟨m', e, ⟨hrep, List.Pairwise.nil, by simpa using hlen⟩, hcmp⟩

theorem containsKey_true_iff {m : TreeMap K V} {T : Tree K V} (hc : TotalOrder m.compare)
    (h : Inv m T) (key : K) :
    m.containsKey key = .ok true ↔ ∃ e, findEntry m.compare key T.entries = some e := by
  rw [containsKey_entries hc h key]
  cases findEntry m.compare key T.entries <;> simp

theorem containsKey_false_iff {m : TreeMap K V} {T : Tree K V} (hc : TotalOrder m.compare)
    (h : Inv m T) (key : K) :
    m.containsKey key = .ok false ↔ findEntry m.compare key T.entries = none := by
  rw [containsKey_entries hc h key]
  cases findEntry m.compare key T.entries <;> simp

theorem Reachable.sound {comparator : Option (K → K → Int)}
    (hc : TotalOrder (TreeMap.new comparator : TreeMap K V).compare) {m : TreeMap K V}
    (h : Reachable comparator m) : m.comparator = comparator ∧ ∃ T, Inv m T := by
  induction h with
  | new => exact ⟨rfl, .nil, Inv.new comparator⟩
  | @put m m' key val old _ e ih =>
    obtain ⟨hcmp, T, hT⟩ := ih
    have hc' : TotalOrder m.compare := by rw [TreeMap.compare_of_comparator hcmp]; exact hc
    obtain ⟨old', m'', T', _, _, e', hT', hcmp', _⟩ := put_inv hc' hT key val
    rw [e] at e'
    simp only [Except.ok.injEq, Prod.mk.injEq] at e'
    obtain ⟨_, rfl⟩ := e'
    exact ⟨hcmp'.trans hcmp, T', hT'⟩
  | @remove m m' key old _ hp e ih =>
    obtain ⟨hcmp, T, hT⟩ := ih
    have hc' : TotalOrder m.compare := by rw [TreeMap.compare_of_comparator hcmp]; exact hc
    obtain ⟨⟨k, v⟩, hf⟩ := (containsKey_true_iff hc' hT key).1 hp
    obtain ⟨m'', T', _, _, e', hT', hcmp', _⟩ := remove_inv hc' hT hf
    rw [e] at e'
    simp only [Except.ok.injEq, Prod.mk.injEq] at e'
    obtain ⟨_, rfl⟩ := e'
    exact ⟨hcmp'.trans hcmp, T', hT'⟩
  | @clear m m' _ e ih =>
    obtain ⟨hcmp, T, hT⟩ := ih
    obtain ⟨m'', e', hT', hcmp'⟩ := clear_inv hT
    rw [e] at e'
    simp only [Except.ok.injEq] at e'
    subst e'
    exact ⟨hcmp'.trans hcmp, .nil, hT'⟩

theorem Reachable.order {comparator : Option (K → K → Int)}
    (hc : TotalOrder (TreeMap.new comparator : TreeMap K V).compare) {m : TreeMap K V}
    (h : Reachable comparator m) : TotalOrder m.compare := by
  rw [TreeMap.compare_of_comparator (h.sound hc).1]
  exact hc

/-! ## The operations seen on the entry list -/

theorem put_view {m : TreeMap K V} {T : Tree K V} (hc : TotalOrder m.compare) (h : Inv m T)
    (key : K) (val : V) :
    ∃ old m' T', m.put key val = .ok (old, m') ∧ Inv m' T' ∧ m'.comparator = m.comparator ∧
      (∃ k, findEntry m.compare key T'.entries = some (k, val)) ∧
      (∀ k2, m.compare k2 key ≠ 0 →
        findEntry m.compare k2 T'.entries = findEntry m.compare k2 T.entries) ∧
      (∀ e, findEntry m.compare key T.entries = some e → old = e.2 ∧ m'.length = m.length) ∧
      (findEntry m.compare key T.entries = none → old = val ∧ m'.length = m.length + 1) := by
  obtain ⟨old, m', T', E₁, E₂, e, hT', hcmp, hcase⟩ := put_inv hc h key val
  have hasc' : AscendingKeys m.compare T'.entries := by
    rw [← TreeMap.compare_congr hcmp]; exact hT'.2.1
  refine ⟨old, m', T', e, hT', hcmp, ?_⟩
  rcases hcase with ⟨k, v, hE, hk, hE', hold, hlen⟩ | ⟨hE, hE', hnone, hold, hlen⟩
  · have hfind : findEntry m.compare key T.entries = some (k, v) := by
      rw [hE]; exact findEntry_middle hc (hE ▸ h.2.1) hk
    refine ⟨⟨k, ?_⟩, ?_, ?_, ?_⟩
    · rw [hE']; exact findEntry_middle hc (hE' ▸ hasc') hk
    · intro k2 hne
      have hne' : m.compare k2 k ≠ 0 := fun h0 => hne (hc.eq_trans h0 (hc.eq_symm hk))
      rw [hE, hE', findEntry_skip _ _ _ hne', findEntry_skip _ _ _ hne']
    · intro e he
      rw [hfind] at he
      cases he
      exact ⟨hold, hlen⟩
    · intro hn
      rw [hfind] at hn
      cases hn
  · refine ⟨⟨key, ?_⟩, ?_, ?_, ?_⟩
    · rw [hE']; exact findEntry_middle hc (hE' ▸ hasc') (hc.cmp_self key)
    · intro k2 hne
      rw [hE, hE', findEntry_skip _ _ _ hne]
    · intro e he
      rw [hnone] at he
      cases he
    · intro _
      exact ⟨hold, hlen⟩

theorem remove_view {m : TreeMap K V} {T : Tree K V} (hc : TotalOrder m.compare) (h : Inv m T)
    {key : K} {e : K × V} (hf : findEntry m.compare key T.entries = some e) :
    ∃ m' T', m.remove key = .ok (e.2, m') ∧ Inv m' T' ∧ m'.comparator = m.comparator ∧
      findEntry m.compare key T'.entries = none ∧
      (∀ k2, m.compare k2 key ≠ 0 →
        findEntry m.compare k2 T'.entries = findEntry m.compare k2 T.entries) ∧
      m'.length = m.length - 1 := by
  obtain ⟨k, v⟩ := e
  obtain ⟨m', T', E₁, E₂, e, hT', hcmp, hE, hE', hk, hlen⟩ := remove_inv hc h hf
  refine ⟨m', T', e, hT', hcmp, ?_, ?_, hlen⟩
  · rw [hE']; exact findEntry_removed hc (hE ▸ h.2.1) hk
  · intro k2 hne
    have hne' : m.compare k2 k ≠ 0 := fun h0 => hne (hc.eq_trans h0 (hc.eq_symm hk))
    rw [hE, hE', findEntry_skip _ _ _ hne']

theorem operatorIndex_of_present {m : TreeMap K V} {T : Tree K V} (hc : TotalOrder m.compare)
    (h : Inv m T) {key : K} {v : V} (hp : m.containsKey key = .ok true)
    (hv : m.operatorIndex key = .ok v) :
    ∃ k, findEntry m.compare key T.entries = some (k, v) := by
  obtain ⟨⟨k, w⟩, hf⟩ := (containsKey_true_iff hc h key).1 hp
  rw [operatorIndex_entries hc h hf] at hv
  simp only [Except.ok.injEq] at hv
  subst hv
  exact ⟨k, hf⟩

theorem operatorIndex_none {m : TreeMap K V} {T : Tree K V} (hc : TotalOrder m.compare)
    (h : Inv m T) {key : K} (hf : findEntry m.compare key T.entries = none) :
    m.operatorIndex key = getValue m m.root := by
  refine operatorIndex_absent hc h.1 ((ascending_iff_entries _).2 h.2.1) key ?_
  rw [Tree.entries, ← lookup_map_snd] at hf
  cases hl : lookup m.compare key T.toList with
  | none => rfl
  | some x => simp [hl] at hf

theorem root_entry {m : TreeMap K V} {T : Tree K V} (hc : TotalOrder m.compare) (h : Inv m T)
    (hne : m.isEmpty = false) :
    ∃ k v, getKey m m.root = .ok k ∧ getValue m m.root = .ok v ∧
      findEntry m.compare k T.entries = some (k, v) := by
  cases T with
  | nil =>
    have := h.2.2
    simp [TreeMap.isEmpty, TreeMap.size, this] at hne
  | node a c l k v r =>
    refine ⟨k, v, ?_, getValue_root_node h.1, ?_⟩
    · rw [h.1.root]
      simp [getKey, deref_some, h.1.rep.1]
    · have hasc := h.2.1
      rw [Tree.entries_node] at hasc ⊢
      exact findEntry_middle hc hasc (hc.cmp_self k)

end ReachInv

/-! ## Returned references -/

section Returned

variable {K V : Type} [DecidableEq K] [LT K] [DecidableRel (fun a b : K => a < b)]

/-- Method `remove` is `removeRef` followed by the value of the referent at the return
statement: the two make the same transition of the map. -/
theorem remove_eq_removeRef (m : TreeMap K V) (key : K) :
    m.remove key =
      (m.removeRef key >>= fun r => r.1.atReturn r.2 >>= fun v => pure (v, r.2)) := by
  unfold TreeMap.remove TreeMap.removeRef
  simp only [bind_assoc, pure_bind]
  refine bind_congr (fun entry => ?_)
  by_cases he : entry = none
  · simp [he, ValueRef.atReturn]
  · simp only [he, if_false, bind_assoc, pure_bind]
    refine bind_congr (fun val => bind_congr (fun lft => ?_))
    by_cases hl : lft = none
    · simp only [hl, ne_eq, not_true_eq_false, if_false, bind_assoc, pure_bind, ValueRef.atReturn,
        Bool.false_eq_true]
      rfl
    · simp only [ne_eq, hl, not_false_eq_true, if_true, bind_assoc, pure_bind]
      refine bind_congr (fun rgt => ?_)
      by_cases hg : rgt = none <;>
        simp only [hg, ne_eq, not_true_eq_false, not_false_eq_true, decide_True, decide_False,
          if_true, if_false, bind_assoc, pure_bind, ValueRef.atReturn, Bool.false_eq_true] <;> rfl

/-- Method `put` is `putRef` followed by the value of the referent at the return statement: the
two make the same transition of the map. -/
theorem put_eq_putRef (m : TreeMap K V) (key : K) (val : V) :
    m.put key val =
      (m.putRef key val >>= fun r => r.1.atReturn r.2 >>= fun v => pure (v, r.2)) := by
  unfold TreeMap.put TreeMap.putRef
  by_cases hr : m.root = none
  · simp [hr, ValueRef.atReturn]
  · simp only [hr, if_false, bind_assoc, pure_bind]
    refine bind_congr (fun res => ?_)
    rcases res with ⟨old, m'⟩ | ⟨parent, cmp⟩
    · rfl
    · simp only [bind_assoc, pure_bind]
      by_cases hcmp : cmp < 0 <;>
        simp only [hcmp, if_true, if_false, bind_assoc, pure_bind, ValueRef.atReturn]

/-- When the search finds no entry, `remove` returns at its first `return` statement. -/
theorem removeRef_of_absent {m : TreeMap K V} {key : K} (h : getEntry m key = .ok none) :
    m.removeRef key = .ok (.ofEntry m.root, m) := by
  simp [TreeMap.removeRef, h]

/-- The result of `containsKey` is `false` exactly when the search finds no entry. -/
theorem getEntry_of_containsKey_false {m : TreeMap K V} {key : K}
    (h : m.containsKey key = .ok false) : getEntry m key = .ok none := by
  unfold TreeMap.containsKey at h
  cases e : getEntry m key with
  | error f => rw [e] at h; cases h
  | ok p =>
    cases p with
    | none => rfl
    | some a => rw [e] at h; simp [bind, Except.bind, pure, Except.pure] at h

end Returned

/-- The default comparison of natural-number keys is a total order. -/
theorem natOrder (V : Type) : TotalOrder (TreeMap.new none : TreeMap Nat V).compare := by
  constructor
  · intro a b
    simp only [TreeMap.compare, TreeMap.new]
    split_ifs <;> omega
  · intro a b c
    simp only [TreeMap.compare, TreeMap.new]
    split_ifs <;> omega

end collections

namespace collections

/-! ## The contract of `put`, `remove` and index access -/

section Contract

variable {K V : Type} [DecidableEq K] [LT K] [DecidableRel (fun a b : K => a < b)]

/-- Claim C1 (round trip): on every map reachable from the empty map by `put`, `remove` of a
present key and `clear` under a total-order comparator, `put(k, v)` returns, and afterwards
`containsKey(k)` is true and index access at `k` yields `v`. -/
theorem put_then_lookup (comparator : Option (K → K → Int))
    (hc : TotalOrder (TreeMap.new comparator : TreeMap K V).compare) (m : TreeMap K V)
    (hm : Reachable comparator m) (k : K) (v : V) :
    ∃ old m', m.put k v = .ok (old, m') ∧ m'.containsKey k = .ok true ∧
      m'.operatorIndex k = .ok v := by
  obtain ⟨_, T, hT⟩ := hm.sound hc
  have hc' := hm.order hc
  obtain ⟨old, m', T', e, hT', hcmp, ⟨k', hf⟩, _⟩ := put_view hc' hT k v
  have hc'' : TotalOrder m'.compare := by rw [TreeMap.compare_congr hcmp]; exact hc'
  rw [← TreeMap.compare_congr hcmp] at hf
  exact ⟨old, m', e, (containsKey_true_iff hc'' hT' k).2 ⟨_, hf⟩,
    operatorIndex_entries hc'' hT' hf⟩

/-- Claim C1, instance: re-inserting key 1 with value 9 after `put(1, 7)` and `remove(1)` on a
fresh map of natural numbers. -/
theorem put_then_lookup_witness :
    ∃ m₁ m₂ : TreeMap Nat Nat, (TreeMap.new none).put 1 7 = .ok (7, m₁) ∧
      m₁.containsKey 1 = .ok true ∧ m₁.remove 1 = .ok (7, m₂) ∧
      ∃ old m', m₂.put 1 9 = .ok (old, m') ∧ m'.containsKey 1 = .ok true ∧
        m'.operatorIndex 1 = .ok 9 :=
  ⟨_, _, rfl, rfl, rfl,
    put_then_lookup none (natOrder Nat) _
      (Reachable.remove 1 7 (Reachable.put 1 7 7 Reachable.new rfl) rfl rfl) 1 9⟩

/-- Claim C2 as stated fails for an absent second key: on the map holding only `1 ↦ 7`, key 2
compares unequal to key 1 and index access at 2 yields 7 before `put(1, 8)` and 8 after it. -/
theorem put_changes_lookup_of_absent_key :
    ∃ m₁ m₂ : TreeMap Nat Nat, (TreeMap.new none).put 1 7 = .ok (7, m₁) ∧
      m₁.compare 2 1 ≠ 0 ∧ m₁.put 1 8 = .ok (7, m₂) ∧
      m₁.operatorIndex 2 = .ok 7 ∧ m₂.operatorIndex 2 = .ok 8 ∧
      m₂.operatorIndex 2 ≠ m₁.operatorIndex 2 :=
  ⟨_, _, rfl, by decide, rfl, rfl, rfl, fun h => Except.noConfusion h (by decide)⟩

/-- Claim C2, amended (`put` does not disturb other keys): on every reachable map, for every
key `k2` that compares unequal to `k`, `put(k, v)` returns and leaves `containsKey(k2)`
unchanged, and leaves index access at `k2` unchanged whenever `k2` is present. -/
theorem put_preserves_other_keys (comparator : Option (K → K → Int))
    (hc : TotalOrder (TreeMap.new comparator : TreeMap K V).compare) (m : TreeMap K V)
    (hm : Reachable comparator m) (k : K) (v : V) (k2 : K) (hne : m.compare k2 k ≠ 0) :
    ∃ old m', m.put k v = .ok (old, m') ∧ m'.containsKey k2 = m.containsKey k2 ∧
      (m.containsKey k2 = .ok true → m'.operatorIndex k2 = m.operatorIndex k2) := by
  obtain ⟨_, T, hT⟩ := hm.sound hc
  have hc' := hm.order hc
  obtain ⟨old, m', T', e, hT', hcmp, _, hframe, _⟩ := put_view hc' hT k v
  have hc'' : TotalOrder m'.compare := by rw [TreeMap.compare_congr hcmp]; exact hc'
  have hf := hframe k2 hne
  refine ⟨old, m', e, ?_, ?_⟩
  · rw [containsKey_entries hc'' hT', containsKey_entries hc' hT, TreeMap.compare_congr hcmp, hf]
  · intro hp
    obtain ⟨x, hx⟩ := (containsKey_true_iff hc' hT k2).1 hp
    rw [operatorIndex_entries hc' hT hx]
    rw [← hf, ← TreeMap.compare_congr hcmp] at hx
    exact operatorIndex_entries hc'' hT' hx

/-- Claim C2, instance: `put(3, 30)` on the map built by `put(1, 10)` and `put(2, 20)`, which
rotates at the root, seen from key 1. -/
theorem put_preserves_other_keys_witness :
    ∃ m₁ m₂ : TreeMap Nat Nat, (TreeMap.new none).put 1 10 = .ok (10, m₁) ∧
      m₁.put 2 20 = .ok (20, m₂) ∧ m₂.compare 1 3 ≠ 0 ∧
      ∃ old m', m₂.put 3 30 = .ok (old, m') ∧ m'.containsKey 1 = m₂.containsKey 1 ∧
        (m₂.containsKey 1 = .ok true → m'.operatorIndex 1 = m₂.operatorIndex 1) :=
  ⟨_, _, rfl, rfl, by decide,
    put_preserves_other_keys none (natOrder Nat) _
      (Reachable.put 2 20 20 (Reachable.put 1 10 10 Reachable.new rfl) rfl) 3 30 1
      (by decide)⟩

/-- Claim C3 (removal): on every reachable map, `remove(k)` of a present key `k` returns, and
afterwards `containsKey(k)` is false and `size()` is one less than before. -/
theorem remove_present (comparator : Option (K → K → Int))
    (hc : TotalOrder (TreeMap.new comparator : TreeMap K V).compare) (m : TreeMap K V)
    (hm : Reachable comparator m) (k : K) (hp : m.containsKey k = .ok true) :
    ∃ old m', m.remove k = .ok (old, m') ∧ m'.containsKey k = .ok false ∧
      m'.size = m.size - 1 := by
  obtain ⟨_, T, hT⟩ := hm.sound hc
  have hc' := hm.order hc
  obtain ⟨x, hx⟩ := (containsKey_true_iff hc' hT k).1 hp
  obtain ⟨m', T', e, hT', hcmp, hnone, _, hlen⟩ := remove_view hc' hT hx
  have hc'' : TotalOrder m'.compare := by rw [TreeMap.compare_congr hcmp]; exact hc'
  rw [← TreeMap.compare_congr hcmp] at hnone
  exact ⟨x.2, m', e, (containsKey_false_iff hc'' hT' k).2 hnone, hlen⟩

/-- Claim C3, instance: removing key 2, a node with two children, from the map built by
`put(2, 20)`, `put(1, 10)` and `put(3, 30)`. -/
theorem remove_present_witness :
    ∃ m₁ m₂ m₃ : TreeMap Nat Nat, (TreeMap.new none).put 2 20 = .ok (20, m₁) ∧
      m₁.put 1 10 = .ok (10, m₂) ∧ m₂.put 3 30 = .ok (30, m₃) ∧
      m₃.containsKey 2 = .ok true ∧
      ∃ old m', m₃.remove 2 = .ok (old, m') ∧ m'.containsKey 2 = .ok false ∧
        m'.size = m₃.size - 1 :=
  ⟨_, _, _, rfl, rfl, rfl, rfl,
    remove_present none (natOrder Nat) _
      (Reachable.put 3 30 30 (Reachable.put 1 10 10 (Reachable.put 2 20 20 Reachable.new rfl)
        rfl) rfl) 2 rfl⟩

/-- Claim C4 as stated fails for an absent second key: on the map built by `put(1, 7)` and
`put(2, 8)`, key 3 compares unequal to the present key 1 and index access at 3 yields 7 before
`remove(1)` and 8 after it. -/
theorem remove_changes_lookup_of_absent_key :
    ∃ m₁ m₂ m₃ : TreeMap Nat Nat, (TreeMap.new none).put 1 7 = .ok (7, m₁) ∧
      m₁.put 2 8 = .ok (8, m₂) ∧ m₂.containsKey 1 = .ok true ∧ m₂.compare 3 1 ≠ 0 ∧
      m₂.remove 1 = .ok (7, m₃) ∧
      m₂.operatorIndex 3 = .ok 7 ∧ m₃.operatorIndex 3 = .ok 8 ∧
      m₃.operatorIndex 3 ≠ m₂.operatorIndex 3 :=
  ⟨_, _, _, rfl, rfl, rfl, by decide, rfl, rfl, rfl,
    fun h => Except.noConfusion h (by decide)⟩

/-- Claim C4, amended (`remove` does not disturb other keys): on every reachable map, for every
present key `k` and every key `k2` that compares unequal to `k`, `remove(k)` returns and leaves
`containsKey(k2)` unchanged, and leaves index access at `k2` unchanged whenever `k2` is
present. -/
theorem remove_preserves_other_keys (comparator : Option (K → K → Int))
    (hc : TotalOrder (TreeMap.new comparator : TreeMap K V).compare) (m : TreeMap K V)
    (hm : Reachable comparator m) (k : K) (hp : m.containsKey k = .ok true) (k2 : K)
    (hne : m.compare k2 k ≠ 0) :
    ∃ old m', m.remove k = .ok (old, m') ∧ m'.containsKey k2 = m.containsKey k2 ∧
      (m.containsKey k2 = .ok true → m'.operatorIndex k2 = m.operatorIndex k2) := by
  obtain ⟨_, T, hT⟩ := hm.sound hc
  have hc' := hm.order hc
  obtain ⟨x, hx⟩ := (containsKey_true_iff hc' hT k).1 hp
  obtain ⟨m', T', e, hT', hcmp, _, hframe, _⟩ := remove_view hc' hT hx
  have hc'' : TotalOrder m'.compare := by rw [TreeMap.compare_congr hcmp]; exact hc'
  have hf := hframe k2 hne
  refine ⟨x.2, m', e, ?_, ?_⟩
  · rw [containsKey_entries hc'' hT', containsKey_entries hc' hT, TreeMap.compare_congr hcmp, hf]
  · intro hp2
    obtain ⟨y, hy⟩ := (containsKey_true_iff hc' hT k2).1 hp2
    rw [operatorIndex_entries hc' hT hy]
    rw [← hf, ← TreeMap.compare_congr hcmp] at hy
    exact operatorIndex_entries hc'' hT' hy

/-- Claim C4, instance: removing key 2, a node with two children, from the map built by
`put(2, 20)`, `put(1, 10)` and `put(3, 30)`, seen from its successor key 3. -/
theorem remove_preserves_other_keys_witness :
    ∃ m₁ m₂ m₃ : TreeMap Nat Nat, (TreeMap.new none).put 2 20 = .ok (20, m₁) ∧
      m₁.put 1 10 = .ok (10, m₂) ∧ m₂.put 3 30 = .ok (30, m₃) ∧
      m₃.containsKey 2 = .ok true ∧ m₃.compare 3 2 ≠ 0 ∧
      ∃ old m', m₃.remove 2 = .ok (old, m') ∧ m'.containsKey 3 = m₃.containsKey 3 ∧
        (m₃.containsKey 3 = .ok true → m'.operatorIndex 3 = m₃.operatorIndex 3) :=
  ⟨_, _, _, rfl, rfl, rfl, rfl, by decide,
    remove_preserves_other_keys none (natOrder Nat) _
      (Reachable.put 3 30 30 (Reachable.put 1 10 10 (Reachable.put 2 20 20 Reachable.new rfl)
        rfl) rfl) 2 rfl 3 (by decide)⟩

/-- Claim C5 on the code: on the map holding only `1 ↦ 7`, built by `put(1, 7)`, key 1 is present
with value 7 and `remove(1)` returns, but what it returns is a reference to its local copy `val`
of the value 7, destroyed by the return: a load through the result finds no live object, so the
caller does not receive 7.  The first call, `put(1, 7)`, returns a reference into the node it
created, through which 7 is read. -/
theorem remove_returns_dead_reference :
    ∃ m₁ m₂ : TreeMap Nat Nat,
      (TreeMap.new none).putRef 1 7 = .ok (ValueRef.ofEntry (some 0), m₁) ∧
      (ValueRef.ofEntry (some 0)).read m₁ = .ok 7 ∧
      m₁.containsKey 1 = .ok true ∧ m₁.operatorIndex 1 = .ok 7 ∧
      m₁.removeRef 1 = .ok (ValueRef.ofLocal 7, m₂) ∧
      (ValueRef.ofLocal 7).read m₂ = .error .danglingDeref ∧ m₂.size = 0 :=
  ⟨_, _, rfl, rfl, rfl, rfl, rfl, rfl, rfl⟩

/-- Claim C6 on the code: on the map holding only `1 ↦ 7`, built by `put(1, 7)`, key 1 is present
with value 7 and `put(1, 8)` returns and leaves `size()` at 1, but what it returns is a reference
to its local `old`, the copy of the value 7, destroyed by the return: a load through the result
finds no live object, so the caller does not receive 7.  Afterwards key 1 holds 8. -/
theorem put_overwrite_returns_dead_reference :
    ∃ m₁ m₂ : TreeMap Nat Nat,
      (TreeMap.new none).putRef 1 7 = .ok (ValueRef.ofEntry (some 0), m₁) ∧
      m₁.containsKey 1 = .ok true ∧ m₁.operatorIndex 1 = .ok 7 ∧
      m₁.putRef 1 8 = .ok (ValueRef.ofLocal 7, m₂) ∧
      (ValueRef.ofLocal 7).read m₂ = .error .danglingDeref ∧
      m₁.size = 1 ∧ m₂.size = 1 ∧ m₂.operatorIndex 1 = .ok 8 :=
  ⟨_, _, rfl, rfl, rfl, rfl, rfl, rfl, rfl, rfl⟩

/-- Claim C7 as stated fails: on the empty map key 1 is absent and `put(1, 7)` returns 7, the
value it has just stored under key 1; the same call on the resulting map, where key 1 is
present, returns 7 as well, so the result does not tell absence from presence. -/
theorem put_absent_returns_stored_value :
    ∃ m₁ m₂ : TreeMap Nat Nat, (TreeMap.new none : TreeMap Nat Nat).containsKey 1 = .ok false ∧
      (TreeMap.new none).put 1 7 = .ok (7, m₁) ∧ m₁.operatorIndex 1 = .ok 7 ∧
      m₁.containsKey 1 = .ok true ∧ m₁.put 1 7 = .ok (7, m₂) :=
  ⟨_, _, rfl, rfl, rfl, rfl, rfl⟩

/-- Claim C7, amended: on every reachable map, `put(k, v)` of a key `k` that is not present
returns `v` itself, the value of the new entry, and `size()` grows by one. -/
theorem put_absent_returns_new_value (comparator : Option (K → K → Int))
    (hc : TotalOrder (TreeMap.new comparator : TreeMap K V).compare) (m : TreeMap K V)
    (hm : Reachable comparator m) (k : K) (v : V) (hn : m.containsKey k = .ok false) :
    ∃ m', m.put k v = .ok (v, m') ∧ m'.size = m.size + 1 := by
  obtain ⟨_, T, hT⟩ := hm.sound hc
  have hc' := hm.order hc
  have hf := (containsKey_false_iff hc' hT k).1 hn
  obtain ⟨old, m', _, e, _, _, _, _, _, hnew⟩ := put_view hc' hT k v
  obtain ⟨rfl, hlen⟩ := hnew hf
  exact ⟨m', e, hlen⟩

/-- Claim C7, instance: `put(2, 8)` on the map holding only `1 ↦ 7`. -/
theorem put_absent_returns_new_value_witness :
    ∃ m₁ : TreeMap Nat Nat, (TreeMap.new none).put 1 7 = .ok (7, m₁) ∧
      m₁.containsKey 2 = .ok false ∧
      ∃ m', m₁.put 2 8 = .ok (8, m') ∧ m'.size = m₁.size + 1 :=
  ⟨_, rfl, rfl,
    put_absent_returns_new_value none (natOrder Nat) _
      (Reachable.put 1 7 7 Reachable.new rfl) 2 8 rfl⟩

/-- Claim C8 as stated fails: on the map holding only `1 ↦ 7`, key 2 is absent and index access
at 2 returns 7, the value stored under key 1, without any failure. -/
theorem lookup_absent_returns_other_value :
    ∃ m₁ : TreeMap Nat Nat, (TreeMap.new none).put 1 7 = .ok (7, m₁) ∧
      m₁.containsKey 2 = .ok false ∧ m₁.operatorIndex 1 = .ok 7 ∧
      m₁.operatorIndex 2 = .ok 7 :=
  ⟨_, rfl, rfl, rfl, rfl⟩

/-- Claim C8, amended: on every reachable map that is not empty, index access at a key `k`
that is not present returns the value of the root entry, which is the value stored under the
root's key. -/
theorem lookup_absent_returns_root_value (comparator : Option (K → K → Int))
    (hc : TotalOrder (TreeMap.new comparator : TreeMap K V).compare) (m : TreeMap K V)
    (hm : Reachable comparator m) (k : K) (hn : m.containsKey k = .ok false)
    (hne : m.isEmpty = false) :
    ∃ k' v, getKey m m.root = .ok k' ∧ getValue m m.root = .ok v ∧
      m.containsKey k' = .ok true ∧ m.operatorIndex k' = .ok v ∧
      m.operatorIndex k = .ok v := by
  obtain ⟨_, T, hT⟩ := hm.sound hc
  have hc' := hm.order hc
  have hf := (containsKey_false_iff hc' hT k).1 hn
  obtain ⟨k', v, hk, hv, hroot⟩ := root_entry hc' hT hne
  refine ⟨k', v, hk, hv, (containsKey_true_iff hc' hT k').2 ⟨_, hroot⟩,
    operatorIndex_entries hc' hT hroot, ?_⟩
  rw [operatorIndex_none hc' hT hf, hv]

/-- Claim C8, instance: index access at the absent key 5 on the map built by `put(1, 10)`,
`put(2, 20)` and `put(3, 30)`, whose root holds key 2. -/
theorem lookup_absent_returns_root_value_witness :
    ∃ m₁ m₂ m₃ : TreeMap Nat Nat, (TreeMap.new none).put 1 10 = .ok (10, m₁) ∧
      m₁.put 2 20 = .ok (20, m₂) ∧ m₂.put 3 30 = .ok (30, m₃) ∧
      m₃.containsKey 5 = .ok false ∧ m₃.isEmpty = false ∧
      ∃ k' v, getKey m₃ m₃.root = .ok k' ∧ getValue m₃ m₃.root = .ok v ∧
        m₃.containsKey k' = .ok true ∧ m₃.operatorIndex k' = .ok v ∧
        m₃.operatorIndex 5 = .ok v :=
  ⟨_, _, _, rfl, rfl, rfl, rfl, rfl,
    lookup_absent_returns_root_value none (natOrder Nat) _
      (Reachable.put 3 30 30 (Reachable.put 2 20 20 (Reachable.put 1 10 10 Reachable.new rfl)
        rfl) rfl) 5 rfl rfl⟩

/-- Claim C9 as stated fails: on the map holding only `1 ↦ 7`, key 2 is absent and `remove(2)`
returns 7, the value stored under key 1, without any failure. -/
theorem remove_absent_returns_other_value :
    ∃ m₁ : TreeMap Nat Nat, (TreeMap.new none).put 1 7 = .ok (7, m₁) ∧
      m₁.containsKey 2 = .ok false ∧ m₁.operatorIndex 1 = .ok 7 ∧
      m₁.remove 2 = .ok (7, m₁) :=
  ⟨_, rfl, rfl, rfl, rfl⟩

/-- Claim C9, amended: on every reachable map that is not empty, `remove(k)` of a key `k` that
is not present returns the value of the root entry, which is the value stored under the root's
key. -/
theorem remove_absent_returns_root_value (comparator : Option (K → K → Int))
    (hc : TotalOrder (TreeMap.new comparator : TreeMap K V).compare) (m : TreeMap K V)
    (hm : Reachable comparator m) (k : K) (hn : m.containsKey k = .ok false)
    (hne : m.isEmpty = false) :
    ∃ k' v m', getKey m m.root = .ok k' ∧ getValue m m.root = .ok v ∧
      m.containsKey k' = .ok true ∧ m.operatorIndex k' = .ok v ∧
      m.remove k = .ok (v, m') := by
  obtain ⟨_, T, hT⟩ := hm.sound hc
  have hc' := hm.order hc
  have hf := (containsKey_false_iff hc' hT k).1 hn
  obtain ⟨k', v, hk, hv, hroot⟩ := root_entry hc' hT hne
  refine ⟨k', v, m, hk, hv, (containsKey_true_iff hc' hT k').2 ⟨_, hroot⟩,
    operatorIndex_entries hc' hT hroot, ?_⟩
  rw [remove_absent hc' hT hf, hv]
  rfl

/-- Claim C9, instance: `remove(5)` of an absent key on the map built by `put(1, 10)`,
`put(2, 20)` and `put(3, 30)`, whose root holds key 2. -/
theorem remove_absent_returns_root_value_witness :
    ∃ m₁ m₂ m₃ : TreeMap Nat Nat, (TreeMap.new none).put 1 10 = .ok (10, m₁) ∧
      m₁.put 2 20 = .ok (20, m₂) ∧ m₂.put 3 30 = .ok (30, m₃) ∧
      m₃.containsKey 5 = .ok false ∧ m₃.isEmpty = false ∧
      ∃ k' v m', getKey m₃ m₃.root = .ok k' ∧ getValue m₃ m₃.root = .ok v ∧
        m₃.containsKey k' = .ok true ∧ m₃.operatorIndex k' = .ok v ∧
        m₃.remove 5 = .ok (v, m') :=
  ⟨_, _, _, rfl, rfl, rfl, rfl, rfl,
    remove_absent_returns_root_value none (natOrder Nat) _
      (Reachable.put 3 30 30 (Reachable.put 2 20 20 (Reachable.put 1 10 10 Reachable.new rfl)
        rfl) rfl) 5 rfl rfl⟩

/-- Claim C10 (atomicity of a failed removal): on every map, the empty map included, `remove(k)`
of a key `k` that is not present returns, and it returns with the map as it was: the fields of the
object and the heap are those of before, so `size()` is unchanged and the tree that the map holds,
with its entries, its shape and its colours, is the same. -/
theorem remove_absent_leaves_map_unchanged (m : TreeMap K V) (k : K)
    (ha : m.containsKey k = .ok false) :
    ∃ r m', m.removeRef k = .ok (r, m') ∧ m'.size = m.size ∧ m'.root = m.root ∧
      m'.heap = m.heap ∧ m' = m ∧ ∀ T : Tree K V, RepT m T → RepT m' T :=
  ⟨ValueRef.ofEntry m.root, m, removeRef_of_absent (getEntry_of_containsKey_false ha), rfl, rfl,
    rfl, rfl, fun _ h => h⟩

/-- Claim C10, instance: `remove(0)` on the empty map, where every key is absent. -/
theorem remove_absent_leaves_map_unchanged_witness :
    (TreeMap.new none : TreeMap Nat Nat).containsKey 0 = .ok false ∧
      ∃ r m', (TreeMap.new none : TreeMap Nat Nat).removeRef 0 = .ok (r, m') ∧
        m'.size = (TreeMap.new none : TreeMap Nat Nat).size ∧
        m'.root = (TreeMap.new none : TreeMap Nat Nat).root ∧
        m'.heap = (TreeMap.new none : TreeMap Nat Nat).heap ∧
        m' = TreeMap.new none ∧
        ∀ T : Tree Nat Nat, RepT (TreeMap.new none : TreeMap Nat Nat) T → RepT m' T :=
  ⟨rfl, remove_absent_leaves_map_unchanged (TreeMap.new none) 0 rfl⟩

end Contract

end collections

namespace collections

/-! ## Red-black shape under plugging -/

section ShapeLemmas

variable {K V : Type}

@[simp] theorem Tree.NoRedRed_nil : (Tree.nil : Tree K V).NoRedRed := trivial

@[simp] theorem Tree.NoRedRed_node (a : Nat) (c : Color) (l : Tree K V) (k : K) (v : V)
    (r : Tree K V) :
    (Tree.node a c l k v r).NoRedRed ↔
      (c = Color.red → l.color = Color.black ∧ r.color = Color.black) ∧
        l.NoRedRed ∧ r.NoRedRed := Iff.rfl

@[simp] theorem Tree.bheight_nil : (Tree.nil : Tree K V).bheight = 0 := rfl

@[simp] theorem Tree.bheight_node (a : Nat) (c : Color) (l : Tree K V) (k : K) (v : V)
    (r : Tree K V) :
    (Tree.node a c l k v r).bheight = l.bheight + (if c = Color.black then 1 else 0) := rfl

@[simp] theorem Tree.Balanced_nil : (Tree.nil : Tree K V).Balanced := trivial

@[simp] theorem Tree.Balanced_node (a : Nat) (c : Color) (l : Tree K V) (k : K) (v : V)
    (r : Tree K V) :
    (Tree.node a c l k v r).Balanced ↔ l.Balanced ∧ r.Balanced ∧ l.bheight = r.bheight :=
  Iff.rfl

@[simp] theorem ctxColor_nil : ctxColor ([] : List (Frame K V)) = Color.black := rfl

@[simp] theorem ctxColor_cons (f : Frame K V) (ctx : List (Frame K V)) :
    ctxColor (f :: ctx) = f.color := rfl

@[simp] theorem ctxTopColor_nil (c : Color) : ctxTopColor ([] : List (Frame K V)) c = c := rfl

@[simp] theorem ctxTopColor_cons (f : Frame K V) (ctx : List (Frame K V)) (c : Color) :
    ctxTopColor (f :: ctx) c = ctxTopColor ctx f.color := rfl

@[simp] theorem CtxBalanced_nil (n : Nat) : CtxBalanced ([] : List (Frame K V)) n := trivial

@[simp] theorem CtxBalanced_cons (f : Frame K V) (ctx : List (Frame K V)) (n : Nat) :
    CtxBalanced (f :: ctx) n ↔
      f.sibling.Balanced ∧ f.sibling.bheight = n ∧
        CtxBalanced ctx (n + (if f.color = Color.black then 1 else 0)) := Iff.rfl

@[simp] theorem CtxNoRedRed_nil : CtxNoRedRed ([] : List (Frame K V)) := trivial

@[simp] theorem CtxNoRedRed_cons (f : Frame K V) (ctx : List (Frame K V)) :
    CtxNoRedRed (f :: ctx) ↔
      f.sibling.NoRedRed ∧
        (f.color = Color.red → f.sibling.color = Color.black ∧ ctxColor ctx = Color.black) ∧
        CtxNoRedRed ctx := Iff.rfl

theorem Color.eq_black_of_ne_red {c : Color} (h : c ≠ Color.red) : c = Color.black := by
  cases c
  · exact absurd rfl h
  · rfl

theorem Color.eq_red_of_ne_black {c : Color} (h : c ≠ Color.black) : c = Color.red := by
  cases c
  · rfl
  · exact absurd rfl h

@[simp] theorem Tree.paint_color_node (c' : Color) (a : Nat) (c : Color) (l : Tree K V) (k : K)
    (v : V) (r : Tree K V) : ((Tree.node a c l k v r).paint c').color = c' := rfl

theorem Tree.paint_of_color {t : Tree K V} {c : Color} (h : t.color = c) : t.paint c = t := by
  cases t with
  | nil => rfl
  | node a c' l k v r =>
    simp only [Tree.color_node] at h
    subst h
    rfl

theorem Tree.ne_nil_of_red {t : Tree K V} (h : t.color = Color.red) :
    ∃ a l k v r, t = .node a .red l k v r := by
  cases t with
  | nil => cases h
  | node a c l k v r =>
    simp only [Tree.color_node] at h
    subst h
    exact ⟨a, l, k, v, r, rfl⟩

theorem Tree.color_plug (ctx : List (Frame K V)) (t : Tree K V) :
    (plug ctx t).color = ctxTopColor ctx t.color := by
  induction ctx generalizing t with
  | nil => rfl
  | cons f ctx ih =>
    rw [plug_cons, ih]
    cases f <;> rfl

theorem Tree.bheight_plug_congr (ctx : List (Frame K V)) {t u : Tree K V}
    (hb : t.bheight = u.bheight) (hbal : CtxBalanced ctx t.bheight) :
    (plug ctx t).bheight = (plug ctx u).bheight := by
  induction ctx generalizing t u with
  | nil => exact hb
  | cons f ctx ih =>
    simp only [plug_cons]
    obtain ⟨-, hs, hrest⟩ := hbal
    have hfill : ∀ w : Tree K V, w.bheight = t.bheight →
        (f.fill w).bheight = t.bheight + (if f.color = Color.black then 1 else 0) := by
      intro w hw
      cases f with
      | left a c k v r => simp [hw]
      | right a c l k v =>
        simp only [Frame.sibling_right] at hs
        simp [hs]
    have h1 := hfill t rfl
    have h2 := hfill u hb.symm
    exact ih (h1.trans h2.symm) (h1 ▸ hrest)

theorem Tree.Balanced_plug (ctx : List (Frame K V)) (t : Tree K V) :
    (plug ctx t).Balanced ↔ t.Balanced ∧ CtxBalanced ctx t.bheight := by
  induction ctx generalizing t with
  | nil => simp
  | cons f ctx ih =>
    rw [plug_cons, ih]
    cases f with
    | left a c k v r =>
      simp only [Frame.fill_left, Tree.Balanced_node, Tree.bheight_node, CtxBalanced_cons,
        Frame.sibling_left, Frame.color_left]
      constructor
      · rintro ⟨⟨h1, h2, h3⟩, h4⟩
        exact ⟨h1, h2, h3.symm, h4⟩
      · rintro ⟨h1, h2, h3, h4⟩
        exact ⟨⟨h1, h2, h3.symm⟩, h4⟩
    | right a c l k v =>
      simp only [Frame.fill_right, Tree.Balanced_node, Tree.bheight_node, CtxBalanced_cons,
        Frame.sibling_right, Frame.color_right]
      constructor
      · rintro ⟨⟨h1, h2, h3⟩, h4⟩
        exact ⟨h2, h1, h3, h3 ▸ h4⟩
      · rintro ⟨h1, h2, h3, h4⟩
        exact ⟨⟨h2, h1, h3⟩, h3 ▸ h4⟩

theorem Tree.NoRedRed_plug (ctx : List (Frame K V)) (t : Tree K V) :
    (plug ctx t).NoRedRed ↔
      t.NoRedRed ∧ CtxNoRedRed ctx ∧ (ctxColor ctx = Color.red → t.color = Color.black) := by
  induction ctx generalizing t with
  | nil => simp
  | cons f ctx ih =>
    rw [plug_cons, ih]
    cases f with
    | left a c k v r =>
      simp only [Frame.fill_left, Tree.NoRedRed_node, Tree.color_node, CtxNoRedRed_cons,
        Frame.sibling_left, Frame.color_left, ctxColor_cons]
      constructor
      · rintro ⟨⟨h1, h2, h3⟩, h4, h5⟩
        refine ⟨h2, ⟨h3, fun hc => ⟨(h1 hc).2, ?_⟩, h4⟩, fun hc => (h1 hc).1⟩
        cases hcc : ctxColor ctx with
        | black => rfl
        | red => rw [h5 hcc] at hc; cases hc
      · rintro ⟨h1, ⟨h2, h3, h4⟩, h5⟩
        refine ⟨⟨fun hc => ⟨h5 hc, (h3 hc).1⟩, h1, h2⟩, h4, fun hcc => ?_⟩
        cases c with
        | black => rfl
        | red => rw [(h3 rfl).2] at hcc; cases hcc
    | right a c l k v =>
      simp only [Frame.fill_right, Tree.NoRedRed_node, Tree.color_node, CtxNoRedRed_cons,
        Frame.sibling_right, Frame.color_right, ctxColor_cons]
      constructor
      · rintro ⟨⟨h1, h2, h3⟩, h4, h5⟩
        refine ⟨h3, ⟨h2, fun hc => ⟨(h1 hc).1, ?_⟩, h4⟩, fun hc => (h1 hc).2⟩
        cases hcc : ctxColor ctx with
        | black => rfl
        | red => rw [h5 hcc] at hc; cases hc
      · rintro ⟨h1, ⟨h2, h3, h4⟩, h5⟩
        refine ⟨⟨fun hc => ⟨(h3 hc).1, h5 hc⟩, h2, h1⟩, h4, fun hcc => ?_⟩
        cases c with
        | black => rfl
        | red => rw [(h3 rfl).2] at hcc; cases hcc

end ShapeLemmas

end collections

namespace collections

/-! ## The loop of `balanceAfterInsert` keeps the red-black shape -/

section InsertShape

variable {K V : Type}

theorem InsertFixIter.insert_iter_inv {z z' : List (Frame K V) × Tree K V} (hi : InsertFixIter z z')
    (h : InsertInv z) : InsertInv z' := by
  obtain ⟨hc, hstep⟩ := hi
  obtain ⟨h1, h2, h3, h4, h5⟩ := h
  cases hstep with
  | leftRed p ga gc gk gv ua ul uk uv ur rest t =>
    cases p <;> cases gc <;>
      simp_all [InsertInv, insertFixCond_cons] <;> (casesm* _ ∧ _) <;> omega
  | rightRed p ga gc ua ul uk uv ur gk gv rest t =>
    cases p <;> cases gc <;>
      simp_all [InsertInv, insertFixCond_cons] <;> (casesm* _ ∧ _) <;>
      (repeat' apply And.intro) <;>
      first | assumption | omega | (convert ‹CtxBalanced _ _› using 1; omega)
  | leftInner pa pc pl pk pv ga gc gk gv u rest a c l k v r hu =>
    have hu' := Color.eq_black_of_ne_red hu
    cases gc <;> simp_all [InsertInv, insertFixCond_cons] 
  | leftOuter pa pc pk pv ps ga gc gk gv u rest t hu =>
    have hu' := Color.eq_black_of_ne_red hu
    cases gc <;> simp_all [InsertInv, insertFixCond_cons] 
  | rightInner pa pc pk pv ps ga gc u gk gv rest a c l k v r hu =>
    have hu' := Color.eq_black_of_ne_red hu
    cases gc <;> simp_all [InsertInv, insertFixCond_cons] 
  | rightOuter pa pc ps pk pv ga gc u gk gv rest t hu =>
    have hu' := Color.eq_black_of_ne_red hu
    cases gc <;> simp_all [InsertInv, insertFixCond_cons]
  | rootInner pa pc pk pv ps a c l k v r =>
    simp_all [InsertInv, insertFixCond_cons]
  | rootOuter pa pc pl pk pv t =>
    simp_all [InsertInv, insertFixCond_cons]

theorem InsertInv.insert_steps {z z' : List (Frame K V) × Tree K V}
    (hs : Relation.ReflTransGen InsertFixIter z z') (h : InsertInv z) : InsertInv z' := by
  induction hs with
  | refl => exact h
  | tail _ hstep ih => exact hstep.insert_iter_inv ih

/-- When the loop of `balanceAfterInsert` has ended, the whole tree has the red-black shape. -/
theorem InsertInv.insert_final {z : List (Frame K V) × Tree K V} (h : InsertInv z)
    (hc : insertFixCond z = false) : (plug z.1 z.2).NoRedRed ∧ (plug z.1 z.2).Balanced := by
  obtain ⟨ctx, t⟩ := z
  obtain ⟨h1, h2, h3, h4, h5⟩ := h
  rw [Tree.NoRedRed_plug, Tree.Balanced_plug]
  refine ⟨⟨h2, h5, fun hred => ?_⟩, h3, h4⟩
  cases ctx with
  | nil => cases hred
  | cons p rest =>
    obtain ⟨a, l, k, v, r, rfl⟩ := Tree.ne_nil_of_red h1
    simp only [ctxColor_cons] at hred
    simp [insertFixCond, hred] at hc

theorem InsertFixed.insert_shape {z : List (Frame K V) × Tree K V} {T : Tree K V}
    (hf : InsertFixed z T) (h : InsertInv z) : T.NoRedRed ∧ T.Balanced := by
  obtain ⟨z', hs, hc, rfl⟩ := hf
  exact (InsertInv.insert_steps hs h).insert_final hc

theorem InsertFixed.insert_fixed_toList {z : List (Frame K V) × Tree K V} {T : Tree K V}
    (hf : InsertFixed z T) : T.toList = (plug z.1 z.2).toList := by
  obtain ⟨z', hs, hc, rfl⟩ := hf
  exact InsertFixSteps.insert_steps_toList_eq (hs.mono (fun _ _ hi => hi.2))

/-- Attaching a red leaf below a tree of red-black shape gives a position at which the loop of
`balanceAfterInsert` may start. -/
theorem InsertInv.attach {ctx : List (Frame K V)} (hn : (plug ctx (.nil : Tree K V)).NoRedRed)
    (hb : (plug ctx (.nil : Tree K V)).Balanced) (a : Nat) (k : K) (v : V) :
    InsertInv (ctx, .node a .red .nil k v .nil) := by
  rw [Tree.NoRedRed_plug] at hn
  rw [Tree.Balanced_plug] at hb
  exact ⟨rfl, by simp, by simp, by simpa using hb.2, hn.2.1⟩

end InsertShape

end collections

namespace collections

/-! ## The loop of `balanceAfterRemove` keeps the red-black shape -/

section RemoveShape

variable {K V : Type}

theorem Tree.paint_black_noRedRed {t : Tree K V} (h : t.NoRedRed) :
    (t.paint Color.black).NoRedRed := by
  cases t with
  | nil => trivial
  | node a c l k v r =>
    simp only [Tree.NoRedRed_node] at h
    simp [h.2]

theorem RemoveFixRest.rest_inv {z z' : List (Frame K V) × Tree K V} (hs : RemoveFixRest z z')
    (hb : z.2.color = Color.black)
    (hsib : ∀ p rest, z.1 = p :: rest → p.sibling.color = Color.black)
    (h : RemoveInv z) : RemoveInv z' := by
  obtain ⟨h1, h2, h3, h4⟩ := h
  cases hs with
  | leftBlack pa pc pk pv s rest t hl hr =>
    have ht := Tree.paint_of_color hb
    have hs' := hsib _ _ rfl
    simp only at ht h1 h2 h3 h4
    rw [ht] at h1
    cases s <;> cases pc <;> simp_all [RemoveInv] <;> (casesm* _ ∧ _) <;> omega
  | rightBlack pa pc s pk pv rest t hr hl =>
    have ht := Tree.paint_of_color hb
    have hs' := hsib _ _ rfl
    simp only at ht h1 h2 h3 h4
    rw [ht] at h1
    cases s <;> cases pc <;> simp_all [RemoveInv] <;> (casesm* _ ∧ _) <;>
      (repeat' apply And.intro) <;>
      first | assumption | omega | (convert ‹CtxBalanced _ _› using 1; omega)
  | leftNear pa pc pk pv s sc n nc nl nk nv nr sk sv sr rest t hn hr =>
    have ht := Tree.paint_of_color hb
    have hs' := hsib _ _ rfl
    have hn' := Color.eq_red_of_ne_black hn
    simp only at ht h1 h2 h3 h4
    rw [ht] at h1
    apply And.intro
    · apply Tree.paint_black_noRedRed
      rw [Tree.NoRedRed_plug]
      cases pc <;> simp_all
    · simp only [CtxBalanced_nil, CtxNoRedRed_nil, and_true]
      rw [Tree.Balanced_plug]
      cases pc <;> simp_all <;> (casesm* _ ∧ _) <;>
        (repeat' apply And.intro) <;>
        first | assumption | omega
  | leftFar pa pc pk pv s sc sl sk sv sr rest t hr =>
    have ht := Tree.paint_of_color hb
    have hs' := hsib _ _ rfl
    have hr' := Color.eq_red_of_ne_black hr
    obtain ⟨ra, rl, rk, rv, rr, rfl⟩ := Tree.color_red_node hr'
    simp only at ht h1 h2 h3 h4
    rw [ht] at h1
    apply And.intro
    · apply Tree.paint_black_noRedRed
      rw [Tree.NoRedRed_plug]
      cases pc <;> simp_all
    · simp only [CtxBalanced_nil, CtxNoRedRed_nil, and_true]
      rw [Tree.Balanced_plug]
      cases pc <;> simp_all <;> (casesm* _ ∧ _) <;> first | assumption | omega
  | rightNear pa pc s sc sl sk sv n nc nl nk nv nr pk pv rest t hn hl =>
    have ht := Tree.paint_of_color hb
    have hs' := hsib _ _ rfl
    have hn' := Color.eq_red_of_ne_black hn
    simp only at ht h1 h2 h3 h4
    rw [ht] at h1
    apply And.intro
    · apply Tree.paint_black_noRedRed
      rw [Tree.NoRedRed_plug]
      cases pc <;> simp_all
    · simp only [CtxBalanced_nil, CtxNoRedRed_nil, and_true]
      rw [Tree.Balanced_plug]
      cases pc <;> simp_all <;> (casesm* _ ∧ _) <;>
        (repeat' apply And.intro) <;>
        first | assumption | omega | (convert ‹CtxBalanced _ _› using 1; omega)
  | rightFar pa pc s sc sl sk sv sr pk pv rest t hl =>
    have ht := Tree.paint_of_color hb
    have hs' := hsib _ _ rfl
    have hl' := Color.eq_red_of_ne_black hl
    obtain ⟨la, ll, lk, lv, lr, rfl⟩ := Tree.color_red_node hl'
    simp only at ht h1 h2 h3 h4
    rw [ht] at h1
    apply And.intro
    · apply Tree.paint_black_noRedRed
      rw [Tree.NoRedRed_plug]
      cases pc <;> simp_all
    · simp only [CtxBalanced_nil, CtxNoRedRed_nil, and_true]
      rw [Tree.Balanced_plug]
      cases pc <;> simp_all <;> (casesm* _ ∧ _) <;>
        (repeat' apply And.intro) <;>
        first | assumption | omega | (convert ‹CtxBalanced _ _› using 1; omega)

theorem RemoveFixIter.remove_iter_inv {z z' : List (Frame K V) × Tree K V} (hi : RemoveFixIter z z')
    (h : RemoveInv z) : RemoveInv z' := by
  obtain ⟨hc, hstep⟩ := hi
  cases hstep with
  | direct p rest t z' hs hrest =>
    simp only [removeFixCond_cons, decide_eq_true_eq] at hc
    refine hrest.rest_inv hc ?_ h
    intro q rest' e
    simp only [List.cons.injEq] at e
    rw [← e.1]
    exact Color.eq_black_of_ne_red hs
  | leftRed pa pc pk pv s sl sk sv sr rest t z' hrest =>
    simp only [removeFixCond_cons, decide_eq_true_eq] at hc
    obtain ⟨h1, h2, h3, h4⟩ := h
    have hsl : sl.color = Color.black := by simp_all
    refine hrest.rest_inv hc ?_ ?_
    · intro q rest' e
      simp only [List.cons.injEq] at e
      rw [← e.1]
      exact hsl
    · cases pc <;> simp_all [RemoveInv]
      casesm* _ ∧ _
      first | assumption | omega
  | rightRed pa pc s sl sk sv sr pk pv rest t z' hrest =>
    simp only [removeFixCond_cons, decide_eq_true_eq] at hc
    obtain ⟨h1, h2, h3, h4⟩ := h
    have hsr : sr.color = Color.black := by simp_all
    refine hrest.rest_inv hc ?_ ?_
    · intro q rest' e
      simp only [List.cons.injEq] at e
      rw [← e.1]
      exact hsr
    · cases pc <;> simp_all [RemoveInv]
      casesm* _ ∧ _
      first | assumption | omega

theorem RemoveInv.remove_steps {z z' : List (Frame K V) × Tree K V}
    (hs : Relation.ReflTransGen RemoveFixIter z z') (h : RemoveInv z) : RemoveInv z' := by
  induction hs with
  | refl => exact h
  | tail _ hstep ih => exact hstep.remove_iter_inv ih

/-- When the loop of `balanceAfterRemove` has ended and the current node is painted black, the
whole tree has the red-black shape. -/
theorem RemoveInv.remove_final {z : List (Frame K V) × Tree K V} (h : RemoveInv z)
    (hc : removeFixCond z = false) :
    (plug z.1 (z.2.paint Color.black)).NoRedRed ∧ (plug z.1 (z.2.paint Color.black)).Balanced := by
  obtain ⟨ctx, t⟩ := z
  obtain ⟨h1, h2, h3, h4⟩ := h
  rw [Tree.NoRedRed_plug, Tree.Balanced_plug]
  cases ctx with
  | nil =>
    refine ⟨⟨h1, trivial, fun hred => by cases hred⟩, ?_, trivial⟩
    cases t <;> simp_all
  | cons p rest =>
    simp only [removeFixCond_cons, decide_eq_false_iff_not] at hc
    obtain ⟨a, l, k, v, r, rfl⟩ := Tree.color_red_node (Color.eq_red_of_ne_black hc)
    refine ⟨⟨h1, h4, fun _ => rfl⟩, ?_, ?_⟩
    · simpa using h2
    · simpa using h3

theorem RemoveFixed.remove_fixed_shape {z : List (Frame K V) × Tree K V} {T : Tree K V}
    (hf : RemoveFixed z T) (h : RemoveInv z) : T.NoRedRed ∧ T.Balanced := by
  obtain ⟨z', hs, hc, rfl⟩ := hf
  exact (RemoveInv.remove_steps hs h).remove_final hc

theorem RemoveFixed.remove_fixed_toList {z : List (Frame K V) × Tree K V} {T : Tree K V}
    (hf : RemoveFixed z T) : T.toList = (plug z.1 z.2).toList := by
  obtain ⟨z', hs, hc, rfl⟩ := hf
  rw [plug_paint_toList]
  exact RemoveFixSteps.steps_toList_eq (hs.mono (fun _ _ hi => hi.2))

/-! ### The colour of the root -/

theorem ctxTopColor_of_ne_nil {ctx : List (Frame K V)} (h : ctx ≠ []) (c c' : Color) :
    ctxTopColor ctx c = ctxTopColor ctx c' := by
  cases ctx with
  | nil => exact absurd rfl h
  | cons f ctx => rfl

theorem RemoveFixRest.rest_top {z z' : List (Frame K V) × Tree K V} (hs : RemoveFixRest z z')
    (h : ctxTopColor z.1 Color.black = Color.black) :
    ctxTopColor z'.1 Color.black = Color.black := by
  cases hs with
  | leftBlack pa pc pk pv s rest t hl hr => cases rest <;> simp_all
  | rightBlack pa pc s pk pv rest t hr hl => cases rest <;> simp_all
  | leftNear | leftFar | rightNear | rightFar => rfl

theorem RemoveFixIter.iter_top {z z' : List (Frame K V) × Tree K V} (hi : RemoveFixIter z z')
    (h : ctxTopColor z.1 Color.black = Color.black) :
    ctxTopColor z'.1 Color.black = Color.black := by
  obtain ⟨-, hstep⟩ := hi
  cases hstep with
  | direct p rest t z' hs hrest => exact hrest.rest_top h
  | leftRed pa pc pk pv s sl sk sv sr rest t z' hrest =>
    refine hrest.rest_top ?_
    cases rest <;> simp_all
  | rightRed pa pc s sl sk sv sr pk pv rest t z' hrest =>
    refine hrest.rest_top ?_
    cases rest <;> simp_all

/-- A black root stays black under `balanceAfterRemove`, wherever it starts. -/
theorem RemoveFixed.fixed_root_black {z : List (Frame K V) × Tree K V} {T : Tree K V}
    (hf : RemoveFixed z T) (h : ctxTopColor z.1 Color.black = Color.black) :
    T.color = Color.black := by
  obtain ⟨z', hs, hc, rfl⟩ := hf
  have h' : ctxTopColor z'.1 Color.black = Color.black := by
    clear hc
    induction hs with
    | refl => exact h
    | tail _ hstep ih => exact hstep.iter_top ih
  rw [Tree.color_plug]
  obtain ⟨ctx, t⟩ := z'
  cases ctx with
  | nil => cases t <;> rfl
  | cons f ctx => exact h'

/-! ### The loop does not look into the current subtree -/

theorem plug_cons_color (f : Frame K V) (δ : List (Frame K V)) (t u : Tree K V) :
    (plug (f :: δ) t).color = (plug (f :: δ) u).color := by
  rw [Tree.color_plug, Tree.color_plug]
  rfl

theorem RemoveFixRest.rest_subst {γ : List (Frame K V)} {t : Tree K V}
    {z' : List (Frame K V) × Tree K V} (hs : RemoveFixRest (γ, t) z') :
    ∃ f δ, z'.2 = plug (f :: δ) t ∧ ∀ u, RemoveFixRest (γ, u) (z'.1, plug (f :: δ) u) := by
  cases hs with
  | leftBlack pa pc pk pv s rest t hl hr =>
    exact ⟨.left pa pc pk pv (s.paint .red), [], rfl, fun u => .leftBlack pa pc pk pv s rest u hl hr⟩
  | rightBlack pa pc s pk pv rest t hr hl =>
    exact ⟨.right pa pc (s.paint .red) pk pv, [], rfl,
      fun u => .rightBlack pa pc s pk pv rest u hr hl⟩
  | leftNear pa pc pk pv s sc n nc nl nk nv nr sk sv sr rest t hn hr =>
    exact ⟨.left pa .black pk pv nl, .left n pc nk nv (.node s .black nr sk sv sr) :: rest, rfl,
      fun u => .leftNear pa pc pk pv s sc n nc nl nk nv nr sk sv sr rest u hn hr⟩
  | leftFar pa pc pk pv s sc sl sk sv sr rest t hr =>
    exact ⟨.left pa .black pk pv sl, .left s pc sk sv (sr.paint .black) :: rest, rfl,
      fun u => .leftFar pa pc pk pv s sc sl sk sv sr rest u hr⟩
  | rightNear pa pc s sc sl sk sv n nc nl nk nv nr pk pv rest t hn hl =>
    exact ⟨.right pa .black nr pk pv, .right n pc (.node s .black sl sk sv nl) nk nv :: rest, rfl,
      fun u => .rightNear pa pc s sc sl sk sv n nc nl nk nv nr pk pv rest u hn hl⟩
  | rightFar pa pc s sc sl sk sv sr pk pv rest t hl =>
    exact ⟨.right pa .black sr pk pv, .right s pc (sl.paint .black) sk sv :: rest, rfl,
      fun u => .rightFar pa pc s sc sl sk sv sr pk pv rest u hl⟩

theorem RemoveFixStep.step_subst {γ : List (Frame K V)} {t : Tree K V}
    {z' : List (Frame K V) × Tree K V} (hs : RemoveFixStep (γ, t) z') :
    ∃ f δ, z'.2 = plug (f :: δ) t ∧ ∀ u, RemoveFixStep (γ, u) (z'.1, plug (f :: δ) u) := by
  cases hs with
  | direct p rest t z' hs hrest =>
    obtain ⟨f, δ, e, hu⟩ := hrest.rest_subst
    exact ⟨f, δ, e, fun u => .direct p rest u _ hs (hu u)⟩
  | leftRed pa pc pk pv s sl sk sv sr rest t z' hrest =>
    obtain ⟨f, δ, e, hu⟩ := hrest.rest_subst
    exact ⟨f, δ, e, fun u => .leftRed pa pc pk pv s sl sk sv sr rest u _ (hu u)⟩
  | rightRed pa pc s sl sk sv sr pk pv rest t z' hrest =>
    obtain ⟨f, δ, e, hu⟩ := hrest.rest_subst
    exact ⟨f, δ, e, fun u => .rightRed pa pc s sl sk sv sr pk pv rest u _ (hu u)⟩

/-- The iterations that `balanceAfterRemove` runs from a position are the same for every
current subtree with the same root colour: the subtree is only carried along. -/
theorem RemoveFixIter.steps_subst {γ : List (Frame K V)} {t u : Tree K V}
    (hcol : u.color = t.color) {z' : List (Frame K V) × Tree K V}
    (hs : Relation.ReflTransGen RemoveFixIter (γ, t) z') :
    (z' = (γ, t)) ∨
      ∃ f δ, z'.2 = plug (f :: δ) t ∧
        Relation.ReflTransGen RemoveFixIter (γ, u) (z'.1, plug (f :: δ) u) := by
  induction hs with
  | refl => exact Or.inl rfl
  | @tail y z' _ hstep ih =>
    obtain ⟨hc, hstep⟩ := hstep
    rcases ih with rfl | ⟨f, δ, e, hu⟩
    · obtain ⟨g, ε, e', hg⟩ := hstep.step_subst
      refine Or.inr ⟨g, ε, e', .single ⟨?_, hg u⟩⟩
      cases γ with
      | nil => simp [removeFixCond] at hc
      | cons p rest =>
        simp only [removeFixCond_cons, decide_eq_true_eq] at hc ⊢
        rw [hcol]; exact hc
    · obtain ⟨y1, y2⟩ := y
      simp only at e hu
      subst e
      obtain ⟨g, ε, e', hg⟩ := hstep.step_subst
      refine Or.inr ⟨f, δ ++ g :: ε, ?_, ?_⟩
      · rw [e', ← List.cons_append, plug_append]
      · refine hu.tail ⟨?_, ?_⟩
        · cases y1 with
          | nil => simp [removeFixCond] at hc
          | cons p rest =>
            simp only [removeFixCond_cons, decide_eq_true_eq] at hc ⊢
            rw [plug_cons_color f δ u t]; exact hc
        · have := hg (plug (f :: δ) u)
          rw [← List.cons_append, plug_append]
          exact this

/-! ### Splicing out a node with at most one child -/

theorem Spliced.spliced_toList {ctx : List (Frame K V)} {c : Color} {ch T : Tree K V}
    (hs : Spliced ctx c ch T) : T.toList = (plug ctx ch).toList := by
  unfold Spliced at hs
  split at hs
  · exact hs.remove_fixed_toList
  · rw [hs]

theorem Spliced.spliced_shape {ctx : List (Frame K V)} {c : Color} {ch T xl xr : Tree K V} {x : Nat}
    {k : K} {v : V} (hs : Spliced ctx c ch T)
    (hch : (xl = .nil ∧ ch = xr) ∨ (xr = .nil ∧ ch = xl))
    (hn : (plug ctx (.node x c xl k v xr)).NoRedRed)
    (hb : (plug ctx (.node x c xl k v xr)).Balanced) : T.NoRedRed ∧ T.Balanced := by
  rw [Tree.NoRedRed_plug] at hn
  rw [Tree.Balanced_plug] at hb
  obtain ⟨hn1, hn2, hn3⟩ := hn
  obtain ⟨hb1, hb2⟩ := hb
  unfold Spliced at hs
  split at hs
  · rename_i hc
    subst hc
    refine hs.remove_fixed_shape ⟨?_, ?_, ?_, hn2⟩
    · apply Tree.paint_black_noRedRed
      rcases hch with ⟨-, rfl⟩ | ⟨-, rfl⟩
      · exact hn1.2.2
      · exact hn1.2.1
    · rcases hch with ⟨-, rfl⟩ | ⟨-, rfl⟩
      · exact hb1.2.1
      · exact hb1.1
    · rcases hch with ⟨rfl, rfl⟩ | ⟨rfl, rfl⟩
      · simp only [Tree.Balanced_node, Tree.bheight_nil] at hb1
        simpa [← hb1.2.2] using hb2
      · simpa using hb2
  · rename_i hc
    have hred := Color.eq_red_of_ne_black hc
    subst hred
    subst hs
    rw [Tree.NoRedRed_plug, Tree.Balanced_plug]
    rcases hch with ⟨rfl, rfl⟩ | ⟨rfl, rfl⟩
    · simp only [Tree.NoRedRed_node, Tree.Balanced_node, Tree.bheight_nil] at hn1 hb1
      refine ⟨⟨hn1.2.2, hn2, fun _ => (hn1.1 trivial).2⟩, hb1.2.1, ?_⟩
      simpa [← hb1.2.2] using hb2
    · simp only [Tree.NoRedRed_node, Tree.Balanced_node, Tree.bheight_nil] at hn1 hb1
      refine ⟨⟨hn1.2.1, hn2, fun _ => (hn1.1 trivial).1⟩, hb1.1, ?_⟩
      simpa using hb2

theorem Spliced.spliced_root_black {ctx : List (Frame K V)} {c : Color} {ch T xl xr : Tree K V}
    {x : Nat} {k : K} {v : V} (hs : Spliced ctx c ch T)
    (hroot : (plug ctx (.node x c xl k v xr)).color = Color.black) :
    T.color = Color.black := by
  rw [Tree.color_plug, Tree.color_node] at hroot
  unfold Spliced at hs
  split at hs
  · rename_i hc
    subst hc
    exact hs.fixed_root_black hroot
  · rename_i hc
    subst hs
    rw [Tree.color_plug]
    cases ctx with
    | nil => exact absurd hroot hc
    | cons f ctx => exact hroot

end RemoveShape

end collections

namespace collections

/-! ## The shape of the tree after `put` -/

section PutShape

variable {K V : Type} [DecidableEq K] [LT K] [DecidableRel (fun a b : K => a < b)]

omit [DecidableEq K] [LT K] [DecidableRel (fun a b : K => a < b)] in
theorem balanceAfterInsert_fixed {m : TreeMap K V} {ctx : List (Frame K V)} {a : Nat}
    {c : Color} {l r : Tree K V} {k : K} {v : V} (h : RepT m (plug ctx (.node a c l k v r))) :
    ∃ T' m', balanceAfterInsert m (some a) = .ok m' ∧ RepT m' T' ∧
      InsertFixed (ctx, .node a .red l k v r) T' ∧ SameMeta m m' := by
  obtain ⟨m₁, e₁, h₁, s₁⟩ := entrySetColor_node h .red
  have hfuel : insertFixMeasure (ctx, Tree.node a Color.red l k v r) ≤ m₁.heap.length := by
    have h1 := plug_length_le_size ctx (Tree.node a Color.red l k v r)
    have h2 := h₁.size_le
    have h3 : insertFixMeasure (ctx, Tree.node a Color.red l k v r) ≤ ctx.length := by
      unfold insertFixMeasure; split <;> simp
    omega
  obtain ⟨ctx', t', m', e, h', hs, hc, s⟩ :=
    balanceAfterInsertLoop_iter m₁.heap.length m₁ ctx _ h₁ hfuel
  refine ⟨plug ctx' t', m', ?_, h', ⟨(ctx', t'), hs, hc, rfl⟩, s₁.trans s⟩
  simp only [Tree.ptr_node] at e
  simp [balanceAfterInsert, e₁, e]

/-- What `put` does to the tree: it replaces the value of a node, or creates the root, or
attaches a red leaf and runs the loop of `balanceAfterInsert`. -/
theorem put_shape {m : TreeMap K V} {T : Tree K V} (h : RepT m T) (key : K) (val : V) :
    ∃ old m' T', m.put key val = .ok (old, m') ∧ RepT m' T' ∧
      m'.comparator = m.comparator ∧
      ((∃ ctx a c l k v r, T = plug ctx (.node a c l k v r) ∧
          T' = plug ctx (.node a c l k val r) ∧ m'.length = m.length) ∨
       (T = .nil ∧ (∃ a, T' = .node a .black .nil key val .nil) ∧ m'.length = 1) ∨
       (∃ ctx a, T = plug ctx .nil ∧ T.ptr ≠ none ∧
          InsertFixed (ctx, .node a .red .nil key val .nil) T' ∧
          m'.length = m.length + 1)) := by
  cases T with
  | nil =>
    have hroot : m.root = none := h.root
    refine ⟨val,
      ((alloc m (TreeMapEntry.new key val none)).1.setRoot (some m.heap.length)).setLength 1,
      .node m.heap.length .black .nil key val .nil, ?_, ⟨?_, ?_, ?_⟩, ?_,
      Or.inr (Or.inl ⟨rfl, ⟨_, rfl⟩, ?_⟩)⟩
    · simp [TreeMap.put, hroot, getValue, deref_some, cell_alloc, TreeMapEntry.new]
    · simp
    · simp [Rep, cell_alloc, TreeMapEntry.new]
    · simp
    · simp
    · simp
  | node a0 c0 l0 k0 v0 r0 =>
    have hroot : m.root = some a0 := h.root
    have hfuel : (Tree.node a0 c0 l0 k0 v0 r0).height ≤ m.heap.length :=
      (Tree.height_le_size _).trans h.size_le
    rcases putLoop_spec key val m _ [] m.heap.length h (by simp) hfuel (SearchPath.nil _ _) with
      ⟨ctx', a', c', l', k', v', r', m', e, h0, hp, hput, h', s⟩ | ⟨ctx', f, e, hp, hput⟩
    · refine ⟨v', m', _, ?_, h', s.comparator,
        Or.inl ⟨ctx', a', c', l', k', v', r', e.symm, rfl, s.length⟩⟩
      simp only [Tree.ptr_node] at hput
      simp [TreeMap.put, hroot, hput]
    · simp only [plug_nil] at e
      rw [← e] at h
      simp only [Tree.ptr_node] at hput
      cases f with
      | left pa pc pk pv ps =>
        have hcmp : m.compare key pk < 0 := hp _ (List.mem_cons_self _ _)
        obtain ⟨m₁, e₁, h₁, hl₁, hc₁, hh₁⟩ := attach_left h key val
        have h₂ := h₁.setLength (m₁.length + 1)
        obtain ⟨T₃, m₃, e₃, h₃, hfix, s₃⟩ := balanceAfterInsert_fixed h₂
        have hl := hfix.insert_fixed_toList
        have hmem : (m.heap.length, key, val) ∈ T₃.toList := by
          rw [hl, plug_toList]; simp
        refine ⟨val, m₃, T₃, ?_, h₃, ?_,
          Or.inr (Or.inr ⟨.left pa pc pk pv ps :: ctx', m.heap.length, e.symm, by simp, hfix, ?_⟩)⟩
        · simp only [Frame.addr_left, Frame.addr_right, Frame.key_left, Frame.key_right] at hput
          simp [TreeMap.put, hroot, hput, hcmp, e₁, e₃, h₃.getValue_of_mem hmem]
        · rw [s₃.comparator]; simp [hc₁]
        · rw [s₃.length]; simp [hl₁]
      | right pa pc ps pk pv =>
        have hcmp : 0 < m.compare key pk := hp _ (List.mem_cons_self _ _)
        have hcmp' : ¬ m.compare key pk < 0 := by omega
        obtain ⟨m₁, e₁, h₁, hl₁, hc₁, hh₁⟩ := attach_right h key val
        have h₂ := h₁.setLength (m₁.length + 1)
        obtain ⟨T₃, m₃, e₃, h₃, hfix, s₃⟩ := balanceAfterInsert_fixed h₂
        have hl := hfix.insert_fixed_toList
        have hmem : (m.heap.length, key, val) ∈ T₃.toList := by
          rw [hl, plug_toList]; simp
        refine ⟨val, m₃, T₃, ?_, h₃, ?_,
          Or.inr (Or.inr ⟨.right pa pc ps pk pv :: ctx', m.heap.length, e.symm, by simp, hfix, ?_⟩)⟩
        · simp only [Frame.addr_left, Frame.addr_right, Frame.key_left, Frame.key_right] at hput
          simp [TreeMap.put, hroot, hput, hcmp', e₁, e₃, h₃.getValue_of_mem hmem]
        · rw [s₃.comparator]; simp [hc₁]
        · rw [s₃.length]; simp [hl₁]

end PutShape

end collections

namespace collections

/-! ## The shape of the tree after `remove` -/

section RemoveShapeHeap

variable {K V : Type} [DecidableEq K] [LT K] [DecidableRel (fun a b : K => a < b)]

omit [DecidableEq K] [LT K] [DecidableRel (fun a b : K => a < b)] in
theorem balanceAfterRemove_iter {m : TreeMap K V} {ctx : List (Frame K V)} {t : Tree K V}
    (h : RepT m (plug ctx t)) (hne : t.ptr ≠ none) :
    ∃ ctx' t' m', balanceAfterRemove m t.ptr = .ok m' ∧
      RepT m' (plug ctx' (t'.paint .black)) ∧
      Relation.ReflTransGen RemoveFixIter (ctx, t) (ctx', t') ∧
      removeFixCond (ctx', t') = false ∧ SameMeta m m' := by
  have hfuel : removeFixMeasure (ctx, t) ≤ m.heap.length := by
    have h1 := plug_length_le_size ctx t
    have h2 := h.size_le
    have h3 : removeFixMeasure (ctx, t) ≤ ctx.length := by
      unfold removeFixMeasure; split <;> simp
    omega
  exact balanceAfterRemoveLoop_iter m.heap.length m ctx t h hne hfuel

omit [DecidableEq K] [LT K] [DecidableRel (fun a b : K => a < b)] in
theorem balanceAfterRemove_fixed {m : TreeMap K V} {ctx : List (Frame K V)} {t : Tree K V}
    (h : RepT m (plug ctx t)) (hne : t.ptr ≠ none) :
    ∃ T' m', balanceAfterRemove m t.ptr = .ok m' ∧ RepT m' T' ∧
      RemoveFixed (ctx, t) T' ∧ SameMeta m m' := by
  obtain ⟨ctx', t', m', e, h', hs, hc, s⟩ := balanceAfterRemove_iter h hne
  exact ⟨_, m', e, h', ⟨(ctx', t'), hs, hc, rfl⟩, s⟩

omit [DecidableEq K] [LT K] [DecidableRel (fun a b : K => a < b)] in
/-- What `remove` does once the node to unlink has at most one child. -/
theorem removeSplice_shape {m : TreeMap K V} {ctx : List (Frame K V)} {e : Nat} {ce : Color}
    {el er : Tree K V} {ke : K} {ve : V}
    (h : RepT m (plug ctx (.node e ce el ke ve er))) (hone : el = .nil ∨ er = .nil) :
    ∃ m' T' ch, removeSplice m (some e) = .ok m' ∧ RepT m' T' ∧ SameMeta m m' ∧
      ((el = .nil ∧ ch = er) ∨ (er = .nil ∧ ch = el)) ∧ Spliced ctx ce ch T' := by
  have hc := h.cell_focus
  cases el with
  | node ra rc rl rk rv rr =>
    have her : er = .nil := by rcases hone with hl | hr; cases hl; exact hr
    subst her
    obtain ⟨m₁, e₁, h₁, s₁⟩ := removeLink_left h
    by_cases hce : ce = Color.black
    · obtain ⟨T', m₂, e₂, h₂, hfix, s₂⟩ := balanceAfterRemove_fixed h₁ (by simp)
      simp only [Tree.ptr_node] at e₂
      refine ⟨m₂, T', _, ?_, h₂, s₁.trans s₂, Or.inr ⟨rfl, rfl⟩, ?_⟩
      · simp [removeSplice, getLeft, deref_some, hc, e₁, hce, e₂]
      · simpa [Spliced, hce] using hfix
    · refine ⟨m₁, _, _, ?_, h₁, s₁, Or.inr ⟨rfl, rfl⟩, ?_⟩
      · simp [removeSplice, getLeft, deref_some, hc, e₁, hce]
      · simp [Spliced, hce]
  | nil =>
    cases er with
    | node ra rc rl rk rv rr =>
      obtain ⟨m₁, e₁, h₁, s₁⟩ := removeLink_right h
      by_cases hce : ce = Color.black
      · obtain ⟨T', m₂, e₂, h₂, hfix, s₂⟩ := balanceAfterRemove_fixed h₁ (by simp)
        simp only [Tree.ptr_node] at e₂
        refine ⟨m₂, T', _, ?_, h₂, s₁.trans s₂, Or.inl ⟨rfl, rfl⟩, ?_⟩
        · simp [removeSplice, getLeft, getRight, deref_some, hc, e₁, hce, e₂]
        · simpa [Spliced, hce] using hfix
      · refine ⟨m₁, _, _, ?_, h₁, s₁, Or.inl ⟨rfl, rfl⟩, ?_⟩
        · simp [removeSplice, getLeft, getRight, deref_some, hc, e₁, hce]
        · simp [Spliced, hce]
    | nil =>
      cases ctx with
      | nil =>
        obtain ⟨m₁, e₁, h₁, s₁⟩ := removeRoot_spec h
        refine ⟨_, _, .nil, ?_, h₁, s₁, Or.inl ⟨rfl, rfl⟩, ?_⟩
        · simp [removeSplice, getLeft, getRight, getParent, deref_some, hc, e₁]
        · unfold Spliced
          split
          · exact ⟨([], .nil), .refl, rfl, rfl⟩
          · rfl
      | cons f ctx =>
        by_cases hce : ce = Color.black
        · subst hce
          obtain ⟨ctx₁, t₁, m₁, e₁, h₁, hsteps, hc₁, s₁⟩ := balanceAfterRemove_iter h (by simp)
          simp only [Tree.ptr_node] at e₁
          rcases RemoveFixIter.steps_subst (t := .node e .black .nil ke ve .nil)
              (u := (.nil : Tree K V)) rfl hsteps with
            hz | ⟨g, δ, ht₁, hnil⟩
          · simp only [Prod.mk.injEq] at hz
            rw [hz.1, hz.2] at hc₁
            simp [removeFixCond] at hc₁
          · simp only at ht₁ hnil
            obtain ⟨g', γ, hp⟩ := paint_plug_cons Color.black g δ
            rw [ht₁, hp, ← plug_append, List.cons_append] at h₁
            obtain ⟨m₂, e₂, h₂, s₂⟩ := removeUnlink_spec h₁
            refine ⟨m₂, _, .nil, ?_, h₂, s₁.trans s₂, Or.inl ⟨rfl, rfl⟩, ?_⟩
            · simp [removeSplice, getLeft, getRight, getParent, getColor, deref_some, hc, e₁, e₂]
            · simp only [Spliced, if_true]
              refine ⟨(ctx₁, plug (g :: δ) .nil), hnil, ?_, ?_⟩
              · cases ctx₁ with
                | nil => rfl
                | cons q rest =>
                  rw [ht₁] at hc₁
                  simp only [removeFixCond_cons] at hc₁ ⊢
                  rw [plug_cons_color g δ _ (.node e .black .nil ke ve .nil)]
                  exact hc₁
              · rw [hp, ← List.cons_append, plug_append]
        · obtain ⟨m₂, e₂, h₂, s₂⟩ := removeUnlink_spec h
          refine ⟨m₂, _, .nil, ?_, h₂, s₂, Or.inl ⟨rfl, rfl⟩, ?_⟩
          · simp [removeSplice, getLeft, getRight, getParent, getColor, deref_some, hc, hce, e₂]
          · simp [Spliced, hce]

/-- The descent of `getEntry` ends, whatever the comparator, and a node it returns is a node of
the tree whose key compares equal to the key sought. -/
theorem getEntryLoop_found {m : TreeMap K V} (key : K) :
    ∀ (t : Tree K V) (par : Option Nat) (fuel : Nat), Rep m par t → t.height ≤ fuel →
      ∃ p, getEntryLoop m key fuel t.ptr = .ok p ∧
        ∀ a, p = some a → ∃ k v, (a, k, v) ∈ t.toList ∧ m.compare key k = 0 := by
  intro t
  induction t with
  | nil =>
    intro par fuel _ _
    exact ⟨none, by cases fuel <;> simp [getEntryLoop], fun a ha => by cases ha⟩
  | node a c l k v r ihl ihr =>
    intro par fuel h hfuel
    cases fuel with
    | zero => simp at hfuel
    | succ fuel =>
      obtain ⟨ha, hl, hr⟩ := h
      simp only [Tree.height_node, Nat.add_le_add_iff_right, max_le_iff] at hfuel
      by_cases hlt : m.compare key k < 0
      · obtain ⟨p, e, hp⟩ := ihl _ fuel hl hfuel.1
        refine ⟨p, ?_, fun b hb => ?_⟩
        · simp [getEntryLoop, getKey, getLeft, deref_some, ha, hlt, e]
        · obtain ⟨k', v', hm, h0⟩ := hp b hb
          exact ⟨k', v', by simp [hm], h0⟩
      · by_cases hgt : 0 < m.compare key k
        · obtain ⟨p, e, hp⟩ := ihr _ fuel hr hfuel.2
          refine ⟨p, ?_, fun b hb => ?_⟩
          · simp [getEntryLoop, getKey, getRight, deref_some, ha, hlt, hgt, e]
          · obtain ⟨k', v', hm, h0⟩ := hp b hb
            exact ⟨k', v', by simp [hm], h0⟩
        · refine ⟨some a, ?_, fun b hb => ?_⟩
          · simp [getEntryLoop, getKey, deref_some, ha, hlt, hgt]
          · simp only [Option.some.injEq] at hb
            subst hb
            exact ⟨k, v, by simp, by omega⟩

theorem getEntry_found {m : TreeMap K V} {T : Tree K V} (h : RepT m T) (key : K) :
    ∃ p, getEntry m key = .ok p ∧
      ∀ a, p = some a → ∃ ctx c l k v r, T = plug ctx (.node a c l k v r) ∧
        m.compare key k = 0 := by
  obtain ⟨p, e, hp⟩ := getEntryLoop_found (m := m) key T none m.heap.length h.rep
    ((Tree.height_le_size _).trans h.size_le)
  refine ⟨p, ?_, fun a ha => ?_⟩
  · unfold getEntry
    rw [h.root]
    exact e
  · obtain ⟨k, v, hm, h0⟩ := hp a ha
    obtain ⟨ctx, c, l, r, rfl⟩ := Tree.exists_plug_of_mem hm
    exact ⟨ctx, c, l, k, v, r, rfl, h0⟩

/-- What `remove` does to the tree once `getEntry` has found the node: a node with at most one
child is spliced out; for a node with two children the key and value of its successor are
copied onto it and the successor is spliced out. -/
theorem remove_shape {m : TreeMap K V} {ctx : List (Frame K V)} {e : Nat} {ce : Color}
    {el er : Tree K V} {ke : K} {ve : V} {key : K}
    (h : RepT m (plug ctx (.node e ce el ke ve er)))
    (hget : getEntry m key = .ok (some e)) :
    ∃ m' T', m.remove key = .ok (ve, m') ∧ RepT m' T' ∧ m'.length = m.length - 1 ∧
      m'.comparator = m.comparator ∧
      ((∃ ch, ((el = .nil ∧ ch = er) ∨ (er = .nil ∧ ch = el)) ∧ Spliced ctx ce ch T') ∨
       (∃ δ s cs ks vs sr, el.ptr ≠ none ∧ er = plug δ (.node s cs .nil ks vs sr) ∧
          ctxBefore δ = [] ∧ Spliced (δ ++ .right e ce el ks vs :: ctx) cs sr T')) := by
  have h' := h.setLength (m.length - 1)
  have hcell := h'.cell_focus
  have hcell₀ := h.cell_focus
  by_cases two : el.ptr ≠ none ∧ er.ptr ≠ none
  · obtain ⟨δ, s, cs, ks, vs, sr, hr, hb, hsucc⟩ := getSuccessor_right h' two.2
    have hrne := two.2
    subst hr
    have hview : RepT (m.setLength (m.length - 1))
        (plug (δ ++ .right e ce el ke ve :: ctx) (.node s cs .nil ks vs sr)) := by
      rw [plug_append]; exact h'
    have hcs := hview.cell_focus
    obtain ⟨m₁, e₁, h₁, s₁⟩ := setKey_node h' ks
    have hview₁ : RepT m₁ (plug (δ ++ .right e ce el ks ve :: ctx) (.node s cs .nil ks vs sr)) := by
      rw [plug_append]; exact h₁
    have hcs₁ := hview₁.cell_focus
    obtain ⟨m₂, e₂, h₂, s₂⟩ := setValue_node h₁ vs
    have hview₂ : RepT m₂ (plug (δ ++ .right e ce el ks vs :: ctx) (.node s cs .nil ks vs sr)) := by
      rw [plug_append]; exact h₂
    obtain ⟨m₃, T', ch, e₃, h₃, s₃, hch, hsp⟩ := removeSplice_shape hview₂ (Or.inl rfl)
    have hch' : ch = sr := by
      rcases hch with ⟨-, e⟩ | ⟨e1, e2⟩
      · exact e
      · rw [e2, e1]
    subst hch'
    refine ⟨m₃, T', ?_, h₃, ?_, ?_, Or.inr ⟨δ, s, cs, ks, vs, ch, two.1, rfl, hb, hsp⟩⟩
    · simp [TreeMap.remove, hget, getValue, getLeft, getRight, getKey, deref_some, hcell, hcell₀,
        two.1, hrne, hsucc, hcs, hcs₁, e₁, e₂, e₃]
    · rw [s₃.length, s₂.length, s₁.length]; rfl
    · rw [s₃.comparator, s₂.comparator, s₁.comparator]; rfl
  · have hone : el = .nil ∨ er = .nil := by
      by_cases hl : el.ptr = none
      · exact Or.inl (Tree.ptr_eq_none.1 hl)
      · by_cases hr : er.ptr = none
        · exact Or.inr (Tree.ptr_eq_none.1 hr)
        · exact absurd ⟨hl, hr⟩ two
    obtain ⟨m₃, T', ch, e₃, h₃, s₃, hch, hsp⟩ := removeSplice_shape h' hone
    refine ⟨m₃, T', ?_, h₃, ?_, ?_, Or.inl ⟨ch, hch, hsp⟩⟩
    · have htwo : ¬ (el.ptr ≠ none ∧ er.ptr ≠ none) := two
      by_cases hl : el.ptr = none
      · simp [TreeMap.remove, hget, getValue, getLeft, getRight, getKey, deref_some, hcell, hcell₀,
          hl, e₃]
      · have hr : er.ptr = none := by
          by_contra hr
          exact htwo ⟨hl, hr⟩
        simp [TreeMap.remove, hget, getValue, getLeft, getRight, getKey, deref_some, hcell, hcell₀,
          hl, hr, e₃]
    · rw [s₃.length]; rfl
    · rw [s₃.comparator]; rfl

end RemoveShapeHeap

end collections

namespace collections

/-! ## Reachable maps have the red-black shape -/

section Shape

variable {K V : Type} [DecidableEq K] [LT K] [DecidableRel (fun a b : K => a < b)]

omit [DecidableEq K] [LT K] [DecidableRel (fun a b : K => a < b)] in
theorem Tree.size_eq_of_toList {t u : Tree K V} (h : t.toList = u.toList) : t.size = u.size := by
  rw [← Tree.length_toList, ← Tree.length_toList, h]

omit [DecidableEq K] [LT K] [DecidableRel (fun a b : K => a < b)] in
theorem Shaped.of_new (comparator : Option (K → K → Int)) :
    Shaped (TreeMap.new comparator : TreeMap K V) (.nil : Tree K V) :=
  ⟨⟨rfl, trivial, List.nodup_nil⟩, rfl, trivial, trivial⟩

theorem put_shaped {m : TreeMap K V} {T : Tree K V} (h : Shaped m T) (key : K) (val : V) :
    ∃ old m' T', m.put key val = .ok (old, m') ∧ Shaped m' T' ∧
      m'.comparator = m.comparator := by
  obtain ⟨hrep, hlen, hn, hb⟩ := h
  obtain ⟨old, m', T', e, hrep', hcmp, hcase⟩ := put_shape hrep key val
  refine ⟨old, m', T', e, ⟨hrep', ?_, ?_⟩, hcmp⟩
  · rcases hcase with ⟨ctx, a, c, l, k, v, r, rfl, rfl, hl⟩ | ⟨rfl, ⟨a, rfl⟩, hl⟩ |
      ⟨ctx, a, rfl, -, hfix, hl⟩
    · have h1 := plug_size ctx (Tree.node a c l k v r)
      have h2 := plug_size ctx (Tree.node a c l k val r)
      simp only [Tree.size_node] at h1 h2
      omega
    · rw [hl]; simp
    · have h1 := plug_size ctx (Tree.node a Color.red Tree.nil key val Tree.nil)
      have h2 := Tree.size_eq_of_toList hfix.insert_fixed_toList
      simp only [Tree.size_node, Tree.size_nil] at h1 h2
      omega
  · rcases hcase with ⟨ctx, a, c, l, k, v, r, rfl, rfl, hl⟩ | ⟨rfl, ⟨a, rfl⟩, hl⟩ |
      ⟨ctx, a, rfl, -, hfix, hl⟩
    · rw [Tree.NoRedRed_plug] at hn
      rw [Tree.Balanced_plug] at hb
      rw [Tree.NoRedRed_plug, Tree.Balanced_plug]
      exact ⟨hn, hb⟩
    · simp
    · exact hfix.insert_shape (InsertInv.attach hn hb a key val)

theorem remove_shaped {m : TreeMap K V} {T : Tree K V} (h : Shaped m T) {key : K} {e : Nat}
    (hget : getEntry m key = .ok (some e)) :
    ∃ old m' T', m.remove key = .ok (old, m') ∧ Shaped m' T' ∧
      m'.comparator = m.comparator ∧ (T.color = Color.black → T'.color = Color.black) := by
  obtain ⟨hrep, hlen, hn, hb⟩ := h
  obtain ⟨p, e', hp⟩ := getEntry_found hrep key
  rw [hget] at e'
  simp only [Except.ok.injEq] at e'
  obtain ⟨ctx, ce, el, ke, ve, er, rfl, -⟩ := hp e e'.symm
  obtain ⟨m', T', erem, hrep', hl, hcmp, hcase⟩ := remove_shape hrep hget
  refine ⟨ve, m', T', erem, ⟨hrep', ?_, ?_⟩, hcmp, ?_⟩
  · rcases hcase with ⟨ch, hch, hsp⟩ | ⟨δ, s, cs, ks, vs, sr, -, rfl, -, hsp⟩
    · have h1 := plug_size ctx (Tree.node e ce el ke ve er)
      have h2 := plug_size ctx ch
      have h3 := Tree.size_eq_of_toList hsp.spliced_toList
      simp only [Tree.size_node] at h1
      rcases hch with ⟨rfl, rfl⟩ | ⟨rfl, rfl⟩ <;> simp only [Tree.size_nil] at h1 <;> omega
    · have h1 := plug_size ctx (Tree.node e ce el ke ve (plug δ (Tree.node s cs Tree.nil ks vs sr)))
      have h2 := plug_size δ (Tree.node s cs Tree.nil ks vs sr)
      have h3 := Tree.size_eq_of_toList hsp.spliced_toList
      have h4 := plug_size ctx (Tree.node e ce el ks vs (plug δ sr))
      have h5 := plug_size δ sr
      rw [plug_append, plug_cons, Frame.fill_right] at h3
      simp only [Tree.size_node, Tree.size_nil] at h1 h2 h4
      omega
  · rcases hcase with ⟨ch, hch, hsp⟩ | ⟨δ, s, cs, ks, vs, sr, -, rfl, -, hsp⟩
    · exact hsp.spliced_shape hch hn hb
    · refine hsp.spliced_shape (x := s) (k := ks) (v := vs) (Or.inl ⟨rfl, rfl⟩) ?_ ?_
      · rw [plug_append, plug_cons, Frame.fill_right]
        rw [Tree.NoRedRed_plug] at hn ⊢
        exact hn
      · rw [plug_append, plug_cons, Frame.fill_right]
        rw [Tree.Balanced_plug] at hb ⊢
        exact hb
  · intro hroot
    rcases hcase with ⟨ch, hch, hsp⟩ | ⟨δ, s, cs, ks, vs, sr, -, rfl, -, hsp⟩
    · exact hsp.spliced_root_black hroot
    · have hroot' : (plug (δ ++ Frame.right e ce el ks vs :: ctx)
          (Tree.node s cs Tree.nil ks vs sr)).color = Color.black := by
        rw [plug_append, plug_cons, Frame.fill_right]
        rw [Tree.color_plug] at hroot ⊢
        exact hroot
      exact hsp.spliced_root_black hroot'

theorem containsKey_getEntry {m : TreeMap K V} {T : Tree K V} (h : RepT m T) {key : K}
    (hp : m.containsKey key = .ok true) : ∃ e, getEntry m key = .ok (some e) := by
  obtain ⟨p, e, -⟩ := getEntry_found h key
  cases p with
  | none => simp [TreeMap.containsKey, e] at hp
  | some a => exact ⟨a, e⟩

omit [DecidableEq K] [LT K] [DecidableRel (fun a b : K => a < b)] in
theorem clear_shaped {m : TreeMap K V} {T : Tree K V} (h : Shaped m T) :
    ∃ m', m.clear = .ok m' ∧ Shaped m' (.nil : Tree K V) ∧ m'.comparator = m.comparator := by
  obtain ⟨m', e, hrep, hlen, hcmp⟩ := clear_spec h.1
  exact ⟨m', e, ⟨hrep, by simpa using hlen, trivial, trivial⟩, hcmp⟩

/-- Every reachable map holds a tree of red-black shape (root colour apart) whose number of
nodes is `length`, whatever the comparator. -/
theorem Reachable.shaped {comparator : Option (K → K → Int)} {m : TreeMap K V}
    (h : Reachable comparator m) : ∃ T, Shaped m T := by
  induction h with
  | new => exact ⟨.nil, Shaped.of_new comparator⟩
  | @put m m' key val old _ e ih =>
    obtain ⟨T, hT⟩ := ih
    obtain ⟨old', m'', T', e', hT', -⟩ := put_shaped hT key val
    rw [e] at e'
    simp only [Except.ok.injEq, Prod.mk.injEq] at e'
    obtain ⟨-, rfl⟩ := e'
    exact ⟨T', hT'⟩
  | @remove m m' key old _ hp e ih =>
    obtain ⟨T, hT⟩ := ih
    obtain ⟨a, hget⟩ := containsKey_getEntry hT.1 hp
    obtain ⟨old', m'', T', e', hT', -⟩ := remove_shaped hT hget
    rw [e] at e'
    simp only [Except.ok.injEq, Prod.mk.injEq] at e'
    obtain ⟨-, rfl⟩ := e'
    exact ⟨T', hT'⟩
  | @clear m m' _ e ih =>
    obtain ⟨T, hT⟩ := ih
    obtain ⟨m'', e', hT', -⟩ := clear_shaped hT
    rw [e] at e'
    simp only [Except.ok.injEq] at e'
    subst e'
    exact ⟨.nil, hT'⟩

end Shape

end collections

namespace collections

/-! ## Consequences of the red-black shape -/

section ShapeFacts

variable {K V : Type}

/-- The heap determines the tree it holds. -/
theorem Rep.rep_unique {m : TreeMap K V} :
    ∀ (t t' : Tree K V) (par par' : Option Nat), Rep m par t → Rep m par' t' → t.ptr = t'.ptr →
      t = t' := by
  intro t
  induction t with
  | nil =>
    intro t' par par' _ _ hp
    cases t' with
    | nil => rfl
    | node a c l k v r => cases hp
  | node a c l k v r ihl ihr =>
    intro t' par par' h h' hp
    cases t' with
    | nil => cases hp
    | node a' c' l' k' v' r' =>
      simp only [Tree.ptr_node, Option.some.injEq] at hp
      subst hp
      obtain ⟨hc, hl, hr⟩ := h
      obtain ⟨hc', hl', hr'⟩ := h'
      rw [hc] at hc'
      simp only [Option.some.injEq, TreeMapEntry.mk.injEq] at hc'
      obtain ⟨rfl, rfl, -, hlp, hrp, rfl⟩ := hc'
      rw [ihl l' _ _ hl hl' hlp, ihr r' _ _ hr hr' hrp]

theorem RepT.tree_unique {m : TreeMap K V} {T T' : Tree K V} (h : RepT m T) (h' : RepT m T') :
    T = T' :=
  Rep.rep_unique T T' none none h.rep h'.rep (h.root.symm.trans h'.root)

/-- In a tree of red-black shape the height is at most twice the black height (plus one
below a red root), and the number of nodes is at least two to the black height, less one. -/
theorem Tree.shape_bounds (t : Tree K V) (hn : t.NoRedRed) (hb : t.Balanced) :
    (t.color = Color.black → t.height ≤ 2 * t.bheight ∧ 2 ^ t.bheight ≤ t.size + 1) ∧
      (t.color = Color.red → t.height ≤ 2 * t.bheight + 1 ∧ 2 ^ (t.bheight + 1) ≤ t.size + 1) := by
  induction t with
  | nil => simp
  | node a c l k v r ihl ihr =>
    obtain ⟨hc, hnl, hnr⟩ := hn
    obtain ⟨hbl, hbr, hbh⟩ := hb
    have hl := ihl hnl hbl
    have hr := ihr hnr hbr
    have hl' : l.height ≤ 2 * l.bheight + 1 ∧ 2 ^ l.bheight ≤ l.size + 1 := by
      cases hcl : l.color with
      | black => have := hl.1 hcl; omega
      | red =>
        have := hl.2 hcl
        have h2 : 2 ^ (l.bheight + 1) = 2 * 2 ^ l.bheight := by rw [pow_succ]; omega
        omega
    have hr' : r.height ≤ 2 * r.bheight + 1 ∧ 2 ^ r.bheight ≤ r.size + 1 := by
      cases hcr : r.color with
      | black => have := hr.1 hcr; omega
      | red =>
        have := hr.2 hcr
        have h2 : 2 ^ (r.bheight + 1) = 2 * 2 ^ r.bheight := by rw [pow_succ]; omega
        omega
    cases c with
    | black =>
      refine ⟨fun _ => ?_, fun hc' => by cases hc'⟩
      have e1 : (Tree.node a Color.black l k v r).height = max l.height r.height + 1 := rfl
      have e2 : (Tree.node a Color.black l k v r).bheight = l.bheight + 1 := rfl
      have e3 : (Tree.node a Color.black l k v r).size = l.size + 1 + r.size := rfl
      have h2 : 2 ^ (l.bheight + 1) = 2 * 2 ^ l.bheight := by rw [pow_succ]; omega
      rw [← hbh] at hr'
      have hmax := max_le (a := l.height) (b := r.height) (c := 2 * l.bheight + 1) hl'.1 hr'.1
      rw [e1, e2, e3]
      constructor <;> omega
    | red =>
      refine ⟨fun hc' => absurd hc' (by simp), fun _ => ?_⟩
      obtain ⟨hcl, hcr⟩ := hc rfl
      have h1 := hl.1 hcl
      have h2 := hr.1 hcr
      have e1 : (Tree.node a Color.red l k v r).height = max l.height r.height + 1 := rfl
      have e2 : (Tree.node a Color.red l k v r).bheight = l.bheight := rfl
      have e3 : (Tree.node a Color.red l k v r).size = l.size + 1 + r.size := rfl
      have h3 : 2 ^ (l.bheight + 1) = 2 * 2 ^ l.bheight := by rw [pow_succ]; omega
      rw [← hbh] at h2
      have hmax := max_le (a := l.height) (b := r.height) (c := 2 * l.bheight) h1.1 h2.1
      rw [e1, e2, e3]
      constructor <;> omega

/-- Logarithmic height of a tree of red-black shape. -/
theorem Tree.height_bound (t : Tree K V) (hn : t.NoRedRed) (hb : t.Balanced) :
    2 ^ t.height ≤ (t.size + 1) ^ 2 := by
  have h := Tree.shape_bounds t hn hb
  cases hc : t.color with
  | black =>
    obtain ⟨h1, h2⟩ := h.1 hc
    calc 2 ^ t.height ≤ 2 ^ (2 * t.bheight) := Nat.pow_le_pow_right (by omega) h1
      _ = (2 ^ t.bheight) ^ 2 := by rw [← pow_mul, Nat.mul_comm]
      _ ≤ (t.size + 1) ^ 2 := Nat.pow_le_pow_left h2 2
  | red =>
    obtain ⟨h1, h2⟩ := h.2 hc
    calc 2 ^ t.height ≤ 2 ^ (2 * t.bheight + 1) := Nat.pow_le_pow_right (by omega) h1
      _ ≤ 2 ^ ((t.bheight + 1) * 2) := Nat.pow_le_pow_right (by omega) (by omega)
      _ = (2 ^ (t.bheight + 1)) ^ 2 := by rw [pow_mul]
      _ ≤ (t.size + 1) ^ 2 := Nat.pow_le_pow_left h2 2

theorem Tree.subtrees_noRedRed {t s : Tree K V} (hs : s ∈ t.subtrees) (hn : t.NoRedRed) :
    s.NoRedRed := by
  induction t with
  | nil => cases hs
  | node a c l k v r ihl ihr =>
    simp only [Tree.subtrees, List.mem_cons, List.mem_append] at hs
    rcases hs with rfl | hs | hs
    · exact hn
    · exact ihl hs hn.2.1
    · exact ihr hs hn.2.2

theorem Tree.subtrees_balanced {t s : Tree K V} (hs : s ∈ t.subtrees) (hb : t.Balanced) :
    s.Balanced := by
  induction t with
  | nil => cases hs
  | node a c l k v r ihl ihr =>
    simp only [Tree.subtrees, List.mem_cons, List.mem_append] at hs
    rcases hs with rfl | hs | hs
    · exact hb
    · exact ihl hs hb.1
    · exact ihr hs hb.2.1

/-- In a balanced tree every path from the root down to an absent child passes the same
number of black nodes. -/
theorem Tree.blackCounts_eq {t : Tree K V} (hb : t.Balanced) :
    ∀ n ∈ t.blackCounts, n = t.bheight := by
  induction t with
  | nil => intro n hn; simpa [Tree.blackCounts] using hn
  | node a c l k v r ihl ihr =>
    intro n hn
    simp only [Tree.blackCounts, List.mem_map, List.mem_append] at hn
    obtain ⟨x, hx | hx, rfl⟩ := hn
    · rw [ihl hb.1 x hx]; rfl
    · rw [ihr hb.2.1 x hx, ← hb.2.2]; rfl

/-- A red node of a tree without red-red pairs has no red child. -/
theorem Tree.NoRedRed.children {t : Tree K V} (hn : t.NoRedRed) (hc : t.color = Color.red) :
    t.left.color = Color.black ∧ t.right.color = Color.black := by
  cases t with
  | nil => cases hc
  | node a c l k v r => exact hn.1 hc

end ShapeFacts

end collections

namespace collections

/-! ## `getSuccessor` -/

section Successor

variable {K V : Type}

theorem Tree.toList_ne_nil {t : Tree K V} (h : t.ptr ≠ none) : t.toList ≠ [] := by
  cases t with
  | nil => simp at h
  | node a c l k v r => simp

theorem Tree.leftmost_eq (t : Tree K V) : t.leftmost = t.toList.head?.map Prod.fst := by
  induction t with
  | nil => rfl
  | node a c l k v r ihl _ =>
    cases l with
    | nil => rfl
    | node la lc ll lk lv lr =>
      have hne : ll.toList ++ (la, lk, lv) :: lr.toList ≠ [] := by simp
      have e : (Tree.node a c (Tree.node la lc ll lk lv lr) k v r).leftmost =
          (Tree.node la lc ll lk lv lr).leftmost := rfl
      rw [e, ihl]
      simp only [Tree.toList_node]
      rw [List.head?_append_of_ne_nil _ hne]

/-- The second loop of `getSuccessor` climbs to the first ancestor that is reached from its
left child: the node that follows the path's hole in in-order. -/
theorem climbLoop_spec (m : TreeMap K V) :
    ∀ (ctx : List (Frame K V)) (t : Tree K V) (fuel : Nat), RepT m (plug ctx t) →
      t.ptr ≠ none → ctx.length ≤ fuel →
      climbLoop m fuel (ctxPtr ctx) t.ptr = .ok ((ctxAfter ctx).head?.map Prod.fst) := by
  intro ctx
  induction ctx with
  | nil =>
    intro t fuel _ _ _
    cases fuel <;> simp [climbLoop, ctxPtr, ctxAfter]
  | cons f rest ih =>
    intro t fuel h hne hfuel
    have hnd := h.nodup_plug
    rw [plug_cons] at h
    cases f with
    | left a c k v r =>
      have hc := h.cell_focus
      have hx : t.ptr ≠ r.ptr := by
        intro e
        cases t with
        | nil => simp at hne
        | node x cx xl xk xv xr =>
          simp only [Tree.ptr_node] at e
          have hmem := Tree.ptr_mem e.symm
          simp only [Tree.addrs_node, ctxAddrs_cons, Frame.addr_left, Frame.sibling_left,
            List.cons_append, List.nodup_cons, List.mem_append, List.mem_cons, not_or] at hnd
          exact hnd.1.2.2.1 hmem
      cases fuel <;>
        simp [climbLoop, ctxAfter, getRight, deref_some, hc, hx]
    | right a c l k v =>
      have hc := h.cell_focus
      cases fuel with
      | zero => simp at hfuel
      | succ fuel =>
        have hrec := ih (Frame.fill (.right a c l k v) t) fuel h (by simp)
          (by simpa using hfuel)
        simp only [Frame.fill_right, Tree.ptr_node] at hrec
        simp [climbLoop, ctxAfter, getRight, getParent, deref_some, hc, hrec]

/-- The node `getSuccessor` returns is the next node in in-order; below a node with a right
child it is the left-most node of the right subtree, which has no left child. -/
theorem getSuccessor_spec {m : TreeMap K V} {ctx : List (Frame K V)} {x : Nat} {c : Color}
    {l r : Tree K V} {k : K} {v : V} (h : RepT m (plug ctx (.node x c l k v r))) :
    getSuccessor m (some x) = .ok ((r.toList ++ ctxAfter ctx).head?.map Prod.fst) ∧
      (r.ptr ≠ none → ∃ s, getSuccessor m (some x) = .ok (some s) ∧ r.leftmost = some s ∧
        getLeft m (some s) = .ok none) := by
  have hc := h.cell_focus
  by_cases hr : r.ptr = none
  · have hnil := Tree.ptr_eq_none.1 hr
    subst hnil
    refine ⟨?_, fun hne => absurd rfl hne⟩
    have hfuel : ctx.length ≤ m.heap.length := by
      have h1 := plug_length_le_size ctx (Tree.node x c l k v Tree.nil)
      have h2 := h.size_le
      omega
    have hclimb := climbLoop_spec m ctx _ m.heap.length h (by simp) hfuel
    simp only [Tree.ptr_node] at hclimb
    simp [getSuccessor, getRight, getParent, deref_some, hc, hclimb]
  · obtain ⟨δ, s, cs, ks, vs, sr, e, hb, hsucc⟩ := getSuccessor_right h hr
    subst e
    have hl : (plug δ (Tree.node s cs Tree.nil ks vs sr)).toList =
        (s, ks, vs) :: (sr.toList ++ ctxAfter δ) := by
      rw [plug_toList, hb]; simp
    have hview : RepT m (plug (δ ++ .right x c l k v :: ctx) (.node s cs .nil ks vs sr)) := by
      rw [plug_append]; exact h
    have hcs := hview.cell_focus
    refine ⟨?_, fun _ => ⟨s, hsucc, ?_, ?_⟩⟩
    · rw [hsucc, hl]; rfl
    · rw [Tree.leftmost_eq, hl]; rfl
    · simp [getLeft, deref_some, hcs]

end Successor

end collections

namespace collections

/-! ## `clear` on an empty map, rotations at a node, and `put` of distinct keys -/

section Misc

variable {K V : Type} [DecidableEq K] [LT K] [DecidableRel (fun a b : K => a < b)]

theorem containsKey_of_root_none {m : TreeMap K V} (h : m.root = none) (key : K) :
    m.containsKey key = .ok false := by
  cases hl : m.heap.length <;> simp [TreeMap.containsKey, getEntry, getEntryLoop, h, hl]

omit [DecidableEq K] [LT K] [DecidableRel (fun a b : K => a < b)] in
theorem clear_of_empty {m : TreeMap K V} (hroot : m.root = none) (hlen : m.length = 0) :
    m.clear = .ok m := by
  have e : (m.setLength 0).setRoot none = m := by
    cases m
    simp only [TreeMap.setLength, TreeMap.setRoot] at hroot hlen ⊢
    subst hroot hlen
    rfl
  simp [TreeMap.clear, clearLoop, hroot, e]

omit [DecidableEq K] [LT K] [DecidableRel (fun a b : K => a < b)] in
theorem Tree.colors_plug_congr (ctx : List (Frame K V)) {t u : Tree K V}
    (h : t.colors = u.colors) : (plug ctx t).colors = (plug ctx u).colors := by
  induction ctx generalizing t u with
  | nil => exact h
  | cons f ctx ih =>
    rw [plug_cons, plug_cons]
    apply ih
    cases f <;> simp [Tree.colors, h]

omit [DecidableEq K] [LT K] [DecidableRel (fun a b : K => a < b)] in
theorem Tree.mem_toList_of_mem_addrs {t : Tree K V} {a : Nat} (h : a ∈ t.addrs) :
    ∃ k v, (a, k, v) ∈ t.toList := by
  rw [← (Tree.map_fst_toList t).mem_iff] at h
  obtain ⟨⟨b, k, v⟩, hm, rfl⟩ := List.mem_map.1 h
  exact ⟨k, v, hm⟩

omit [DecidableEq K] [LT K] [DecidableRel (fun a b : K => a < b)] in
theorem RepT.focus_root {m : TreeMap K V} {ctx : List (Frame K V)} {a : Nat} {c : Color}
    {l r : Tree K V} {k : K} {v : V} (h : RepT m (plug ctx (.node a c l k v r)))
    (hroot : m.root = some a) : ctx = [] := by
  cases ctx with
  | nil => rfl
  | cons f ctx => exact absurd hroot h.root_ne_focus

omit [DecidableEq K] [LT K] [DecidableRel (fun a b : K => a < b)] in
/-- Left rotation at a node with a right child: the in-order sequence of nodes and the colour
of every node stay as they are, and a rotated root is replaced by its right child. -/
theorem rotateLeft_at {m : TreeMap K V} {T : Tree K V} (h : RepT m T) {x r : Nat}
    (hx : x ∈ T.addrs) (hr : getRight m (some x) = .ok (some r)) :
    ∃ m' T', rotateLeft m (some x) = .ok m' ∧ RepT m' T' ∧ T'.toList = T.toList ∧
      T'.colors = T.colors ∧ (m.root = some x → m'.root = some r) := by
  obtain ⟨k, v, hm⟩ := Tree.mem_toList_of_mem_addrs hx
  obtain ⟨ctx, c, l, R, rfl⟩ := Tree.exists_plug_of_mem hm
  have hc := h.cell_focus
  cases R with
  | nil => simp [getRight, deref_some, hc] at hr
  | node ra rc rl rk rv rr =>
    have e : ra = r := by simpa [getRight, deref_some, hc] using hr
    subst e
    obtain ⟨m', e', h', -⟩ := rotateLeft_spec ctx h
    refine ⟨m', _, e', h', ?_, ?_, fun hroot => ?_⟩
    · simp [plug_toList]
    · exact Tree.colors_plug_congr ctx (by simp [Tree.colors])
    · rw [h.focus_root hroot] at h'
      exact h'.root

omit [DecidableEq K] [LT K] [DecidableRel (fun a b : K => a < b)] in
/-- Right rotation at a node with a left child. -/
theorem rotateRight_at {m : TreeMap K V} {T : Tree K V} (h : RepT m T) {x r : Nat}
    (hx : x ∈ T.addrs) (hl : getLeft m (some x) = .ok (some r)) :
    ∃ m' T', rotateRight m (some x) = .ok m' ∧ RepT m' T' ∧ T'.toList = T.toList ∧
      T'.colors = T.colors ∧ (m.root = some x → m'.root = some r) := by
  obtain ⟨k, v, hm⟩ := Tree.mem_toList_of_mem_addrs hx
  obtain ⟨ctx, c, L, r', rfl⟩ := Tree.exists_plug_of_mem hm
  have hc := h.cell_focus
  cases L with
  | nil => simp [getLeft, deref_some, hc] at hl
  | node la lc ll lk lv lr =>
    have e : la = r := by simpa [getLeft, deref_some, hc] using hl
    subst e
    obtain ⟨m', e', h', -⟩ := rotateRight_spec ctx h
    refine ⟨m', _, e', h', ?_, ?_, fun hroot => ?_⟩
    · simp [plug_toList]
    · exact Tree.colors_plug_congr ctx (by simp [Tree.colors])
    · rw [h.focus_root hroot] at h'
      exact h'.root

/-- Putting pairs whose keys are pairwise distinct and absent from the map makes `size()`
grow by the number of pairs. -/
theorem putAll_size {m : TreeMap K V} (hc : TotalOrder m.compare) :
    ∀ (ks : List (K × V)) (m₀ : TreeMap K V) (T : Tree K V), Inv m₀ T →
      m₀.comparator = m.comparator →
      (∀ p ∈ ks, findEntry m.compare p.1 T.entries = none) →
      ks.Pairwise (fun a b => m.compare a.1 b.1 ≠ 0) →
      ∃ m', m₀.putAll ks = .ok m' ∧ m'.size = m₀.size + ks.length := by
  intro ks
  induction ks with
  | nil => intro m₀ T _ _ _ _; exact ⟨m₀, rfl, by simp⟩
  | cons p ks ih =>
    intro m₀ T hT hcmp habs hpw
    obtain ⟨k, v⟩ := p
    have hcmp₀ : m₀.compare = m.compare := TreeMap.compare_congr hcmp
    have hc₀ : TotalOrder m₀.compare := by rw [hcmp₀]; exact hc
    obtain ⟨old, m₁, T₁, e, hT₁, hcmp₁, -, hframe, -, hnew⟩ := put_view hc₀ hT k v
    rw [hcmp₀] at hframe hnew
    obtain ⟨-, hlen⟩ := hnew (habs (k, v) (List.mem_cons_self _ _))
    obtain ⟨hk, hpw'⟩ := List.pairwise_cons.1 hpw
    obtain ⟨m', e', hsize⟩ := ih m₁ T₁ hT₁ (hcmp₁.trans hcmp)
      (fun q hq => by
        rw [hframe q.1 (fun h0 => hk q hq (hc.eq_symm h0))]
        exact habs q (List.mem_cons_of_mem _ hq))
      hpw'
    refine ⟨m', ?_, ?_⟩
    · simp [TreeMap.putAll, e, e']
    · simp only [TreeMap.size] at hsize ⊢
      rw [hsize, hlen]
      simp only [List.length_cons, Nat.cast_add, Nat.cast_one]
      omega

end Misc

end collections

namespace collections

/-! ## The invariants of reachable maps -/

section Invariants

variable {K V : Type} [DecidableEq K] [LT K] [DecidableRel (fun a b : K => a < b)]

omit [DecidableEq K] [LT K] [DecidableRel (fun a b : K => a < b)] in
theorem Tree.size_eq_zero {t : Tree K V} : t.size = 0 ↔ t = .nil := by
  cases t with
  | nil => simp
  | node a c l k v r => simp only [Tree.size_node]; constructor <;> intro h <;> first | omega | cases h

omit [DecidableEq K] [LT K] [DecidableRel (fun a b : K => a < b)] in
theorem Shaped.isEmpty_iff {m : TreeMap K V} {T : Tree K V} (h : Shaped m T) :
    m.isEmpty = true ↔ T = .nil := by
  rw [← Tree.size_eq_zero]
  simp only [TreeMap.isEmpty, TreeMap.size, h.2.1, decide_eq_true_eq]
  omega

/-- Claim C11 (order invariant): every map reachable from the empty map by `put`, `remove` of
a present key and `clear` under a total-order comparator holds a well-linked tree whose
in-order traversal yields the keys in strictly ascending comparator order. -/
theorem order_invariant (comparator : Option (K → K → Int))
    (hc : TotalOrder (TreeMap.new comparator : TreeMap K V).compare) (m : TreeMap K V)
    (hm : Reachable comparator m) :
    ∃ T, RepT m T ∧ AscendingKeys m.compare T.entries := by
  obtain ⟨-, T, hT⟩ := hm.sound hc
  exact ⟨T, hT.1, hT.2.1⟩

/-- Claim C11, instance: the map built by `put(2, 20)`, `put(1, 10)`, `put(3, 30)` and
`remove(2)` on a fresh map of natural numbers. -/
theorem order_invariant_witness :
    ∃ m₁ m₂ m₃ m₄ : TreeMap Nat Nat, (TreeMap.new none).put 2 20 = .ok (20, m₁) ∧
      m₁.put 1 10 = .ok (10, m₂) ∧ m₂.put 3 30 = .ok (30, m₃) ∧
      m₃.containsKey 2 = .ok true ∧ m₃.remove 2 = .ok (20, m₄) ∧
      ∃ T, RepT m₄ T ∧ AscendingKeys m₄.compare T.entries :=
  ⟨_, _, _, _, rfl, rfl, rfl, rfl, rfl,
    order_invariant none (natOrder Nat) _
      (Reachable.remove 2 20 (Reachable.put 3 30 30 (Reachable.put 1 10 10
        (Reachable.put 2 20 20 Reachable.new rfl) rfl) rfl) rfl rfl)⟩

/-- Claim C12 (size invariant): every reachable map holds a well-linked tree whose number of
nodes is `size()`, and `isEmpty()` is true exactly when the tree has no node; putting `n`
pairs with pairwise distinct keys into an empty reachable map under a total-order comparator
gives `size() == n`. -/
theorem size_invariant (comparator : Option (K → K → Int)) (m : TreeMap K V)
    (hm : Reachable comparator m) :
    (∃ T, RepT m T ∧ m.size = T.size ∧ (m.isEmpty = true ↔ T = .nil)) ∧
      (m.isEmpty = true → TotalOrder m.compare → ∀ ks : List (K × V),
        ks.Pairwise (fun a b => m.compare a.1 b.1 ≠ 0) →
        ∃ m', m.putAll ks = .ok m' ∧ m'.size = ks.length) := by
  obtain ⟨T, hT⟩ := hm.shaped
  refine ⟨⟨T, hT.1, hT.2.1, hT.isEmpty_iff⟩, fun hempty hc ks hks => ?_⟩
  have hnil := hT.isEmpty_iff.1 hempty
  subst hnil
  have hinv : Inv m (.nil : Tree K V) := ⟨hT.1, List.Pairwise.nil, hT.2.1⟩
  obtain ⟨m', e, hsize⟩ := putAll_size hc ks m .nil hinv rfl (fun _ _ => rfl) hks
  refine ⟨m', e, ?_⟩
  rw [hsize]
  simp [TreeMap.size, hT.2.1]

/-- Claim C12, instance: the map left by `put(1, 10)` and `remove(1)` on a fresh map. -/
theorem size_invariant_witness :
    ∃ m₁ m₂ : TreeMap Nat Nat, (TreeMap.new none).put 1 10 = .ok (10, m₁) ∧
      m₁.containsKey 1 = .ok true ∧ m₁.remove 1 = .ok (10, m₂) ∧
      (∃ T, RepT m₂ T ∧ m₂.size = T.size ∧ (m₂.isEmpty = true ↔ T = .nil)) ∧
      (m₂.isEmpty = true → TotalOrder m₂.compare → ∀ ks : List (Nat × Nat),
        ks.Pairwise (fun a b => m₂.compare a.1 b.1 ≠ 0) →
        ∃ m', m₂.putAll ks = .ok m' ∧ m'.size = ks.length) :=
  ⟨_, _, rfl, rfl, rfl,
    size_invariant none _
      (Reachable.remove 1 10 (Reachable.put 1 10 10 Reachable.new rfl) rfl rfl)⟩

/-- Claim C13 (`clear`): on every reachable map `clear()` returns, and afterwards `size()` is
0, `isEmpty()` is true and `containsKey(k)` is false for every key; on an empty map the state
after `clear()` is the state before, and a second `clear()` changes nothing. -/
theorem clear_empties (comparator : Option (K → K → Int)) (m : TreeMap K V)
    (hm : Reachable comparator m) :
    ∃ m', m.clear = .ok m' ∧ m'.size = 0 ∧ m'.isEmpty = true ∧
      (∀ k, m'.containsKey k = .ok false) ∧ (m.isEmpty = true → m' = m) ∧
      m'.clear = .ok m' := by
  obtain ⟨T, hT⟩ := hm.shaped
  obtain ⟨m', e, hT', -⟩ := clear_shaped hT
  have hroot : m'.root = none := hT'.1.root
  have hlen : m'.length = 0 := by simpa using hT'.2.1
  refine ⟨m', e, hlen, ?_, fun k => containsKey_of_root_none hroot k, fun hempty => ?_,
    clear_of_empty hroot hlen⟩
  · simp [TreeMap.isEmpty, TreeMap.size, hlen]
  · have hnil := hT.isEmpty_iff.1 hempty
    subst hnil
    have e' := clear_of_empty hT.1.root (by simpa using hT.2.1)
    rw [e] at e'
    simpa using e'

/-- Claim C13, instance: `clear()` on the map built by `put(1, 10)` and `put(2, 20)`. -/
theorem clear_empties_witness :
    ∃ m₁ m₂ : TreeMap Nat Nat, (TreeMap.new none).put 1 10 = .ok (10, m₁) ∧
      m₁.put 2 20 = .ok (20, m₂) ∧
      ∃ m', m₂.clear = .ok m' ∧ m'.size = 0 ∧ m'.isEmpty = true ∧
        (∀ k, m'.containsKey k = .ok false) ∧ (m₂.isEmpty = true → m' = m₂) ∧
        m'.clear = .ok m' :=
  ⟨_, _, rfl, rfl,
    clear_empties none _ (Reachable.put 2 20 20 (Reachable.put 1 10 10 Reachable.new rfl) rfl)⟩

/-- Claim C14 at the puts 1, 2, 3, 4: after `put(1, 10)`, `put(2, 20)`, `put(3, 30)` and
`put(4, 40)` on a fresh map the root exists, holds key 2 and is red. -/
theorem root_red_after_four_puts :
    ∃ m₁ m₂ m₃ m₄ : TreeMap Nat Nat, (TreeMap.new none).put 1 10 = .ok (10, m₁) ∧
      m₁.put 2 20 = .ok (20, m₂) ∧ m₂.put 3 30 = .ok (30, m₃) ∧
      m₃.put 4 40 = .ok (40, m₄) ∧ getKey m₄ m₄.root = .ok 2 ∧
      getColor m₄ m₄.root = .ok Color.red :=
  ⟨_, _, _, _, rfl, rfl, rfl, rfl, rfl, rfl⟩

/-- Claim C15 (no red-red): every reachable map holds a well-linked tree in which no red node
has a red child. -/
theorem no_red_red (comparator : Option (K → K → Int)) (m : TreeMap K V)
    (hm : Reachable comparator m) :
    ∃ T, RepT m T ∧
      ∀ s ∈ T.subtrees, s.color = Color.red →
        s.left.color ≠ Color.red ∧ s.right.color ≠ Color.red := by
  obtain ⟨T, hT⟩ := hm.shaped
  refine ⟨T, hT.1, fun s hs hc => ?_⟩
  obtain ⟨h1, h2⟩ := (Tree.subtrees_noRedRed hs hT.2.2.1).children hc
  rw [h1, h2]
  exact ⟨by simp, by simp⟩

/-- Claim C15, instance: the map built by the puts 1, 2, 3, 4, whose root is red. -/
theorem no_red_red_witness :
    ∃ m₁ m₂ m₃ m₄ : TreeMap Nat Nat, (TreeMap.new none).put 1 10 = .ok (10, m₁) ∧
      m₁.put 2 20 = .ok (20, m₂) ∧ m₂.put 3 30 = .ok (30, m₃) ∧
      m₃.put 4 40 = .ok (40, m₄) ∧
      ∃ T, RepT m₄ T ∧
        ∀ s ∈ T.subtrees, s.color = Color.red →
          s.left.color ≠ Color.red ∧ s.right.color ≠ Color.red :=
  ⟨_, _, _, _, rfl, rfl, rfl, rfl,
    no_red_red none _
      (Reachable.put 4 40 40 (Reachable.put 3 30 30 (Reachable.put 2 20 20
        (Reachable.put 1 10 10 Reachable.new rfl) rfl) rfl) rfl)⟩

/-- Claim C16 (black height): every reachable map holds a well-linked tree in which, for every
node, all paths from that node down to an absent child pass the same number of black nodes. -/
theorem uniform_black_height (comparator : Option (K → K → Int)) (m : TreeMap K V)
    (hm : Reachable comparator m) :
    ∃ T, RepT m T ∧
      ∀ s ∈ T.subtrees, ∀ x ∈ s.blackCounts, ∀ y ∈ s.blackCounts, x = y := by
  obtain ⟨T, hT⟩ := hm.shaped
  refine ⟨T, hT.1, fun s hs x hx y hy => ?_⟩
  have hb := Tree.subtrees_balanced hs hT.2.2.2
  rw [Tree.blackCounts_eq hb x hx, Tree.blackCounts_eq hb y hy]

/-- Claim C16, instance: the map built by the puts 1, 2, 3, 4 followed by `remove(1)`. -/
theorem uniform_black_height_witness :
    ∃ m₁ m₂ m₃ m₄ m₅ : TreeMap Nat Nat, (TreeMap.new none).put 1 10 = .ok (10, m₁) ∧
      m₁.put 2 20 = .ok (20, m₂) ∧ m₂.put 3 30 = .ok (30, m₃) ∧
      m₃.put 4 40 = .ok (40, m₄) ∧ m₄.containsKey 1 = .ok true ∧
      m₄.remove 1 = .ok (10, m₅) ∧
      ∃ T, RepT m₅ T ∧
        ∀ s ∈ T.subtrees, ∀ x ∈ s.blackCounts, ∀ y ∈ s.blackCounts, x = y :=
  ⟨_, _, _, _, _, rfl, rfl, rfl, rfl, rfl, rfl,
    uniform_black_height none _
      (Reachable.remove 1 10 (Reachable.put 4 40 40 (Reachable.put 3 30 30
        (Reachable.put 2 20 20 (Reachable.put 1 10 10 Reachable.new rfl) rfl) rfl) rfl)
        rfl rfl)⟩

/-- Claim C17 (logarithmic height): every reachable map holds a well-linked tree whose height
`h`, the number of nodes on the longest path from the root down to a leaf, satisfies
`2 ^ h ≤ (size() + 1) ^ 2`. -/
theorem logarithmic_height (comparator : Option (K → K → Int)) (m : TreeMap K V)
    (hm : Reachable comparator m) :
    ∃ T, RepT m T ∧ (2 : Int) ^ T.height ≤ (m.size + 1) ^ 2 := by
  obtain ⟨T, hT⟩ := hm.shaped
  refine ⟨T, hT.1, ?_⟩
  have h := Tree.height_bound T hT.2.2.1 hT.2.2.2
  simp only [TreeMap.size, hT.2.1]
  exact_mod_cast h

/-- Claim C17, instance: the map built by the puts 1, 2, 3, 4. -/
theorem logarithmic_height_witness :
    ∃ m₁ m₂ m₃ m₄ : TreeMap Nat Nat, (TreeMap.new none).put 1 10 = .ok (10, m₁) ∧
      m₁.put 2 20 = .ok (20, m₂) ∧ m₂.put 3 30 = .ok (30, m₃) ∧
      m₃.put 4 40 = .ok (40, m₄) ∧
      ∃ T, RepT m₄ T ∧ (2 : Int) ^ T.height ≤ (m₄.size + 1) ^ 2 :=
  ⟨_, _, _, _, rfl, rfl, rfl, rfl,
    logarithmic_height none _
      (Reachable.put 4 40 40 (Reachable.put 3 30 30 (Reachable.put 2 20 20
        (Reachable.put 1 10 10 Reachable.new rfl) rfl) rfl) rfl)⟩

/-- Claim C18 (removal keeps the root black): on a well-linked tree with a black root, without
red-red pairs, with uniform black heights, keys in strictly ascending order and `size()` equal
to its number of nodes, `remove(k)` of a present key returns and leaves a tree with all these
properties again; in particular its root, if any, is black. -/
theorem remove_keeps_root_black (m : TreeMap K V) (T : Tree K V) (hc : TotalOrder m.compare)
    (hrep : RepT m T) (h1 : T.color = Color.black) (h2 : T.NoRedRed) (h3 : T.Balanced)
    (h4 : AscendingKeys m.compare T.entries) (h5 : m.size = T.size) (k : K)
    (hp : m.containsKey k = .ok true) :
    ∃ old m' T', m.remove k = .ok (old, m') ∧ RepT m' T' ∧ T'.color = Color.black ∧
      T'.NoRedRed ∧ T'.Balanced ∧ AscendingKeys m'.compare T'.entries ∧
      m'.size = T'.size := by
  have hsh : Shaped m T := ⟨hrep, h5, h2, h3⟩
  have hinv : Inv m T := ⟨hrep, h4, h5⟩
  obtain ⟨e, hget⟩ := containsKey_getEntry hrep hp
  obtain ⟨old, m', T', erem, hsh', -, hroot⟩ := remove_shaped hsh hget
  obtain ⟨⟨k', v'⟩, hf⟩ := (containsKey_true_iff hc hinv k).1 hp
  obtain ⟨m'', T'', -, -, erem', hinv', -⟩ := remove_inv hc hinv hf
  rw [erem] at erem'
  simp only [Except.ok.injEq, Prod.mk.injEq] at erem'
  obtain ⟨-, rfl⟩ := erem'
  have hT := hsh'.1.tree_unique hinv'.1
  subst hT
  exact ⟨old, m', T', erem, hsh'.1, hroot h1, hsh'.2.2.1, hsh'.2.2.2, hinv'.2.1, hsh'.2.1⟩

/-- Claim C18, instance: `remove(2)` of the root, a node with two children, on the map built by
`put(2, 20)`, `put(1, 10)` and `put(3, 30)`. -/
theorem remove_keeps_root_black_witness :
    ∃ m₁ m₂ m₃ : TreeMap Nat Nat, ∃ T : Tree Nat Nat,
      (TreeMap.new none).put 2 20 = .ok (20, m₁) ∧
      m₁.put 1 10 = .ok (10, m₂) ∧ m₂.put 3 30 = .ok (30, m₃) ∧
      T = .node 0 .black (.node 1 .red .nil 1 10 .nil) 2 20 (.node 2 .red .nil 3 30 .nil) ∧
      RepT m₃ T ∧ TotalOrder m₃.compare ∧ T.color = Color.black ∧ T.NoRedRed ∧ T.Balanced ∧
      AscendingKeys m₃.compare T.entries ∧ m₃.size = T.size ∧
      m₃.containsKey 2 = .ok true ∧
      ∃ old m' T', m₃.remove 2 = .ok (old, m') ∧ RepT m' T' ∧ T'.color = Color.black ∧
        T'.NoRedRed ∧ T'.Balanced ∧ AscendingKeys m'.compare T'.entries ∧
        m'.size = T'.size := by
  have both : ∀ {A B : Prop}, A → (A → B) → A ∧ B := fun a f => ⟨a, f a⟩
  refine ⟨_, _, _, _, rfl, rfl, rfl, rfl, ?_⟩
  refine both ⟨rfl, ⟨rfl, ⟨rfl, trivial, trivial⟩, ⟨rfl, trivial, trivial⟩⟩, by decide⟩
    (fun hrep => ?_)
  refine both (natOrder Nat) (fun hc => ?_)
  refine ⟨rfl, ?_⟩
  refine both (by simp) (fun hn => ?_)
  refine both (by simp) (fun hb => ?_)
  refine both (by simp [AscendingKeys, Tree.entries, TreeMap.compare, TreeMap.new])
    (fun ho => ?_)
  exact ⟨rfl, rfl, remove_keeps_root_black _ _ hc hrep rfl hn hb ho rfl 2 rfl⟩

/-- Claim C20 (successor): on a well-linked tree with keys in strictly ascending order under a
total-order comparator, `getSuccessor(x)` at a node `x` returns the node that follows `x` in
in-order: it holds the smallest key greater than the key of `x`, and no node is returned exactly
when no key is greater; when `x` has a right child, the node returned is the left-most node of
the right subtree of `x` and has no left child. -/
theorem successor_is_next (m : TreeMap K V) (T : Tree K V) (hc : TotalOrder m.compare)
    (hrep : RepT m T) (hord : AscendingKeys m.compare T.entries) (x : Nat) (k : K) (v : V)
    (hx : (x, k, v) ∈ T.toList) :
    ∃ s, getSuccessor m (some x) = .ok s ∧
      (∃ before after, T.toList = before ++ (x, k, v) :: after ∧
        s = after.head?.map Prod.fst) ∧
      (∀ sa, s = some sa → ∃ sk sv, (sa, sk, sv) ∈ T.toList ∧ m.compare k sk < 0 ∧
        ∀ y ∈ T.toList, m.compare k y.2.1 < 0 → m.compare sk y.2.1 ≤ 0) ∧
      (s = none ↔ ∀ y ∈ T.toList, m.compare y.2.1 k ≤ 0) ∧
      (∀ r, getRight m (some x) = .ok (some r) →
        ∃ ctx c l R sa, T = plug ctx (.node x c l k v R) ∧ R.ptr = some r ∧ s = some sa ∧
          R.leftmost = some sa ∧ getLeft m (some sa) = .ok none) := by
  obtain ⟨ctx, c, l, R, rfl⟩ := Tree.exists_plug_of_mem hx
  obtain ⟨hsucc, hright⟩ := getSuccessor_spec hrep
  have hasc : Ascending m.compare (plug ctx (Tree.node x c l k v R)).toList :=
    (ascending_iff_entries _).2 hord
  have hlist : (plug ctx (Tree.node x c l k v R)).toList =
      (ctxBefore ctx ++ l.toList) ++ (x, k, v) :: (R.toList ++ ctxAfter ctx) := by
    rw [plug_toList]; simp
  rw [hlist] at hasc
  have hpw := List.pairwise_append.1 hasc
  have hafter := List.pairwise_cons.1 hpw.2.1
  have hbefore : ∀ y ∈ ctxBefore ctx ++ l.toList, m.compare y.2.1 k < 0 :=
    fun y hy => hpw.2.2 y hy (x, k, v) (List.mem_cons_self _ _)
  refine ⟨_, hsucc, ⟨_, _, hlist, rfl⟩, ?_, ?_, ?_⟩
  · intro sa hsa
    cases hL : R.toList ++ ctxAfter ctx with
    | nil => rw [hL] at hsa; cases hsa
    | cons z rest =>
      obtain ⟨za, zk, zv⟩ := z
      rw [hL] at hsa hafter
      simp only [List.head?_cons, Option.map_some', Option.some.injEq] at hsa
      subst hsa
      have hkz : m.compare k zk < 0 := hafter.1 (za, zk, zv) (List.mem_cons_self _ _)
      refine ⟨zk, zv, ?_, hkz, fun y hy hky => ?_⟩
      · rw [hlist, hL]; simp
      · rw [hlist, hL] at hy
        simp only [List.mem_append, List.mem_cons] at hy
        rcases hy with hy | rfl | rfl | hy
        · have h1 := hbefore y (by simpa using hy)
          have h2 := hc.gt_of_lt h1
          omega
        · have := hc.cmp_self k
          simp only at hky
          omega
        · have := hc.cmp_self zk
          simp only
          omega
        · have := (List.pairwise_cons.1 hafter.2).1 y hy
          simp only at this
          omega
  · constructor
    · intro hnone y hy
      cases hL : R.toList ++ ctxAfter ctx with
      | nil =>
        rw [hlist, hL] at hy
        simp only [List.mem_append, List.mem_cons, List.mem_nil_iff, or_false] at hy
        rcases hy with hy | rfl
        · have := hbefore y (by simpa using hy)
          omega
        · have := hc.cmp_self k
          simp only
          omega
      | cons z rest => rw [hL] at hnone; cases hnone
    · intro hall
      cases hL : R.toList ++ ctxAfter ctx with
      | nil => rfl
      | cons z rest =>
        rw [hL] at hafter
        have h1 : m.compare k z.2.1 < 0 := hafter.1 z (List.mem_cons_self _ _)
        have h2 := hall z (by rw [hlist, hL]; simp)
        have h3 := hc.gt_of_lt h1
        omega
  · intro r hr
    have hcell := hrep.cell_focus
    have hR : R.ptr = some r := by simpa [getRight, deref_some, hcell] using hr
    obtain ⟨sa, e, hleft, hnoleft⟩ := hright (by rw [hR]; simp)
    rw [hsucc] at e
    simp only [Except.ok.injEq] at e
    exact ⟨ctx, c, l, R, sa, rfl, hR, e, hleft, hnoleft⟩

/-- Claim C20, instance: the successor of the root (address 0, key 2) of the map built by
`put(2, 20)`, `put(1, 10)` and `put(3, 30)`. -/
theorem successor_is_next_witness :
    ∃ m₁ m₂ m₃ : TreeMap Nat Nat, ∃ T : Tree Nat Nat,
      (TreeMap.new none).put 2 20 = .ok (20, m₁) ∧
      m₁.put 1 10 = .ok (10, m₂) ∧ m₂.put 3 30 = .ok (30, m₃) ∧
      T = .node 0 .black (.node 1 .red .nil 1 10 .nil) 2 20 (.node 2 .red .nil 3 30 .nil) ∧
      RepT m₃ T ∧ TotalOrder m₃.compare ∧ AscendingKeys m₃.compare T.entries ∧
      (0, 2, 20) ∈ T.toList ∧
      ∃ s, getSuccessor m₃ (some 0) = .ok s ∧
        (∃ before after, T.toList = before ++ (0, 2, 20) :: after ∧
          s = after.head?.map Prod.fst) ∧
        (∀ sa, s = some sa → ∃ sk sv, (sa, sk, sv) ∈ T.toList ∧ m₃.compare 2 sk < 0 ∧
          ∀ y ∈ T.toList, m₃.compare 2 y.2.1 < 0 → m₃.compare sk y.2.1 ≤ 0) ∧
        (s = none ↔ ∀ y ∈ T.toList, m₃.compare y.2.1 2 ≤ 0) ∧
        (∀ r, getRight m₃ (some 0) = .ok (some r) →
          ∃ ctx c l R sa, T = plug ctx (.node 0 c l 2 20 R) ∧ R.ptr = some r ∧ s = some sa ∧
            R.leftmost = some sa ∧ getLeft m₃ (some sa) = .ok none) := by
  have both : ∀ {A B : Prop}, A → (A → B) → A ∧ B := fun a f => ⟨a, f a⟩
  refine ⟨_, _, _, _, rfl, rfl, rfl, rfl, ?_⟩
  refine both ⟨rfl, ⟨rfl, ⟨rfl, trivial, trivial⟩, ⟨rfl, trivial, trivial⟩⟩, by decide⟩
    (fun hrep => ?_)
  refine both (natOrder Nat) (fun hc => ?_)
  refine both (by simp [AscendingKeys, Tree.entries, TreeMap.compare, TreeMap.new])
    (fun ho => ?_)
  refine both (by simp) (fun hx => ?_)
  exact successor_is_next _ _ hc hrep ho 0 2 20 hx

end Invariants

section Rotations

variable {K V : Type}

/-- Claim C19 (rotations): on a well-linked tree, `rotateLeft(x)` at a node `x` with a right
child `r` returns and leaves a well-linked tree with the same in-order sequence of nodes, keys
and values and the same colour at every node, and `r` is the new root when `x` was the root;
the same holds for `rotateRight(x)` at a node with a left child `r`. -/
theorem rotation_preserves_order (m : TreeMap K V) (T : Tree K V) (hrep : RepT m T) (x r : Nat)
    (hx : x ∈ T.addrs) :
    (getRight m (some x) = .ok (some r) →
        ∃ m' T', rotateLeft m (some x) = .ok m' ∧ RepT m' T' ∧ T'.toList = T.toList ∧
          T'.colors = T.colors ∧ (m.root = some x → m'.root = some r)) ∧
      (getLeft m (some x) = .ok (some r) →
        ∃ m' T', rotateRight m (some x) = .ok m' ∧ RepT m' T' ∧ T'.toList = T.toList ∧
          T'.colors = T.colors ∧ (m.root = some x → m'.root = some r)) :=
  ⟨rotateLeft_at hrep hx, rotateRight_at hrep hx⟩

/-- Claim C19, instance: rotations at the root (address 0) of the map built by `put(2, 20)`,
`put(1, 10)` and `put(3, 30)`, once with its right child (address 2), once with its left
child (address 1). -/
theorem rotation_preserves_order_witness :
    ∃ m₁ m₂ m₃ : TreeMap Nat Nat, ∃ T : Tree Nat Nat,
      (TreeMap.new none).put 2 20 = .ok (20, m₁) ∧
      m₁.put 1 10 = .ok (10, m₂) ∧ m₂.put 3 30 = .ok (30, m₃) ∧
      T = .node 0 .black (.node 1 .red .nil 1 10 .nil) 2 20 (.node 2 .red .nil 3 30 .nil) ∧
      RepT m₃ T ∧ 0 ∈ T.addrs ∧ getRight m₃ (some 0) = .ok (some 2) ∧
      (∃ m' T', rotateLeft m₃ (some 0) = .ok m' ∧ RepT m' T' ∧ T'.toList = T.toList ∧
          T'.colors = T.colors ∧ (m₃.root = some 0 → m'.root = some 2)) := by
  have both : ∀ {A B : Prop}, A → (A → B) → A ∧ B := fun a f => ⟨a, f a⟩
  refine ⟨_, _, _, _, rfl, rfl, rfl, rfl, ?_⟩
  refine both ⟨rfl, ⟨rfl, ⟨rfl, trivial, trivial⟩, ⟨rfl, trivial, trivial⟩⟩, by decide⟩
    (fun hrep => ?_)
  exact ⟨by decide, rfl, (rotation_preserves_order _ _ hrep 0 2 (by decide)).1 rfl⟩

end Rotations

end collections

namespace collections

/-! ## Parent links -/

section ParentLinks

variable {K V : Type}

/-- In a heap that holds a tree, the parent pointer of the root of every subtree is the pointer
the subtree hangs from, and the parent pointer of every child is its parent node. -/
theorem Rep.parent_links {m : TreeMap K V} :
    ∀ (t : Tree K V) (par : Option Nat), Rep m par t →
      (∀ a, t.ptr = some a → getParent m (some a) = .ok par) ∧
        ∀ n ∈ t.addrs, ∀ c,
          (getLeft m (some n) = .ok (some c) ∨ getRight m (some n) = .ok (some c)) →
            c ∈ t.addrs ∧ getParent m (some c) = .ok (some n) := by
  intro t
  induction t with
  | nil =>
    intro par _
    exact ⟨fun a ha => Option.noConfusion ha, fun n hn => absurd hn (List.not_mem_nil n)⟩
  | node a c l k v r ihl ihr =>
    intro par h
    obtain ⟨hc, hl, hr⟩ := h
    obtain ⟨hlroot, hlin⟩ := ihl (some a) hl
    obtain ⟨hrroot, hrin⟩ := ihr (some a) hr
    refine ⟨fun b hb => ?_, fun n hn ch hch => ?_⟩
    · simp only [Tree.ptr_node, Option.some.injEq] at hb
      subst hb
      simp [getParent, deref_some, hc]
    · simp only [Tree.addrs_node, List.mem_cons, List.mem_append] at hn ⊢
      rcases hn with rfl | hn | hn
      · rcases hch with hch | hch
        · have e : l.ptr = some ch := by simpa [getLeft, deref_some, hc] using hch
          exact ⟨Or.inr (Or.inl (Tree.ptr_mem e)), hlroot ch e⟩
        · have e : r.ptr = some ch := by simpa [getRight, deref_some, hc] using hch
          exact ⟨Or.inr (Or.inr (Tree.ptr_mem e)), hrroot ch e⟩
      · obtain ⟨h1, h2⟩ := hlin n hn ch hch
        exact ⟨Or.inr (Or.inl h1), h2⟩
      · obtain ⟨h1, h2⟩ := hrin n hn ch hch
        exact ⟨Or.inr (Or.inr h1), h2⟩

end ParentLinks

section ParentLinksClaim

variable {K V : Type} [DecidableEq K] [LT K] [DecidableRel (fun a b : K => a < b)]

/-- Claim C21 (parent links): every reachable map holds a well-linked tree whose root has no
parent and in which, for every node `n`, a left or right child `c` of `n` is a node of the tree
whose parent is `n`. -/
theorem parent_links_consistent (comparator : Option (K → K → Int)) (m : TreeMap K V)
    (hm : Reachable comparator m) :
    ∃ T, RepT m T ∧ (∀ r, m.root = some r → getParent m (some r) = .ok none) ∧
      ∀ n ∈ T.addrs, ∀ c,
        (getLeft m (some n) = .ok (some c) ∨ getRight m (some n) = .ok (some c)) →
          c ∈ T.addrs ∧ getParent m (some c) = .ok (some n) := by
  obtain ⟨T, hT⟩ := hm.shaped
  obtain ⟨hroot, hin⟩ := Rep.parent_links T none hT.1.rep
  exact ⟨T, hT.1, fun r hr => hroot r (hT.1.root ▸ hr), hin⟩

/-- Claim C21, instance: the map built by the puts 1, 2, 3, 4 (with a rotation at the root)
followed by `remove(2)` of the root, a node with two children. -/
theorem parent_links_consistent_witness :
    ∃ m₁ m₂ m₃ m₄ m₅ : TreeMap Nat Nat, (TreeMap.new none).put 1 10 = .ok (10, m₁) ∧
      m₁.put 2 20 = .ok (20, m₂) ∧ m₂.put 3 30 = .ok (30, m₃) ∧
      m₃.put 4 40 = .ok (40, m₄) ∧ m₄.containsKey 2 = .ok true ∧
      m₄.remove 2 = .ok (20, m₅) ∧
      ∃ T, RepT m₅ T ∧ (∀ r, m₅.root = some r → getParent m₅ (some r) = .ok none) ∧
        ∀ n ∈ T.addrs, ∀ c,
          (getLeft m₅ (some n) = .ok (some c) ∨ getRight m₅ (some n) = .ok (some c)) →
            c ∈ T.addrs ∧ getParent m₅ (some c) = .ok (some n) :=
  ⟨_, _, _, _, _, rfl, rfl, rfl, rfl, rfl, rfl,
    parent_links_consistent none _
      (Reachable.remove 2 20 (Reachable.put 4 40 40 (Reachable.put 3 30 30
        (Reachable.put 2 20 20 (Reachable.put 1 10 10 Reachable.new rfl) rfl) rfl) rfl)
        rfl rfl)⟩

end ParentLinksClaim

end collections
